import Mathlib

/-!
# DeMystify: the graph store and its analyses

A shallow embedding of `graph/` and `common/` of glthr/DeMystify.

* Go maps are association lists with unique keys (`GoMap`); the order of the
  list stands for the unspecified iteration order of the Go map.
* `*common.Node` pointers are addresses (`NodeRef`) into a memory of node
  objects (`Heap`); nil pointers are not modelled (the Go code dereferences
  every node pointer it is given without a check). Edges are values; the one
  function that writes through an edge pointer, `AddEdgeAttribute`, updates
  the entry of the edge list (the pointers of the list are distinct objects).
* `float64` weights are the values the store produces: `1.0`, finite sums of
  it (exact in `float64` far beyond any graph that fits in memory) and `+Inf`.
* The routable structure is gonum's `multi.WeightedDirectedGraph`; its
  behaviour (node-id allocation, `SetWeightedLine`, `From`, `To`, `Edge`,
  `path.DijkstraFrom`, `path.UniformCost`, `Shortest.To`) is embedded from the
  library.
* A Go panic is the result `none` of a function returning an option.
-/

namespace DeMystify

/-! ## Go maps -/

/-- A Go map as an association list with unique keys. -/
abbrev GoMap (κ ν : Type) := List (κ × ν)

/-- Map lookup `m[k]`, with the comma-ok result as an option. -/
def GoMap.get {κ ν : Type} [DecidableEq κ] : GoMap κ ν → κ → Option ν
  | [], _ => none
  | (k', v) :: rest, k => if k' = k then some v else GoMap.get rest k

/-- Map assignment `m[k] = v`: overwrites the entry of `k` or adds one. -/
def GoMap.set {κ ν : Type} [DecidableEq κ] : GoMap κ ν → κ → ν → GoMap κ ν
  | [], k, v => [(k, v)]
  | (k', v') :: rest, k, v =>
    if k' = k then (k, v) :: rest else (k', v') :: GoMap.set rest k v

/-! ## common/types.go, common/errors.go -/

/-- The Go type `NodeAttribute` is an `int`. -/
abbrev NodeAttribute := Int

/-- The Go type `EdgeAttribute` is an `int`; the constants are `1 << iota`. -/
abbrev EdgeAttribute := Int

@[reducible] def IntraAge : EdgeAttribute := 1
@[reducible] def CrossAge : EdgeAttribute := 2
@[reducible] def Disabled : EdgeAttribute := 4
@[reducible] def SelfReference : EdgeAttribute := 8
@[reducible] def NotImplemented : EdgeAttribute := 16
@[reducible] def Backtracking : EdgeAttribute := 32
@[reducible] def RestrictiveTransitivityTail : EdgeAttribute := 64
@[reducible] def RestrictiveTransitivityHead : EdgeAttribute := 128

/-- The struct `common.Node`. -/
structure Node where
  Attributes : List NodeAttribute
  GraphID : Int
  StackName : String
  Name : String
  OriginalName : Option String
  SecondaryName : Option String
deriving DecidableEq, Repr

/-- Address of a `common.Node` object (a non-nil `*common.Node`). -/
abbrev NodeRef := Nat

/-- The memory holding the node objects that node pointers refer to. -/
abbrev Heap := NodeRef → Node

/-- Assignment through a node pointer: `*r = n`. -/
def Heap.set (h : Heap) (r : NodeRef) (n : Node) : Heap :=
  fun r' => if r' = r then n else h r'

/-- The struct `common.Edge`; `Source` and `Target` are node pointers. -/
structure Edge where
  Attributes : List EdgeAttribute
  Source : NodeRef
  Target : NodeRef
  TransitivityID : Int
deriving DecidableEq, Repr

/-- `Edge.IsOfType`: `slices.Contains(e.Attributes, t)`. -/
def Edge.IsOfType (e : Edge) (t : EdgeAttribute) : Bool :=
  e.Attributes.contains t

/-- A `float64` weight as the store produces it: a finite count or `+Inf`. -/
inductive Weight where
  | fin (n : Nat)
  | inf
deriving DecidableEq, Repr

/-- Addition of weights (`+Inf` absorbs). -/
def Weight.add : Weight → Weight → Weight
  | .fin a, .fin b => .fin (a + b)
  | _, _ => .inf

/-- Strict comparison `a < b` of weights. -/
def Weight.lt : Weight → Weight → Bool
  | .fin a, .fin b => decide (a < b)
  | .fin _, .inf => true
  | .inf, _ => false

/-- Comparison `a <= b` of weights. -/
def Weight.le (a b : Weight) : Bool := !(Weight.lt b a)

/-- `math.IsInf(w, 1)`, also the test `w >= math.Inf(1)`. -/
def Weight.isInf : Weight → Bool
  | .inf => true
  | .fin _ => false

/-- The struct `common.ShortestPathInfo`. -/
structure ShortestPathInfo where
  From : Int
  To : Int
  Distance : Weight
  Path : List Int
deriving DecidableEq, Repr

/-- The struct `common.NodeInfo`. -/
structure NodeInfo where
  ID : Int
  Name : String
deriving DecidableEq, Repr

/-- The struct `common.NodePairInfo`. -/
structure NodePairInfo where
  Source : NodeInfo
  Target : NodeInfo
  Distance : Weight
  Path : List Int
deriving DecidableEq, Repr

/-- The struct `common.NodeDegreeInfo`. -/
structure NodeDegreeInfo where
  ID : Int
  Name : String
  Degree : Int
deriving DecidableEq, Repr

/-- The struct `common.GraphStats`. -/
structure GraphStats where
  ShortestPaths : GoMap Int (GoMap Int ShortestPathInfo)
  MostSeparatedNodes : NodePairInfo
  ConnectedComponents : List (List Int)
  DisconnectedComponents : List (List NodeInfo)
  MostIncomingNode : NodeDegreeInfo
  MostOutgoingNode : NodeDegreeInfo
  NodesWithNoIncoming : List NodeInfo
  NodesWithNoOutgoing : List NodeInfo
  IsolatedNodes : List NodeInfo
  NodesWithSelfLoops : List NodeInfo
deriving DecidableEq, Repr

/-- The zero value of `common.GraphStats`. -/
def GraphStats.zero : GraphStats :=
  { ShortestPaths := [], MostSeparatedNodes := ⟨⟨0, ""⟩, ⟨0, ""⟩, .fin 0, []⟩,
    ConnectedComponents := [], DisconnectedComponents := [],
    MostIncomingNode := ⟨0, "", 0⟩, MostOutgoingNode := ⟨0, "", 0⟩,
    NodesWithNoIncoming := [], NodesWithNoOutgoing := [], IsolatedNodes := [],
    NodesWithSelfLoops := [] }

/-- The struct `common.Metadata`; `Nodes` is a list of node pointers. -/
structure Metadata where
  TotalCards : Nat
  TotalStacks : Nat
  TotalNodes : Nat
  TotalEdges : Nat
  Nodes : List NodeRef
  Edges : List Edge
  Stats : GraphStats
deriving DecidableEq, Repr

/-- Go error values: the two sentinels of `common/errors.go` and the errors
built by `fmt.Errorf`: `errorf` without and `wrapf` with a wrapped error
(the verb `%w`). Messages are kept without their formatted arguments. -/
inductive GoError where
  | NodeAlreadyExistsErr
  | NodeNotFoundErr
  | errorf (msg : String)
  | wrapf (msg : String) (wrapped : GoError)
deriving DecidableEq, Repr

/-- `errors.Is(e, target)`: `target` occurs in the wrap chain of `e`. -/
def GoError.Is : GoError → GoError → Bool
  | .wrapf msg w, target =>
    decide (GoError.wrapf msg w = target) || GoError.Is w target
  | e, target => decide (e = target)

/-! ## gonum: `uid.Set` and `multi.WeightedDirectedGraph` -/

/-- The id allocator `uid.Set` of gonum: the largest id seen, the ids in use
and the ids below `maxID` that are free. -/
structure IDSet where
  maxID : Int
  used : List Int
  free : List Int
deriving DecidableEq, Repr

/-- `uid.NewSet()`. -/
def IDSet.new : IDSet := ⟨-1, [], []⟩

/-- `Set.NewID`: some free id if there is one (Go ranges over the free map and
returns the first key it meets), else `maxID + 1`. The branch for
`maxID == math.MaxInt64` is out of reach of any store that fits in memory. -/
def IDSet.NewID (s : IDSet) : Int :=
  match s.free with
  | id :: _ => id
  | [] => s.maxID + 1

/-- `Set.Use(id)`: marks `id` used; when `id` exceeds `maxID`, the skipped ids
`maxID+1 .. id-1` become free and `maxID` becomes `id`. -/
def IDSet.Use (s : IDSet) (id : Int) : IDSet :=
  { maxID := if s.maxID < id then id else s.maxID,
    used := if id ∈ s.used then s.used else s.used ++ [id],
    free := (s.free.filter (fun x => x ≠ id)) ++
      (if s.maxID < id then
        (List.range (id - s.maxID - 1).toNat).map (fun (i : Nat) => s.maxID + 1 + Int.ofNat i)
       else []) }

/-- A `multi.WeightedLine`: end points, weight and line id. -/
structure Line where
  F : Int
  T : Int
  W : Weight
  UID : Int
deriving DecidableEq, Repr

/-- The routable structure `multi.WeightedDirectedGraph`. `lines` stands for
the two mirrored maps `from[u][v][lid]` and `to[v][u][lid]`: at most one line
per `(F, T, UID)`. -/
structure WeightedDirectedGraph where
  nodes : List Int
  lines : List Line
  nodeIDs : IDSet
deriving DecidableEq, Repr

/-- `multi.NewWeightedDirectedGraph()`. -/
def WeightedDirectedGraph.new : WeightedDirectedGraph := ⟨[], [], IDSet.new⟩

/-- `g.Node(id) != nil`. -/
def WeightedDirectedGraph.hasNode (g : WeightedDirectedGraph) (id : Int) : Bool :=
  g.nodes.contains id

/-- `g.NewNode().ID()`: `0` for a graph without nodes, else `nodeIDs.NewID()`. -/
def WeightedDirectedGraph.NewNode (g : WeightedDirectedGraph) : Int :=
  if g.nodes.length = 0 then 0 else g.nodeIDs.NewID

/-- `g.AddNode(n)`. The library panics on an id that is already a node; the
store only passes ids obtained from `NewNode`, which are never nodes
(`NewNode_fresh`), so that branch leaves the graph as it is. -/
def WeightedDirectedGraph.AddNode (g : WeightedDirectedGraph) (id : Int) :
    WeightedDirectedGraph :=
  if id ∈ g.nodes then g
  else { g with nodes := g.nodes ++ [id], nodeIDs := g.nodeIDs.Use id }

/-- Writes line `l` into the line maps: replaces the line with the same
`(F, T, UID)` or adds it. -/
def setLine : List Line → Line → List Line
  | [], l => [l]
  | x :: rest, l =>
    if x.F = l.F ∧ x.T = l.T ∧ x.UID = l.UID then l :: rest else x :: setLine rest l

/-- `g.SetWeightedLine(l)`: adds the end points that are not nodes yet, then
stores the line under `from[F][T][UID]` and `to[T][F][UID]`. -/
def WeightedDirectedGraph.SetWeightedLine (g : WeightedDirectedGraph) (l : Line) :
    WeightedDirectedGraph :=
  let g1 := g.AddNode l.F
  let g2 := g1.AddNode l.T
  { g2 with lines := setLine g2.lines l }

/-- `g.From(id)`: the ids `v` with a line `id -> v`, each once. -/
def WeightedDirectedGraph.From (g : WeightedDirectedGraph) (id : Int) : List Int :=
  ((g.lines.filter (fun l => l.F = id)).map (fun l => l.T)).dedup

/-- `g.To(id)`: the ids `u` with a line `u -> id`, each once. -/
def WeightedDirectedGraph.To (g : WeightedDirectedGraph) (id : Int) : List Int :=
  ((g.lines.filter (fun l => l.T = id)).map (fun l => l.F)).dedup

/-- `g.WeightedLines(u, v)`: the lines from `u` to `v`. -/
def WeightedDirectedGraph.WeightedLines (g : WeightedDirectedGraph) (u v : Int) :
    List Line :=
  g.lines.filter (fun l => l.F = u ∧ l.T = v)

/-- `g.HasEdgeFromTo(u, v)`. -/
def WeightedDirectedGraph.HasEdgeFromTo (g : WeightedDirectedGraph) (u v : Int) : Bool :=
  !(g.WeightedLines u v).isEmpty

/-- `g.Edge(u, v)` followed by `.Weight()`: `none` when there is no line from
`u` to `v` (the nil edge), else the sum of the weights of the lines (the
graph's `EdgeWeightFunc` is nil). -/
def WeightedDirectedGraph.Edge (g : WeightedDirectedGraph) (u v : Int) : Option Weight :=
  match g.WeightedLines u v with
  | [] => none
  | ls => some (ls.foldl (fun w l => Weight.add w l.W) (.fin 0))

/-- `g.Edges().Len()`: the number of ordered pairs joined by a line. -/
def WeightedDirectedGraph.edgeCount (g : WeightedDirectedGraph) : Nat :=
  ((g.lines.map (fun l => (l.F, l.T))).dedup).length

/-- The representation invariant of `multi.WeightedDirectedGraph` (its fields
are private, every value built through its methods satisfies it): node ids are
map keys, lines join nodes, the allocator has seen every node, free ids are
not nodes and lie in `0 .. maxID`, `maxID` is `-1` or a node, and there is one
line per `(F, T, UID)`. -/
def WeightedDirectedGraph.WF (g : WeightedDirectedGraph) : Prop :=
  g.nodes.Nodup ∧
  (∀ l ∈ g.lines, l.F ∈ g.nodes ∧ l.T ∈ g.nodes) ∧
  (∀ id ∈ g.nodes, id ≤ g.nodeIDs.maxID) ∧
  (∀ id ∈ g.nodeIDs.free, id ∉ g.nodes ∧ 0 ≤ id ∧ id ≤ g.nodeIDs.maxID) ∧
  (-1 ≤ g.nodeIDs.maxID) ∧
  (g.nodeIDs.maxID = -1 ∨ g.nodeIDs.maxID ∈ g.nodes) ∧
  (g.lines.map (fun l => (l.F, l.T, l.UID))).Nodup

instance WeightedDirectedGraph.decidableWF (g : WeightedDirectedGraph) : Decidable g.WF := by
  unfold WeightedDirectedGraph.WF
  infer_instance

/-! ## graph/base.go, graph/nodes.go, graph/edges.go -/

/-- The struct `MystGraph` (the analyzers hold nothing but the graph). -/
structure MystGraph where
  Graph : WeightedDirectedGraph
  NodeMap : GoMap String Node
  Metadata : Metadata
  EdgeMap : GoMap Int (GoMap Int (List Edge))
  IdNameMap : GoMap Int String
  IdStackMap : GoMap Int String
deriving DecidableEq, Repr

/-- `AddNode(node)` of graph/nodes.go. Returns the error (if any), the store
and the memory after the call. -/
def MystGraph.AddNode (g : MystGraph) (heap : Heap) (node : NodeRef) :
    Option GoError × MystGraph × Heap :=
  if (g.NodeMap.get (heap node).Name).isSome then
    (some GoError.NodeAlreadyExistsErr, g, heap)
  else
    let id := g.Graph.NewNode
    let n' : Node := { heap node with GraphID := id }
    (none,
     { g with
       Graph := g.Graph.AddNode id,
       NodeMap := g.NodeMap.set n'.Name n',
       IdNameMap := g.IdNameMap.set id n'.Name },
     heap.set node n')

/-- The closure `areAttributesEqual` of `AddEdge`: equal lengths and every
attribute of `attrs2` is a key of the map built from `attrs1`. -/
def areAttributesEqual (attrs1 attrs2 : List EdgeAttribute) : Bool :=
  if attrs1.length ≠ attrs2.length then false
  else attrs2.all (fun a => attrs1.contains a)

/-- The flag `isDuplicate` of `AddEdge` for the list stored under the pair. -/
def isDuplicate (stored : Option (List Edge)) (edge : Edge) : Bool :=
  match stored with
  | some edges =>
    edges.any (fun existingEdge =>
      decide (existingEdge.TransitivityID = edge.TransitivityID) &&
        areAttributesEqual existingEdge.Attributes edge.Attributes)
  | none => false

/-- The side-table list `g.EdgeMap[s][t]` (`none` when a key is missing). -/
def MystGraph.sideTable (g : MystGraph) (s t : Int) : Option (List Edge) :=
  match g.EdgeMap.get s with
  | some targetMap => targetMap.get t
  | none => none

/-- The statement `if _, ok := g.EdgeMap[s]; !ok then g.EdgeMap[s] = make(...)`. -/
def ensureInner (m : GoMap Int (GoMap Int (List Edge))) (s : Int) :
    GoMap Int (GoMap Int (List Edge)) :=
  if (m.get s).isSome then m else m.set s []

/-- The statement `g.EdgeMap[s][t] = append(g.EdgeMap[s][t], e)`. -/
def appendEdge (m : GoMap Int (GoMap Int (List Edge))) (s t : Int) (e : Edge) :
    GoMap Int (GoMap Int (List Edge)) :=
  let inner := (m.get s).getD []
  m.set s (inner.set t (((inner.get t).getD []) ++ [e]))

/-- `AddEdge(edge, weight)` of graph/edges.go (it always returns nil). The
line literal `multi.WeightedLine` leaves `UID` at its zero value. -/
def MystGraph.AddEdge (g : MystGraph) (heap : Heap) (edge : Edge) (weight : Weight) :
    MystGraph :=
  let s := (heap edge.Source).GraphID
  let t := (heap edge.Target).GraphID
  let G' := g.Graph.SetWeightedLine { F := s, T := t, W := weight, UID := 0 }
  let em := ensureInner g.EdgeMap s
  let dup := isDuplicate (((em.get s).getD []).get t) edge
  if dup then { g with Graph := G', EdgeMap := em }
  else
    let newEdge : Edge :=
      { Attributes := edge.Attributes, Source := edge.Source, Target := edge.Target,
        TransitivityID := edge.TransitivityID }
    { g with Graph := G', EdgeMap := appendEdge em s t newEdge }

/-- `addDisabledEdge(edge)` of graph/base.go (it always returns nil). -/
def MystGraph.addDisabledEdge (g : MystGraph) (heap : Heap) (edge : Edge) : MystGraph :=
  let s := (heap edge.Source).GraphID
  let t := (heap edge.Target).GraphID
  { g with EdgeMap := appendEdge (ensureInner g.EdgeMap s) s t edge }

/-- `addEdgeWithAttributes(edge)` of graph/base.go (it always returns nil). -/
def MystGraph.addEdgeWithAttributes (g : MystGraph) (heap : Heap) (edge : Edge) :
    MystGraph :=
  if edge.IsOfType Disabled then g.addDisabledEdge heap edge
  else if edge.IsOfType Backtracking then g.AddEdge heap edge Weight.inf
  else g.AddEdge heap edge (Weight.fin 1)

/-- `GetAllEdges(s, t)` of graph/edges.go: the stored list of the pair, sorted
with the comparator of the source (it compares `Source.GraphID` of the two
edges), and whether the list exists and is non-empty. The Go sort is stable on
the short lists it sorts by insertion and moves nothing when all keys are
equal; on any list it returns a permutation. It sorts the stored slice in
place; the functions embedded here only ask which edges the list holds. -/
def MystGraph.GetAllEdges (g : MystGraph) (heap : Heap) (s t : Int) : List Edge × Bool :=
  match g.EdgeMap.get s with
  | some targetMap =>
    match targetMap.get t with
    | some edges =>
      if 0 < edges.length then
        (edges.insertionSort
          (fun a b => (heap a.Source).GraphID ≤ (heap b.Source).GraphID), true)
      else ([], false)
    | none => ([], false)
  | none => ([], false)

/-- The node loop of `NewGraph`: stops at the first error. -/
def addNodes (g : MystGraph) (heap : Heap) : List NodeRef → Option GoError × MystGraph × Heap
  | [] => (none, g, heap)
  | node :: rest =>
    match g.AddNode heap node with
    | (some err, g', heap') => (some err, g', heap')
    | (none, g', heap') => addNodes g' heap' rest

/-- The edge loop of `NewGraph`. -/
def addEdges (g : MystGraph) (heap : Heap) : List Edge → MystGraph
  | [] => g
  | edge :: rest => addEdges (g.addEdgeWithAttributes heap edge) heap rest

/-- The store `NewGraph` starts from: empty maps around the metadata. -/
def MystGraph.empty (metadata : DeMystify.Metadata) : MystGraph :=
  { Graph := WeightedDirectedGraph.new, NodeMap := [], Metadata := metadata,
    EdgeMap := [], IdNameMap := [], IdStackMap := [] }

/-- `NewGraph(metadata)` of graph/base.go; `none` is the nil pointer. Returns
the graph pointer (`none` is nil), the error (`none` is nil) and the memory. -/
def NewGraph (metadata : Option Metadata) (heap : Heap) :
    Option MystGraph × Option GoError × Heap :=
  match metadata with
  | none => (none, some (GoError.errorf "metadata cannot be nil"), heap)
  | some md =>
    match addNodes (MystGraph.empty md) heap md.Nodes with
    | (some err, _, heap') =>
      (none, some (GoError.wrapf "failed to add node: %w" err), heap')
    | (none, g1, heap') =>
      let g2 := addEdges g1 heap' md.Edges
      (some { g2 with Metadata :=
          { g2.Metadata with TotalNodes := g2.Graph.nodes.length,
                             TotalEdges := g2.Graph.edgeCount } },
       none, heap')

/-- The ids of the routable structure are exactly `0 .. k-1`. -/
def Dense (g : WeightedDirectedGraph) (k : Nat) : Prop :=
  ∀ i : Int, i ∈ g.nodes ↔ 0 ≤ i ∧ i < k

/-! ## Relations used in the statements -/

/-- The weight `addEdgeWithAttributes` gives a routable edge. -/
def edgeWeight (e : Edge) : Weight :=
  if e.IsOfType Backtracking then Weight.inf else Weight.fin 1

/-- The edges of a list that `addEdgeWithAttributes` routes (those without
`Disabled`) and whose end points carry the ids `s` and `t`. -/
def routableFor (heap : Heap) (es : List Edge) (s t : Int) : List Edge :=
  es.filter (fun e => !(e.IsOfType Disabled) &&
    (decide ((heap e.Source).GraphID = s) && decide ((heap e.Target).GraphID = t)))

/-! ## graph/base.go: the graph-interface methods of `MystGraph`

`MystGraph` defines `Node`, `Nodes`, `From`, `To`, `HasEdgeBetween`,
`HasEdgeFromTo` and `Edge`, each forwarding to the field `Graph`. The field is
named, not embedded, so no other method of the gonum graph (in particular
`Weight`) belongs to `MystGraph`. -/

/-- `g.Node(id) != nil`. -/
def MystGraph.Node (g : MystGraph) (id : Int) : Bool := g.Graph.hasNode id

/-- `g.Nodes()`, in the iteration order of the node map. -/
def MystGraph.Nodes (g : MystGraph) : List Int := g.Graph.nodes

/-- `g.From(id)`. -/
def MystGraph.From (g : MystGraph) (id : Int) : List Int := g.Graph.From id

/-- `g.To(id)`. -/
def MystGraph.To (g : MystGraph) (id : Int) : List Int := g.Graph.To id

/-- `g.Edge(u, v)`: `none` is the nil edge, else the weight of the edge. -/
def MystGraph.Edge (g : MystGraph) (u v : Int) : Option Weight := g.Graph.Edge u v

/-- `g.HasEdgeFromTo(u, v)`. -/
def MystGraph.HasEdgeFromTo (g : MystGraph) (u v : Int) : Bool := g.Graph.HasEdgeFromTo u v

/-! ## gonum: `path.DijkstraFrom` and `path.Shortest` -/

/-- `path.UniformCost(g)`, the weighting `DijkstraFrom` falls back on when the
graph it is given has no `Weight` method, as is the case for `MystGraph`:
0 for `x == y`, 1 when `g.Edge(x, y)` is non-nil, and `(+Inf, false)` otherwise. -/
def UniformCost (g : MystGraph) (x y : Int) : Weight × Bool :=
  if x = y then (Weight.fin 0, true)
  else if (g.Edge x y).isSome then (Weight.fin 1, true)
  else (Weight.inf, false)

/-- The tree `path.Shortest`. The library keeps `dist` and `next` in slices
indexed through `indexOf`; here they are maps keyed by node id, `nodes` lists
the keys of `indexOf`, a missing `dist` entry is `+Inf` and a missing or `none`
entry of `next` is the index -1. -/
structure Shortest where
  src : Int
  nodes : List Int
  dist : GoMap Int Weight
  next : GoMap Int (Option Int)
deriving DecidableEq, Repr

/-- The distance `p.dist[p.indexOf[v]]`. -/
def Shortest.distOf (p : Shortest) (v : Int) : Weight :=
  (p.dist.get v).getD Weight.inf

/-- The predecessor `p.next[p.indexOf[v]]` (`none` is -1). -/
def Shortest.nextOf (p : Shortest) (v : Int) : Option Int :=
  (p.next.get v).getD none

/-- `newShortestFrom(u, nodes)`: every distance `+Inf` but that of `u`. -/
def newShortestFrom (u : Int) (nodes : List Int) : Shortest :=
  { src := u, nodes := nodes, dist := [(u, Weight.fin 0)], next := [] }

/-- The priority queue of `DijkstraFrom`: entries `(node, dist)`. -/
abbrev DistQueue := List (Int × Weight)

/-- `heap.Pop(&Q)`: removes an entry of least `dist` (the first such entry of
the list; which of several least entries the binary heap returns depends on
its layout). -/
def popMin : DistQueue → Option ((Int × Weight) × DistQueue)
  | [] => none
  | x :: xs =>
    match popMin xs with
    | none => some (x, [])
    | some (y, rest) => if Weight.lt y.2 x.2 then some (y, x :: rest) else some (x, xs)

/-- `path.add(v)`: a node met for the first time gets distance `+Inf` and no
predecessor. -/
def Shortest.add (p : Shortest) (v : Int) : Shortest :=
  { p with nodes := p.nodes ++ [v], dist := p.dist.set v Weight.inf,
           next := p.next.set v none }

/-- `path.set(v, weight, mid)`. -/
def Shortest.set (p : Shortest) (v : Int) (weight : Weight) (mid : Int) : Shortest :=
  { p with dist := p.dist.set v weight, next := p.next.set v (some mid) }

/-- The body of the loop over `g.From(mid.node)` in `DijkstraFrom`, for the
neighbour `v` of the node `k`: `path.add(v)` if `v` is unknown, then the
relaxation. `none` is the panic on an invalid weight. -/
def relax (g : MystGraph) (k : Int) (st : Shortest × DistQueue) (v : Int) :
    Option (Shortest × DistQueue) :=
  let p : Shortest := if v ∈ st.1.nodes then st.1 else st.1.add v
  match UniformCost g k v with
  | (_, false) => none
  | (w, true) =>
    let joint := Weight.add (p.distOf k) w
    if Weight.lt joint (p.distOf v) then some (p.set v joint k, st.2 ++ [(v, joint)])
    else some (p, st.2)

/-- The loop over the neighbours of `k`. -/
def relaxAll (g : MystGraph) (k : Int) :
    List Int → Shortest × DistQueue → Option (Shortest × DistQueue)
  | [], st => some st
  | v :: rest, st =>
    match relax g k st v with
    | none => none
    | some st' => relaxAll g k rest st'

/-- The loop `for Q.Len() != 0` of `DijkstraFrom`, run for at most `fuel`
rounds; `none` is a panic or a queue that is not empty when the fuel is. -/
def dijkstraLoop (g : MystGraph) : Nat → Shortest → DistQueue → Option Shortest
  | 0, p, Q => if Q.isEmpty then some p else none
  | fuel + 1, p, Q =>
    match popMin Q with
    | none => some p
    | some (mid, Q') =>
      if Weight.lt (p.distOf mid.1) mid.2 then dijkstraLoop g fuel p Q'
      else
        match relaxAll g mid.1 (g.From mid.1) (p, Q') with
        | none => none
        | some (p', Q'') => dijkstraLoop g fuel p' Q''

/-- `path.DijkstraFrom(g.Node(u), g)`. `MystGraph` is a `graph.Graph`, so the
tree starts with all nodes of `g.Nodes()`; for a `u` that is no node the empty
tree is returned. The number of rounds is bounded by `n * n + 1` for `n`
nodes (`dijkstraLoop_terminates`). -/
def DijkstraFrom (g : MystGraph) (u : Int) : Option Shortest :=
  if g.Node u then
    dijkstraLoop g (g.Nodes.length * g.Nodes.length + 1) (newShortestFrom u g.Nodes)
      [(u, Weight.fin 0)]
  else some { src := u, nodes := [], dist := [], next := [] }

/-- The loop `for to != from` of `Shortest.To`: follows `next` from `cur` back
to the source, collecting the nodes (already in path order). `none` is a
panic: the index -1 or the negative-cycle guard. -/
def Shortest.walk (p : Shortest) : Nat → Int → List Int → Option (List Int)
  | fuel, cur, acc =>
    if cur = p.src then some acc
    else
      match fuel with
      | 0 => none
      | f + 1 =>
        match p.nextOf cur with
        | none => none
        | some k => Shortest.walk p f k (k :: acc)

/-- `Shortest.To(vid)`: `(nil, +Inf)` for an unknown or unreached node, else the
path from the source to `vid` and its distance. The guard of the library lets
the loop run `len(nodes) + 1` times. -/
def Shortest.To (p : Shortest) (vid : Int) : Option (List Int × Weight) :=
  if vid ∉ p.nodes ∨ (p.distOf vid).isInf = true then some ([], Weight.inf)
  else
    match Shortest.walk p (p.nodes.length + 1) vid [vid] with
    | none => none
    | some path => some (path, p.distOf vid)

/-! ## graph/components_analysis.go, graph/path_analysis.go -/

/-- `traverser.getAllNodeIDs()`: the node ids in ascending order. -/
def MystGraph.getAllNodeIDs (g : MystGraph) : List Int :=
  g.Graph.nodes.insertionSort (fun a b => a ≤ b)

/-- The inner test of the validation loop of `computeShortestPaths` for the
hop `u -> v`: no stored edge of the pair carries `Backtracking` or `Disabled`. -/
def hopValid (g : MystGraph) (heap : Heap) (u v : Int) : Bool :=
  match g.GetAllEdges heap u v with
  | (edges, true) =>
    !(edges.any (fun edge => edge.IsOfType Backtracking || edge.IsOfType Disabled))
  | (_, false) => true

/-- The validation loop of `computeShortestPaths` over the hops of a path. -/
def pathValid (g : MystGraph) (heap : Heap) : List Int → Bool
  | u :: v :: rest => hopValid g heap u v && pathValid g heap (v :: rest)
  | _ => true

/-- The loop over the destinations `dst` in `computeShortestPaths` for one
source and its tree; `row` is `result[src]`. -/
def shortestRow (g : MystGraph) (heap : Heap) (p : Shortest) (src : Int) :
    List Int → GoMap Int ShortestPathInfo → Option (GoMap Int ShortestPathInfo)
  | [], row => some row
  | dst :: rest, row =>
    if src = dst then shortestRow g heap p src rest row
    else
      match p.To dst with
      | none => none
      | some (pathNodes, weight) =>
        if pathNodes.length = 0 then shortestRow g heap p src rest row
        else
          let pathInfo : ShortestPathInfo :=
            { From := src, To := dst, Distance := weight, Path := pathNodes }
          if pathValid g heap pathInfo.Path then
            shortestRow g heap p src rest (row.set dst pathInfo)
          else shortestRow g heap p src rest row

/-- The loop over the sources in `computeShortestPaths`. -/
def shortestRows (g : MystGraph) (heap : Heap) (nodeIDs : List Int) :
    List Int → GoMap Int (GoMap Int ShortestPathInfo) →
    Option (GoMap Int (GoMap Int ShortestPathInfo))
  | [], result => some result
  | src :: rest, result =>
    match DijkstraFrom g src with
    | none => none
    | some p =>
      match shortestRow g heap p src nodeIDs [] with
      | none => none
      | some row => shortestRows g heap nodeIDs rest (result.set src row)

/-- `computeShortestPaths()` (`ComputeAllShortestPaths`); `none` is a panic. -/
def MystGraph.computeShortestPaths (g : MystGraph) (heap : Heap) :
    Option (GoMap Int (GoMap Int ShortestPathInfo)) :=
  shortestRows g heap g.getAllNodeIDs g.getAllNodeIDs []

/-- `ComputeAllShortestPaths()`. -/
def MystGraph.ComputeAllShortestPaths (g : MystGraph) (heap : Heap) :
    Option (GoMap Int (GoMap Int ShortestPathInfo)) :=
  g.computeShortestPaths heap

/-- The entry `table[s][t]`. -/
def tableEntry (table : GoMap Int (GoMap Int ShortestPathInfo)) (s t : Int) :
    Option ShortestPathInfo :=
  match table.get s with
  | some row => row.get t
  | none => none


/-- `IsBacktrackingEdge(s, t)` of graph/edges.go. -/
def MystGraph.IsBacktrackingEdge (g : MystGraph) (heap : Heap) (s t : Int) : Bool :=
  match g.GetAllEdges heap s t with
  | (edges, true) => edges.any (fun edge => edge.IsOfType Backtracking)
  | (_, false) => false

/-- `IsDisabledEdge(s, t)` of graph/edges.go. -/
def MystGraph.IsDisabledEdge (g : MystGraph) (heap : Heap) (s t : Int) : Bool :=
  match g.GetAllEdges heap s t with
  | (edges, true) => edges.any (fun edge => edge.IsOfType Disabled)
  | (_, false) => false

/-- The test `math.Abs(a - b) < 1e-9` on weights: equal finite values (the
difference of two infinite values is NaN). -/
def Weight.near : Weight → Weight → Bool
  | .fin a, .fin b => decide (a = b)
  | _, _ => false

/-- The neighbours `explore` keeps for `current`: not visited, no stored edge
of the hop carries `Backtracking` or `Disabled`, and the edge weight stays
within the target weight; sorted by id. -/
def exploreNeighbors (g : MystGraph) (heap : Heap) (targetWeight : Weight)
    (current : Int) (visited : List Int) (currentWeight : Weight) : List (Int × Weight) :=
  ((g.From current).filterMap (fun neighborID =>
    if visited.contains neighborID then none
    else if g.IsBacktrackingEdge heap current neighborID ||
        g.IsDisabledEdge heap current neighborID then none
    else
      match g.Edge current neighborID with
      | none => none
      | some edgeWeight =>
        if Weight.le (Weight.add currentWeight edgeWeight) targetWeight then
          some (neighborID, edgeWeight)
        else none)).insertionSort (fun a b => a.1 ≤ b.1)

/-- The closure `explore` of `findAllShortestPaths`, with the recursion depth
bounded by `fuel`; returns the paths it appends to `allPaths`, in order.
`none` is exhausted fuel. -/
def explore (g : MystGraph) (heap : Heap) (dst : Int) (targetWeight : Weight) :
    Nat → Int → List Int → List Int → Weight → Option (List (List Int))
  | 0, _, _, _, _ => none
  | fuel + 1, current, visited, path, currentWeight =>
    if current = dst then
      if Weight.near currentWeight targetWeight then some [path] else some []
    else if Weight.lt targetWeight currentWeight then some []
    else
      let visited' := if visited.contains current then visited else visited ++ [current]
      (exploreNeighbors g heap targetWeight current visited' currentWeight).foldl
        (fun acc neighbor =>
          match acc, explore g heap dst targetWeight fuel neighbor.1 visited'
              (path ++ [neighbor.1]) (Weight.add currentWeight neighbor.2) with
          | some found, some more => some (found ++ more)
          | _, _ => none)
        (some [])

/-- `findAllShortestPaths(from, to, targetWeight)`; every call of `explore`
visits a node not visited before, so the depth is at most the node count. -/
def MystGraph.findAllShortestPaths (g : MystGraph) (heap : Heap) (src dst : Int)
    (targetWeight : Weight) : Option (List (List Int)) :=
  explore g heap dst targetWeight (g.Nodes.length + 2) src [] [src] (Weight.fin 0)

/-- The comparator of the `sort.Slice` call in `computeShortestPath`: the first
differing id decides, and a proper leading part sorts first. -/
def pathLess : List Int → List Int → Bool
  | a :: as, b :: bs => if a ≠ b then decide (a < b) else pathLess as bs
  | [], _ :: _ => true
  | _, _ => false

/-- `computeShortestPath(from, to, nil)`: the single-pair query without
mandatory nodes. Returns the pointer (`none` is nil) and the error; the outer
`none` is a panic. -/
def MystGraph.singlePair (g : MystGraph) (heap : Heap) (src dst : Int) :
    Option (Option ShortestPathInfo × Option GoError) :=
  if !g.Node src then some (none, some (GoError.errorf "source node does not exist"))
  else if !g.Node dst then some (none, some (GoError.errorf "target node does not exist"))
  else
    match DijkstraFrom g src with
    | none => none
    | some p =>
      match p.To dst with
      | none => none
      | some (pathNodes, weight) =>
        let pathInfo : ShortestPathInfo :=
          { From := src, To := dst, Distance := weight, Path := pathNodes }
        if pathNodes.length = 0 then
          some (some pathInfo, some (GoError.errorf "no path exists"))
        else if weight.isInf then
          some (some pathInfo,
            some (GoError.errorf "no valid path exists without backtracking"))
        else if 2 < pathInfo.Path.length then
          match g.findAllShortestPaths heap src dst weight with
          | none => none
          | some alternativePaths =>
            if 1 < alternativePaths.length then
              match alternativePaths.insertionSort (fun a b => pathLess b a = false) with
              | best :: _ => some (some { pathInfo with Path := best }, none)
              | [] => some (some pathInfo, none)
            else some (some pathInfo, none)
        else some (some pathInfo, none)

/-- The loop over the mandatory nodes in `computeShortestPath`: `path` and
`dist` are the path and distance so far, `curSource` the current source.
Returns an error or the three values after the loop. -/
def mandatoryLoop (g : MystGraph) (heap : Heap) :
    List Node → List Int → Weight → Int →
    Option (Except GoError (List Int × Weight × Int))
  | [], path, dist, curSource => some (Except.ok (path, dist, curSource))
  | node :: rest, path, dist, curSource =>
    if !g.Node node.GraphID then
      some (Except.error (GoError.errorf "mandatory node does not exist"))
    else
      match g.singlePair heap curSource node.GraphID with
      | none => none
      | some (_, some _) =>
        some (Except.error (GoError.errorf "error in mandatory node path"))
      | some (none, none) => none
      | some (some tempPath, none) =>
        if tempPath.Distance.isInf then
          some (Except.error (GoError.errorf "no valid path exists without backtracking"))
        else
          mandatoryLoop g heap rest (path ++ tempPath.Path.dropLast)
            (Weight.add dist tempPath.Distance) node.GraphID

/-- `computeShortestPath(from, to, mandatoryNodes)` (`ComputeShortestPath`). -/
def MystGraph.computeShortestPath (g : MystGraph) (heap : Heap) (src dst : Int)
    (mandatoryNodes : List DeMystify.Node) : Option (Option ShortestPathInfo × Option GoError) :=
  if !g.Node src then some (none, some (GoError.errorf "source node does not exist"))
  else if !g.Node dst then some (none, some (GoError.errorf "target node does not exist"))
  else if 0 < mandatoryNodes.length then
    match mandatoryLoop g heap mandatoryNodes [] (Weight.fin 0) src with
    | none => none
    | some (Except.error err) => some (none, some err)
    | some (Except.ok (path, dist, curSource)) =>
      match g.singlePair heap curSource dst with
      | none => none
      | some (_, some _) => some (none, some (GoError.errorf "error in final segment path"))
      | some (none, none) => none
      | some (some finalPath, none) =>
        if finalPath.Distance.isInf then
          some (none, some (GoError.errorf "no valid path exists without backtracking"))
        else
          some (some { From := src, To := dst,
                       Distance := Weight.add dist finalPath.Distance,
                       Path := path ++ finalPath.Path }, none)
  else g.singlePair heap src dst

/-- `ComputeShortestPath(from, to, mandatoryNodes)`. -/
def MystGraph.ComputeShortestPath (g : MystGraph) (heap : Heap) (src dst : Int)
    (mandatoryNodes : List DeMystify.Node) : Option (Option ShortestPathInfo × Option GoError) :=
  g.computeShortestPath heap src dst mandatoryNodes

/-! ## graph/nodes.go: display names -/

/-- `GetNameForID(id)`: the registered name, else the placeholder `Node <id>`
(also for a nil `IdNameMap`). -/
def MystGraph.GetNameForID (g : MystGraph) (id : Int) : String :=
  match g.IdNameMap.get id with
  | some name => name
  | none => "Node " ++ toString id

/-! ## graph/path_analysis.go: the most separated pair -/

/-- The local struct `pathCandidate` of `findMostSeparatedNodes`. -/
structure pathCandidate where
  source : Int
  target : Int
  distance : Weight
  path : List Int
deriving DecidableEq, Repr

/-- The state of the pair loops of `findMostSeparatedNodes`:
`maxFiniteDistance` (a float that starts at -1 and then holds path weights,
here an integer) and `candidates`. -/
abbrev SeparationState := Int × List pathCandidate

/-- The body of the inner loop of `findMostSeparatedNodes` once the path to
`dst` is known: unreachable targets and infinite weights are skipped, a weight
above the maximum restarts the candidate list, a weight equal to it extends
the list. -/
def considerPair (src dst : Int) (pathNodes : List Int) (weight : Weight)
    (st : SeparationState) : SeparationState :=
  if pathNodes.length = 0 then st
  else
    match weight with
    | Weight.inf => st
    | Weight.fin w =>
      if st.1 ≤ (w : Int) then
        let st' : SeparationState := if st.1 < (w : Int) then ((w : Int), []) else st
        (st'.1, st'.2 ++ [{ source := src, target := dst, distance := weight,
                            path := pathNodes }])
      else st

/-- The loop over `dst` in `findMostSeparatedNodes` for one source and its tree. -/
def separationRow (p : Shortest) (src : Int) :
    List Int → SeparationState → Option SeparationState
  | [], st => some st
  | dst :: rest, st =>
    if src = dst then separationRow p src rest st
    else
      match p.To dst with
      | none => none
      | some (pathNodes, weight) =>
        separationRow p src rest (considerPair src dst pathNodes weight st)

/-- The loop over `src` in `findMostSeparatedNodes`. -/
def separationRows (g : MystGraph) (nodeIDs : List Int) :
    List Int → SeparationState → Option SeparationState
  | [], st => some st
  | src :: rest, st =>
    match DijkstraFrom g src with
    | none => none
    | some p =>
      match separationRow p src nodeIDs st with
      | none => none
      | some st' => separationRows g nodeIDs rest st'

/-- The map `nodeDegrees` of `findMostSeparatedNodes`: in-degree plus
out-degree of every node id. -/
def nodeDegrees (g : MystGraph) : List Int → GoMap Int Int → GoMap Int Int
  | [], m => m
  | id :: rest, m =>
    nodeDegrees g rest (m.set id (((g.To id).length : Int) + ((g.From id).length : Int)))

/-- The score `nodeDegrees[source] + nodeDegrees[target]` of a candidate (a
missing key reads as 0). -/
def peripheralScore (degrees : GoMap Int Int) (c : pathCandidate) : Int :=
  (degrees.get c.source).getD 0 + (degrees.get c.target).getD 0

/-- The loop over `candidates[1:]`: a strictly lower score replaces the best. -/
def pickPeripheral (degrees : GoMap Int Int) :
    List pathCandidate → pathCandidate → Int → pathCandidate
  | [], best, _ => best
  | c :: rest, best, bestScore =>
    if peripheralScore degrees c < bestScore then
      pickPeripheral degrees rest c (peripheralScore degrees c)
    else pickPeripheral degrees rest best bestScore

/-- The record built from a candidate. -/
def MystGraph.pairInfo (g : MystGraph) (c : pathCandidate) : NodePairInfo :=
  { Source := { ID := c.source, Name := g.GetNameForID c.source },
    Target := { ID := c.target, Name := g.GetNameForID c.target },
    Distance := c.distance, Path := c.path }

/-- The zero value `common.NodePairInfo{}`. -/
def NodePairInfo.zero : NodePairInfo := ⟨⟨0, ""⟩, ⟨0, ""⟩, Weight.fin 0, []⟩

/-- `findMostSeparatedNodes()`; `none` is a panic. -/
def MystGraph.findMostSeparatedNodes (g : MystGraph) : Option NodePairInfo :=
  let nodeIDs := g.getAllNodeIDs
  if nodeIDs.length < 2 then some NodePairInfo.zero
  else
    match separationRows g nodeIDs nodeIDs (-1, []) with
    | none => none
    | some (_, candidates) =>
      match candidates with
      | [] => some NodePairInfo.zero
      | [candidate] => some (g.pairInfo candidate)
      | first :: rest =>
        let degrees := nodeDegrees g nodeIDs []
        some (g.pairInfo (pickPeripheral degrees rest first (peripheralScore degrees first)))

/-- `FindMostSeparatedNodes()`. -/
def MystGraph.FindMostSeparatedNodes (g : MystGraph) : Option NodePairInfo :=
  g.findMostSeparatedNodes

/-- `GetMostSeparatedNodePath()`: `(nil, false)` for an empty path or a distance
that is not positive, else a copy of the path and `true`. -/
def MystGraph.GetMostSeparatedNodePath (g : MystGraph) : Option (List Int × Bool) :=
  match g.FindMostSeparatedNodes with
  | none => none
  | some mostSeparated =>
    if mostSeparated.Path.length = 0 ∨ Weight.le mostSeparated.Distance (Weight.fin 0) = true
    then some ([], false)
    else some (mostSeparated.Path, true)

/-! ## graph/components_analysis.go: `FindConnectedComponents` -/

/-- The read `visited[i]` of a `[]bool`; `none` is the index-out-of-range panic. -/
def boolAt (visited : List Bool) (i : Int) : Option Bool :=
  if i < 0 then none else visited[i.toNat]?

/-- The write `visited[i] = true` (for an index in range). -/
def markAt (visited : List Bool) (i : Int) : List Bool :=
  visited.set i.toNat true

/-- The ascending sort of a list of ids (`sort.Slice` with `<`). -/
def sortAsc (ids : List Int) : List Int :=
  ids.insertionSort (fun a b => a ≤ b)

/-- The loop over the sorted neighbours in the breadth-first search: a neighbour
below `len(visited)` that is not visited is marked, appended to the component
and to the queue. The state is `(visited, component, queue)`. -/
def visitNeighbors :
    List Int → List Bool × List Int × List Int → Option (List Bool × List Int × List Int)
  | [], st => some st
  | neighbor :: rest, (visited, component, queue) =>
    if neighbor < (visited.length : Int) then
      match boolAt visited neighbor with
      | none => none
      | some true => visitNeighbors rest (visited, component, queue)
      | some false =>
        visitNeighbors rest (markAt visited neighbor, component ++ [neighbor],
          queue ++ [neighbor])
    else visitNeighbors rest (visited, component, queue)

/-- The loop `for len(queue) > 0` of `FindConnectedComponents`, run for at most
`fuel` rounds: the out-neighbours of the dequeued node are visited in
ascending order, then its in-neighbours. `none` is a panic or exhausted fuel. -/
def bfsLoop (g : MystGraph) :
    Nat → List Bool → List Int → List Int → Option (List Bool × List Int)
  | _, visited, component, [] => some (visited, component)
  | 0, _, _, _ :: _ => none
  | fuel + 1, visited, component, current :: queue =>
    match visitNeighbors (sortAsc (g.From current)) (visited, component, queue) with
    | none => none
    | some st =>
      match visitNeighbors (sortAsc (g.To current)) st with
      | none => none
      | some (visited', component', queue') => bfsLoop g fuel visited' component' queue'

/-- The loop over the start ids of `FindConnectedComponents`: a start id that is
out of bounds or visited is skipped, else the search from it yields a
component, which is sorted and appended. Every round of the search dequeues a
node that was marked when it was enqueued, so `len(visited)` rounds suffice. -/
def componentsLoop (g : MystGraph) :
    List Int → List Bool → List (List Int) → Option (List (List Int))
  | [], _, components => some components
  | startID :: rest, visited, components =>
    if (visited.length : Int) ≤ startID then componentsLoop g rest visited components
    else
      match boolAt visited startID with
      | none => none
      | some true => componentsLoop g rest visited components
      | some false =>
        match bfsLoop g (visited.length + 1) (markAt visited startID) [startID] [startID] with
        | none => none
        | some (visited', component) =>
          componentsLoop g rest visited' (components ++ [sortAsc component])

/-- The loop `for k := 0; k < minLen; k++` of the component comparator: the
first position where the lists differ decides; `none` when there is none. -/
def firstDifference : List Int → List Int → Option Bool
  | a :: as, b :: bs => if a ≠ b then some (decide (a < b)) else firstDifference as bs
  | _, _ => none

/-- The comparator of the final `sort.Slice` of `FindConnectedComponents`:
larger first, then the first differing id, then the shorter list. -/
def componentLess (a b : List Int) : Bool :=
  if a.length ≠ b.length then decide (b.length < a.length)
  else
    match firstDifference a b with
    | some r => r
    | none => decide (a.length < b.length)

/-- `FindConnectedComponents()`; `none` is a panic. `visited` has `maxID + 1`
entries, `maxID` being the largest id or 0. -/
def MystGraph.FindConnectedComponents (g : MystGraph) : Option (List (List Int)) :=
  let allNodeIDs := sortAsc g.Graph.nodes
  let maxID := allNodeIDs.foldl (fun m id => if m < id then id else m) (0 : Int)
  let visited := List.replicate (maxID + 1).toNat false
  match componentsLoop g allNodeIDs visited [] with
  | none => none
  | some components =>
    some (components.insertionSort (fun a b => componentLess b a = false))

/-! ## graph/nodes.go, graph/edges.go: lookups and attribute write-back -/

@[reducible] def IsIsolated : NodeAttribute := 64
@[reducible] def IsSource : NodeAttribute := 128
@[reducible] def IsSink : NodeAttribute := 256

/-- `GetNodeID(name)`: the id of the `NodeMap` entry and `true`, or `(-1, false)`. -/
def MystGraph.GetNodeID (g : MystGraph) (name : String) : Int × Bool :=
  match g.NodeMap.get name with
  | some node => (node.GraphID, true)
  | none => (-1, false)

/-- The loop of `addNodeAttribute` over `Metadata.Nodes`: the first node object
with the id gets the attribute unless it has it already; the loop ends there. -/
def addNodeAttributeLoop (id : Int) (attr : NodeAttribute) :
    List NodeRef → Heap → Heap
  | [], heap => heap
  | r :: rest, heap =>
    if (heap r).GraphID = id then
      if (heap r).Attributes.contains attr then heap
      else heap.set r { heap r with Attributes := (heap r).Attributes ++ [attr] }
    else addNodeAttributeLoop id attr rest heap

/-- `addNodeAttribute(id, attribute)` of graph/nodes.go; returns the memory. -/
def MystGraph.addNodeAttribute (g : MystGraph) (heap : Heap) (id : Int)
    (attr : NodeAttribute) : Heap :=
  addNodeAttributeLoop id attr g.Metadata.Nodes heap

/-- The loop of `AddEdgeAttribute` over `Metadata.Edges` up to its `return`:
the first edge of the pair decides. `none` is `return false` (the edge has the
attribute, or no edge of the pair is met), `some edges` is the edge list after
the append to that first edge, followed by `return true`. The edge pointers of
the list are distinct objects, so the write changes one entry. -/
def addAttributeFirst (heap : Heap) (sourceID targetID : Int) (attr : EdgeAttribute) :
    List Edge → Option (List Edge)
  | [] => none
  | edge :: rest =>
    if (heap edge.Source).GraphID = sourceID ∧ (heap edge.Target).GraphID = targetID then
      if edge.Attributes.contains attr then none
      else some ({ edge with Attributes := edge.Attributes ++ [attr] } :: rest)
    else (addAttributeFirst heap sourceID targetID attr rest).map (fun rest' => edge :: rest')

/-- The side-table update of `AddEdgeAttribute`: every edge stored under the
pair gets the attribute appended, without a test. -/
def appendAttributeStored (m : GoMap Int (GoMap Int (List Edge))) (sourceID targetID : Int)
    (attr : EdgeAttribute) : GoMap Int (GoMap Int (List Edge)) :=
  match m.get sourceID with
  | some targetMap =>
    match targetMap.get targetID with
    | some edges =>
      m.set sourceID (targetMap.set targetID
        (edges.map (fun e => { e with Attributes := e.Attributes ++ [attr] })))
    | none => m
  | none => m

/-- `AddEdgeAttribute(sourceID, targetID, attribute)` of graph/edges.go; returns
the result and the store. -/
def MystGraph.AddEdgeAttribute (g : MystGraph) (heap : Heap) (sourceID targetID : Int)
    (attr : EdgeAttribute) : Bool × MystGraph :=
  match addAttributeFirst heap sourceID targetID attr g.Metadata.Edges with
  | some edges =>
    (true, { g with
      Metadata := { g.Metadata with Edges := edges },
      EdgeMap := appendAttributeStored g.EdgeMap sourceID targetID attr })
  | none => (false, g)

/-- `GetAllEdges(s, t)` together with the store after the call: `slices.SortFunc`
sorts the stored slice in place. The first component is `GetAllEdges`. -/
def MystGraph.GetAllEdgesInPlace (g : MystGraph) (heap : Heap) (s t : Int) :
    (List DeMystify.Edge × Bool) × MystGraph :=
  match g.EdgeMap.get s with
  | some targetMap =>
    match targetMap.get t with
    | some edges =>
      if 0 < edges.length then
        let sorted := edges.insertionSort
          (fun a b => (heap a.Source).GraphID ≤ (heap b.Source).GraphID)
        ((sorted, true), { g with EdgeMap := g.EdgeMap.set s (targetMap.set t sorted) })
      else (([], false), g)
    | none => (([], false), g)
  | none => (([], false), g)

/-- `HasEdge(fromName, toName)` of graph/edges.go. -/
def MystGraph.HasEdge (g : MystGraph) (fromName toName : String) : Bool :=
  let fromID := g.GetNodeID fromName
  let toID := g.GetNodeID toName
  if !fromID.2 || !toID.2 then false
  else if g.Graph.HasEdgeFromTo fromID.1 toID.1 then true
  else
    match g.EdgeMap.get fromID.1 with
    | some targetMap =>
      match targetMap.get toID.1 with
      | some edges => decide (0 < edges.length)
      | none => false
    | none => false

/-! ## graph/nodes_analysis.go -/

/-- The loop of `findNodeWithMostIncomingEdges` over `Graph.Nodes()`; the state
is `(maxNode, maxInDegree)`. -/
def mostIncomingLoop (g : MystGraph) :
    List Int → NodeDegreeInfo × Int → NodeDegreeInfo × Int
  | [], st => st
  | id :: rest, (maxNode, maxInDegree) =>
    let inDegree : Int := ((g.To id).length : Int)
    if maxInDegree < inDegree then
      mostIncomingLoop g rest
        ({ ID := id, Name := g.GetNameForID id, Degree := inDegree }, inDegree)
    else mostIncomingLoop g rest (maxNode, maxInDegree)

/-- `findNodeWithMostIncomingEdges()` (`FindNodeWithMostIncomingEdges`): starts
with the zero record and `maxInDegree := -1`. -/
def MystGraph.FindNodeWithMostIncomingEdges (g : MystGraph) : NodeDegreeInfo :=
  (mostIncomingLoop g g.Graph.nodes (⟨0, "", 0⟩, -1)).1

/-- The loop of `findNodeWithMostOutgoingEdges`. -/
def mostOutgoingLoop (g : MystGraph) :
    List Int → NodeDegreeInfo × Int → NodeDegreeInfo × Int
  | [], st => st
  | id :: rest, (maxNode, maxOutDegree) =>
    let outDegree : Int := ((g.From id).length : Int)
    if maxOutDegree < outDegree then
      mostOutgoingLoop g rest
        ({ ID := id, Name := g.GetNameForID id, Degree := outDegree }, outDegree)
    else mostOutgoingLoop g rest (maxNode, maxOutDegree)

/-- `findNodeWithMostOutgoingEdges()` (`FindNodeWithMostOutgoingEdges`). -/
def MystGraph.FindNodeWithMostOutgoingEdges (g : MystGraph) : NodeDegreeInfo :=
  (mostOutgoingLoop g g.Graph.nodes (⟨0, "", 0⟩, -1)).1

/-- The flag `hasBacktrackingEdge` of `findNodesWithNoIncomingEdges` and of
`findNodesWithNoOutgoingEdges` (the same loop in both): some edge of
`Metadata.Edges` has the node as target and carries `Backtracking`. -/
def MystGraph.backtrackingInto (g : MystGraph) (heap : Heap) (id : Int) : Bool :=
  g.Metadata.Edges.any (fun edge =>
    decide ((heap edge.Target).GraphID = id) && edge.IsOfType Backtracking)

/-- The flag `hasBacktrackingEdge` of `findIsolatedNodes`: some edge of
`Metadata.Edges` has the node as source or as target and carries `Backtracking`. -/
def MystGraph.backtrackingAt (g : MystGraph) (heap : Heap) (id : Int) : Bool :=
  g.Metadata.Edges.any (fun edge =>
    (decide ((heap edge.Source).GraphID = id) || decide ((heap edge.Target).GraphID = id)) &&
      edge.IsOfType Backtracking)

/-- The loop the three scans for sources, sinks and isolated nodes share: for
each node of `Graph.Nodes()`, a node that passes the test of the scan gets the
attribute of the scan through `addNodeAttribute` and is appended to `result`.
The state is `(result, memory)`. -/
def scanNodes (g : MystGraph) (test : Heap → Int → Bool) (attr : NodeAttribute) :
    List Int → List NodeInfo × Heap → List NodeInfo × Heap
  | [], st => st
  | id :: rest, (result, heap) =>
    if test heap id then
      scanNodes g test attr rest
        (result ++ [{ ID := id, Name := g.GetNameForID id }],
         g.addNodeAttribute heap id attr)
    else scanNodes g test attr rest (result, heap)

/-- `findNodesWithNoIncomingEdges()` (`FindNodesWithNoIncomingEdges`): the test is
`!to.Next()` and `!hasBacktrackingEdge`, the attribute `IsSource`. -/
def MystGraph.FindNodesWithNoIncomingEdges (g : MystGraph) (heap : Heap) :
    List NodeInfo × Heap :=
  scanNodes g (fun heap id => (g.To id).isEmpty && !(g.backtrackingInto heap id)) IsSource
    g.Graph.nodes ([], heap)

/-- `findNodesWithNoOutgoingEdges()` (`FindNodesWithNoOutgoingEdges`): the test is
`!from.Next()` and `!hasBacktrackingEdge`, where the flag is computed from the
targets of the edges as in the scan for sources; the attribute is `IsSink`. -/
def MystGraph.FindNodesWithNoOutgoingEdges (g : MystGraph) (heap : Heap) :
    List NodeInfo × Heap :=
  scanNodes g (fun heap id => (g.From id).isEmpty && !(g.backtrackingInto heap id)) IsSink
    g.Graph.nodes ([], heap)

/-- `findIsolatedNodes()` (`FindIsolatedNodes`): the test is `!to.Next() &&
!from.Next()` and `!hasBacktrackingEdge`, the attribute `IsIsolated`. -/
def MystGraph.FindIsolatedNodes (g : MystGraph) (heap : Heap) : List NodeInfo × Heap :=
  scanNodes g (fun heap id =>
      ((g.To id).isEmpty && (g.From id).isEmpty) && !(g.backtrackingAt heap id)) IsIsolated
    g.Graph.nodes ([], heap)

/-- The loop of `findNodesWithSelfLoops` over `Graph.Nodes()`; the state is
`(result, store)`. -/
def selfLoopsLoop (heap : Heap) :
    List Int → List NodeInfo × MystGraph → List NodeInfo × MystGraph
  | [], st => st
  | id :: rest, (result, g) =>
    if g.HasEdgeFromTo id id then
      selfLoopsLoop heap rest
        (result ++ [{ ID := id, Name := g.GetNameForID id }],
         (g.AddEdgeAttribute heap id id SelfReference).2)
    else selfLoopsLoop heap rest (result, g)

/-- `findNodesWithSelfLoops()` (`FindNodesWithSelfLoops`). -/
def MystGraph.FindNodesWithSelfLoops (g : MystGraph) (heap : Heap) :
    List NodeInfo × MystGraph :=
  selfLoopsLoop heap g.Graph.nodes ([], g)

/-! ## graph/nodes.go: lookups by id and by name -/

/-- `GetNodeFromID(ID)`: ranges over `NodeMap` and returns a pointer to a copy
of the first node met that carries the id, else `NodeNotFoundErr`. -/
def MystGraph.GetNodeFromID (g : MystGraph) (ID : Int) : Option DeMystify.Node × Option GoError :=
  match g.NodeMap.find? (fun kv => decide (kv.2.GraphID = ID)) with
  | some kv => (some kv.2, none)
  | none => (none, some GoError.NodeNotFoundErr)

/-- `GetNodeName(id)`: the entry of `IdNameMap` and whether it exists. -/
def MystGraph.GetNodeName (g : MystGraph) (id : Int) : String × Bool :=
  match g.IdNameMap.get id with
  | some name => (name, true)
  | none => ("", false)

/-- `GetNodeStack(id)`: the entry of `IdStackMap` and whether it exists. -/
def MystGraph.GetNodeStack (g : MystGraph) (id : Int) : String × Bool :=
  match g.IdStackMap.get id with
  | some stack => (stack, true)
  | none => ("", false)

/-- The name loop shared by `GetSuccessors` and `GetPredecessors`: the names of
the ids that have one. -/
def MystGraph.namesOf (g : MystGraph) (ids : List Int) : List String :=
  ids.filterMap (fun id =>
    match g.GetNodeName id with
    | (name, true) => some name
    | (_, false) => none)

/-- `GetSuccessors(name)`: the names of the nodes of `Graph.From(id)`, or an
error for an unknown name. -/
def MystGraph.GetSuccessors (g : MystGraph) (name : String) :
    Option (List String) × Option GoError :=
  match g.GetNodeID name with
  | (_, false) => (none, some (GoError.errorf "node not found in graph"))
  | (id, true) => (some (g.namesOf (g.Graph.From id)), none)

/-- `GetPredecessors(name)`: the names of the nodes of `Graph.To(id)`, or an
error for an unknown name. -/
def MystGraph.GetPredecessors (g : MystGraph) (name : String) :
    Option (List String) × Option GoError :=
  match g.GetNodeID name with
  | (_, false) => (none, some (GoError.errorf "node not found in graph"))
  | (id, true) => (some (g.namesOf (g.Graph.To id)), none)

/-! ## graph/components_analysis.go: the traverser -/

/-- `getSortedNeighbors(nodeID, outgoing)`: the out-neighbours or the
in-neighbours of the node, ascending. -/
def MystGraph.getSortedNeighbors (g : MystGraph) (nodeID : Int) (outgoing : Bool) : List Int :=
  sortAsc (if outgoing then g.From nodeID else g.To nodeID)

/-- The loop over the sorted neighbours in `bfsComponent`: a neighbour below
`len(visited)` that is not visited is marked, appended to the component with
its display name, and appended to the queue. -/
def visitNeighborsInfo (g : MystGraph) :
    List Int → List Bool × List NodeInfo × List Int →
    Option (List Bool × List NodeInfo × List Int)
  | [], st => some st
  | neighborID :: rest, (visited, component, queue) =>
    if neighborID < (visited.length : Int) then
      match boolAt visited neighborID with
      | none => none
      | some true => visitNeighborsInfo g rest (visited, component, queue)
      | some false =>
        visitNeighborsInfo g rest (markAt visited neighborID,
          component ++ [{ ID := neighborID, Name := g.GetNameForID neighborID }],
          queue ++ [neighborID])
    else visitNeighborsInfo g rest (visited, component, queue)

/-- The loop `for len(queue) > 0` of `bfsComponent`, run for at most `fuel`
rounds. `none` is a panic or exhausted fuel. -/
def bfsComponentLoop (g : MystGraph) :
    Nat → List Bool → List NodeInfo → List Int → Option (List Bool × List NodeInfo)
  | _, visited, component, [] => some (visited, component)
  | 0, _, _, _ :: _ => none
  | fuel + 1, visited, component, current :: queue =>
    match visitNeighborsInfo g (g.getSortedNeighbors current true)
        (visited, component, queue) with
    | none => none
    | some st =>
      match visitNeighborsInfo g (g.getSortedNeighbors current false) st with
      | none => none
      | some (visited', component', queue') =>
        bfsComponentLoop g fuel visited' component' queue'

/-- `bfsComponent(startID, nodeIDs)`: the search with a fresh `visited` of
`maxID + 1` entries, `maxID` being the largest id of `nodeIDs` or 0; the
component is sorted by id. The map `idMap` it fills is never read. Every round
dequeues a node that was marked when it was enqueued, so `len(visited)` rounds
suffice. -/
def MystGraph.bfsComponent (g : MystGraph) (startID : Int) (nodeIDs : List Int) :
    Option (List NodeInfo) :=
  let maxID := nodeIDs.foldl (fun m id => if m < id then id else m) (0 : Int)
  let visited := List.replicate (maxID + 1).toNat false
  match boolAt visited startID with
  | none => none
  | some _ =>
    match bfsComponentLoop g (visited.length + 1) (markAt visited startID)
        [{ ID := startID, Name := g.GetNameForID startID }] [startID] with
    | none => none
    | some (_, component) => some (component.insertionSort (fun a b => a.ID ≤ b.ID))

/-- The loop of `findComponents` that marks the nodes of a component. -/
def markComponent : List NodeInfo → List Bool → Option (List Bool)
  | [], visited => some visited
  | node :: rest, visited =>
    if node.ID < (visited.length : Int) then
      match boolAt visited node.ID with
      | none => none
      | some _ => markComponent rest (markAt visited node.ID)
    else markComponent rest visited

/-- The loop over the node ids in `findComponents`. -/
def findComponentsLoop (g : MystGraph) (nodeIDs : List Int) :
    List Int → List Bool → List (List NodeInfo) → Option (List (List NodeInfo))
  | [], _, components => some components
  | id :: rest, visited, components =>
    if id < (visited.length : Int) then
      match boolAt visited id with
      | none => none
      | some true => findComponentsLoop g nodeIDs rest visited components
      | some false =>
        match g.bfsComponent id nodeIDs with
        | none => none
        | some component =>
          match markComponent component visited with
          | none => none
          | some visited' =>
            findComponentsLoop g nodeIDs rest visited' (components ++ [component])
    else findComponentsLoop g nodeIDs rest visited components

/-- The loop `for k := 0; k < minLen; k++` of the comparator of
`findComponents`: the first position where the ids differ decides. -/
def firstDifferenceInfo : List NodeInfo → List NodeInfo → Option Bool
  | a :: as, b :: bs =>
    if a.ID ≠ b.ID then some (decide (a.ID < b.ID)) else firstDifferenceInfo as bs
  | _, _ => none

/-- The comparator of the final `sort.Slice` of `findComponents`. -/
def componentInfoLess (a b : List NodeInfo) : Bool :=
  if a.length ≠ b.length then decide (b.length < a.length)
  else
    match firstDifferenceInfo a b with
    | some r => r
    | none => decide (a.length < b.length)

/-- `findComponents()` of the traverser; `none` is a panic. -/
def MystGraph.findComponents (g : MystGraph) : Option (List (List NodeInfo)) :=
  let nodeIDs := g.getAllNodeIDs
  let maxID := nodeIDs.foldl (fun m id => if m < id then id else m) (0 : Int)
  let visited := List.replicate (maxID + 1).toNat false
  match findComponentsLoop g nodeIDs nodeIDs visited [] with
  | none => none
  | some components =>
    some (components.insertionSort (fun a b => componentInfoLess b a = false))

/-! ## graph/path_analysis.go, graph/analyzer.go: `Process`

`Process` runs the analyzers one after the other on the same store and writes
each result into `Metadata.Stats`. The functions below thread the store and the
memory through the calls, including the in-place sort of `GetAllEdges` in the
validation loop of `computeShortestPaths`. -/

/-- The validation loop of `computeShortestPaths` with the store threaded:
every hop calls `GetAllEdges`, which sorts the stored slice in place; a hop
with a backtracking or disabled stored edge makes the path invalid and the
loop goes on. -/
def pathValidInPlace (heap : Heap) : List Int → MystGraph → Bool × MystGraph
  | u :: v :: rest, g =>
    let r := g.GetAllEdgesInPlace heap u v
    let ok :=
      match r.1 with
      | (edges, true) =>
        !(edges.any (fun edge => edge.IsOfType Backtracking || edge.IsOfType Disabled))
      | (_, false) => true
    let r2 := pathValidInPlace heap (v :: rest) r.2
    (ok && r2.1, r2.2)
  | _, g => (true, g)

/-- The loop over the destinations in `computeShortestPaths` with the store
threaded. -/
def shortestRowInPlace (heap : Heap) (p : Shortest) (src : Int) :
    List Int → GoMap Int ShortestPathInfo → MystGraph →
    Option (GoMap Int ShortestPathInfo × MystGraph)
  | [], row, g => some (row, g)
  | dst :: rest, row, g =>
    if src = dst then shortestRowInPlace heap p src rest row g
    else
      match p.To dst with
      | none => none
      | some (pathNodes, weight) =>
        if pathNodes.length = 0 then shortestRowInPlace heap p src rest row g
        else
          let pathInfo : ShortestPathInfo :=
            { From := src, To := dst, Distance := weight, Path := pathNodes }
          let r := pathValidInPlace heap pathInfo.Path g
          if r.1 then shortestRowInPlace heap p src rest (row.set dst pathInfo) r.2
          else shortestRowInPlace heap p src rest row r.2

/-- The loop over the sources in `computeShortestPaths` with the store threaded. -/
def shortestRowsInPlace (heap : Heap) (nodeIDs : List Int) :
    List Int → GoMap Int (GoMap Int ShortestPathInfo) → MystGraph →
    Option (GoMap Int (GoMap Int ShortestPathInfo) × MystGraph)
  | [], result, g => some (result, g)
  | src :: rest, result, g =>
    match DijkstraFrom g src with
    | none => none
    | some p =>
      match shortestRowInPlace heap p src nodeIDs [] g with
      | none => none
      | some (row, g') => shortestRowsInPlace heap nodeIDs rest (result.set src row) g'

/-- `ComputeAllShortestPaths()` together with the store after the call. -/
def MystGraph.ComputeAllShortestPathsInPlace (g : MystGraph) (heap : Heap) :
    Option (GoMap Int (GoMap Int ShortestPathInfo) × MystGraph) :=
  shortestRowsInPlace heap g.getAllNodeIDs g.getAllNodeIDs [] g

/-- The assignment of a new value to `g.Metadata.Stats`. -/
def MystGraph.withStats (g : MystGraph) (stats : GraphStats) : MystGraph :=
  { g with Metadata := { g.Metadata with Stats := stats } }

/-- The block `// nodes` of `Process()`: the two degree scans and the four
node scans, each result written into `Metadata.Stats`. Returns the store and
the memory after the block. -/
def MystGraph.processNodes (g : MystGraph) (heap : Heap) : MystGraph × Heap :=
  let g1 := g.withStats
    { g.Metadata.Stats with MostIncomingNode := g.FindNodeWithMostIncomingEdges }
  let g2 := g1.withStats
    { g1.Metadata.Stats with MostOutgoingNode := g1.FindNodeWithMostOutgoingEdges }
  let r3 := g2.FindNodesWithNoIncomingEdges heap
  let g3 := g2.withStats { g2.Metadata.Stats with NodesWithNoIncoming := r3.1 }
  let r4 := g3.FindNodesWithNoOutgoingEdges r3.2
  let g4 := g3.withStats { g3.Metadata.Stats with NodesWithNoOutgoing := r4.1 }
  let r5 := g4.FindIsolatedNodes r4.2
  let g5 := g4.withStats { g4.Metadata.Stats with IsolatedNodes := r5.1 }
  let r6 := g5.FindNodesWithSelfLoops r5.2
  (r6.2.withStats { r6.2.Metadata.Stats with NodesWithSelfLoops := r6.1 }, r5.2)

/-- The block `// paths` of `Process()`: the all-pairs table and the most
separated pair; `none` is a panic. -/
def MystGraph.processPaths (g : MystGraph) (heap : Heap) : Option (MystGraph × Heap) :=
  match g.ComputeAllShortestPathsInPlace heap with
  | none => none
  | some (table, g1) =>
    match (g1.withStats { g1.Metadata.Stats with ShortestPaths := table }).FindMostSeparatedNodes
    with
    | none => none
    | some pair =>
      some ((g1.withStats { g1.Metadata.Stats with ShortestPaths := table }).withStats
        { (g1.withStats { g1.Metadata.Stats with ShortestPaths := table }).Metadata.Stats with
          MostSeparatedNodes := pair }, heap)

/-- The block `// components` of `Process()`, followed by the block `// paths`;
`none` is a panic. -/
def MystGraph.processComponents (g : MystGraph) (heap : Heap) : Option (MystGraph × Heap) :=
  match g.FindConnectedComponents with
  | none => none
  | some components =>
    (g.withStats { g.Metadata.Stats with ConnectedComponents := components }).processPaths heap

/-- `Process()` of graph/analyzer.go: the blocks `// nodes`, `// components` and
`// paths` in this order. Returns the store and the memory after the nine
analyses; `none` is a panic. -/
def MystGraph.Process (g : MystGraph) (heap : Heap) : Option (MystGraph × Heap) :=
  (g.processNodes heap).1.processComponents (g.processNodes heap).2

/-! ## Example data -/

/-- A node object with the given name and zero values elsewhere. -/
def mkNode (name : String) : Node := ⟨[], 0, "", name, none, none⟩

/-- Example memory: the node objects A, B, C at addresses 0, 1, 2 and an
object X, which no node list below mentions, at every other address. -/
def exHeap : Heap := fun r =>
  if r = 0 then mkNode "A" else if r = 1 then mkNode "B"
  else if r = 2 then mkNode "C" else mkNode "X"

/-- A metadata record with the given node and edge lists. -/
def mkMetadata (nodes : List NodeRef) (edges : List Edge) : Metadata :=
  ⟨0, 0, 0, 0, nodes, edges, GraphStats.zero⟩

/-- Nodes A, B, C and the edges A -> B, B -> C (ordinary) and A -> C
(backtracking). -/
def scenarioMetadata : Metadata :=
  mkMetadata [0, 1, 2] [⟨[], 0, 1, 0⟩, ⟨[], 1, 2, 0⟩, ⟨[Backtracking], 0, 2, 0⟩]

/-- Nodes A, B and one edge A -> X whose target object is not in the node list. -/
def unlistedMetadata : Metadata :=
  mkMetadata [0, 1] [⟨[], 0, 3, 0⟩]

/-- Nodes A, B and the same disabled edge A -> B twice. -/
def twiceDisabledMetadata : Metadata :=
  mkMetadata [0, 1] [⟨[Disabled], 0, 1, 0⟩, ⟨[Disabled], 0, 1, 0⟩]

/-- Nodes A, B, a disabled edge A -> B and a routable edge A -> B whose
attribute list names `IntraAge` twice. -/
def shadowedMetadata : Metadata :=
  mkMetadata [0, 1] [⟨[Disabled, IntraAge], 0, 1, 0⟩, ⟨[IntraAge, IntraAge], 0, 1, 0⟩]

/-- Nodes A, B, an ordinary edge A -> B followed by a backtracking edge A -> B. -/
def mixedWeightMetadata : Metadata :=
  mkMetadata [0, 1] [⟨[], 0, 1, 0⟩, ⟨[Backtracking], 0, 1, 0⟩]

/-- The store built from the nodes A, B and the given edges, with its memory
(the empty store when `NewGraph` fails, which it does not on these nodes). -/
def storeOf (edges : List Edge) : MystGraph × Heap :=
  match NewGraph (some (mkMetadata [0, 1] edges)) exHeap with
  | (some g, _, heap) => (g, heap)
  | (none, _, heap) => (MystGraph.empty (mkMetadata [0, 1] edges), heap)

/-- The store `NewGraph` builds from `scenarioMetadata` (see
`scenarioGraph_built`): ids 0, 1, 2 for A, B, C. -/
def scenarioGraph : MystGraph :=
  { Graph := { nodes := [0, 1, 2],
               lines := [⟨0, 1, Weight.fin 1, 0⟩, ⟨1, 2, Weight.fin 1, 0⟩,
                         ⟨0, 2, Weight.inf, 0⟩],
               nodeIDs := ⟨2, [0, 1, 2], []⟩ },
    NodeMap := [("A", ⟨[], 0, "", "A", none, none⟩), ("B", ⟨[], 1, "", "B", none, none⟩),
                ("C", ⟨[], 2, "", "C", none, none⟩)],
    Metadata := { scenarioMetadata with TotalNodes := 3, TotalEdges := 3 },
    EdgeMap := [(0, [(1, [⟨[], 0, 1, 0⟩]), (2, [⟨[Backtracking], 0, 2, 0⟩])]),
                (1, [(2, [⟨[], 1, 2, 0⟩])])],
    IdNameMap := [(0, "A"), (1, "B"), (2, "C")], IdStackMap := [] }

/-- Nodes A, B and the single edge A -> B, a backtracking edge. -/
def backtrackOnlyMetadata : Metadata :=
  mkMetadata [0, 1] [⟨[Backtracking], 0, 1, 0⟩]

/-- The store `NewGraph` builds from `backtrackOnlyMetadata`: ids 0, 1 for A, B. -/
def backtrackOnlyGraph : MystGraph :=
  { Graph := { nodes := [0, 1], lines := [⟨0, 1, Weight.inf, 0⟩],
               nodeIDs := ⟨1, [0, 1], []⟩ },
    NodeMap := [("A", ⟨[], 0, "", "A", none, none⟩), ("B", ⟨[], 1, "", "B", none, none⟩)],
    Metadata := { backtrackOnlyMetadata with TotalNodes := 2, TotalEdges := 1 },
    EdgeMap := [(0, [(1, [⟨[Backtracking], 0, 1, 0⟩])])],
    IdNameMap := [(0, "A"), (1, "B")], IdStackMap := [] }

/-- Example memory with five node objects A, B, C, D, E at the addresses 0 .. 4
(E also at every other address). -/
def detourHeap : Heap := fun r =>
  if r = 0 then mkNode "A" else if r = 1 then mkNode "B"
  else if r = 2 then mkNode "C" else if r = 3 then mkNode "D" else mkNode "E"

/-- Nodes A .. E, the backtracking edge A -> B, and the ordinary edges B -> C,
A -> D, D -> E, E -> C: the route A, B, C has two hops and starts with the
backtracking edge, the route A, D, E, C has three ordinary hops. -/
def detourMetadata : Metadata :=
  mkMetadata [0, 1, 2, 3, 4]
    [⟨[Backtracking], 0, 1, 0⟩, ⟨[], 1, 2, 0⟩, ⟨[], 0, 3, 0⟩, ⟨[], 3, 4, 0⟩, ⟨[], 4, 2, 0⟩]

/-- The store `NewGraph` builds from `detourMetadata`: ids 0 .. 4 for A .. E. -/
def detourGraph : MystGraph :=
  { Graph := { nodes := [0, 1, 2, 3, 4],
               lines := [⟨0, 1, Weight.inf, 0⟩, ⟨1, 2, Weight.fin 1, 0⟩,
                         ⟨0, 3, Weight.fin 1, 0⟩, ⟨3, 4, Weight.fin 1, 0⟩,
                         ⟨4, 2, Weight.fin 1, 0⟩],
               nodeIDs := ⟨4, [0, 1, 2, 3, 4], []⟩ },
    NodeMap := [("A", ⟨[], 0, "", "A", none, none⟩), ("B", ⟨[], 1, "", "B", none, none⟩),
                ("C", ⟨[], 2, "", "C", none, none⟩), ("D", ⟨[], 3, "", "D", none, none⟩),
                ("E", ⟨[], 4, "", "E", none, none⟩)],
    Metadata := { detourMetadata with TotalNodes := 5, TotalEdges := 5 },
    EdgeMap := [(0, [(1, [⟨[Backtracking], 0, 1, 0⟩]), (3, [⟨[], 0, 3, 0⟩])]),
                (1, [(2, [⟨[], 1, 2, 0⟩])]), (3, [(4, [⟨[], 3, 4, 0⟩])]),
                (4, [(2, [⟨[], 4, 2, 0⟩])])],
    IdNameMap := [(0, "A"), (1, "B"), (2, "C"), (3, "D"), (4, "E")], IdStackMap := [] }

/-- Nodes A .. E, the backtracking edge B -> A, the ordinary edge D -> E and the
disabled edge A -> C. -/
def islandsMetadata : Metadata :=
  mkMetadata [0, 1, 2, 3, 4]
    [⟨[Backtracking], 1, 0, 0⟩, ⟨[], 3, 4, 0⟩, ⟨[Disabled], 0, 2, 0⟩]

/-- The store `NewGraph` builds from `islandsMetadata`: ids 0 .. 4 for A .. E;
the disabled edge is in the side table only. -/
def islandsGraph : MystGraph :=
  { Graph := { nodes := [0, 1, 2, 3, 4],
               lines := [⟨1, 0, Weight.inf, 0⟩, ⟨3, 4, Weight.fin 1, 0⟩],
               nodeIDs := ⟨4, [0, 1, 2, 3, 4], []⟩ },
    NodeMap := [("A", ⟨[], 0, "", "A", none, none⟩), ("B", ⟨[], 1, "", "B", none, none⟩),
                ("C", ⟨[], 2, "", "C", none, none⟩), ("D", ⟨[], 3, "", "D", none, none⟩),
                ("E", ⟨[], 4, "", "E", none, none⟩)],
    Metadata := { islandsMetadata with TotalNodes := 5, TotalEdges := 2 },
    EdgeMap := [(1, [(0, [⟨[Backtracking], 1, 0, 0⟩])]), (3, [(4, [⟨[], 3, 4, 0⟩])]),
                (0, [(2, [⟨[Disabled], 0, 2, 0⟩])])],
    IdNameMap := [(0, "A"), (1, "B"), (2, "C"), (3, "D"), (4, "E")], IdStackMap := [] }

/-- The store of the nodes A, B (ids 0, 1) without edges, with the node map of
the routable structure enumerating id 1 before id 0: the store `NewGraph`
builds, in another iteration order of the Go map. -/
def swappedGraph : MystGraph :=
  { Graph := { nodes := [1, 0], lines := [], nodeIDs := ⟨1, [0, 1], []⟩ },
    NodeMap := [("A", ⟨[], 0, "", "A", none, none⟩), ("B", ⟨[], 1, "", "B", none, none⟩)],
    Metadata := { mkMetadata [0, 1] [] with TotalNodes := 2, TotalEdges := 0 },
    EdgeMap := [], IdNameMap := [(0, "A"), (1, "B")], IdStackMap := [] }

/-- Example memory: the node objects A and B of the stack "Myst" at the
addresses 0 and 1, an object X elsewhere. -/
def stackedHeap : Heap := fun r =>
  if r = 0 then ⟨[], 0, "Myst", "A", none, none⟩
  else if r = 1 then ⟨[], 0, "Myst", "B", none, none⟩
  else mkNode "X"

/-- Example memory: the node objects A, B at addresses 0, 1 and, at every other
address, an object X that no node list mentions and whose id field holds 7. -/
def strayHeap : Heap := fun r =>
  if r = 0 then mkNode "A" else if r = 1 then mkNode "B"
  else ⟨[], 7, "", "X", none, none⟩

/-! ## Measures and relations used in the proofs -/

/-- The number of nodes of the tree with a finite distance. -/
def Shortest.finCount (p : Shortest) : Nat :=
  (p.nodes.map (fun v => if (p.distOf v).isInf then 0 else 1)).sum

/-- A weight as a number, `+Inf` counting as `n`. -/
def Weight.capped (n : Nat) : Weight → Nat
  | Weight.inf => n
  | Weight.fin d => d

/-- The potential of the tree: the sum of the distances, an infinite one
counting as `n`. -/
def Shortest.potential (p : Shortest) (n : Nat) : Nat :=
  (p.nodes.map (fun v => (p.distOf v).capped n)).sum

/-- The hop `u -> v` is an edge of the routable adjacency and no stored edge of
the pair carries `Backtracking` or `Disabled`. -/
def cleanHop (g : MystGraph) (u v : Int) : Prop :=
  g.HasEdgeFromTo u v = true ∧
  ∀ e ∈ (g.sideTable u v).getD [],
    e.IsOfType Backtracking = false ∧ e.IsOfType Disabled = false

/-- The invariant of the loop of `DijkstraFrom` for the source `s`: the source
has distance 0; a finite distance belongs to a node, is less than the number
of reached nodes, and comes with a predecessor that has an edge to the node
and a smaller distance. -/
def TreeInv (g : MystGraph) (s : Int) (p : Shortest) : Prop :=
  p.src = s ∧ p.nodes = g.Graph.nodes ∧ p.distOf s = Weight.fin 0 ∧
  (∀ v d, p.distOf v = Weight.fin d → v ≠ s →
    ∃ k dk, p.nextOf v = some k ∧ v ∈ g.From k ∧ p.distOf k = Weight.fin dk ∧ dk + 1 ≤ d) ∧
  (∀ v d, p.distOf v = Weight.fin d → v ∈ p.nodes) ∧
  (∀ v d, p.distOf v = Weight.fin d → d + 1 ≤ p.finCount)

/-- What an entry `info` of the all-pairs table under `(s, t)` satisfies: the
end points differ, the record names them, the path runs from `s` to `t`, and
every hop of the path is a routable edge none of whose stored edges carries
`Backtracking` or `Disabled`. -/
def EntryOK (g : MystGraph) (s t : Int) (info : ShortestPathInfo) : Prop :=
  s ≠ t ∧ info.From = s ∧ info.To = t ∧
  info.Path.head? = some s ∧ info.Path.getLast? = some t ∧
  List.Chain' (cleanHop g) info.Path

/-- The pairs of consecutive stops of a query with mandatory nodes:
`(cur, w1), (w1, w2), ..., (wk, dst)`. -/
def stopPairs : Int → List Int → Int → List (Int × Int)
  | cur, [], dst => [(cur, dst)]
  | cur, w :: ws, dst => (cur, w) :: stopPairs w ws dst

/-- The concatenation of segment paths in which each junction node is kept once:
every segment except the last contributes its path without its final node. -/
def joinSegments : List (List Int) → List Int
  | [] => []
  | [p] => p
  | p :: q :: rest => p.dropLast ++ joinSegments (q :: rest)

/-- The path visits the listed stops in that order; a stop listed twice in a
row may be visited once. -/
def visitsInOrder : List Int → List Int → Prop
  | [], _ => True
  | w :: ws, path => ∃ a b, path = a ++ w :: b ∧ visitsInOrder ws (w :: b)

/-- The pair `(s, t)` qualifies as a candidate of `findMostSeparatedNodes` with
distance `d` and path `path`: both are nodes, they differ, and the tree of
`DijkstraFrom` for `s` gives `t` the non-empty path `path` of the finite weight
`d`. -/
def SeparatedPair (g : MystGraph) (s t : Int) (d : Nat) (path : List Int) : Prop :=
  s ∈ g.Graph.nodes ∧ t ∈ g.Graph.nodes ∧ s ≠ t ∧
  ∃ p, DijkstraFrom g s = some p ∧ p.To t = some (path, Weight.fin d) ∧ path ≠ []

/-- The number of in-neighbours plus the number of out-neighbours of a node in
the routable adjacency. -/
def MystGraph.degree (g : MystGraph) (id : Int) : Int :=
  ((g.To id).length : Int) + ((g.From id).length : Int)

/-- The candidate record the inner loop of `findMostSeparatedNodes` considers for
`dst`, if any. -/
def candidateOf (p : Shortest) (src dst : Int) : Option pathCandidate :=
  if src = dst then none
  else
    match p.To dst with
    | some (path, Weight.fin w) =>
      if path.length = 0 then none
      else some { source := src, target := dst, distance := Weight.fin w, path := path }
    | _ => none

/-- The candidate records of one source, in the order of the inner loop. -/
def rowCandidates (p : Shortest) (src : Int) (dsts : List Int) : List pathCandidate :=
  dsts.filterMap (candidateOf p src)

/-- The candidate records of all sources, in the order of the nested loops. -/
def allCandidates (g : MystGraph) (nodeIDs : List Int) : List Int → List pathCandidate
  | [] => []
  | src :: rest =>
    (match DijkstraFrom g src with
     | some p => rowCandidates p src nodeIDs
     | none => []) ++ allCandidates g nodeIDs rest

/-- A finite weight as an integer, `-1` for `+Inf`. -/
def Weight.toInt : Weight → Int
  | .fin w => (w : Int)
  | .inf => -1

/-- The step of the pair loops on a candidate record. -/
def candidateStep (st : SeparationState) (c : pathCandidate) : SeparationState :=
  considerPair c.source c.target c.path c.distance st

/-- The order of the nested loops on candidate records: ascending source id,
then ascending target id. -/
def candidateBefore (a b : pathCandidate) : Prop :=
  a.source < b.source ∨ (a.source = b.source ∧ a.target < b.target)

/-- The entry `i` of `visited` is set. -/
def isMarked (visited : List Bool) (i : Int) : Prop := boolAt visited i = some true

/-- The nodes `u` and `v` are joined by an edge of the routable adjacency, in
one direction or the other. -/
def adj (g : MystGraph) (u v : Int) : Prop := v ∈ g.From u ∨ v ∈ g.To u

/-- The nodes `u` and `v` are joined by a path of the routable adjacency with
the edge direction ignored. -/
def Connected (g : MystGraph) : Int → Int → Prop := Relation.ReflTransGen (adj g)

/-- What the list of components satisfies at every point of the loop of
`FindConnectedComponents`: no id occurs twice in the whole list, and every
component is non-empty, strictly ascending, made of nodes, and holds exactly
the nodes connected to any of its members. -/
def GoodComps (g : MystGraph) (comps : List (List Int)) : Prop :=
  comps.flatten.Nodup ∧
  ∀ c ∈ comps, c ≠ [] ∧ c.Sorted (fun a b => a < b) ∧ (∀ x ∈ c, x ∈ g.Graph.nodes) ∧
    ∀ u ∈ c, ∀ w, w ∈ c ↔ Connected g u w

/-- Every edge out of `u`, whose distance is `d`, has been relaxed: its target
has a distance of at most `d + 1`. -/
def relaxedAt (g : MystGraph) (p : Shortest) (u : Int) (d : Nat) : Prop :=
  ∀ v ∈ g.From u, ∃ d', p.distOf v = Weight.fin d' ∧ d' ≤ d + 1

/-- The second invariant of the loop of `DijkstraFrom`: a node with a finite
distance is in the queue with that distance, or all its out-edges are relaxed. -/
def Relaxed (g : MystGraph) (p : Shortest) (Q : DistQueue) : Prop :=
  ∀ u d, p.distOf u = Weight.fin d → (u, Weight.fin d) ∈ Q ∨ relaxedAt g p u d

/-- The entries of the queue carry finite distances that are at least the
current distance of their node. -/
def QueueInv (p : Shortest) (Q : DistQueue) : Prop :=
  ∀ x w, (x, w) ∈ Q → ∃ d d', w = Weight.fin d ∧ p.distOf x = Weight.fin d' ∧ d' ≤ d

/-- The list `walk` is a directed route of the routable adjacency from `s` to
`t`. -/
def Route (g : MystGraph) (s t : Int) (walk : List Int) : Prop :=
  walk.head? = some s ∧ walk.getLast? = some t ∧ List.Chain' (fun u v => v ∈ g.From u) walk

/-- The least number of hops of a directed route from `s` to `t` is `d`. -/
def HopDistance (g : MystGraph) (s t : Int) (d : Nat) : Prop :=
  (∃ walk, Route g s t walk ∧ walk.length = d + 1) ∧
  ∀ walk, Route g s t walk → d + 1 ≤ walk.length

/-- The scan for a node of largest degree, for any degree function: the shape
shared by the loops of `findNodeWithMostIncomingEdges` and
`findNodeWithMostOutgoingEdges`. -/
def degreeLoop (g : MystGraph) (deg : Int → Int) :
    List Int → NodeDegreeInfo × Int → NodeDegreeInfo × Int
  | [], st => st
  | id :: rest, (maxNode, maxDegree) =>
    if maxDegree < deg id then
      degreeLoop g deg rest ({ ID := id, Name := g.GetNameForID id, Degree := deg id }, deg id)
    else degreeLoop g deg rest (maxNode, maxDegree)

/-- The record `r` is the first node of the enumeration `nodes` whose degree is
the largest: no node has a larger degree and the nodes before it have a
smaller one. -/
def FirstMaximum (g : MystGraph) (deg : Int → Int) (nodes : List Int)
    (r : NodeDegreeInfo) : Prop :=
  r.Degree = deg r.ID ∧ r.Name = g.GetNameForID r.ID ∧
  (∀ n ∈ nodes, deg n ≤ r.Degree) ∧
  ∃ pre post, nodes = pre ++ r.ID :: post ∧ ∀ x ∈ pre, deg x < r.Degree

/-- The hop `u -> v` is one that `explore` follows: a directed edge of the
routable adjacency whose pair is neither a backtracking nor a disabled one. -/
def exploreHop (g : MystGraph) (heap : Heap) (u v : Int) : Prop :=
  v ∈ g.From u ∧ g.IsBacktrackingEdge heap u v = false ∧ g.IsDisabledEdge heap u v = false

/-- The summed edge weight of a path (`+Inf` for a hop without edge). -/
def pathWeight (g : MystGraph) : List Int → Weight
  | u :: v :: rest => Weight.add ((g.Edge u v).getD Weight.inf) (pathWeight g (v :: rest))
  | _ => Weight.fin 0

/-- The list `tail` continues a path that has reached `current` with the nodes
of `visited` behind it and the weight `cw` to a path that `explore` records:
it ends at `dst`, repeats no node, avoids the visited nodes, follows the hops
of `explore`, and brings the weight to the target weight. -/
def GoodTail (g : MystGraph) (heap : Heap) (dst : Int) (targetWeight : Weight)
    (current : Int) (visited : List Int) (cw : Weight) (tail : List Int) : Prop :=
  (current :: tail).getLast? = some dst ∧ (current :: tail).Nodup ∧
  (∀ x ∈ tail, x ∉ visited) ∧ List.Chain' (exploreHop g heap) (current :: tail) ∧
  Weight.near (Weight.add cw (pathWeight g (current :: tail))) targetWeight = true

/-- The path `p` is a simple path from `src` to `dst` along hops that `explore`
follows, with summed edge weight equal to the target weight. -/
def SimpleCleanPath (g : MystGraph) (heap : Heap) (src dst : Int) (targetWeight : Weight)
    (p : List Int) : Prop :=
  p.head? = some src ∧ p.getLast? = some dst ∧ p.Nodup ∧
  List.Chain' (exploreHop g heap) p ∧ Weight.near (pathWeight g p) targetWeight = true

/-- The number of nodes of the graph that are not in `visited`. -/
def unvisitedCount (g : MystGraph) (visited : List Int) : Nat :=
  (g.Graph.nodes.filter (fun x => decide (x ∉ visited))).length

/-- The edge `e'` is the edge `e` with a longer attribute list: same end
points, same transitivity id, and the attributes of `e` lead those of `e'`. -/
def Edge.grows (e e' : Edge) : Prop :=
  e'.Source = e.Source ∧ e'.Target = e.Target ∧ e'.TransitivityID = e.TransitivityID ∧
  e.Attributes <+: e'.Attributes

/-- The store `g'` is the store `g` up to `Metadata.Stats` and attributes of
edges that were appended: same routable structure, same name and id tables,
same node list and totals, and the edge list and every side-table list hold
the same edges in the same order, with attribute lists that have only grown. -/
def StoreGrows (g g' : MystGraph) : Prop :=
  g'.Graph = g.Graph ∧ g'.NodeMap = g.NodeMap ∧ g'.IdNameMap = g.IdNameMap ∧
  g'.IdStackMap = g.IdStackMap ∧ g'.Metadata.Nodes = g.Metadata.Nodes ∧
  g'.Metadata.TotalCards = g.Metadata.TotalCards ∧
  g'.Metadata.TotalStacks = g.Metadata.TotalStacks ∧
  g'.Metadata.TotalNodes = g.Metadata.TotalNodes ∧
  g'.Metadata.TotalEdges = g.Metadata.TotalEdges ∧
  List.Forall₂ Edge.grows g.Metadata.Edges g'.Metadata.Edges ∧
  ∀ s t, Option.Rel (List.Forall₂ Edge.grows) (g.sideTable s t) (g'.sideTable s t)

/-- Every edge stored under the pair `(s, t)` has a source object with id `s`. -/
def StoredSources (g : MystGraph) (heap : Heap) : Prop :=
  ∀ s t, ∀ e ∈ (g.sideTable s t).getD [], (heap e.Source).GraphID = s

/-- The memory `heap'` is the memory `heap` up to attributes of node objects
that were appended: every object keeps its other fields, and its attribute
list has only grown. -/
def HeapGrows (heap heap' : Heap) : Prop :=
  ∀ r, heap' r = { heap r with Attributes := (heap' r).Attributes } ∧
    (heap r).Attributes <+: (heap' r).Attributes

/-! ## Theorems -/

theorem GoMap.get_set {κ ν : Type} [DecidableEq κ] (m : GoMap κ ν) (k k' : κ) (v : ν) :
    GoMap.get (GoMap.set m k v) k' = if k = k' then some v else GoMap.get m k' := by
  induction m with
  | nil =>
    by_cases h : k = k' <;> simp [GoMap.set, GoMap.get, h]
  | cons p rest ih =>
    obtain ⟨a, b⟩ := p
    by_cases h1 : a = k
    · subst h1
      by_cases h2 : a = k' <;> simp [GoMap.set, GoMap.get, h2]
    · by_cases h2 : a = k'
      · subst h2
        have h3 : ¬ k = a := fun h => h1 h.symm
        simp [GoMap.set, GoMap.get, h1, h3]
      · simp [GoMap.set, GoMap.get, h1, h2, ih]

theorem GoMap.set_of_get_none {κ ν : Type} [DecidableEq κ] (m : GoMap κ ν) (k : κ) (v : ν)
    (h : GoMap.get m k = none) : GoMap.set m k v = m ++ [(k, v)] := by
  induction m with
  | nil => rfl
  | cons p rest ih =>
    obtain ⟨a, b⟩ := p
    by_cases h1 : a = k
    · simp [GoMap.get, h1] at h
    · simp only [GoMap.get, h1, if_false] at h
      simp [GoMap.set, h1, ih h]

theorem GoMap.get_append_of_none {κ ν : Type} [DecidableEq κ] (m m' : GoMap κ ν) (k : κ)
    (h : GoMap.get m k = none) : GoMap.get (m ++ m') k = GoMap.get m' k := by
  induction m with
  | nil => rfl
  | cons p rest ih =>
    obtain ⟨a, b⟩ := p
    by_cases h1 : a = k
    · simp [GoMap.get, h1] at h
    · simp only [GoMap.get, h1, if_false] at h
      simp [GoMap.get, h1, ih h]

theorem GoMap.get_append_of_some {κ ν : Type} [DecidableEq κ] (m m' : GoMap κ ν) (k : κ) (v : ν)
    (h : GoMap.get m k = some v) : GoMap.get (m ++ m') k = some v := by
  induction m with
  | nil => simp [GoMap.get] at h
  | cons p rest ih =>
    obtain ⟨a, b⟩ := p
    by_cases h1 : a = k
    · simp only [GoMap.get, h1, if_true] at h
      simp [GoMap.get, h1, h]
    · simp only [GoMap.get, h1, if_false] at h
      simp [GoMap.get, h1, ih h]

theorem NewNode_fresh (g : WeightedDirectedGraph) (h : g.WF) : g.NewNode ∉ g.nodes := by
  obtain ⟨_, _, hmax, hfree, _, _, _⟩ := h
  unfold WeightedDirectedGraph.NewNode
  split
  · rename_i h0
    have : g.nodes = [] := List.length_eq_zero.mp h0
    simp [this]
  · unfold IDSet.NewID
    split
    · rename_i id rest heq
      exact (hfree id (by simp [heq])).1
    · intro hmem
      have := hmax _ hmem
      omega

theorem mem_Use_free (s : IDSet) (id x : Int) (hx : x ∈ (s.Use id).free) :
    (x ∈ s.free ∧ x ≠ id) ∨ (s.maxID < x ∧ x < id) := by
  unfold IDSet.Use at hx
  simp only [List.mem_append, List.mem_filter] at hx
  rcases hx with ⟨h1, h2⟩ | h
  · left
    exact ⟨h1, by simpa using h2⟩
  · right
    split at h
    · simp only [List.mem_map, List.mem_range] at h
      obtain ⟨i, hi, hx⟩ := h
      have hx' : x = s.maxID + 1 + (i : Int) := hx.symm
      omega
    · simp at h

theorem AddNode_WF (g : WeightedDirectedGraph) (id : Int) (h : g.WF) : (g.AddNode id).WF := by
  unfold WeightedDirectedGraph.AddNode
  split
  · exact h
  · rename_i hid
    obtain ⟨hnd, hlines, hmax, hfree, hlow, hm, hkeys⟩ := h
    refine ⟨?_, ?_, ?_, ?_, ?_, ?_, hkeys⟩
    · simp only
      rw [List.nodup_append]
      refine ⟨hnd, List.nodup_singleton _, ?_⟩
      intro a ha hb
      simp at hb
      subst hb
      exact hid ha
    · intro l hl
      have := hlines l hl
      simp only [List.mem_append]
      exact ⟨Or.inl this.1, Or.inl this.2⟩
    · intro x hx
      simp only [List.mem_append, List.mem_singleton] at hx
      simp only [IDSet.Use]
      rcases hx with hx | hx
      · have := hmax x hx
        split <;> omega
      · subst hx
        split <;> omega
    · intro x hx
      rcases mem_Use_free _ _ _ hx with ⟨h1, h2⟩ | ⟨h1, h2⟩
      · have := hfree x h1
        refine ⟨?_, this.2.1, ?_⟩
        · simp only [List.mem_append, List.mem_singleton]
          rintro (h3 | h3)
          · exact this.1 h3
          · exact h2 h3
        · simp only [IDSet.Use]
          split <;> omega
      · refine ⟨?_, ?_, ?_⟩
        · simp only [List.mem_append, List.mem_singleton]
          rintro (h3 | h3)
          · have := hmax x h3
            omega
          · omega
        · omega
        · simp only [IDSet.Use]
          split <;> omega
    · simp only [IDSet.Use]
      split <;> omega
    · simp only [IDSet.Use]
      split
      · right; simp
      · rcases hm with hm | hm
        · left; exact hm
        · right; simp [hm]

theorem AddNode_lines (g : WeightedDirectedGraph) (id : Int) : (g.AddNode id).lines = g.lines := by
  unfold WeightedDirectedGraph.AddNode
  split <;> rfl

theorem mem_AddNode_nodes (g : WeightedDirectedGraph) (id x : Int) :
    x ∈ (g.AddNode id).nodes ↔ x ∈ g.nodes ∨ x = id := by
  unfold WeightedDirectedGraph.AddNode
  split
  · rename_i h
    constructor
    · exact Or.inl
    · rintro (h1 | h1)
      · exact h1
      · subst h1; exact h
  · simp

theorem mem_setLine (ls : List Line) (l x : Line) (hx : x ∈ setLine ls l) : x ∈ ls ∨ x = l := by
  induction ls with
  | nil => simp [setLine] at hx; exact Or.inr hx
  | cons y rest ih =>
    unfold setLine at hx
    split at hx
    · simp only [List.mem_cons] at hx
      rcases hx with hx | hx
      · exact Or.inr hx
      · exact Or.inl (List.mem_cons_of_mem _ hx)
    · simp only [List.mem_cons] at hx
      rcases hx with hx | hx
      · exact Or.inl (by simp [hx])
      · rcases ih hx with h | h
        · exact Or.inl (List.mem_cons_of_mem _ h)
        · exact Or.inr h

theorem setLine_keys (ls : List Line) (l : Line) :
    (setLine ls l).map (fun l => (l.F, l.T, l.UID)) =
      if (l.F, l.T, l.UID) ∈ ls.map (fun l => (l.F, l.T, l.UID))
      then ls.map (fun l => (l.F, l.T, l.UID))
      else ls.map (fun l => (l.F, l.T, l.UID)) ++ [(l.F, l.T, l.UID)] := by
  induction ls with
  | nil => simp [setLine]
  | cons y rest ih =>
    unfold setLine
    by_cases hy : y.F = l.F ∧ y.T = l.T ∧ y.UID = l.UID
    · obtain ⟨h1, h2, h3⟩ := hy
      simp [h1, h2, h3]
    · rw [if_neg hy]
      simp only [List.map_cons, ih, List.mem_cons]
      have hne : ¬ (l.F, l.T, l.UID) = (y.F, y.T, y.UID) := by
        intro heq
        simp only [Prod.mk.injEq] at heq
        exact hy ⟨heq.1.symm, heq.2.1.symm, heq.2.2.symm⟩
      simp only [hne, false_or]
      split <;> simp

theorem SetWeightedLine_WF (g : WeightedDirectedGraph) (l : Line) (h : g.WF) :
    (g.SetWeightedLine l).WF := by
  have h2 := AddNode_WF _ l.T (AddNode_WF g l.F h)
  obtain ⟨hnd, hlines, hmax, hfree, hlow, hm, hkeys⟩ := h2
  unfold WeightedDirectedGraph.SetWeightedLine
  refine ⟨hnd, ?_, hmax, hfree, hlow, hm, ?_⟩
  · intro x hx
    rcases mem_setLine _ _ _ hx with hx | hx
    · exact hlines x hx
    · subst hx
      constructor
      · rw [mem_AddNode_nodes, mem_AddNode_nodes]
        exact Or.inl (Or.inr rfl)
      · rw [mem_AddNode_nodes]
        exact Or.inr rfl
  · simp only [setLine_keys]
    split
    · exact hkeys
    · rename_i hnot
      rw [List.nodup_append]
      refine ⟨hkeys, List.nodup_singleton _, ?_⟩
      intro a ha hb
      simp only [List.mem_singleton] at hb
      subst hb
      exact hnot ha

theorem From_eq_nil_of_not_node (g : WeightedDirectedGraph) (h : g.WF) (id : Int)
    (hid : id ∉ g.nodes) : g.From id = [] := by
  unfold WeightedDirectedGraph.From
  have : g.lines.filter (fun l => l.F = id) = [] := by
    rw [List.filter_eq_nil_iff]
    intro l hl
    have := (h.2.1 l hl).1
    simp only [decide_eq_true_eq]
    intro heq
    exact hid (heq ▸ this)
  simp [this]

theorem To_eq_nil_of_not_node (g : WeightedDirectedGraph) (h : g.WF) (id : Int)
    (hid : id ∉ g.nodes) : g.To id = [] := by
  unfold WeightedDirectedGraph.To
  have : g.lines.filter (fun l => l.T = id) = [] := by
    rw [List.filter_eq_nil_iff]
    intro l hl
    have := (h.2.1 l hl).2
    simp only [decide_eq_true_eq]
    intro heq
    exact hid (heq ▸ this)
  simp [this]

theorem new_WF : WeightedDirectedGraph.new.WF := by decide

theorem NewNode_dense (g : WeightedDirectedGraph) (h : g.WF) (k : Nat)
    (hd : ∀ i : Int, i ∈ g.nodes ↔ 0 ≤ i ∧ i < k) : g.NewNode = k := by
  obtain ⟨_, _, hmax, hfree, hlow, hm, _⟩ := h
  unfold WeightedDirectedGraph.NewNode
  split
  · rename_i h0
    have hnil : g.nodes = [] := List.length_eq_zero.mp h0
    have : ¬ ((0 : Int) ≤ 0 ∧ (0 : Int) < k) := by
      rw [← hd 0, hnil]; simp
    omega
  · rename_i h0
    have hne : g.nodes ≠ [] := fun hnil => h0 (by simp [hnil])
    obtain ⟨n, hn⟩ := List.exists_mem_of_ne_nil _ hne
    have hn1 := (hd n).1 hn
    have hn2 := hmax n hn
    have hmem : g.nodeIDs.maxID ∈ g.nodes := by
      rcases hm with hm | hm
      · omega
      · exact hm
    have hm1 := (hd _).1 hmem
    have hk : ((k : Int) - 1) ∈ g.nodes := (hd _).2 (by omega)
    have hk1 := hmax _ hk
    unfold IDSet.NewID
    split
    · rename_i id rest heq
      have hf := hfree id (by simp [heq])
      exact absurd ((hd id).2 ⟨hf.2.1, by omega⟩) hf.1
    · omega

theorem AddNode_store_fields (g : MystGraph) (heap : Heap) (node : NodeRef) :
    (g.AddNode heap node).2.1.EdgeMap = g.EdgeMap ∧
    (g.AddNode heap node).2.1.Metadata = g.Metadata ∧
    (g.AddNode heap node).2.1.IdStackMap = g.IdStackMap ∧
    (g.AddNode heap node).2.1.Graph.lines = g.Graph.lines := by
  unfold MystGraph.AddNode
  split
  · exact ⟨rfl, rfl, rfl, rfl⟩
  · exact ⟨rfl, rfl, rfl, AddNode_lines _ _⟩

theorem AddNode_graph_WF (g : MystGraph) (heap : Heap) (node : NodeRef) (h : g.Graph.WF) :
    (g.AddNode heap node).2.1.Graph.WF := by
  unfold MystGraph.AddNode
  split
  · exact h
  · exact AddNode_WF _ _ h

/-- The success case of `AddNode`: the node object gets the id `NewNode` yields,
which is not yet a node and is the node count when the ids so far are
`0 .. k-1`; the name maps to the node copy, the id maps to the name, nothing
else changes in the two maps, and the new node of the routable structure has
no successor and no predecessor. -/
theorem AddNode_fresh_name (g : MystGraph) (heap : Heap) (node : NodeRef) (hwf : g.Graph.WF)
    (h : (g.NodeMap.get (heap node).Name).isSome = false) :
    (g.AddNode heap node).1 = none ∧
    (g.AddNode heap node).2.2 node = { heap node with GraphID := g.Graph.NewNode } ∧
    (∀ r, r ≠ node → (g.AddNode heap node).2.2 r = heap r) ∧
    g.Graph.NewNode ∉ g.Graph.nodes ∧
    (∀ k : Nat, (∀ i : Int, i ∈ g.Graph.nodes ↔ 0 ≤ i ∧ i < k) → g.Graph.NewNode = k) ∧
    (∀ x, x ∈ (g.AddNode heap node).2.1.Graph.nodes ↔
      x ∈ g.Graph.nodes ∨ x = g.Graph.NewNode) ∧
    (g.AddNode heap node).2.1.NodeMap.get (heap node).Name =
      some { heap node with GraphID := g.Graph.NewNode } ∧
    (∀ name, name ≠ (heap node).Name →
      (g.AddNode heap node).2.1.NodeMap.get name = g.NodeMap.get name) ∧
    (g.AddNode heap node).2.1.IdNameMap.get g.Graph.NewNode = some (heap node).Name ∧
    (∀ id, id ≠ g.Graph.NewNode →
      (g.AddNode heap node).2.1.IdNameMap.get id = g.IdNameMap.get id) ∧
    (g.AddNode heap node).2.1.Graph.From g.Graph.NewNode = [] ∧
    (g.AddNode heap node).2.1.Graph.To g.Graph.NewNode = [] ∧
    (g.AddNode heap node).2.1.Graph.lines = g.Graph.lines := by
  have hfresh := NewNode_fresh g.Graph hwf
  have hnot : ¬ ((g.NodeMap.get (heap node).Name).isSome = true) := by simp [h]
  have hlines := (AddNode_store_fields g heap node).2.2.2
  unfold MystGraph.AddNode at hlines ⊢
  rw [if_neg hnot] at hlines ⊢
  simp only at hlines ⊢
  refine ⟨trivial, ?_, ?_, hfresh, ?_, ?_, ?_, ?_, ?_, ?_, ?_, ?_, hlines⟩
  · simp [Heap.set]
  · intro r hr
    simp [Heap.set, hr]
  · intro k hk
    exact NewNode_dense _ hwf k hk
  · intro x
    exact mem_AddNode_nodes _ _ _
  · rw [GoMap.get_set]
    simp
  · intro name hname
    rw [GoMap.get_set]
    simp [Ne.symm hname]
  · rw [GoMap.get_set]
    simp
  · intro id hid
    rw [GoMap.get_set]
    simp [Ne.symm hid]
  · unfold WeightedDirectedGraph.From
    rw [hlines]
    have := From_eq_nil_of_not_node g.Graph hwf _ hfresh
    unfold WeightedDirectedGraph.From at this
    exact this
  · unfold WeightedDirectedGraph.To
    rw [hlines]
    have := To_eq_nil_of_not_node g.Graph hwf _ hfresh
    unfold WeightedDirectedGraph.To at this
    exact this

/-- C2. `AddNode(node)` returns `NodeAlreadyExistsErr` exactly when the name is a
key of `NodeMap`, and then the store and the memory are what they were (so the
next id to be assigned is too). Otherwise it returns nil, the node object gets
the id `NewNode` yields, which is not yet a node and is the node count when
the ids so far are `0 .. k-1`; the name maps to the node copy, the id maps to
the name, and the new node of the routable structure has no successor and no
predecessor. -/
theorem AddNode_contract (g : MystGraph) (heap : Heap) (node : NodeRef) (hwf : g.Graph.WF) :
    ((g.AddNode heap node).1 = some GoError.NodeAlreadyExistsErr ↔
        (g.NodeMap.get (heap node).Name).isSome = true) ∧
    ((g.NodeMap.get (heap node).Name).isSome = true →
        g.AddNode heap node = (some GoError.NodeAlreadyExistsErr, g, heap)) ∧
    ((g.NodeMap.get (heap node).Name).isSome = false →
        (g.AddNode heap node).1 = none ∧
        (g.AddNode heap node).2.2 node = { heap node with GraphID := g.Graph.NewNode } ∧
        (∀ r, r ≠ node → (g.AddNode heap node).2.2 r = heap r) ∧
        g.Graph.NewNode ∉ g.Graph.nodes ∧
        (∀ k : Nat, (∀ i : Int, i ∈ g.Graph.nodes ↔ 0 ≤ i ∧ i < k) → g.Graph.NewNode = k) ∧
        (∀ x, x ∈ (g.AddNode heap node).2.1.Graph.nodes ↔
          x ∈ g.Graph.nodes ∨ x = g.Graph.NewNode) ∧
        (g.AddNode heap node).2.1.NodeMap.get (heap node).Name =
          some { heap node with GraphID := g.Graph.NewNode } ∧
        (∀ name, name ≠ (heap node).Name →
          (g.AddNode heap node).2.1.NodeMap.get name = g.NodeMap.get name) ∧
        (g.AddNode heap node).2.1.IdNameMap.get g.Graph.NewNode = some (heap node).Name ∧
        (∀ id, id ≠ g.Graph.NewNode →
          (g.AddNode heap node).2.1.IdNameMap.get id = g.IdNameMap.get id) ∧
        (g.AddNode heap node).2.1.Graph.From g.Graph.NewNode = [] ∧
        (g.AddNode heap node).2.1.Graph.To g.Graph.NewNode = [] ∧
        (g.AddNode heap node).2.1.Graph.lines = g.Graph.lines) := by
  refine ⟨?_, ?_, ?_⟩
  · unfold MystGraph.AddNode
    split
    · rename_i h
      simp [h]
    · rename_i h
      simp [h]
  · intro h
    unfold MystGraph.AddNode
    rw [if_pos h]
  · intro h
    exact AddNode_fresh_name g heap node hwf h

theorem AddNode_name (g : MystGraph) (heap : Heap) (node : NodeRef) (r : NodeRef) :
    ((g.AddNode heap node).2.2 r).Name = (heap r).Name := by
  unfold MystGraph.AddNode
  split
  · rfl
  · simp only [Heap.set]
    split
    · rename_i h; subst h; rfl
    · rfl

theorem addNodes_ok (rest : List NodeRef) : ∀ (g : MystGraph) (heap : Heap) (k : Nat),
    g.Graph.WF → Dense g.Graph k →
    (rest.map (fun r => (heap r).Name)).Nodup →
    (∀ r ∈ rest, g.NodeMap.get (heap r).Name = none) →
    ∃ g' heap', addNodes g heap rest = (none, g', heap') ∧
      g'.Graph.WF ∧ Dense g'.Graph (k + rest.length) ∧
      (∀ i r, rest[i]? = some r →
        heap' r = { heap r with GraphID := ((k + i : Nat) : Int) } ∧
        g'.NodeMap.get (heap r).Name = some { heap r with GraphID := ((k + i : Nat) : Int) } ∧
        g'.IdNameMap.get ((k + i : Nat) : Int) = some (heap r).Name) ∧
      (∀ r, r ∉ rest → heap' r = heap r) ∧
      (∀ name, name ∉ rest.map (fun r => (heap r).Name) →
        g'.NodeMap.get name = g.NodeMap.get name) ∧
      (∀ id : Int, ¬ ((k : Int) ≤ id ∧ id < (k + rest.length : Nat)) →
        g'.IdNameMap.get id = g.IdNameMap.get id) ∧
      g'.EdgeMap = g.EdgeMap ∧ g'.Metadata = g.Metadata ∧
      g'.IdStackMap = g.IdStackMap ∧ g'.Graph.lines = g.Graph.lines := by
  induction rest with
  | nil =>
    intro g heap k hwf hd _ _
    refine ⟨g, heap, rfl, hwf, by simpa using hd, ?_, ?_, ?_, ?_, rfl, rfl, rfl, rfl⟩
    · intro i r h; simp at h
    · intro r _; rfl
    · intro name _; rfl
    · intro id _; rfl
  | cons r0 tl ih =>
    intro g heap k hwf hd hnd hnone
    have h0 : (g.NodeMap.get (heap r0).Name).isSome = false := by
      rw [hnone r0 (List.mem_cons_self _ _)]; rfl
    obtain ⟨hc1, hc2, hc3, hc4, hc5, hc6, hc7, hc8, hc9, hc10, hc11, hc12, hc13⟩ :=
      AddNode_fresh_name g heap r0 hwf h0
    have hid : g.Graph.NewNode = (k : Int) := hc5 k hd
    have hfields := AddNode_store_fields g heap r0
    have hwf1 := AddNode_graph_WF g heap r0 hwf
    have hname1 := AddNode_name g heap r0
    rw [List.map_cons, List.nodup_cons] at hnd
    have hne : ∀ r ∈ tl, r ≠ r0 := by
      intro r hr heq
      subst heq
      exact hnd.1 (List.mem_map_of_mem _ hr)
    have hnameNe : ∀ r ∈ tl, (heap r).Name ≠ (heap r0).Name := by
      intro r hr heq
      exact hnd.1 (heq ▸ List.mem_map_of_mem (fun r => (heap r).Name) hr)
    have hmap1 : tl.map (fun r => ((g.AddNode heap r0).2.2 r).Name) =
        tl.map (fun r => (heap r).Name) := by
      apply List.map_congr_left
      intro r _
      exact hname1 r
    have hd1 : Dense (g.AddNode heap r0).2.1.Graph (k + 1) := by
      intro i
      rw [hc6 i, hd i, hid]
      push_cast
      omega
    have hnone1 : ∀ r ∈ tl,
        (g.AddNode heap r0).2.1.NodeMap.get ((g.AddNode heap r0).2.2 r).Name = none := by
      intro r hr
      rw [hname1 r, hc8 _ (hnameNe r hr)]
      exact hnone r (List.mem_cons_of_mem _ hr)
    obtain ⟨g', heap', he, hwf', hd', hidx, hheap, hnm, hin, hE, hM, hS, hL⟩ :=
      ih (g.AddNode heap r0).2.1 (g.AddNode heap r0).2.2 (k + 1) hwf1 hd1
        (by rw [hmap1]; exact hnd.2) hnone1
    refine ⟨g', heap', ?_, hwf', ?_, ?_, ?_, ?_, ?_, ?_, ?_, ?_, ?_⟩
    · show (match g.AddNode heap r0 with
        | (some err, g', heap') => (some err, g', heap')
        | (none, g', heap') => addNodes g' heap' tl) = _
      have : g.AddNode heap r0 = (none, (g.AddNode heap r0).2.1, (g.AddNode heap r0).2.2) := by
        rw [← hc1]
      rw [this]
      exact he
    · have : k + (r0 :: tl).length = k + 1 + tl.length := by simp; omega
      rw [this]; exact hd'
    · intro i r hir
      cases i with
      | zero =>
        simp only [List.getElem?_cons_zero, Option.some.injEq] at hir
        subst hir
        have hnot : r0 ∉ tl := fun hmem => hne r0 hmem rfl
        refine ⟨?_, ?_, ?_⟩
        · rw [hheap r0 hnot, hc2, hid]; rfl
        · rw [hnm _ (by rw [hmap1]; exact hnd.1), hc7, hid]; rfl
        · rw [hin _ (by push_cast; omega)]
          have := hc9
          rw [hid] at this
          simpa using this
      | succ j =>
        simp only [List.getElem?_cons_succ] at hir
        have hmem : r ∈ tl := List.getElem?_mem hir
        obtain ⟨a1, a2, a3⟩ := hidx j r hir
        have hr1 : (g.AddNode heap r0).2.2 r = heap r := hc3 r (hne r hmem)
        have hk : k + 1 + j = k + (j + 1) := by omega
        rw [hr1, hk] at a1 a2 a3
        exact ⟨a1, a2, a3⟩
    · intro r hr
      simp only [List.mem_cons, not_or] at hr
      rw [hheap r hr.2, hc3 r hr.1]
    · intro name hname
      simp only [List.map_cons, List.mem_cons, not_or] at hname
      rw [hnm name (by rw [hmap1]; exact hname.2), hc8 name hname.1]
    · intro id hid'
      simp only [List.length_cons] at hid'
      rw [hin id (by push_cast at hid' ⊢; omega), hc10 id (by rw [hid]; omega)]
    · rw [hE, hfields.1]
    · rw [hM, hfields.2.1]
    · rw [hS, hfields.2.2.1]
    · rw [hL, hfields.2.2.2]

theorem addNodes_err (rest : List NodeRef) : ∀ (g : MystGraph) (heap : Heap),
    (addNodes g heap rest).1 = none ∨
      (addNodes g heap rest).1 = some GoError.NodeAlreadyExistsErr := by
  induction rest with
  | nil => intro g heap; exact Or.inl rfl
  | cons r0 tl ih =>
    intro g heap
    unfold addNodes
    by_cases h : (g.NodeMap.get (heap r0).Name).isSome = true
    · right
      simp [MystGraph.AddNode, h]
    · simp only [MystGraph.AddNode, h]
      exact ih _ _

theorem addNodes_fail (rest : List NodeRef) : ∀ (g : MystGraph) (heap : Heap),
    ¬ ((rest.map (fun r => (heap r).Name)).Nodup ∧
        ∀ r ∈ rest, g.NodeMap.get (heap r).Name = none) →
    (addNodes g heap rest).1 = some GoError.NodeAlreadyExistsErr := by
  induction rest with
  | nil => intro g heap h; simp at h
  | cons r0 tl ih =>
    intro g heap hbad
    unfold addNodes
    by_cases h : (g.NodeMap.get (heap r0).Name).isSome = true
    · simp [MystGraph.AddNode, h]
    · have hname1 := AddNode_name g heap r0
      have hmap1 : tl.map (fun r => ((g.AddNode heap r0).2.2 r).Name) =
          tl.map (fun r => (heap r).Name) := by
        apply List.map_congr_left
        intro r _
        exact hname1 r
      have hstep : g.AddNode heap r0 =
          (none, (g.AddNode heap r0).2.1, (g.AddNode heap r0).2.2) := by
        simp [MystGraph.AddNode, h]
      rw [hstep]
      simp only
      apply ih
      rw [hmap1]
      intro ⟨hnd, hnone⟩
      apply hbad
      have hget : ∀ name, (g.AddNode heap r0).2.1.NodeMap.get name =
          if (heap r0).Name = name then some { heap r0 with GraphID := g.Graph.NewNode }
          else g.NodeMap.get name := by
        intro name
        unfold MystGraph.AddNode
        rw [if_neg h]
        simp only
        rw [GoMap.get_set]
      refine ⟨?_, ?_⟩
      · rw [List.map_cons, List.nodup_cons]
        refine ⟨?_, hnd⟩
        intro hmem
        rw [List.mem_map] at hmem
        obtain ⟨r, hr, hreq⟩ := hmem
        have := hnone r hr
        rw [hname1 r, hget] at this
        have hreq' : (heap r).Name = (heap r0).Name := hreq
        rw [if_pos hreq'.symm] at this
        exact Option.noConfusion this
      · intro r hr
        rw [List.mem_cons] at hr
        rcases hr with hr | hr
        · subst hr
          simpa using h
        · have := hnone r hr
          rw [hname1 r, hget] at this
          split at this
          · simp at this
          · exact this

theorem addEdgeWithAttributes_fields (g : MystGraph) (heap : Heap) (e : Edge) :
    (g.addEdgeWithAttributes heap e).NodeMap = g.NodeMap ∧
    (g.addEdgeWithAttributes heap e).IdNameMap = g.IdNameMap ∧
    (g.addEdgeWithAttributes heap e).IdStackMap = g.IdStackMap ∧
    (g.addEdgeWithAttributes heap e).Metadata = g.Metadata := by
  unfold MystGraph.addEdgeWithAttributes
  split
  · exact ⟨rfl, rfl, rfl, rfl⟩
  · split <;> (unfold MystGraph.AddEdge; simp only; split <;> exact ⟨rfl, rfl, rfl, rfl⟩)

theorem SetWeightedLine_nodes (g : WeightedDirectedGraph) (l : Line) (x : Int) :
    x ∈ (g.SetWeightedLine l).nodes ↔ x ∈ g.nodes ∨ x = l.F ∨ x = l.T := by
  unfold WeightedDirectedGraph.SetWeightedLine
  simp only
  rw [mem_AddNode_nodes, mem_AddNode_nodes]
  tauto

theorem AddEdge_Graph (g : MystGraph) (heap : Heap) (e : Edge) (w : Weight) :
    (g.AddEdge heap e w).Graph = g.Graph.SetWeightedLine
      { F := (heap e.Source).GraphID, T := (heap e.Target).GraphID, W := w, UID := 0 } := by
  unfold MystGraph.AddEdge
  simp only
  split <;> rfl

theorem addEdgeWithAttributes_WF (g : MystGraph) (heap : Heap) (e : Edge) (h : g.Graph.WF) :
    (g.addEdgeWithAttributes heap e).Graph.WF := by
  unfold MystGraph.addEdgeWithAttributes
  split
  · exact h
  · split <;> (rw [AddEdge_Graph]; exact SetWeightedLine_WF _ _ h)

theorem addEdgeWithAttributes_nodes (g : MystGraph) (heap : Heap) (e : Edge) (x : Int)
    (hx : x ∈ g.Graph.nodes) : x ∈ (g.addEdgeWithAttributes heap e).Graph.nodes := by
  unfold MystGraph.addEdgeWithAttributes
  split
  · exact hx
  · split <;> (rw [AddEdge_Graph, SetWeightedLine_nodes]; exact Or.inl hx)

theorem addEdges_fields (es : List Edge) : ∀ (g : MystGraph) (heap : Heap),
    (addEdges g heap es).NodeMap = g.NodeMap ∧
    (addEdges g heap es).IdNameMap = g.IdNameMap ∧
    (addEdges g heap es).IdStackMap = g.IdStackMap ∧
    (addEdges g heap es).Metadata = g.Metadata ∧
    (g.Graph.WF → (addEdges g heap es).Graph.WF) ∧
    (∀ x, x ∈ g.Graph.nodes → x ∈ (addEdges g heap es).Graph.nodes) := by
  induction es with
  | nil => intro g heap; exact ⟨rfl, rfl, rfl, rfl, id, fun _ h => h⟩
  | cons e rest ih =>
    intro g heap
    obtain ⟨a1, a2, a3, a4, a5, a6⟩ := ih (g.addEdgeWithAttributes heap e) heap
    obtain ⟨b1, b2, b3, b4⟩ := addEdgeWithAttributes_fields g heap e
    refine ⟨?_, ?_, ?_, ?_, ?_, ?_⟩
    · show (addEdges (g.addEdgeWithAttributes heap e) heap rest).NodeMap = _
      rw [a1, b1]
    · show (addEdges (g.addEdgeWithAttributes heap e) heap rest).IdNameMap = _
      rw [a2, b2]
    · show (addEdges (g.addEdgeWithAttributes heap e) heap rest).IdStackMap = _
      rw [a3, b3]
    · show (addEdges (g.addEdgeWithAttributes heap e) heap rest).Metadata = _
      rw [a4, b4]
    · intro h
      exact a5 (addEdgeWithAttributes_WF g heap e h)
    · intro x hx
      exact a6 x (addEdgeWithAttributes_nodes g heap e x hx)

theorem new_Dense : Dense WeightedDirectedGraph.new 0 := by
  intro i
  simp [WeightedDirectedGraph.new]

theorem NewGraph_ok (md : Metadata) (heap : Heap)
    (hnames : (md.Nodes.map (fun r => (heap r).Name)).Nodup) :
    ∃ g1 heap', addNodes (MystGraph.empty md) heap md.Nodes = (none, g1, heap') ∧
      NewGraph (some md) heap =
        (some { addEdges g1 heap' md.Edges with Metadata :=
            { (addEdges g1 heap' md.Edges).Metadata with
              TotalNodes := (addEdges g1 heap' md.Edges).Graph.nodes.length,
              TotalEdges := (addEdges g1 heap' md.Edges).Graph.edgeCount } },
         none, heap') := by
  obtain ⟨g1, heap', h1, _⟩ := addNodes_ok md.Nodes (MystGraph.empty md) heap 0 new_WF new_Dense
    hnames (fun _ _ => rfl)
  refine ⟨g1, heap', h1, ?_⟩
  simp only [NewGraph, h1]

/-- C1. For a node list with pairwise distinct names `NewGraph` succeeds and
the node at position `i` of the list gets id `i`: its object carries `i`, its
name maps to the copy with id `i`, id `i` maps to its name and is a node of the
routable structure; the registered ids are exactly `0 .. n-1`, and two
different positions have different names and different ids. -/
theorem NewGraph_sequential_ids (md : Metadata) (heap : Heap)
    (hnames : (md.Nodes.map (fun r => (heap r).Name)).Nodup) :
    ∃ g heap', NewGraph (some md) heap = (some g, none, heap') ∧
      (∀ (i : Nat) (r : NodeRef), md.Nodes[i]? = some r →
        heap' r = { heap r with GraphID := (i : Int) } ∧
        g.NodeMap.get (heap r).Name = some { heap r with GraphID := (i : Int) } ∧
        g.IdNameMap.get (i : Int) = some (heap r).Name ∧
        (i : Int) ∈ g.Graph.nodes) ∧
      (∀ id name, g.IdNameMap.get id = some name → 0 ≤ id ∧ id < md.Nodes.length) ∧
      (∀ (i j : Nat) (r r' : NodeRef), md.Nodes[i]? = some r → md.Nodes[j]? = some r' → i ≠ j →
        (heap' r).Name ≠ (heap' r').Name ∧ (heap' r).GraphID ≠ (heap' r').GraphID) := by
  obtain ⟨g1, heap', h1, hwf, hd, hidx, hheap, hnm, hin, hE, hM, hS, hL⟩ :=
    addNodes_ok md.Nodes (MystGraph.empty md) heap 0 new_WF new_Dense hnames (fun _ _ => rfl)
  obtain ⟨g1', heap'', h1', hNG⟩ := NewGraph_ok md heap hnames
  rw [h1] at h1'
  simp only [Prod.mk.injEq, true_and] at h1'
  obtain ⟨rfl, rfl⟩ := h1'
  obtain ⟨a1, a2, a3, a4, a5, a6⟩ := addEdges_fields md.Edges g1 heap'
  refine ⟨_, heap', hNG, ?_, ?_, ?_⟩
  · intro i r hir
    obtain ⟨b1, b2, b3⟩ := hidx i r hir
    simp only [Nat.zero_add] at b1 b2 b3
    refine ⟨b1, ?_, ?_, ?_⟩
    · show (addEdges g1 heap' md.Edges).NodeMap.get _ = _
      rw [a1]; exact b2
    · show (addEdges g1 heap' md.Edges).IdNameMap.get _ = _
      rw [a2]; exact b3
    · show (i : Int) ∈ (addEdges g1 heap' md.Edges).Graph.nodes
      apply a6
      have hlt : i < md.Nodes.length := by
        rcases List.getElem?_eq_some.mp hir with ⟨h, _⟩
        exact h
      exact (hd i).2 (by omega)
  · intro id name hget
    have hget' : (addEdges g1 heap' md.Edges).IdNameMap.get id = some name := hget
    rw [a2] at hget'
    by_contra hneg
    have := hin id (by simp only [Nat.zero_add, Nat.cast_zero]; exact hneg)
    rw [this] at hget'
    exact Option.noConfusion hget'
  · intro i j r r' hi hj hij
    obtain ⟨b1, _, _⟩ := hidx i r hi
    obtain ⟨c1, _, _⟩ := hidx j r' hj
    rw [b1, c1]
    simp only [Nat.zero_add]
    refine ⟨?_, by omega⟩
    intro heq
    have hi' := List.getElem?_eq_some.mp hi
    have hj' := List.getElem?_eq_some.mp hj
    obtain ⟨hil, hie⟩ := hi'
    obtain ⟨hjl, hje⟩ := hj'
    have hil' : i < (md.Nodes.map (fun r => (heap r).Name)).length := by simpa using hil
    have hjl' : j < (md.Nodes.map (fun r => (heap r).Name)).length := by simpa using hjl
    have := (@List.Nodup.getElem_inj_iff _ _ hnames i hil' j hjl').mp
      (by simp only [List.getElem_map, hie, hje]; exact heq)
    exact hij this

/-- Witness of `NewGraph_sequential_ids`: the nodes A, B, C get the ids 0, 1, 2. -/
theorem NewGraph_sequential_ids_witness :
    (scenarioMetadata.Nodes.map (fun r => (exHeap r).Name)).Nodup ∧
    ∃ g heap', NewGraph (some scenarioMetadata) exHeap = (some g, none, heap') ∧
      (heap' 2).GraphID = 2 :=
  ⟨by decide, by
    obtain ⟨g, heap', h1, h2, _⟩ :=
      NewGraph_sequential_ids scenarioMetadata exHeap (by decide)
    exact ⟨g, heap', h1, by rw [(h2 2 2 rfl).1]; rfl⟩⟩

/-- Witness of `AddNode_contract`: adding B to the empty store gives it id 0. -/
theorem AddNode_contract_witness :
    (MystGraph.empty scenarioMetadata).Graph.WF ∧
    ((MystGraph.empty scenarioMetadata).AddNode exHeap 1).1 = none ∧
    (((MystGraph.empty scenarioMetadata).AddNode exHeap 1).2.2 1).GraphID = 0 :=
  ⟨by decide,
   ((AddNode_contract (MystGraph.empty scenarioMetadata) exHeap 1 (by decide)).2.2 rfl).1,
   by rw [((AddNode_contract (MystGraph.empty scenarioMetadata) exHeap 1
      (by decide)).2.2 rfl).2.1]; rfl⟩

theorem NewGraph_fail (md : Metadata) (heap : Heap)
    (hnames : ¬ (md.Nodes.map (fun r => (heap r).Name)).Nodup) :
    (NewGraph (some md) heap).1 = none ∧
    (NewGraph (some md) heap).2.1 =
      some (GoError.wrapf "failed to add node: %w" GoError.NodeAlreadyExistsErr) := by
  have h := addNodes_fail md.Nodes (MystGraph.empty md) heap (fun hc => hnames hc.1)
  unfold NewGraph
  simp only
  split
  · rename_i err g' heap' heq
    rw [heq] at h
    simp only [Option.some.injEq] at h
    subst h
    exact ⟨rfl, rfl⟩
  · rename_i g' heap' heq
    rw [heq] at h
    exact Option.noConfusion h

/-- C7 (as stated, refuted). In `unlistedMetadata` the edge A -> X has a target
object that is not in the node list, yet `NewGraph` returns a graph and a nil
error; the edge is stored under the id 0 that the object X carries. -/
theorem NewGraph_unlisted_edge_accepted :
    (∃ e ∈ unlistedMetadata.Edges, e.Target ∉ unlistedMetadata.Nodes) ∧
    (NewGraph (some unlistedMetadata) exHeap).2.1 = none ∧
    ((NewGraph (some unlistedMetadata) exHeap).1.map
      (fun g => (g.sideTable 0 0, g.Graph.HasEdgeFromTo 0 0))) =
      some (some [⟨[], 0, 3, 0⟩], true) := by
  decide

/-- C7 (amended). `NewGraph` does not look at the end points of the edges: on
non-nil metadata it returns an error if and only if two listed nodes share a
name, it returns a graph exactly when it returns no error, and its error is
the one it returns for the same node list without any edge. -/
theorem NewGraph_error_iff_duplicate_name (md : Metadata) (heap : Heap) :
    ((NewGraph (some md) heap).2.1 ≠ none ↔
      ¬ (md.Nodes.map (fun r => (heap r).Name)).Nodup) ∧
    ((NewGraph (some md) heap).1.isSome = true ↔ (NewGraph (some md) heap).2.1 = none) ∧
    (NewGraph (some md) heap).2.1 = (NewGraph (some { md with Edges := [] }) heap).2.1 := by
  by_cases hnames : (md.Nodes.map (fun r => (heap r).Name)).Nodup
  · obtain ⟨g1, heap', _, h2⟩ := NewGraph_ok md heap hnames
    obtain ⟨g1', heap'', _, h3⟩ := NewGraph_ok { md with Edges := [] } heap hnames
    rw [h2, h3]
    simp [hnames]
  · obtain ⟨h1, h2⟩ := NewGraph_fail md heap hnames
    obtain ⟨h3, h4⟩ := NewGraph_fail { md with Edges := [] } heap hnames
    rw [h1, h2, h4]
    simp [hnames]

/-- C8. `NewGraph(nil)` returns an error; a node list in which two nodes share
a name gives an error wrapping `NodeAlreadyExistsErr`; whenever the error is
non-nil the returned graph is nil; and for pairwise distinct names with edges
over listed nodes it returns a graph and a nil error. -/
theorem NewGraph_error_cases :
    (∀ heap : Heap, (NewGraph none heap).1 = none ∧
      (NewGraph none heap).2.1 = some (GoError.errorf "metadata cannot be nil")) ∧
    (∀ (md : Metadata) (heap : Heap), ¬ (md.Nodes.map (fun r => (heap r).Name)).Nodup →
      (NewGraph (some md) heap).1 = none ∧
      ∃ err, (NewGraph (some md) heap).2.1 = some err ∧
        err.Is GoError.NodeAlreadyExistsErr = true) ∧
    (∀ (md : Option Metadata) (heap : Heap),
      (NewGraph md heap).2.1 ≠ none → (NewGraph md heap).1 = none) ∧
    (∀ (md : Metadata) (heap : Heap), (md.Nodes.map (fun r => (heap r).Name)).Nodup →
      (∀ e ∈ md.Edges, e.Source ∈ md.Nodes ∧ e.Target ∈ md.Nodes) →
      (NewGraph (some md) heap).2.1 = none ∧ (NewGraph (some md) heap).1.isSome = true) := by
  refine ⟨fun heap => ⟨rfl, rfl⟩, ?_, ?_, ?_⟩
  · intro md heap hnames
    obtain ⟨h1, h2⟩ := NewGraph_fail md heap hnames
    refine ⟨h1, _, h2, ?_⟩
    simp [GoError.Is]
  · intro md heap herr
    cases md with
    | none => rfl
    | some md =>
      by_cases hnames : (md.Nodes.map (fun r => (heap r).Name)).Nodup
      · obtain ⟨g1, heap', _, h2⟩ := NewGraph_ok md heap hnames
        rw [h2] at herr
        exact absurd rfl herr
      · exact (NewGraph_fail md heap hnames).1
  · intro md heap hnames _
    obtain ⟨g1, heap', _, h2⟩ := NewGraph_ok md heap hnames
    rw [h2]
    exact ⟨rfl, rfl⟩

/-- C5 (failing input). The edge list holds the disabled edge A -> B twice, with
the same attributes and transitivity id; the side table of the pair then has
two entries, not one: `addDisabledEdge` appends without the duplicate check
that `AddEdge` makes. The same list with an ordinary edge has one entry. -/
theorem disabled_edge_twice_two_entries :
    ((NewGraph (some twiceDisabledMetadata) exHeap).1.map (fun g => g.sideTable 0 1)) =
      some (some [⟨[Disabled], 0, 1, 0⟩, ⟨[Disabled], 0, 1, 0⟩]) ∧
    ((storeOf [⟨[], 0, 1, 0⟩, ⟨[], 0, 1, 0⟩]).1.sideTable 0 1) =
      some [⟨[], 0, 1, 0⟩] := by
  decide

/-- On attribute lists that repeat an attribute, which the producer of the
input (`getEdgeAttributes`) never builds, the comparison by length and
containment is not the comparison of sets. The disabled edge A -> B with
attributes `[Disabled, IntraAge]` is followed by the routable edge A -> B with
attributes `[IntraAge, IntraAge]`: `areAttributesEqual` takes the second for a
duplicate of the first, so the routable structure has the edge 0 -> 1 while
every side-table edge of the pair carries `Disabled`. -/
theorem routable_edge_without_side_table_entry :
    ((NewGraph (some shadowedMetadata) exHeap).1.map
      (fun g => (g.Graph.HasEdgeFromTo 0 1, g.sideTable 0 1))) =
      some (true, some [⟨[Disabled, IntraAge], 0, 1, 0⟩]) ∧
    areAttributesEqual [Disabled, IntraAge] [IntraAge, IntraAge] = true := by
  decide

/-- On attribute lists that repeat an attribute, which the producer of the
input (`getEdgeAttributes`) never builds, the duplicate test of `AddEdge`
depends on the argument order. The side table holds A -> B with attributes
`[IntraAge, Backtracking]`; `AddEdge` of A -> B with `[IntraAge, IntraAge]` and
the same transitivity id leaves the side table unchanged although the
attribute sets differ. In the other insertion order the list grows, and an
edge with `[IntraAge, IntraAge]` added after one with `[IntraAge]` (the same
set) makes the list grow too. -/
theorem AddEdge_duplicate_check_one_sided :
    (((storeOf [⟨[IntraAge, Backtracking], 0, 1, 0⟩]).1.AddEdge
        (storeOf [⟨[IntraAge, Backtracking], 0, 1, 0⟩]).2
        ⟨[IntraAge, IntraAge], 0, 1, 0⟩ (Weight.fin 1)).EdgeMap =
      (storeOf [⟨[IntraAge, Backtracking], 0, 1, 0⟩]).1.EdgeMap) ∧
    (((storeOf [⟨[IntraAge, IntraAge], 0, 1, 0⟩]).1.AddEdge
        (storeOf [⟨[IntraAge, IntraAge], 0, 1, 0⟩]).2
        ⟨[IntraAge, Backtracking], 0, 1, 0⟩ Weight.inf).sideTable 0 1 =
      some [⟨[IntraAge, IntraAge], 0, 1, 0⟩, ⟨[IntraAge, Backtracking], 0, 1, 0⟩]) ∧
    (((storeOf [⟨[IntraAge], 0, 1, 0⟩]).1.AddEdge
        (storeOf [⟨[IntraAge], 0, 1, 0⟩]).2
        ⟨[IntraAge, IntraAge], 0, 1, 0⟩ (Weight.fin 1)).sideTable 0 1 =
      some [⟨[IntraAge], 0, 1, 0⟩, ⟨[IntraAge, IntraAge], 0, 1, 0⟩]) := by
  decide

/-- C4 (as stated, refuted). The ordinary edge A -> B is followed by a
backtracking edge A -> B: the routable structure holds one line for the pair,
with weight `+Inf`, so the ordinary edge does not have weight 1.0 there. -/
theorem ordinary_edge_weight_overwritten :
    (∃ e ∈ mixedWeightMetadata.Edges, e.IsOfType Disabled = false ∧
      e.IsOfType Backtracking = false ∧ e.Source = 0 ∧ e.Target = 1) ∧
    ((NewGraph (some mixedWeightMetadata) exHeap).1.map (fun g => g.Graph.Edge 0 1)) =
      some (some Weight.inf) ∧
    ((NewGraph (some mixedWeightMetadata) exHeap).2.2 0).GraphID = 0 ∧
    ((NewGraph (some mixedWeightMetadata) exHeap).2.2 1).GraphID = 1 := by
  decide

theorem filter_setLine (ls : List Line) (l : Line) (s t : Int)
    (huid : ∀ x ∈ ls, x.UID = 0) (hl : l.UID = 0)
    (hkeys : (ls.map (fun l => (l.F, l.T, l.UID))).Nodup) :
    (setLine ls l).filter (fun x => x.F = s ∧ x.T = t) =
      if l.F = s ∧ l.T = t then [l] else ls.filter (fun x => x.F = s ∧ x.T = t) := by
  induction ls with
  | nil =>
    unfold setLine
    by_cases h : l.F = s ∧ l.T = t
    · simp [h]
    · simp [h]
  | cons x rest ih =>
    have hx0 : x.UID = 0 := huid x (List.mem_cons_self _ _)
    rw [List.map_cons, List.nodup_cons] at hkeys
    have ih' := ih (fun y hy => huid y (List.mem_cons_of_mem _ hy)) hkeys.2
    unfold setLine
    by_cases hk : x.F = l.F ∧ x.T = l.T ∧ x.UID = l.UID
    · rw [if_pos hk]
      by_cases h : l.F = s ∧ l.T = t
      · rw [if_pos h]
        have hrest : rest.filter (fun x => x.F = s ∧ x.T = t) = [] := by
          rw [List.filter_eq_nil_iff]
          intro y hy hyst
          simp only [decide_eq_true_eq] at hyst
          apply hkeys.1
          rw [List.mem_map]
          refine ⟨y, hy, ?_⟩
          have hy0 : y.UID = 0 := huid y (List.mem_cons_of_mem _ hy)
          simp only [Prod.mk.injEq]
          refine ⟨?_, ?_, ?_⟩
          · rw [hyst.1, hk.1, h.1]
          · rw [hyst.2, hk.2.1, h.2]
          · rw [hy0, hx0]
        rw [List.filter_cons]
        simp only [h, and_self, decide_True, if_true, hrest]
      · rw [if_neg h]
        have hx : ¬ (x.F = s ∧ x.T = t) := by
          intro hx
          exact h ⟨hk.1 ▸ hx.1, hk.2.1 ▸ hx.2⟩
        rw [List.filter_cons, List.filter_cons]
        simp only [h, hx, decide_False, Bool.false_eq_true, if_false]
    · rw [if_neg hk, List.filter_cons, ih']
      by_cases h : l.F = s ∧ l.T = t
      · have hx : ¬ (x.F = s ∧ x.T = t) := by
          intro hx
          exact hk ⟨hx.1.trans h.1.symm, hx.2.trans h.2.symm, hx0.trans hl.symm⟩
        simp only [h, hx, and_self, decide_False, Bool.false_eq_true, if_false, if_true]
      · simp only [if_neg h]
        rw [List.filter_cons]

/-! The weight of the pair after `SetWeightedLine` with line id 0. -/
theorem Edge_SetWeightedLine (g : WeightedDirectedGraph) (l : Line) (s t : Int)
    (hwf : g.WF) (huid : ∀ x ∈ g.lines, x.UID = 0) (hl : l.UID = 0) :
    (g.SetWeightedLine l).Edge s t =
      if l.F = s ∧ l.T = t then some l.W else g.Edge s t := by
  unfold WeightedDirectedGraph.Edge WeightedDirectedGraph.WeightedLines
    WeightedDirectedGraph.SetWeightedLine
  simp only [AddNode_lines]
  rw [filter_setLine g.lines l s t huid hl hwf.2.2.2.2.2.2]
  by_cases h : l.F = s ∧ l.T = t
  · rw [if_pos h, if_pos h]
    simp only [List.foldl_cons, List.foldl_nil]
    cases l.W <;> simp [Weight.add]
  · rw [if_neg h, if_neg h]

theorem SetWeightedLine_uid (g : WeightedDirectedGraph) (l : Line)
    (huid : ∀ x ∈ g.lines, x.UID = 0) (hl : l.UID = 0) :
    ∀ x ∈ (g.SetWeightedLine l).lines, x.UID = 0 := by
  intro x hx
  unfold WeightedDirectedGraph.SetWeightedLine at hx
  simp only [AddNode_lines] at hx
  rcases mem_setLine _ _ _ hx with h | h
  · exact huid x h
  · rw [h]; exact hl

theorem addEdgeWithAttributes_Graph (g : MystGraph) (heap : Heap) (e : Edge) :
    (g.addEdgeWithAttributes heap e).Graph =
      if e.IsOfType Disabled = true then g.Graph
      else g.Graph.SetWeightedLine
        { F := (heap e.Source).GraphID, T := (heap e.Target).GraphID,
          W := edgeWeight e, UID := 0 } := by
  unfold MystGraph.addEdgeWithAttributes edgeWeight
  split
  · rfl
  · split <;> rw [AddEdge_Graph]

theorem addEdges_Edge (es : List Edge) : ∀ (g : MystGraph) (heap : Heap) (s t : Int),
    g.Graph.WF → (∀ x ∈ g.Graph.lines, x.UID = 0) →
    (∀ x ∈ (addEdges g heap es).Graph.lines, x.UID = 0) ∧
    (addEdges g heap es).Graph.Edge s t =
      match (routableFor heap es s t).getLast? with
      | some e => some (edgeWeight e)
      | none => g.Graph.Edge s t := by
  induction es with
  | nil =>
    intro g heap s t _ huid
    exact ⟨huid, rfl⟩
  | cons e rest ih =>
    intro g heap s t hwf huid
    have hG := addEdgeWithAttributes_Graph g heap e
    have hwf1 := addEdgeWithAttributes_WF g heap e hwf
    have huid1 : ∀ x ∈ (g.addEdgeWithAttributes heap e).Graph.lines, x.UID = 0 := by
      rw [hG]
      split
      · exact huid
      · exact SetWeightedLine_uid _ _ huid rfl
    obtain ⟨a1, a2⟩ := ih (g.addEdgeWithAttributes heap e) heap s t hwf1 huid1
    refine ⟨a1, ?_⟩
    show (addEdges (g.addEdgeWithAttributes heap e) heap rest).Graph.Edge s t = _
    rw [a2]
    unfold routableFor
    rw [List.filter_cons]
    by_cases hm : (!(e.IsOfType Disabled) &&
        (decide ((heap e.Source).GraphID = s) && decide ((heap e.Target).GraphID = t))) = true
    · rw [if_pos hm]
      have hm' := hm
      simp only [Bool.and_eq_true, Bool.not_eq_true', decide_eq_true_eq] at hm'
      cases hr : (List.filter (fun e => !(e.IsOfType Disabled) &&
          (decide ((heap e.Source).GraphID = s) && decide ((heap e.Target).GraphID = t)))
          rest) with
      | nil =>
        simp only [List.getLast?_nil, List.getLast?_singleton]
        rw [hG, if_neg (by simp [hm'.1]), Edge_SetWeightedLine _ _ _ _ hwf huid rfl]
        simp [hm'.2.1, hm'.2.2]
      | cons y ys =>
        obtain ⟨z, hz⟩ : ∃ z, (y :: ys).getLast? = some z :=
          ⟨_, List.getLast?_eq_getLast _ (by simp)⟩
        rw [List.getLast?_cons_cons, hz]
    · rw [if_neg hm]
      cases hr : (List.filter (fun e => !(e.IsOfType Disabled) &&
          (decide ((heap e.Source).GraphID = s) && decide ((heap e.Target).GraphID = t)))
          rest).getLast? with
      | some y => rfl
      | none =>
        simp only
        rw [hG]
        split
        · rfl
        · rename_i hd
          rw [Edge_SetWeightedLine _ _ _ _ hwf huid rfl]
          have : ¬ ((heap e.Source).GraphID = s ∧ (heap e.Target).GraphID = t) := by
            intro hst
            apply hm
            simp [hd, hst.1, hst.2]
          simp only [this, if_false]

/-- C4 (amended). For a graph built by `NewGraph` the routable structure holds,
for each ordered pair of ids, the weight of the last input edge of that pair
that does not carry `Disabled`: `+Inf` if that edge carries `Backtracking`,
1.0 otherwise, and no edge if there is none. Hence an input edge without
`Disabled` has the weight of its own kind whenever all such edges of its pair
are of one kind. -/
theorem NewGraph_edge_weight (md : Metadata) (heap : Heap)
    (hnames : (md.Nodes.map (fun r => (heap r).Name)).Nodup) :
    ∃ g heap', NewGraph (some md) heap = (some g, none, heap') ∧
      (∀ s t : Int, g.Graph.Edge s t =
        ((routableFor heap' md.Edges s t).getLast?).map edgeWeight) ∧
      (∀ e ∈ md.Edges, e.IsOfType Disabled = false →
        (∀ e' ∈ routableFor heap' md.Edges (heap' e.Source).GraphID (heap' e.Target).GraphID,
          edgeWeight e' = edgeWeight e) →
        g.Graph.Edge (heap' e.Source).GraphID (heap' e.Target).GraphID =
          some (edgeWeight e)) := by
  obtain ⟨g1, heap', h1, hwf, hd, hidx, hheap, hnm, hin, hE, hM, hS, hL⟩ :=
    addNodes_ok md.Nodes (MystGraph.empty md) heap 0 new_WF new_Dense hnames (fun _ _ => rfl)
  obtain ⟨g1', heap'', h1', hNG⟩ := NewGraph_ok md heap hnames
  rw [h1] at h1'
  simp only [Prod.mk.injEq, true_and] at h1'
  obtain ⟨rfl, rfl⟩ := h1'
  have hl0 : g1.Graph.lines = [] := hL
  have hmain : ∀ s t : Int, (addEdges g1 heap' md.Edges).Graph.Edge s t =
      ((routableFor heap' md.Edges s t).getLast?).map edgeWeight := by
    intro s t
    rw [(addEdges_Edge md.Edges g1 heap' s t hwf (by rw [hl0]; simp)).2]
    cases (routableFor heap' md.Edges s t).getLast? with
    | some e => rfl
    | none =>
      simp only [Option.map_none']
      unfold WeightedDirectedGraph.Edge WeightedDirectedGraph.WeightedLines
      rw [hl0]
      rfl
  refine ⟨_, heap', hNG, hmain, ?_⟩
  intro e he hdis hall
  show (addEdges g1 heap' md.Edges).Graph.Edge _ _ = _
  rw [hmain]
  have hmem : e ∈ routableFor heap' md.Edges (heap' e.Source).GraphID
      (heap' e.Target).GraphID := by
    unfold routableFor
    rw [List.mem_filter]
    exact ⟨he, by simp [hdis]⟩
  have hne : routableFor heap' md.Edges (heap' e.Source).GraphID
      (heap' e.Target).GraphID ≠ [] := List.ne_nil_of_mem hmem
  rw [List.getLast?_eq_getLast _ hne]
  simp only [Option.map_some']
  rw [hall _ (List.getLast_mem hne)]

/-- Witness of `NewGraph_edge_weight`: in the scenario graph the pair (0, 2) has
weight `+Inf` and the pair (0, 1) weight 1.0. -/
theorem NewGraph_edge_weight_witness :
    (scenarioMetadata.Nodes.map (fun r => (exHeap r).Name)).Nodup ∧
    ∃ g heap', NewGraph (some scenarioMetadata) exHeap = (some g, none, heap') ∧
      g.Graph.Edge 0 2 = ((routableFor heap' scenarioMetadata.Edges 0 2).getLast?).map
        edgeWeight :=
  ⟨by decide, by
    obtain ⟨g, heap', h1, h2, _⟩ := NewGraph_edge_weight scenarioMetadata exHeap (by decide)
    exact ⟨g, heap', h1, h2 0 2⟩⟩

theorem scenarioGraph_built :
    (NewGraph (some scenarioMetadata) exHeap).1 = some scenarioGraph ∧
    (NewGraph (some scenarioMetadata) exHeap).2.1 = none := by
  decide

set_option maxRecDepth 100000 in
/-- C9 (failing input). In the graph with the ordinary edges A -> B, B -> C and
the backtracking edge A -> C (ids 0, 1, 2), which is `scenarioGraph`, the
query `ComputeShortestPath(0, 2, nil)` returns the path `[0, 2]` with
distance 1 and a nil error: the direct backtracking edge, not `[0, 1, 2]` with
distance 2. The routable structure does hold the weight `+Inf` for the pair
(0, 2), but Dijkstra runs with the uniform cost of 1 per edge. -/
theorem scenario_returns_backtracking_edge :
    (NewGraph (some scenarioMetadata) exHeap).1 = some scenarioGraph ∧
    scenarioGraph.Graph.Edge 0 2 = some Weight.inf ∧
    scenarioGraph.ComputeShortestPath (NewGraph (some scenarioMetadata) exHeap).2.2 0 2 [] =
      some (some { From := 0, To := 2, Distance := Weight.fin 1, Path := [0, 2] }, none) := by
  refine ⟨by decide, by decide, by decide⟩

theorem distOf_set (p : Shortest) (v : Int) (w : Weight) (k x : Int) :
    (p.set v w k).distOf x = if v = x then w else p.distOf x := by
  unfold Shortest.distOf Shortest.set
  simp only
  rw [GoMap.get_set]
  split <;> rfl

theorem nextOf_set (p : Shortest) (v : Int) (w : Weight) (k x : Int) :
    (p.set v w k).nextOf x = if v = x then some k else p.nextOf x := by
  unfold Shortest.nextOf Shortest.set
  simp only
  rw [GoMap.get_set]
  split <;> rfl

theorem sum_update (l : List Int) (hnd : l.Nodup) (v : Int) (hv : v ∈ l) (f f' : Int → Nat)
    (hff : ∀ x, x ≠ v → f' x = f x) :
    (l.map f').sum + f v = (l.map f).sum + f' v := by
  induction l with
  | nil => simp at hv
  | cons a rest ih =>
    rw [List.nodup_cons] at hnd
    simp only [List.map_cons, List.sum_cons]
    by_cases hav : a = v
    · subst hav
      have hrest : rest.map f' = rest.map f := by
        apply List.map_congr_left
        intro x hx
        exact hff x (fun h => hnd.1 (h ▸ hx))
      rw [hrest]
      omega
    · have hv' : v ∈ rest := by
        rcases List.mem_cons.mp hv with h | h
        · exact absurd h.symm hav
        · exact h
      have := ih hnd.2 hv'
      rw [hff a hav]
      omega

theorem sum_le_length_mul (l : List Int) (f : Int → Nat) (b : Nat) (hb : ∀ x ∈ l, f x ≤ b) :
    (l.map f).sum ≤ l.length * b := by
  induction l with
  | nil => simp
  | cons a rest ih =>
    simp only [List.map_cons, List.sum_cons, List.length_cons]
    have h1 := hb a (List.mem_cons_self _ _)
    have h2 := ih (fun x hx => hb x (List.mem_cons_of_mem _ hx))
    rw [Nat.add_mul]
    omega

theorem le_sum_of_mem (l : List Int) (f : Int → Nat) (v : Int) (hv : v ∈ l) :
    f v ≤ (l.map f).sum := by
  induction l with
  | nil => simp at hv
  | cons a rest ih =>
    simp only [List.map_cons, List.sum_cons]
    rcases List.mem_cons.mp hv with h | h
    · subst h; omega
    · have := ih h
      omega

theorem finCount_le (p : Shortest) : p.finCount ≤ p.nodes.length := by
  unfold Shortest.finCount
  have := sum_le_length_mul p.nodes (fun v => if (p.distOf v).isInf then 0 else 1) 1
    (by intro x _; simp only; split <;> omega)
  omega

theorem finCount_lt_of_inf (p : Shortest) (hnd : p.nodes.Nodup) (v : Int) (hv : v ∈ p.nodes)
    (hinf : p.distOf v = Weight.inf) : p.finCount + 1 ≤ p.nodes.length := by
  unfold Shortest.finCount
  have h1 := sum_update p.nodes hnd v hv (fun v => if (p.distOf v).isInf then 0 else 1)
    (fun x => if x = v then 1 else if (p.distOf x).isInf then 0 else 1)
    (by intro x hx; simp [hx])
  have h2 := sum_le_length_mul p.nodes
    (fun x => if x = v then 1 else if (p.distOf x).isInf then 0 else 1) 1
    (by intro x _; simp only; split
        · omega
        · split <;> omega)
  have hfv : (if (p.distOf v).isInf = true then 0 else 1) = 0 := by
    rw [hinf]; rfl
  simp only [if_true] at h1
  rw [hfv] at h1
  omega

theorem mem_From (g : WeightedDirectedGraph) (u v : Int) :
    v ∈ g.From u ↔ ∃ l ∈ g.lines, l.F = u ∧ l.T = v := by
  unfold WeightedDirectedGraph.From
  rw [List.mem_dedup, List.mem_map]
  constructor
  · rintro ⟨l, hl, rfl⟩
    rw [List.mem_filter] at hl
    exact ⟨l, hl.1, by simpa using hl.2, rfl⟩
  · rintro ⟨l, hl, hF, hT⟩
    exact ⟨l, List.mem_filter.mpr ⟨hl, by simpa using hF⟩, hT⟩

theorem HasEdgeFromTo_iff (g : WeightedDirectedGraph) (u v : Int) :
    g.HasEdgeFromTo u v = true ↔ ∃ l ∈ g.lines, l.F = u ∧ l.T = v := by
  unfold WeightedDirectedGraph.HasEdgeFromTo WeightedDirectedGraph.WeightedLines
  constructor
  · intro h
    cases hf : g.lines.filter (fun l => decide (l.F = u ∧ l.T = v)) with
    | nil => rw [hf] at h; simp at h
    | cons l rest =>
      have hl : l ∈ g.lines.filter (fun l => decide (l.F = u ∧ l.T = v)) := by
        rw [hf]; exact List.mem_cons_self _ _
      rw [List.mem_filter] at hl
      exact ⟨l, hl.1, by simpa using hl.2⟩
  · rintro ⟨l, hl, hF, hT⟩
    have hmem : l ∈ g.lines.filter (fun l => decide (l.F = u ∧ l.T = v)) :=
      List.mem_filter.mpr ⟨hl, by simp [hF, hT]⟩
    cases hf : g.lines.filter (fun l => decide (l.F = u ∧ l.T = v)) with
    | nil => rw [hf] at hmem; simp at hmem
    | cons l rest => simp

theorem Edge_isSome_iff (g : WeightedDirectedGraph) (u v : Int) :
    (g.Edge u v).isSome = true ↔ g.HasEdgeFromTo u v = true := by
  unfold WeightedDirectedGraph.Edge WeightedDirectedGraph.HasEdgeFromTo
  cases hf : g.WeightedLines u v with
  | nil => simp
  | cons l rest => simp

theorem UniformCost_of_mem_From (g : MystGraph) (k v : Int) (hv : v ∈ g.From k) :
    UniformCost g k v = (if k = v then Weight.fin 0 else Weight.fin 1, true) := by
  unfold UniformCost
  by_cases h : k = v
  · simp [h]
  · have : (g.Edge k v).isSome = true := by
      unfold MystGraph.Edge
      rw [Edge_isSome_iff, HasEdgeFromTo_iff]
      exact (mem_From _ _ _).mp hv
    simp [h, this]

theorem mem_nodes_of_mem_From (g : MystGraph) (hwf : g.Graph.WF) (k v : Int)
    (hv : v ∈ g.From k) : v ∈ g.Graph.nodes := by
  obtain ⟨l, hl, _, hT⟩ := (mem_From _ _ _).mp hv
  exact hT ▸ (hwf.2.1 l hl).2

theorem Weight.lt_fin_iff (a : Nat) (w : Weight) :
    Weight.lt (Weight.fin a) w = true ↔ w = Weight.inf ∨ ∃ b, w = Weight.fin b ∧ a < b := by
  cases w with
  | inf => simp [Weight.lt]
  | fin b => simp [Weight.lt]

theorem relax_unchanged_or_set (g : MystGraph) (hwf : g.Graph.WF) (s k v : Int)
    (p : Shortest) (Q : DistQueue) (hinv : TreeInv g s p) (hv : v ∈ g.From k) :
    relax g k (p, Q) v = some (p, Q) ∨
    ∃ dk, k ≠ v ∧ p.distOf k = Weight.fin dk ∧
      (p.distOf v = Weight.inf ∨ ∃ d, p.distOf v = Weight.fin d ∧ dk + 1 < d) ∧
      relax g k (p, Q) v =
        some (p.set v (Weight.fin (dk + 1)) k, Q ++ [(v, Weight.fin (dk + 1))]) := by
  obtain ⟨_, hnodes, _, _, _, _⟩ := hinv
  have hvn : v ∈ p.nodes := hnodes ▸ mem_nodes_of_mem_From g hwf k v hv
  unfold relax
  simp only [hvn, if_true]
  rw [UniformCost_of_mem_From g k v hv]
  simp only
  by_cases hkv : k = v
  · left
    subst hkv
    simp only [if_true]
    cases hd : p.distOf k with
    | inf => simp [Weight.add, Weight.lt]
    | fin d => simp [Weight.add, Weight.lt]
  · simp only [hkv, if_false]
    cases hd : p.distOf k with
    | inf =>
      left
      simp [Weight.add, Weight.lt]
    | fin dk =>
      simp only [Weight.add]
      by_cases hlt : Weight.lt (Weight.fin (dk + 1)) (p.distOf v) = true
      · right
        refine ⟨dk, hkv, rfl, ?_, ?_⟩
        · exact (Weight.lt_fin_iff _ _).mp hlt
        · rw [if_pos hlt]
      · left
        rw [if_neg hlt]

theorem relax_inv (g : MystGraph) (hwf : g.Graph.WF) (s k v : Int)
    (p : Shortest) (Q : DistQueue) (hinv : TreeInv g s p) (hv : v ∈ g.From k) :
    ∃ p' Q', relax g k (p, Q) v = some (p', Q') ∧ TreeInv g s p' ∧
      p'.potential g.Graph.nodes.length + Q'.length ≤
        p.potential g.Graph.nodes.length + Q.length := by
  rcases relax_unchanged_or_set g hwf s k v p Q hinv hv with h | ⟨dk, hkv, hdk, hold, h⟩
  · exact ⟨p, Q, h, hinv, le_refl _⟩
  · obtain ⟨hsrc, hnodes, h0, hpred, hmem, hcnt⟩ := hinv
    have hvn : v ∈ p.nodes := hnodes ▸ mem_nodes_of_mem_From g hwf k v hv
    have hnd : p.nodes.Nodup := hnodes ▸ hwf.1
    have hvs : v ≠ s := by
      intro hvs
      subst hvs
      rw [h0] at hold
      rcases hold with hold | ⟨d, hd, hlt⟩
      · exact Weight.noConfusion hold
      · simp only [Weight.fin.injEq] at hd
        omega
    have hfc : p.finCount ≤ (p.set v (Weight.fin (dk + 1)) k).finCount ∧
        (p.distOf v = Weight.inf →
          (p.set v (Weight.fin (dk + 1)) k).finCount = p.finCount + 1) := by
      have hs := sum_update p.nodes hnd v hvn
        (fun x => if (p.distOf x).isInf then 0 else 1)
        (fun x => if ((p.set v (Weight.fin (dk + 1)) k).distOf x).isInf then 0 else 1)
        (by intro x hx; simp only [distOf_set, Ne.symm hx, if_false])
      have hnew : (if ((p.set v (Weight.fin (dk + 1)) k).distOf v).isInf = true
          then 0 else 1) = 1 := by
        rw [distOf_set]; simp [Weight.isInf]
      simp only at hs
      rw [hnew] at hs
      unfold Shortest.finCount
      show _ ≤ (List.map _ p.nodes).sum ∧ (_ → (List.map _ p.nodes).sum = _)
      constructor
      · have : (if (p.distOf v).isInf = true then 0 else 1) ≤ 1 := by split <;> omega
        omega
      · intro hinf
        have : (if (p.distOf v).isInf = true then 0 else 1) = 0 := by rw [hinf]; rfl
        omega
    refine ⟨_, _, h, ?_, ?_⟩
    · -- the invariant
      refine ⟨hsrc, hnodes, ?_, ?_, ?_, ?_⟩
      · rw [distOf_set, if_neg hvs]; exact h0
      · intro x d hx hxs
        rw [distOf_set] at hx
        by_cases hvx : v = x
        · subst hvx
          rw [if_pos rfl] at hx
          simp only [Weight.fin.injEq] at hx
          refine ⟨k, dk, ?_, hv, ?_, by omega⟩
          · rw [nextOf_set, if_pos rfl]
          · rw [distOf_set, if_neg (Ne.symm hkv)]; exact hdk
        · rw [if_neg hvx] at hx
          obtain ⟨k', dk', a1, a2, a3, a4⟩ := hpred x d hx hxs
          by_cases hvk : v = k'
          · subst hvk
            refine ⟨v, dk + 1, ?_, a2, ?_, ?_⟩
            · rw [nextOf_set, if_neg hvx]; exact a1
            · rw [distOf_set, if_pos rfl]
            · rcases hold with hold | ⟨d', hd', hlt⟩
              · rw [hold] at a3; exact Weight.noConfusion a3
              · rw [hd'] at a3
                simp only [Weight.fin.injEq] at a3
                omega
          · refine ⟨k', dk', ?_, a2, ?_, a4⟩
            · rw [nextOf_set, if_neg hvx]; exact a1
            · rw [distOf_set, if_neg hvk]; exact a3
      · intro x d hx
        show x ∈ p.nodes
        rw [distOf_set] at hx
        by_cases hvx : v = x
        · exact hvx ▸ hvn
        · rw [if_neg hvx] at hx
          exact hmem x d hx
      · intro x d hx
        rw [distOf_set] at hx
        by_cases hvx : v = x
        · rw [if_pos hvx] at hx
          simp only [Weight.fin.injEq] at hx
          have hk := hcnt k dk hdk
          rcases hold with hold | ⟨d', hd', hlt⟩
          · have := hfc.2 hold
            omega
          · have := hcnt v d' hd'
            have := hfc.1
            omega
        · rw [if_neg hvx] at hx
          have := hcnt x d hx
          have := hfc.1
          omega
    · -- the potential
      have hs := sum_update p.nodes hnd v hvn
        (fun x => (p.distOf x).capped g.Graph.nodes.length)
        (fun x => ((p.set v (Weight.fin (dk + 1)) k).distOf x).capped g.Graph.nodes.length)
        (by intro x hx; simp only [distOf_set, Ne.symm hx, if_false])
      have hnew : ((p.set v (Weight.fin (dk + 1)) k).distOf v).capped g.Graph.nodes.length
          = dk + 1 := by
        rw [distOf_set, if_pos rfl]; rfl
      simp only at hs
      rw [hnew] at hs
      have hk := hcnt k dk hdk
      have hold' : dk + 2 ≤ (p.distOf v).capped g.Graph.nodes.length := by
        rcases hold with hold | ⟨d', hd', hlt⟩
        · rw [hold]
          have := finCount_lt_of_inf p hnd v hvn hold
          rw [hnodes] at this
          show dk + 2 ≤ g.Graph.nodes.length
          omega
        · rw [hd']
          show dk + 2 ≤ d'
          omega
      unfold Shortest.potential
      show (List.map _ p.nodes).sum + _ ≤ (List.map _ p.nodes).sum + _
      simp only [List.length_append, List.length_singleton]
      omega

theorem relaxAll_inv (g : MystGraph) (hwf : g.Graph.WF) (s k : Int) (vs : List Int) :
    ∀ (p : Shortest) (Q : DistQueue), TreeInv g s p → (∀ v ∈ vs, v ∈ g.From k) →
    ∃ p' Q', relaxAll g k vs (p, Q) = some (p', Q') ∧ TreeInv g s p' ∧
      p'.potential g.Graph.nodes.length + Q'.length ≤
        p.potential g.Graph.nodes.length + Q.length := by
  induction vs with
  | nil =>
    intro p Q hinv _
    exact ⟨p, Q, rfl, hinv, le_refl _⟩
  | cons v rest ih =>
    intro p Q hinv hvs
    obtain ⟨p1, Q1, h1, hinv1, hle1⟩ :=
      relax_inv g hwf s k v p Q hinv (hvs v (List.mem_cons_self _ _))
    obtain ⟨p2, Q2, h2, hinv2, hle2⟩ :=
      ih p1 Q1 hinv1 (fun x hx => hvs x (List.mem_cons_of_mem _ hx))
    refine ⟨p2, Q2, ?_, hinv2, le_trans hle2 hle1⟩
    unfold relaxAll
    rw [h1]
    exact h2

theorem popMin_length : ∀ (Q : DistQueue) (x : Int × Weight) (Q' : DistQueue),
    popMin Q = some (x, Q') → Q'.length + 1 = Q.length := by
  intro Q
  induction Q with
  | nil => intro x Q' h; simp [popMin] at h
  | cons a rest ih =>
    intro x Q' h
    unfold popMin at h
    cases hr : popMin rest with
    | none =>
      rw [hr] at h
      simp only [Option.some.injEq, Prod.mk.injEq] at h
      cases rest with
      | nil => rw [← h.2]; rfl
      | cons b rest' =>
        unfold popMin at hr
        cases hr' : popMin rest' with
        | none => rw [hr'] at hr; simp at hr
        | some y =>
          rw [hr'] at hr
          simp only at hr
          split at hr <;> simp at hr
    | some y =>
      obtain ⟨y1, y2⟩ := y
      rw [hr] at h
      simp only at h
      have := ih y1 y2 hr
      split at h
      · simp only [Option.some.injEq, Prod.mk.injEq] at h
        rw [← h.2]
        simp only [List.length_cons]
        omega
      · simp only [Option.some.injEq, Prod.mk.injEq] at h
        rw [← h.2]
        rfl

theorem popMin_eq_none : ∀ (Q : DistQueue), popMin Q = none → Q = [] := by
  intro Q h
  cases Q with
  | nil => rfl
  | cons a rest =>
    unfold popMin at h
    cases hr : popMin rest with
    | none => rw [hr] at h; simp at h
    | some y =>
      rw [hr] at h
      simp only at h
      split at h <;> simp at h

theorem dijkstraLoop_terminates (g : MystGraph) (hwf : g.Graph.WF) (s : Int) (fuel : Nat) :
    ∀ (p : Shortest) (Q : DistQueue), TreeInv g s p →
    p.potential g.Graph.nodes.length + Q.length ≤ fuel →
    ∃ p', dijkstraLoop g fuel p Q = some p' ∧ TreeInv g s p' := by
  induction fuel with
  | zero =>
    intro p Q hinv hle
    have hQ : Q = [] := List.length_eq_zero.mp (by omega)
    subst hQ
    exact ⟨p, rfl, hinv⟩
  | succ fuel ih =>
    intro p Q hinv hle
    unfold dijkstraLoop
    cases hpop : popMin Q with
    | none => exact ⟨p, rfl, hinv⟩
    | some r =>
      obtain ⟨mid, Q'⟩ := r
      have hlen := popMin_length Q mid Q' hpop
      simp only
      split
      · exact ih p Q' hinv (by omega)
      · obtain ⟨p1, Q1, h1, hinv1, hle1⟩ :=
          relaxAll_inv g hwf s mid.1 (g.From mid.1) p Q' hinv (fun _ h => h)
        rw [h1]
        exact ih p1 Q1 hinv1 (by omega)

theorem newShortestFrom_inv (g : MystGraph) (s : Int) (hs : s ∈ g.Graph.nodes) :
    TreeInv g s (newShortestFrom s g.Graph.nodes) ∧
    (newShortestFrom s g.Graph.nodes).potential g.Graph.nodes.length + 1 ≤
      g.Graph.nodes.length * g.Graph.nodes.length + 1 := by
  have hd : ∀ v, (newShortestFrom s g.Graph.nodes).distOf v =
      if s = v then Weight.fin 0 else Weight.inf := by
    intro v
    unfold newShortestFrom Shortest.distOf
    simp only [GoMap.get]
    split <;> rfl
  have hfin : ∀ v d, (newShortestFrom s g.Graph.nodes).distOf v = Weight.fin d →
      v = s ∧ d = 0 := by
    intro v d h
    rw [hd] at h
    split at h
    · rename_i hsv
      simp only [Weight.fin.injEq] at h
      exact ⟨hsv.symm, h.symm⟩
    · exact Weight.noConfusion h
  refine ⟨⟨rfl, rfl, ?_, ?_, ?_, ?_⟩, ?_⟩
  · rw [hd, if_pos rfl]
  · intro v d h hvs
    exact absurd (hfin v d h).1 hvs
  · intro v d h
    rw [(hfin v d h).1]
    exact hs
  · intro v d h
    rw [(hfin v d h).2]
    have := le_sum_of_mem g.Graph.nodes
      (fun v => if ((newShortestFrom s g.Graph.nodes).distOf v).isInf then 0 else 1) s hs
    simp only [hd, if_true] at this
    unfold Shortest.finCount
    simp only [hd]
    exact this
  · have := sum_le_length_mul g.Graph.nodes
      (fun v => ((newShortestFrom s g.Graph.nodes).distOf v).capped g.Graph.nodes.length)
      g.Graph.nodes.length
      (by
        intro x _
        simp only [hd]
        split
        · exact Nat.zero_le _
        · exact le_refl _)
    unfold Shortest.potential
    show (List.map _ g.Graph.nodes).sum + 1 ≤ _
    omega

theorem DijkstraFrom_inv (g : MystGraph) (hwf : g.Graph.WF) (s : Int)
    (hs : s ∈ g.Graph.nodes) : ∃ p, DijkstraFrom g s = some p ∧ TreeInv g s p := by
  unfold DijkstraFrom
  have hnode : g.Node s = true := by
    unfold MystGraph.Node WeightedDirectedGraph.hasNode
    simpa using hs
  rw [if_pos hnode]
  obtain ⟨hinv, hpot⟩ := newShortestFrom_inv g s hs
  exact dijkstraLoop_terminates g hwf s _ _ _ hinv (by
    unfold MystGraph.Nodes
    simpa using hpot)

theorem walk_ok (g : MystGraph) (s : Int) (p : Shortest) (hinv : TreeInv g s p) (fuel : Nat) :
    ∀ (cur : Int) (d : Nat) (acc : List Int), p.distOf cur = Weight.fin d → d ≤ fuel →
    ∃ pre, p.walk fuel cur (cur :: acc) = some (pre ++ cur :: acc) ∧
      (pre ++ [cur]).head? = some s ∧
      List.Chain' (fun u v => v ∈ g.From u) (pre ++ [cur]) := by
  obtain ⟨hsrc, _, _, hpred, _, _⟩ := hinv
  induction fuel with
  | zero =>
    intro cur d acc hd hle
    by_cases hcs : cur = s
    · refine ⟨[], ?_, by simp [hcs], by simp⟩
      rw [Shortest.walk, hsrc, if_pos hcs]
      rfl
    · obtain ⟨k, dk, _, _, _, h4⟩ := hpred cur d hd hcs
      omega
  | succ f ih =>
    intro cur d acc hd hle
    by_cases hcs : cur = s
    · refine ⟨[], ?_, by simp [hcs], by simp⟩
      rw [Shortest.walk, hsrc, if_pos hcs]
      rfl
    · obtain ⟨k, dk, h1, h2, h3, h4⟩ := hpred cur d hd hcs
      obtain ⟨pre', a1, a2, a3⟩ := ih k dk (cur :: acc) h3 (by omega)
      refine ⟨pre' ++ [k], ?_, ?_, ?_⟩
      · rw [Shortest.walk, hsrc, if_neg hcs]
        simp only [h1]
        rw [a1]
        simp
      · rw [List.head?_append_of_ne_nil _ (by simp)]
        exact a2
      · apply List.Chain'.append a3 (List.chain'_singleton _)
        intro x hx y hy
        simp only [List.getLast?_append, List.getLast?_singleton, Option.mem_def] at hx
        have hx' : k = x := by
          simpa [Option.or] using hx
        simp only [List.head?_cons, Option.mem_def, Option.some.injEq] at hy
        subst hx' hy
        exact h2

theorem To_ok (g : MystGraph) (s : Int) (p : Shortest)
    (hinv : TreeInv g s p) (dst : Int) :
    p.To dst = some ([], Weight.inf) ∨
    ∃ path d, p.To dst = some (path, Weight.fin d) ∧ path ≠ [] ∧
      path.head? = some s ∧ path.getLast? = some dst ∧
      List.Chain' (fun u v => v ∈ g.From u) path := by
  unfold Shortest.To
  by_cases h : dst ∉ p.nodes ∨ (p.distOf dst).isInf = true
  · left
    rw [if_pos h]
  · right
    rw [if_neg h]
    cases hd : p.distOf dst with
    | inf => exact absurd (Or.inr (by rw [hd]; rfl)) h
    | fin d =>
      have hcnt := hinv.2.2.2.2.2 dst d hd
      have hle := finCount_le p
      obtain ⟨pre, a1, a2, a3⟩ := walk_ok g s p hinv (p.nodes.length + 1) dst d [] hd (by omega)
      rw [a1]
      refine ⟨pre ++ [dst], d, rfl, by simp, a2, by simp, a3⟩

theorem hopValid_clean (g : MystGraph) (heap : Heap) (u v : Int)
    (h : hopValid g heap u v = true) :
    ∀ e ∈ (g.sideTable u v).getD [],
      e.IsOfType Backtracking = false ∧ e.IsOfType Disabled = false := by
  intro e he
  unfold MystGraph.sideTable at he
  unfold hopValid MystGraph.GetAllEdges at h
  cases h1 : g.EdgeMap.get u with
  | none => rw [h1] at he; simp at he
  | some targetMap =>
    rw [h1] at he h
    simp only at he h
    cases h2 : targetMap.get v with
    | none => rw [h2] at he; simp at he
    | some edges =>
      rw [h2] at he h
      simp only [Option.getD_some] at he
      simp only at h
      have hpos : 0 < edges.length := List.length_pos_of_mem he
      rw [if_pos hpos] at h
      simp only [Bool.not_eq_true', List.any_eq_false, Bool.or_eq_true, not_or,
        Bool.not_eq_true] at h
      have hmem : e ∈ edges.insertionSort
          (fun a b => (heap a.Source).GraphID ≤ (heap b.Source).GraphID) :=
        (List.perm_insertionSort _ edges).mem_iff.mpr he
      exact h e hmem

theorem pathValid_chain (g : MystGraph) (heap : Heap) : ∀ (path : List Int),
    List.Chain' (fun u v => v ∈ g.From u) path → pathValid g heap path = true →
    List.Chain' (cleanHop g) path := by
  intro path
  induction path with
  | nil => intro _ _; exact List.chain'_nil
  | cons u rest ih =>
    intro hch hval
    cases rest with
    | nil => exact List.chain'_singleton _
    | cons v rest' =>
      rw [List.chain'_cons] at hch ⊢
      unfold pathValid at hval
      rw [Bool.and_eq_true] at hval
      refine ⟨⟨?_, hopValid_clean g heap u v hval.1⟩, ih hch.2 hval.2⟩
      unfold MystGraph.HasEdgeFromTo
      rw [HasEdgeFromTo_iff]
      exact (mem_From _ _ _).mp hch.1

theorem shortestRow_spec (g : MystGraph) (heap : Heap) (s : Int) (p : Shortest)
    (hinv : TreeInv g s p) (dsts : List Int) :
    ∀ row : GoMap Int ShortestPathInfo,
      (∀ t info, row.get t = some info → EntryOK g s t info) →
      ∃ row', shortestRow g heap p s dsts row = some row' ∧
        ∀ t info, row'.get t = some info → EntryOK g s t info := by
  induction dsts with
  | nil =>
    intro row hrow
    exact ⟨row, rfl, hrow⟩
  | cons dst rest ih =>
    intro row hrow
    unfold shortestRow
    by_cases hsd : s = dst
    · rw [if_pos hsd]
      exact ih row hrow
    · rw [if_neg hsd]
      rcases To_ok g s p hinv dst with h | ⟨path, d, h, hne, hhead, hlast, hch⟩
      · rw [h]
        simp only [List.length_nil, if_true]
        exact ih row hrow
      · rw [h]
        have hlen : ¬ path.length = 0 := fun h0 => hne (List.length_eq_zero.mp h0)
        simp only [hlen, if_false]
        split
        · rename_i hval
          apply ih
          intro t info hget
          rw [GoMap.get_set] at hget
          split at hget
          · rename_i hdt
            simp only [Option.some.injEq] at hget
            subst hdt
            rw [← hget]
            exact ⟨hsd, rfl, rfl, hhead, hlast, pathValid_chain g heap path hch hval⟩
          · exact hrow t info hget
        · exact ih row hrow

theorem tableEntry_set (table : GoMap Int (GoMap Int ShortestPathInfo)) (src : Int)
    (row : GoMap Int ShortestPathInfo) (s t : Int) :
    tableEntry (table.set src row) s t =
      if src = s then row.get t else tableEntry table s t := by
  unfold tableEntry
  rw [GoMap.get_set]
  by_cases h : src = s
  · simp only [h, if_true]
  · simp only [h, if_false]

theorem shortestRows_spec (g : MystGraph) (heap : Heap) (hwf : g.Graph.WF)
    (nodeIDs : List Int) (srcs : List Int) :
    ∀ result : GoMap Int (GoMap Int ShortestPathInfo),
      (∀ s ∈ srcs, s ∈ g.Graph.nodes) →
      (∀ s t info, tableEntry result s t = some info → EntryOK g s t info) →
      ∃ table, shortestRows g heap nodeIDs srcs result = some table ∧
        ∀ s t info, tableEntry table s t = some info → EntryOK g s t info := by
  induction srcs with
  | nil =>
    intro result _ hres
    exact ⟨result, rfl, hres⟩
  | cons src rest ih =>
    intro result hsrcs hres
    unfold shortestRows
    obtain ⟨p, hp, hinv⟩ := DijkstraFrom_inv g hwf src (hsrcs src (List.mem_cons_self _ _))
    rw [hp]
    obtain ⟨row, hrow, hrowOK⟩ := shortestRow_spec g heap src p hinv nodeIDs []
      (by intro t info h; simp [GoMap.get] at h)
    simp only [hrow]
    apply ih
    · exact fun s hs => hsrcs s (List.mem_cons_of_mem _ hs)
    · intro s t info hget
      rw [tableEntry_set] at hget
      split at hget
      · rename_i hss
        subst hss
        exact hrowOK t info hget
      · exact hres s t info hget

/-- C10. For every store whose routable structure satisfies the representation
invariant, `ComputeAllShortestPaths` returns a table, and every entry under
`(s, t)` has `s != t`, a path that starts at `s` and ends at `t`, every hop
`u -> v` of the path is a directed edge of the routable adjacency, and no
stored edge of a hop carries `Backtracking` or `Disabled`. -/
theorem ComputeAllShortestPaths_entries (g : MystGraph) (heap : Heap) (hwf : g.Graph.WF) :
    ∃ table, g.ComputeAllShortestPaths heap = some table ∧
      ∀ s t info, tableEntry table s t = some info →
        s ≠ t ∧ info.From = s ∧ info.To = t ∧
        info.Path.head? = some s ∧ info.Path.getLast? = some t ∧
        List.Chain' (fun u v => g.HasEdgeFromTo u v = true ∧
          ∀ e ∈ (g.sideTable u v).getD [],
            e.IsOfType Backtracking = false ∧ e.IsOfType Disabled = false) info.Path := by
  unfold MystGraph.ComputeAllShortestPaths MystGraph.computeShortestPaths
  apply shortestRows_spec g heap hwf
  · intro s hs
    unfold MystGraph.getAllNodeIDs at hs
    exact (List.perm_insertionSort _ _).mem_iff.mp hs
  · intro s t info h
    simp [tableEntry, GoMap.get] at h

set_option maxRecDepth 100000 in
/-- Witness of `ComputeAllShortestPaths_entries` on `scenarioGraph`: the table is
returned, it has the entry `[0, 1]` under (0, 1), and its entries join
different nodes. -/
theorem ComputeAllShortestPaths_entries_witness :
    scenarioGraph.Graph.WF ∧
    ((scenarioGraph.ComputeAllShortestPaths exHeap).map (fun table => tableEntry table 0 1)) =
      some (some { From := 0, To := 1, Distance := Weight.fin 1, Path := [0, 1] }) ∧
    ∃ table, scenarioGraph.ComputeAllShortestPaths exHeap = some table ∧
      ∀ s t info, tableEntry table s t = some info → s ≠ t :=
  ⟨by decide, by decide, by
    obtain ⟨table, h1, h2⟩ :=
      ComputeAllShortestPaths_entries scenarioGraph exHeap (by decide)
    exact ⟨table, h1, fun s t info h => (h2 s t info h).1⟩⟩

/-- Every graph `NewGraph` returns satisfies the representation invariant of
the routable structure. -/
theorem NewGraph_WF (md : Option Metadata) (heap : Heap) (g : MystGraph)
    (h : (NewGraph md heap).1 = some g) : g.Graph.WF := by
  cases md with
  | none => exact Option.noConfusion h
  | some md =>
    by_cases hnames : (md.Nodes.map (fun r => (heap r).Name)).Nodup
    · obtain ⟨g1, heap', h1, hwf, _⟩ :=
        addNodes_ok md.Nodes (MystGraph.empty md) heap 0 new_WF new_Dense hnames
          (fun _ _ => rfl)
      obtain ⟨g1', heap'', h1', hNG⟩ := NewGraph_ok md heap hnames
      rw [h1] at h1'
      simp only [Prod.mk.injEq, true_and] at h1'
      obtain ⟨rfl, rfl⟩ := h1'
      rw [hNG] at h
      simp only [Option.some.injEq] at h
      rw [← h]
      exact (addEdges_fields md.Edges g1 heap').2.2.2.2.1 hwf
    · rw [(NewGraph_fail md heap hnames).1] at h
      exact Option.noConfusion h

theorem sideTable_ensureInner (g : MystGraph) (m : GoMap Int (GoMap Int (List Edge)))
    (s s' t' : Int) :
    ({ g with EdgeMap := ensureInner m s } : MystGraph).sideTable s' t' =
      ({ g with EdgeMap := m } : MystGraph).sideTable s' t' := by
  unfold MystGraph.sideTable ensureInner
  simp only
  cases hs : m.get s with
  | some tm => simp
  | none =>
    simp only [Option.isSome_none, Bool.false_eq_true, if_false]
    rw [GoMap.get_set]
    by_cases h : s = s'
    · subst h
      simp [hs, GoMap.get]
    · simp [h]

theorem sideTable_appendEdge (g : MystGraph) (m : GoMap Int (GoMap Int (List Edge)))
    (s t : Int) (e : Edge) (s' t' : Int) :
    ({ g with EdgeMap := appendEdge m s t e } : MystGraph).sideTable s' t' =
      if s = s' ∧ t = t' then
        some ((({ g with EdgeMap := m } : MystGraph).sideTable s t).getD [] ++ [e])
      else ({ g with EdgeMap := m } : MystGraph).sideTable s' t' := by
  unfold MystGraph.sideTable appendEdge
  simp only
  rw [GoMap.get_set]
  by_cases h : s = s'
  · subst h
    simp only [if_true, true_and]
    rw [GoMap.get_set]
    by_cases h2 : t = t'
    · subst h2
      simp only [if_true]
      cases hs : m.get s with
      | some tm => simp
      | none => simp [GoMap.get]
    · simp only [h2, if_false]
      cases hs : m.get s with
      | some tm => simp
      | none => simp [GoMap.get]
  · simp [h]

/-- The side table after `addDisabledEdge`: the edge is appended to the list of
its pair, every other list is unchanged, and so is the routable structure. -/
theorem addDisabledEdge_spec (g : MystGraph) (heap : Heap) (e : Edge) :
    (g.addDisabledEdge heap e).Graph = g.Graph ∧
    ∀ s' t', (g.addDisabledEdge heap e).sideTable s' t' =
      if (heap e.Source).GraphID = s' ∧ (heap e.Target).GraphID = t' then
        some ((g.sideTable (heap e.Source).GraphID (heap e.Target).GraphID).getD [] ++ [e])
      else g.sideTable s' t' := by
  refine ⟨rfl, ?_⟩
  intro s' t'
  unfold MystGraph.addDisabledEdge
  simp only
  have h1 := sideTable_appendEdge g (ensureInner g.EdgeMap (heap e.Source).GraphID)
    (heap e.Source).GraphID (heap e.Target).GraphID e s' t'
  have h2 := sideTable_ensureInner g g.EdgeMap (heap e.Source).GraphID
  rw [h2, h2] at h1
  exact h1

/-- The side table after `AddEdge`: unchanged when `isDuplicate` holds for the
list of the pair, else the edge is appended to that list; every other list is
unchanged. -/
theorem AddEdge_sideTable (g : MystGraph) (heap : Heap) (e : Edge) (w : Weight) :
    ∀ s' t', (g.AddEdge heap e w).sideTable s' t' =
      if isDuplicate (g.sideTable (heap e.Source).GraphID (heap e.Target).GraphID) e = false ∧
          (heap e.Source).GraphID = s' ∧ (heap e.Target).GraphID = t' then
        some ((g.sideTable (heap e.Source).GraphID (heap e.Target).GraphID).getD [] ++ [e])
      else g.sideTable s' t' := by
  intro s' t'
  have h2 := sideTable_ensureInner g g.EdgeMap (heap e.Source).GraphID
  have hst : GoMap.get (((ensureInner g.EdgeMap (heap e.Source).GraphID).get
      (heap e.Source).GraphID).getD []) (heap e.Target).GraphID =
      g.sideTable (heap e.Source).GraphID (heap e.Target).GraphID := by
    have := h2 (heap e.Source).GraphID (heap e.Target).GraphID
    unfold MystGraph.sideTable at this ⊢
    simp only at this
    rw [← this]
    cases (ensureInner g.EdgeMap (heap e.Source).GraphID).get (heap e.Source).GraphID with
    | some tm => rfl
    | none => rfl
  unfold MystGraph.AddEdge
  simp only
  rw [hst]
  cases hdup : isDuplicate (g.sideTable (heap e.Source).GraphID (heap e.Target).GraphID) e with
  | true =>
    simp only [if_true, Bool.true_eq_false, false_and, if_false]
    exact h2 s' t'
  | false =>
    simp only [Bool.false_eq_true, if_false, true_and]
    have h1 := sideTable_appendEdge g (ensureInner g.EdgeMap (heap e.Source).GraphID)
      (heap e.Source).GraphID (heap e.Target).GraphID e s' t'
    rw [h2, h2] at h1
    exact h1

theorem areAttributesEqual_iff_perm (a1 a2 : List EdgeAttribute) (h2 : a2.Nodup) :
    areAttributesEqual a1 a2 = true ↔ List.Perm a1 a2 := by
  unfold areAttributesEqual
  constructor
  · intro h
    split at h
    · exact absurd h (by simp)
    · rename_i hlen
      have hlen' : a1.length = a2.length := by
        by_contra hne
        exact hlen hne
      have hsub : a2 ⊆ a1 := by
        intro a ha
        rw [List.all_eq_true] at h
        simpa using h a ha
      have hsp : List.Subperm a2 a1 := List.subperm_of_subset h2 hsub
      exact (hsp.perm_of_length_le (by omega)).symm
  · intro hp
    rw [if_neg (by simp [hp.length_eq])]
    rw [List.all_eq_true]
    intro a ha
    simpa using hp.mem_iff.mpr ha

theorem isDuplicate_iff (stored : Option (List Edge)) (e : Edge) (hnd : e.Attributes.Nodup) :
    isDuplicate stored e = true ↔
      ∃ x ∈ stored.getD [], x.TransitivityID = e.TransitivityID ∧
        List.Perm x.Attributes e.Attributes := by
  unfold isDuplicate
  cases stored with
  | none => simp
  | some edges =>
    simp only [List.any_eq_true, Bool.and_eq_true, decide_eq_true_eq, Option.getD_some]
    constructor
    · rintro ⟨x, hx, h1, h2⟩
      exact ⟨x, hx, h1, (areAttributesEqual_iff_perm _ _ hnd).mp h2⟩
    · rintro ⟨x, hx, h1, h2⟩
      exact ⟨x, hx, h1, (areAttributesEqual_iff_perm _ _ hnd).mpr h2⟩

/-- For attribute lists without a repeated attribute the duplicate test of
`AddEdge` is the comparison of attribute sets: the side table is unchanged if
and only if the list of the pair holds an edge with the same transitivity id
and the same attributes; otherwise the edge is appended to the list of its
pair and no other list changes. -/
theorem AddEdge_side_table_of_nodup (g : MystGraph) (heap : Heap) (e : Edge) (w : Weight)
    (hnd : e.Attributes.Nodup)
    (hst : ∀ x ∈ (g.sideTable (heap e.Source).GraphID (heap e.Target).GraphID).getD [],
      x.Attributes.Nodup) :
    ((∃ x ∈ (g.sideTable (heap e.Source).GraphID (heap e.Target).GraphID).getD [],
        x.TransitivityID = e.TransitivityID ∧ ∀ a, a ∈ x.Attributes ↔ a ∈ e.Attributes) →
      ∀ s' t', (g.AddEdge heap e w).sideTable s' t' = g.sideTable s' t') ∧
    ((¬ ∃ x ∈ (g.sideTable (heap e.Source).GraphID (heap e.Target).GraphID).getD [],
        x.TransitivityID = e.TransitivityID ∧ ∀ a, a ∈ x.Attributes ↔ a ∈ e.Attributes) →
      (g.AddEdge heap e w).sideTable (heap e.Source).GraphID (heap e.Target).GraphID =
        some ((g.sideTable (heap e.Source).GraphID (heap e.Target).GraphID).getD [] ++ [e]) ∧
      ∀ s' t', ¬ ((heap e.Source).GraphID = s' ∧ (heap e.Target).GraphID = t') →
        (g.AddEdge heap e w).sideTable s' t' = g.sideTable s' t') := by
  have hiff : isDuplicate (g.sideTable (heap e.Source).GraphID (heap e.Target).GraphID) e
      = true ↔
      ∃ x ∈ (g.sideTable (heap e.Source).GraphID (heap e.Target).GraphID).getD [],
        x.TransitivityID = e.TransitivityID ∧ ∀ a, a ∈ x.Attributes ↔ a ∈ e.Attributes := by
    rw [isDuplicate_iff _ _ hnd]
    constructor
    · rintro ⟨x, hx, h1, h2⟩
      exact ⟨x, hx, h1, fun a => h2.mem_iff⟩
    · rintro ⟨x, hx, h1, h2⟩
      exact ⟨x, hx, h1, (List.perm_ext_iff_of_nodup (hst x hx) hnd).mpr h2⟩
  constructor
  · intro hdup s' t'
    rw [AddEdge_sideTable, hiff.mpr hdup]
    simp
  · intro hdup
    have hf : isDuplicate (g.sideTable (heap e.Source).GraphID (heap e.Target).GraphID) e
        = false := by
      cases h : isDuplicate (g.sideTable (heap e.Source).GraphID (heap e.Target).GraphID) e
      · rfl
      · exact absurd (hiff.mp h) hdup
    constructor
    · rw [AddEdge_sideTable, hf]
      simp
    · intro s' t' hne
      rw [AddEdge_sideTable, if_neg (fun h => hne h.2)]

theorem exists_setLine (ls : List Line) (l : Line) (s t : Int) :
    (∃ x ∈ setLine ls l, x.F = s ∧ x.T = t) ↔
      (∃ x ∈ ls, x.F = s ∧ x.T = t) ∨ (l.F = s ∧ l.T = t) := by
  induction ls with
  | nil => simp [setLine]
  | cons y rest ih =>
    unfold setLine
    by_cases hk : y.F = l.F ∧ y.T = l.T ∧ y.UID = l.UID
    · rw [if_pos hk]
      clear ih
      simp only [List.mem_cons, exists_eq_or_imp]
      rw [hk.1, hk.2.1]
      constructor
      · rintro (h | h)
        · exact Or.inr h
        · exact Or.inl (Or.inr h)
      · rintro ((h | h) | h)
        · exact Or.inl h
        · exact Or.inr h
        · exact Or.inl h
    · rw [if_neg hk]
      simp only [List.mem_cons, exists_eq_or_imp]
      rw [ih]
      constructor
      · rintro (h | h | h)
        · exact Or.inl (Or.inl h)
        · exact Or.inl (Or.inr h)
        · exact Or.inr h
      · rintro ((h | h) | h)
        · exact Or.inl h
        · exact Or.inr (Or.inl h)
        · exact Or.inr (Or.inr h)

theorem HasEdgeFromTo_SetWeightedLine (g : WeightedDirectedGraph) (l : Line) (s t : Int) :
    (g.SetWeightedLine l).HasEdgeFromTo s t = true ↔
      g.HasEdgeFromTo s t = true ∨ (l.F = s ∧ l.T = t) := by
  rw [HasEdgeFromTo_iff, HasEdgeFromTo_iff]
  unfold WeightedDirectedGraph.SetWeightedLine
  simp only [AddNode_lines]
  exact exists_setLine _ _ _ _

theorem addEdgeWithAttributes_sideTable (g : MystGraph) (heap : Heap) (e : Edge) :
    ∀ s' t', (g.addEdgeWithAttributes heap e).sideTable s' t' =
      if (e.IsOfType Disabled = true ∨
          isDuplicate (g.sideTable (heap e.Source).GraphID (heap e.Target).GraphID) e = false) ∧
          (heap e.Source).GraphID = s' ∧ (heap e.Target).GraphID = t' then
        some ((g.sideTable (heap e.Source).GraphID (heap e.Target).GraphID).getD [] ++ [e])
      else g.sideTable s' t' := by
  intro s' t'
  unfold MystGraph.addEdgeWithAttributes
  by_cases hd : e.IsOfType Disabled = true
  · rw [if_pos hd, (addDisabledEdge_spec g heap e).2]
    simp only [hd, true_or, true_and]
  · rw [if_neg hd]
    have hdf : e.IsOfType Disabled = false := by
      cases hc : e.IsOfType Disabled
      · rfl
      · exact absurd hc hd
    simp only [hdf, Bool.false_eq_true, false_or]
    split <;> exact AddEdge_sideTable g heap e _ s' t'

theorem addEdgeWithAttributes_routable_iff (g : MystGraph) (heap : Heap) (e : Edge)
    (hnd : e.Attributes.Nodup)
    (h : ∀ s t, g.Graph.HasEdgeFromTo s t = true ↔
      ∃ x ∈ (g.sideTable s t).getD [], x.IsOfType Disabled = false) :
    ∀ s t, (g.addEdgeWithAttributes heap e).Graph.HasEdgeFromTo s t = true ↔
      ∃ x ∈ ((g.addEdgeWithAttributes heap e).sideTable s t).getD [],
        x.IsOfType Disabled = false := by
  intro s t
  rw [addEdgeWithAttributes_sideTable, addEdgeWithAttributes_Graph]
  by_cases hd : e.IsOfType Disabled = true
  · rw [if_pos hd]
    simp only [hd, true_or, true_and]
    by_cases hst : (heap e.Source).GraphID = s ∧ (heap e.Target).GraphID = t
    · rw [if_pos hst, h, hst.1, hst.2]
      simp only [Option.getD_some, List.mem_append, List.mem_singleton]
      constructor
      · rintro ⟨x, hx, hxd⟩
        exact ⟨x, Or.inl hx, hxd⟩
      · rintro ⟨x, hx | hx, hxd⟩
        · exact ⟨x, hx, hxd⟩
        · subst hx
          rw [hd] at hxd
          exact absurd hxd (by simp)
    · rw [if_neg hst]
      exact h s t
  · rw [if_neg hd, HasEdgeFromTo_SetWeightedLine]
    simp only [hd, false_or]
    have hdf : e.IsOfType Disabled = false := by
      cases hc : e.IsOfType Disabled
      · rfl
      · exact absurd hc hd
    by_cases hst : (heap e.Source).GraphID = s ∧ (heap e.Target).GraphID = t
    · simp only [hst, and_self, or_true, true_iff, and_true]
      rw [← hst.1, ← hst.2]
      cases hdup : isDuplicate
          (g.sideTable (heap e.Source).GraphID (heap e.Target).GraphID) e with
      | false =>
        simp only [if_true, Option.getD_some]
        exact ⟨e, by simp, hdf⟩
      | true =>
        simp only [Bool.true_eq_false, if_false]
        obtain ⟨x, hx, _, hperm⟩ := (isDuplicate_iff _ _ hnd).mp hdup
        refine ⟨x, hx, ?_⟩
        cases hxd : x.IsOfType Disabled
        · rfl
        · have hmem : Disabled ∈ x.Attributes := by
            unfold Edge.IsOfType at hxd
            simpa using hxd
          have : e.IsOfType Disabled = true := by
            unfold Edge.IsOfType
            simpa using hperm.mem_iff.mp hmem
          exact absurd this hd
    · rw [if_neg (fun hc => hst hc.2)]
      rw [h s t]
      constructor
      · rintro (h1 | h1)
        · exact h1
        · exact absurd h1 hst
      · exact Or.inl

theorem addEdges_routable_iff (es : List Edge) : ∀ (g : MystGraph) (heap : Heap),
    (∀ e ∈ es, e.Attributes.Nodup) →
    (∀ s t, g.Graph.HasEdgeFromTo s t = true ↔
      ∃ x ∈ (g.sideTable s t).getD [], x.IsOfType Disabled = false) →
    ∀ s t, (addEdges g heap es).Graph.HasEdgeFromTo s t = true ↔
      ∃ x ∈ ((addEdges g heap es).sideTable s t).getD [], x.IsOfType Disabled = false := by
  induction es with
  | nil => intro g heap _ h; exact h
  | cons e rest ih =>
    intro g heap hnd h
    exact ih (g.addEdgeWithAttributes heap e) heap
      (fun x hx => hnd x (List.mem_cons_of_mem _ hx))
      (addEdgeWithAttributes_routable_iff g heap e (hnd e (List.mem_cons_self _ _)) h)

theorem addEdges_sideTable_mono (es : List Edge) : ∀ (g : MystGraph) (heap : Heap)
    (s t : Int) (x : Edge), x ∈ (g.sideTable s t).getD [] →
    x ∈ ((addEdges g heap es).sideTable s t).getD [] := by
  induction es with
  | nil => intro g heap s t x h; exact h
  | cons e rest ih =>
    intro g heap s t x h
    apply ih (g.addEdgeWithAttributes heap e) heap s t x
    rw [addEdgeWithAttributes_sideTable]
    split
    · rename_i hc
      rw [hc.2.1, hc.2.2]
      simp only [Option.getD_some, List.mem_append]
      exact Or.inl h
    · exact h

theorem addEdges_disabled_mem (es : List Edge) : ∀ (g : MystGraph) (heap : Heap) (e : Edge),
    e ∈ es → e.IsOfType Disabled = true →
    e ∈ ((addEdges g heap es).sideTable (heap e.Source).GraphID
      (heap e.Target).GraphID).getD [] := by
  induction es with
  | nil => intro g heap e h; simp at h
  | cons a rest ih =>
    intro g heap e he hd
    rcases List.mem_cons.mp he with h | h
    · subst h
      apply addEdges_sideTable_mono rest (g.addEdgeWithAttributes heap e) heap
      rw [addEdgeWithAttributes_sideTable]
      simp [hd]
    · exact ih (g.addEdgeWithAttributes heap a) heap e h hd

theorem GetAllEdges_of_mem (g : MystGraph) (heap : Heap) (s t : Int) (x : Edge)
    (h : x ∈ (g.sideTable s t).getD []) :
    x ∈ (g.GetAllEdges heap s t).1 ∧ (g.GetAllEdges heap s t).2 = true := by
  unfold MystGraph.sideTable at h
  unfold MystGraph.GetAllEdges
  cases h1 : g.EdgeMap.get s with
  | none => rw [h1] at h; simp at h
  | some targetMap =>
    rw [h1] at h
    simp only at h ⊢
    cases h2 : targetMap.get t with
    | none => rw [h2] at h; simp at h
    | some edges =>
      rw [h2] at h
      simp only [Option.getD_some] at h
      simp only
      rw [if_pos (List.length_pos_of_mem h)]
      exact ⟨(List.perm_insertionSort _ edges).mem_iff.mpr h, rfl⟩

theorem addEdgeWithAttributes_routable_of_stored (g : MystGraph) (heap : Heap) (e : Edge)
    (h : ∀ s t, (∃ x ∈ (g.sideTable s t).getD [], x.IsOfType Disabled = false) →
      g.Graph.HasEdgeFromTo s t = true) :
    ∀ s t, (∃ x ∈ ((g.addEdgeWithAttributes heap e).sideTable s t).getD [],
        x.IsOfType Disabled = false) →
      (g.addEdgeWithAttributes heap e).Graph.HasEdgeFromTo s t = true := by
  intro s t
  rw [addEdgeWithAttributes_sideTable, addEdgeWithAttributes_Graph]
  by_cases hd : e.IsOfType Disabled = true
  · rw [if_pos hd]
    simp only [hd, true_or, true_and]
    split
    · rename_i hst
      rintro ⟨x, hx, hxd⟩
      simp only [Option.getD_some, List.mem_append, List.mem_singleton] at hx
      rcases hx with hx | hx
      · rw [← hst.1, ← hst.2]
        exact h _ _ ⟨x, hx, hxd⟩
      · subst hx
        rw [hd] at hxd
        exact absurd hxd (by simp)
    · exact h s t
  · rw [if_neg hd, HasEdgeFromTo_SetWeightedLine]
    split
    · rename_i hst
      intro _
      exact Or.inr hst.2
    · intro hx
      exact Or.inl (h s t hx)

theorem addEdges_routable_of_stored (es : List Edge) : ∀ (g : MystGraph) (heap : Heap),
    (∀ s t, (∃ x ∈ (g.sideTable s t).getD [], x.IsOfType Disabled = false) →
      g.Graph.HasEdgeFromTo s t = true) →
    ∀ s t, (∃ x ∈ ((addEdges g heap es).sideTable s t).getD [],
        x.IsOfType Disabled = false) →
      (addEdges g heap es).Graph.HasEdgeFromTo s t = true := by
  induction es with
  | nil => intro g heap h; exact h
  | cons e rest ih =>
    intro g heap h
    exact ih (g.addEdgeWithAttributes heap e) heap
      (addEdgeWithAttributes_routable_of_stored g heap e h)

/-- Side table and routable structure of a graph built by `NewGraph`,
without an assumption on the attribute lists: inserting an
edge that carries `Disabled` leaves the routable structure of any store
unchanged, and every such input edge is in the result of `GetAllEdges` for its
pair; a pair with a stored edge without `Disabled` has a routable edge; and
when no input edge repeats an attribute in its list, a pair has a routable
edge if and only if it has a stored edge without `Disabled`. -/
theorem NewGraph_side_table_consistency (md : Metadata) (heap : Heap)
    (hnames : (md.Nodes.map (fun r => (heap r).Name)).Nodup) :
    ∃ g heap', NewGraph (some md) heap = (some g, none, heap') ∧
      (∀ e ∈ md.Edges, e.IsOfType Disabled = true →
        (∀ g0 : MystGraph, (g0.addEdgeWithAttributes heap' e).Graph = g0.Graph) ∧
        e ∈ (g.GetAllEdges heap' (heap' e.Source).GraphID (heap' e.Target).GraphID).1 ∧
        (g.GetAllEdges heap' (heap' e.Source).GraphID (heap' e.Target).GraphID).2 = true) ∧
      (∀ s t, (∃ x ∈ (g.sideTable s t).getD [], x.IsOfType Disabled = false) →
        g.Graph.HasEdgeFromTo s t = true) ∧
      ((∀ e ∈ md.Edges, e.Attributes.Nodup) →
        ∀ s t, g.Graph.HasEdgeFromTo s t = true ↔
          ∃ x ∈ (g.sideTable s t).getD [], x.IsOfType Disabled = false) := by
  obtain ⟨g1, heap', h1, hwf, hd, hidx, hheap, hnm, hin, hE, hM, hS, hL⟩ :=
    addNodes_ok md.Nodes (MystGraph.empty md) heap 0 new_WF new_Dense hnames (fun _ _ => rfl)
  obtain ⟨g1', heap'', h1', hNG⟩ := NewGraph_ok md heap hnames
  rw [h1] at h1'
  simp only [Prod.mk.injEq, true_and] at h1'
  obtain ⟨rfl, rfl⟩ := h1'
  have hl0 : g1.Graph.lines = [] := hL
  have he0 : g1.EdgeMap = [] := hE
  have hno : ∀ s t, g1.Graph.HasEdgeFromTo s t = false := by
    intro s t
    unfold WeightedDirectedGraph.HasEdgeFromTo WeightedDirectedGraph.WeightedLines
    rw [hl0]
    rfl
  have hst0 : ∀ s t, g1.sideTable s t = none := by
    intro s t
    unfold MystGraph.sideTable
    rw [he0]
    rfl
  refine ⟨_, heap', hNG, ?_, ?_, ?_⟩
  · intro e he hdis
    refine ⟨?_, ?_⟩
    · intro g0
      rw [addEdgeWithAttributes_Graph, if_pos hdis]
    · exact GetAllEdges_of_mem (addEdges g1 heap' md.Edges) heap' _ _ e
        (addEdges_disabled_mem md.Edges g1 heap' e he hdis)
  · exact addEdges_routable_of_stored md.Edges g1 heap' (by
      intro s t hx
      rw [hst0] at hx
      simp at hx)
  · intro hattr
    exact addEdges_routable_iff md.Edges g1 heap' hattr (by
      intro s t
      rw [hno, hst0]
      simp)

theorem addEdges_nodes_same (es : List Edge) : ∀ (g : MystGraph) (heap : Heap),
    (∀ e ∈ es, (heap e.Source).GraphID ∈ g.Graph.nodes ∧
      (heap e.Target).GraphID ∈ g.Graph.nodes) →
    ∀ x, x ∈ (addEdges g heap es).Graph.nodes ↔ x ∈ g.Graph.nodes := by
  induction es with
  | nil => intro g heap _ x; exact Iff.rfl
  | cons e rest ih =>
    intro g heap hes x
    have he := hes e (List.mem_cons_self _ _)
    have hstep : ∀ y, y ∈ (g.addEdgeWithAttributes heap e).Graph.nodes ↔ y ∈ g.Graph.nodes := by
      intro y
      rw [addEdgeWithAttributes_Graph]
      split
      · exact Iff.rfl
      · rw [SetWeightedLine_nodes]
        constructor
        · rintro (h | h | h)
          · exact h
          · exact h ▸ he.1
          · exact h ▸ he.2
        · exact Or.inl
    show x ∈ (addEdges (g.addEdgeWithAttributes heap e) heap rest).Graph.nodes ↔ _
    rw [ih (g.addEdgeWithAttributes heap e) heap (by
      intro e' he'
      have := hes e' (List.mem_cons_of_mem _ he')
      exact ⟨(hstep _).mpr this.1, (hstep _).mpr this.2⟩)]
    exact hstep x

/-- A graph built by `NewGraph` from pairwise distinct names and edges over
listed nodes has exactly the node ids `0 .. n-1`: the stores `AddNode` meets
through valid input are dense, so the id it assigns is the node count. -/
theorem NewGraph_dense (md : Metadata) (heap : Heap)
    (hnames : (md.Nodes.map (fun r => (heap r).Name)).Nodup)
    (hedges : ∀ e ∈ md.Edges, e.Source ∈ md.Nodes ∧ e.Target ∈ md.Nodes) :
    ∃ g heap', NewGraph (some md) heap = (some g, none, heap') ∧
      g.Graph.WF ∧ Dense g.Graph md.Nodes.length := by
  obtain ⟨g1, heap', h1, hwf, hd, hidx, hheap, hnm, hin, hE, hM, hS, hL⟩ :=
    addNodes_ok md.Nodes (MystGraph.empty md) heap 0 new_WF new_Dense hnames (fun _ _ => rfl)
  obtain ⟨g1', heap'', h1', hNG⟩ := NewGraph_ok md heap hnames
  rw [h1] at h1'
  simp only [Prod.mk.injEq, true_and] at h1'
  obtain ⟨rfl, rfl⟩ := h1'
  have hid : ∀ r ∈ md.Nodes, (heap' r).GraphID ∈ g1.Graph.nodes := by
    intro r hr
    obtain ⟨i, hi⟩ := List.mem_iff_getElem?.mp hr
    have hlt : i < md.Nodes.length := by
      rcases List.getElem?_eq_some.mp hi with ⟨h, _⟩
      exact h
    rw [(hidx i r hi).1]
    apply (hd _).2
    simp only [Nat.zero_add]
    omega
  have hsame := addEdges_nodes_same md.Edges g1 heap'
    (fun e he => ⟨hid _ (hedges e he).1, hid _ (hedges e he).2⟩)
  refine ⟨_, heap', hNG, (addEdges_fields md.Edges g1 heap').2.2.2.2.1 hwf, ?_⟩
  intro i
  show i ∈ (addEdges g1 heap' md.Edges).Graph.nodes ↔ _
  rw [hsame i, hd i]
  simp only [Nat.zero_add]

set_option maxRecDepth 100000 in
/-- C11 (failing input). In the graph with the ordinary edges A -> B, B -> C and
the backtracking edge A -> C (ids 0, 1, 2), which is `scenarioGraph`, the route
0, 1, 2 uses only routable edges whose stored edges are neither backtracking
nor disabled, yet the table of `ComputeAllShortestPaths` has no entry for
(0, 2): Dijkstra runs with the uniform cost of 1 per edge, picks the direct
backtracking edge, and the validation loop drops the pair. -/
theorem scenario_table_misses_clean_route :
    (NewGraph (some scenarioMetadata) exHeap).1 = some scenarioGraph ∧
    (scenarioGraph.HasEdgeFromTo 0 1 = true ∧ scenarioGraph.HasEdgeFromTo 1 2 = true) ∧
    (∀ e ∈ (scenarioGraph.sideTable 0 1).getD [] ++ (scenarioGraph.sideTable 1 2).getD [],
      e.IsOfType Backtracking = false ∧ e.IsOfType Disabled = false) ∧
    (scenarioGraph.ComputeAllShortestPaths (NewGraph (some scenarioMetadata) exHeap).2.2).map
      (fun table => tableEntry table 0 2) = some none := by
  refine ⟨by decide, by decide, by decide, by decide⟩

set_option maxRecDepth 100000 in
/-- C13 (failing input). In the graph with the nodes A, B and the single edge
A -> B, a backtracking edge (`backtrackOnlyGraph`, ids 0, 1), the only route
from 0 to 1 crosses that edge, and `ComputeShortestPath(0, 1, nil)` returns the
path `[0, 1]` with distance 1 and a nil error. -/
theorem backtracking_only_route_succeeds :
    (NewGraph (some backtrackOnlyMetadata) exHeap).1 = some backtrackOnlyGraph ∧
    backtrackOnlyGraph.From 0 = [1] ∧ backtrackOnlyGraph.From 1 = [] ∧
    backtrackOnlyGraph.IsBacktrackingEdge
      (NewGraph (some backtrackOnlyMetadata) exHeap).2.2 0 1 = true ∧
    backtrackOnlyGraph.ComputeShortestPath
      (NewGraph (some backtrackOnlyMetadata) exHeap).2.2 0 1 [] =
      some (some { From := 0, To := 1, Distance := Weight.fin 1, Path := [0, 1] }, none) := by
  refine ⟨by decide, by decide, by decide, by decide, by decide⟩

set_option maxRecDepth 100000 in
/-- C14 (failing input). In `detourGraph` (A -> B backtracking, B -> C, A -> D,
D -> E, E -> C ordinary; ids 0 .. 4) the query `ComputeShortestPath(0, 2, nil)`
succeeds with the path `[0, 1, 2]` of weight 2, whose first hop is the
backtracking edge: `findAllShortestPaths(0, 2, 2)` finds no path, so the path of
Dijkstra is kept. The only route without a backtracking or disabled edge,
`[0, 3, 4, 2]`, is what the enumeration returns for the weight 3. -/
theorem detour_returns_backtracking_path :
    (NewGraph (some detourMetadata) detourHeap).1 = some detourGraph ∧
    detourGraph.ComputeShortestPath (NewGraph (some detourMetadata) detourHeap).2.2 0 2 [] =
      some (some { From := 0, To := 2, Distance := Weight.fin 2, Path := [0, 1, 2] }, none) ∧
    detourGraph.IsBacktrackingEdge (NewGraph (some detourMetadata) detourHeap).2.2 0 1 = true ∧
    detourGraph.findAllShortestPaths (NewGraph (some detourMetadata) detourHeap).2.2 0 2
      (Weight.fin 2) = some [] ∧
    detourGraph.findAllShortestPaths (NewGraph (some detourMetadata) detourHeap).2.2 0 2
      (Weight.fin 3) = some [[0, 3, 4, 2]] := by
  refine ⟨by decide, by decide, by decide, by decide, by decide⟩

set_option maxRecDepth 100000 in
/-- C16 (failing input). In `backtrackOnlyGraph` (nodes A, B, one backtracking
edge A -> B) `FindMostSeparatedNodes` reports the pair (0, 1) with distance 1 and
path `[0, 1]`, `GetMostSeparatedNodePath` returns that path and `true`, the table
of `ComputeAllShortestPaths` has no entry for (0, 1), and the hop 0 -> 1 is a
backtracking edge. -/
theorem most_separated_pair_over_backtracking_edge :
    (NewGraph (some backtrackOnlyMetadata) exHeap).1 = some backtrackOnlyGraph ∧
    backtrackOnlyGraph.FindMostSeparatedNodes =
      some { Source := ⟨0, "A"⟩, Target := ⟨1, "B"⟩, Distance := Weight.fin 1,
             Path := [0, 1] } ∧
    backtrackOnlyGraph.GetMostSeparatedNodePath = some ([0, 1], true) ∧
    (backtrackOnlyGraph.ComputeAllShortestPaths
        (NewGraph (some backtrackOnlyMetadata) exHeap).2.2).map
      (fun table => tableEntry table 0 1) = some none ∧
    backtrackOnlyGraph.IsBacktrackingEdge
      (NewGraph (some backtrackOnlyMetadata) exHeap).2.2 0 1 = true := by
  refine ⟨by decide, by decide, by decide, by decide, by decide⟩

theorem foldl_found {β : Type} (P : List Int → Prop)
    (F : Option (List (List Int)) → β → Option (List (List Int)))
    (hF : ∀ acc n r, F acc n = some r → ∃ a b, acc = some a ∧ r = a ++ b ∧ ∀ q ∈ b, P q) :
    ∀ (l : List β) (acc : Option (List (List Int))) (found : List (List Int)),
      l.foldl F acc = some found →
      ∃ a, acc = some a ∧ ((∀ q ∈ a, P q) → ∀ q ∈ found, P q) := by
  intro l
  induction l with
  | nil =>
    intro acc found h
    exact ⟨found, h, fun hq => hq⟩
  | cons n rest ih =>
    intro acc found h
    rw [List.foldl_cons] at h
    obtain ⟨a', ha', himp⟩ := ih _ _ h
    obtain ⟨a, b, hacc, hr, hb⟩ := hF acc n a' ha'
    refine ⟨a, hacc, fun ha => himp ?_⟩
    intro q hq
    rw [hr, List.mem_append] at hq
    exact hq.elim (ha q) (hb q)

theorem explore_endpoints (g : MystGraph) (heap : Heap) (dst : Int) (targetWeight : Weight) :
    ∀ (fuel : Nat) (current : Int) (visited path : List Int) (currentWeight : Weight)
      (found : List (List Int)),
      explore g heap dst targetWeight fuel current visited path currentWeight = some found →
      path.getLast? = some current →
      ∀ q ∈ found, q.head? = path.head? ∧ q.getLast? = some dst := by
  intro fuel
  induction fuel with
  | zero =>
    intro current visited path cw found h
    simp [explore] at h
  | succ fuel ih =>
    intro current visited path cw found h hlast
    rw [explore] at h
    split at h
    · rename_i hcd
      split at h
      · simp only [Option.some.injEq] at h
        subst h
        intro q hq
        simp only [List.mem_singleton] at hq
        subst hq
        exact ⟨rfl, by rw [hlast, hcd]⟩
      · simp only [Option.some.injEq] at h
        subst h
        intro q hq
        simp at hq
    · split at h
      · simp only [Option.some.injEq] at h
        subst h
        intro q hq
        simp at hq
      · obtain ⟨a, ha, himp⟩ := foldl_found
          (fun q => q.head? = path.head? ∧ q.getLast? = some dst) _ (by
            intro acc n r hr
            try simp only at hr
            split at hr
            · rename_i a b hexp
              simp only [Option.some.injEq] at hr
              refine ⟨a, b, rfl, hr.symm, ?_⟩
              intro q hq
              have := ih _ _ _ _ _ hexp (by simp) q hq
              refine ⟨?_, this.2⟩
              rw [this.1]
              cases path with
              | nil => simp at hlast
              | cons x xs => rfl
            · exact Option.noConfusion hr) _ _ _ h
        simp only [Option.some.injEq] at ha
        subst ha
        exact himp (by simp)

theorem singlePair_endpoints (g : MystGraph) (heap : Heap) (hwf : g.Graph.WF) (s t : Int)
    (seg : ShortestPathInfo) (h : g.singlePair heap s t = some (some seg, none)) :
    seg.Path.head? = some s ∧ seg.Path.getLast? = some t ∧ seg.Distance.isInf = false := by
  unfold MystGraph.singlePair at h
  split at h
  · simp at h
  rename_i hs
  split at h
  · simp at h
  have hs' : s ∈ g.Graph.nodes := by
    simpa [MystGraph.Node, WeightedDirectedGraph.hasNode] using hs
  obtain ⟨p, hp, hinv⟩ := DijkstraFrom_inv g hwf s hs'
  rw [hp] at h
  simp only at h
  rcases To_ok g s p hinv t with hto | ⟨path, d, hto, hne, hhead, hlast, _⟩
  · rw [hto] at h
    simp at h
  · rw [hto] at h
    simp only at h
    have hlen : ¬ path.length = 0 := by
      intro h0
      exact hne (List.length_eq_zero.mp h0)
    rw [if_neg hlen] at h
    have hinf : ¬ (Weight.fin d).isInf = true := by simp [Weight.isInf]
    rw [if_neg hinf] at h
    split at h
    · split at h
      · exact Option.noConfusion h
      · rename_i alts halts
        split at h
        · split at h
          · rename_i best rest hsort
            simp only [Option.some.injEq, Prod.mk.injEq, and_true] at h
            subst h
            have hmem : best ∈ alts := by
              have : best ∈ alts.insertionSort (fun a b => pathLess b a = false) := by
                rw [hsort]; exact List.mem_cons_self _ _
              exact (List.perm_insertionSort _ _).mem_iff.mp this
            have := explore_endpoints g heap t (Weight.fin d) _ _ _ _ _ _ halts (by simp)
              best hmem
            exact ⟨by simpa using this.1, this.2, rfl⟩
          · simp only [Option.some.injEq, Prod.mk.injEq, and_true] at h
            subst h
            exact ⟨hhead, hlast, rfl⟩
        · simp only [Option.some.injEq, Prod.mk.injEq, and_true] at h
          subst h
          exact ⟨hhead, hlast, rfl⟩
    · simp only [Option.some.injEq, Prod.mk.injEq, and_true] at h
      subst h
      exact ⟨hhead, hlast, rfl⟩

theorem ComputeShortestPath_nil (g : MystGraph) (heap : Heap) (s t : Int) :
    g.ComputeShortestPath heap s t [] = g.singlePair heap s t := by
  unfold MystGraph.ComputeShortestPath MystGraph.computeShortestPath MystGraph.singlePair
  split
  · rfl
  · split
    · rfl
    · simp

theorem stopPairs_length (ids : List Int) (dst : Int) :
    ∀ cur : Int, (stopPairs cur ids dst).length = ids.length + 1 := by
  induction ids with
  | nil => intro cur; rfl
  | cons w ws ih => intro cur; simp [stopPairs, ih]

theorem mandatoryLoop_spec (g : MystGraph) (heap : Heap) (dst : Int) :
    ∀ (ws : List Node) (path : List Int) (dist : Weight) (cur : Int)
      (path' : List Int) (dist' : Weight) (cur' : Int) (final : ShortestPathInfo),
      mandatoryLoop g heap ws path dist cur = some (Except.ok (path', dist', cur')) →
      g.singlePair heap cur' dst = some (some final, none) →
      ∃ segs : List ShortestPathInfo,
        List.Forall₂ (fun (st : Int × Int) seg =>
            g.singlePair heap st.1 st.2 = some (some seg, none))
          (stopPairs cur (ws.map (fun w => w.GraphID)) dst) segs ∧
        path' ++ final.Path = path ++ joinSegments (segs.map (fun s => s.Path)) ∧
        Weight.add dist' final.Distance =
          segs.foldl (fun d s => Weight.add d s.Distance) dist := by
  intro ws
  induction ws with
  | nil =>
    intro path dist cur path' dist' cur' final h hfin
    simp only [mandatoryLoop, Option.some.injEq, Except.ok.injEq, Prod.mk.injEq] at h
    obtain ⟨rfl, rfl, rfl⟩ := h
    exact ⟨[final], by simpa [stopPairs] using hfin, by simp [joinSegments], by simp⟩
  | cons w ws ih =>
    intro path dist cur path' dist' cur' final h hfin
    rw [mandatoryLoop] at h
    split at h
    · simp at h
    · split at h
      · exact Option.noConfusion h
      · simp at h
      · exact Option.noConfusion h
      · rename_i temp htemp
        split at h
        · simp at h
        · obtain ⟨segs, hall, hpath, hdist⟩ := ih _ _ _ _ _ _ final h hfin
          have hlen := hall.length_eq
          rw [stopPairs_length] at hlen
          cases segs with
          | nil => simp at hlen
          | cons seg segs' =>
            refine ⟨temp :: seg :: segs', ?_, ?_, ?_⟩
            · simp only [List.map_cons, stopPairs]
              exact List.Forall₂.cons htemp hall
            · rw [hpath]
              simp [joinSegments]
            · rw [hdist]
              simp

theorem visitsInOrder_append (pre : List Int) :
    ∀ (stops path : List Int), visitsInOrder stops path → visitsInOrder stops (pre ++ path) := by
  intro stops path h
  cases stops with
  | nil => trivial
  | cons w ws =>
    obtain ⟨a, b, hp, hv⟩ := h
    exact ⟨pre ++ a, b, by rw [hp, List.append_assoc], hv⟩

theorem visitsInOrder_cons (cur : Int) (stops path : List Int)
    (hhead : path.head? = some cur) (h : visitsInOrder stops path) :
    visitsInOrder (cur :: stops) path := by
  cases path with
  | nil => simp at hhead
  | cons x xs =>
    simp only [List.head?_cons, Option.some.injEq] at hhead
    subst hhead
    exact ⟨[], xs, rfl, h⟩

theorem joinSegments_visits :
    ∀ (ids : List Int) (cur dst : Int) (segs : List (List Int)),
      List.Forall₂ (fun (st : Int × Int) p => p.head? = some st.1 ∧ p.getLast? = some st.2)
        (stopPairs cur ids dst) segs →
      (joinSegments segs).head? = some cur ∧ (joinSegments segs).getLast? = some dst ∧
      visitsInOrder (cur :: ids ++ [dst]) (joinSegments segs) := by
  intro ids
  induction ids with
  | nil =>
    intro cur dst segs h
    simp only [stopPairs] at h
    cases h with
    | cons hp hrest =>
      cases hrest
      rename_i p
      simp only [joinSegments]
      refine ⟨hp.1, hp.2, visitsInOrder_cons _ _ _ hp.1 ?_⟩
      have hne : p ≠ [] := by
        intro h0
        rw [h0] at hp
        simp at hp
      refine ⟨p.dropLast, [], ?_, trivial⟩
      have := List.dropLast_append_getLast? dst (by simpa using hp.2)
      simpa using this.symm
  | cons w ws ih =>
    intro cur dst segs h
    simp only [stopPairs] at h
    cases h with
    | cons hp hrest =>
      rename_i p segs'
      obtain ⟨hh, hl, hv⟩ := ih w dst segs' hrest
      have hlen := hrest.length_eq
      rw [stopPairs_length] at hlen
      cases segs' with
      | nil => simp at hlen
      | cons q rest =>
        simp only [joinSegments]
        have hJ : joinSegments (q :: rest) ≠ [] := by
          intro h0
          rw [h0] at hh
          simp at hh
        have hhead : (p.dropLast ++ joinSegments (q :: rest)).head? = some cur := by
          cases p with
          | nil => simp at hp
          | cons x xs =>
            cases xs with
            | nil =>
              simp only [List.head?_cons, Option.some.injEq, List.getLast?_singleton] at hp
              simp only [List.dropLast_single, List.nil_append]
              rw [hh, ← hp.2, hp.1]
            | cons y ys =>
              simp only [List.head?_cons, Option.some.injEq] at hp
              simp [List.dropLast, hp.1]
        refine ⟨hhead, ?_, visitsInOrder_cons _ _ _ hhead (visitsInOrder_append _ _ _ hv)⟩
        rw [List.getLast?_append_of_ne_nil _ hJ]
        exact hl

/-- C12. For every store whose routable structure satisfies the representation
invariant and every successful `ComputeShortestPath(src, dst, ws)` with at least
one mandatory node, there are single-pair results `segs`, one for each pair of
consecutive stops `(src, w1), (w1, w2), ..., (wk, dst)` and each running from
its first stop to its second, such that the returned distance is the sum of
their distances, the returned path is their concatenation with every junction
kept once (`joinSegments`), and the path starts at `src`, ends at `dst` and
visits `src, w1, ..., wk, dst` in that order. -/
theorem ComputeShortestPath_waypoints (g : MystGraph) (heap : Heap) (hwf : g.Graph.WF)
    (src dst : Int) (ws : List Node) (hws : ws ≠ []) (info : ShortestPathInfo)
    (h : g.ComputeShortestPath heap src dst ws = some (some info, none)) :
    ∃ segs : List ShortestPathInfo,
      List.Forall₂ (fun (st : Int × Int) seg =>
          g.ComputeShortestPath heap st.1 st.2 [] = some (some seg, none) ∧
          seg.Path.head? = some st.1 ∧ seg.Path.getLast? = some st.2)
        (stopPairs src (ws.map (fun w => w.GraphID)) dst) segs ∧
      segs.length = ws.length + 1 ∧
      info.Distance = (segs.map (fun s => s.Distance)).foldl Weight.add (Weight.fin 0) ∧
      info.Path = joinSegments (segs.map (fun s => s.Path)) ∧
      info.Path.head? = some src ∧ info.Path.getLast? = some dst ∧
      visitsInOrder (src :: ws.map (fun w => w.GraphID) ++ [dst]) info.Path := by
  unfold MystGraph.ComputeShortestPath MystGraph.computeShortestPath at h
  split at h
  · simp at h
  split at h
  · simp at h
  have hpos : 0 < ws.length := List.length_pos.mpr hws
  rw [if_pos hpos] at h
  split at h
  · exact Option.noConfusion h
  · simp at h
  · rename_i path dist cur hloop
    split at h
    · exact Option.noConfusion h
    · simp at h
    · exact Option.noConfusion h
    · rename_i final hfinal
      split at h
      · simp at h
      · simp only [Option.some.injEq, Prod.mk.injEq, and_true] at h
        subst h
        obtain ⟨segs, hall, hpath, hdist⟩ :=
          mandatoryLoop_spec g heap dst ws [] (Weight.fin 0) src path dist cur final hloop hfinal
        have hall' : List.Forall₂ (fun (st : Int × Int) seg =>
            g.ComputeShortestPath heap st.1 st.2 [] = some (some seg, none) ∧
            seg.Path.head? = some st.1 ∧ seg.Path.getLast? = some st.2)
            (stopPairs src (ws.map (fun w => w.GraphID)) dst) segs := by
          refine hall.imp ?_
          intro st seg hseg
          have := singlePair_endpoints g heap hwf st.1 st.2 seg hseg
          exact ⟨by rw [ComputeShortestPath_nil]; exact hseg, this.1, this.2.1⟩
        have hends : List.Forall₂
            (fun (st : Int × Int) p => p.head? = some st.1 ∧ p.getLast? = some st.2)
            (stopPairs src (ws.map (fun w => w.GraphID)) dst) (segs.map (fun s => s.Path)) := by
          rw [List.forall₂_map_right_iff]
          exact hall'.imp (fun _ _ h => h.2)
        obtain ⟨hh, hl, hv⟩ := joinSegments_visits _ _ _ _ hends
        have hlen := hall.length_eq
        rw [stopPairs_length, List.length_map] at hlen
        simp only [List.nil_append] at hpath
        refine ⟨segs, hall', hlen.symm, ?_, hpath, ?_, ?_, ?_⟩
        · simp only
          rw [hdist, List.foldl_map]
        · simp only; rw [hpath]; exact hh
        · simp only; rw [hpath]; exact hl
        · simp only; rw [hpath]; exact hv

set_option maxRecDepth 100000 in
/-- Witness of `ComputeShortestPath_waypoints` on `detourGraph`: the query from A
to C through D and E succeeds with the path `[0, 3, 4, 2]` and distance 3, the
join of the three segments `[0, 3]`, `[3, 4]`, `[4, 2]` of distance 1. -/
theorem ComputeShortestPath_waypoints_witness :
    detourGraph.Graph.WF ∧
    detourGraph.ComputeShortestPath (NewGraph (some detourMetadata) detourHeap).2.2 0 2
      [⟨[], 3, "", "D", none, none⟩, ⟨[], 4, "", "E", none, none⟩] =
      some (some { From := 0, To := 2, Distance := Weight.fin 3, Path := [0, 3, 4, 2] }, none) ∧
    ∃ segs : List ShortestPathInfo,
      List.Forall₂ (fun (st : Int × Int) seg =>
          detourGraph.ComputeShortestPath (NewGraph (some detourMetadata) detourHeap).2.2
            st.1 st.2 [] = some (some seg, none) ∧
          seg.Path.head? = some st.1 ∧ seg.Path.getLast? = some st.2)
        (stopPairs 0 [3, 4] 2) segs ∧
      segs.length = 3 ∧
      Weight.fin 3 = (segs.map (fun s => s.Distance)).foldl Weight.add (Weight.fin 0) ∧
      [0, 3, 4, 2] = joinSegments (segs.map (fun s => s.Path)) ∧
      [0, 3, 4, 2].head? = some 0 ∧ [0, 3, 4, 2].getLast? = some 2 ∧
      visitsInOrder [0, 3, 4, 2] [0, 3, 4, 2] :=
  ⟨by decide, by decide, by
    simpa using ComputeShortestPath_waypoints detourGraph
      (NewGraph (some detourMetadata) detourHeap).2.2
      (by decide) 0 2 [⟨[], 3, "", "D", none, none⟩, ⟨[], 4, "", "E", none, none⟩]
      (by simp) { From := 0, To := 2, Distance := Weight.fin 3, Path := [0, 3, 4, 2] }
      (by decide)⟩

theorem candidateOf_some (p : Shortest) (src dst : Int) (c : pathCandidate)
    (h : candidateOf p src dst = some c) :
    src ≠ dst ∧ c.source = src ∧ c.target = dst ∧ c.path ≠ [] ∧
    ∃ w, c.distance = Weight.fin w ∧ p.To dst = some (c.path, Weight.fin w) := by
  unfold candidateOf at h
  split at h
  · exact Option.noConfusion h
  · rename_i hne
    split at h
    · rename_i path w hto
      split at h
      · exact Option.noConfusion h
      · rename_i hlen
        simp only [Option.some.injEq] at h
        subst h
        exact ⟨hne, rfl, rfl, fun h0 => hlen (List.length_eq_zero.mpr h0), w, rfl, hto⟩
    · exact Option.noConfusion h

theorem candidateOf_of_To (p : Shortest) (src dst : Int) (path : List Int) (w : Nat)
    (hne : src ≠ dst) (hto : p.To dst = some (path, Weight.fin w)) (hp : path ≠ []) :
    candidateOf p src dst =
      some { source := src, target := dst, distance := Weight.fin w, path := path } := by
  unfold candidateOf
  rw [if_neg hne, hto]
  simp only
  rw [if_neg (fun h0 => hp (List.length_eq_zero.mp h0))]

theorem separationRow_eq (p : Shortest) (src : Int) (hto : ∀ t, p.To t ≠ none) :
    ∀ (dsts : List Int) (st : SeparationState),
      separationRow p src dsts st =
        some ((rowCandidates p src dsts).foldl candidateStep st) := by
  intro dsts
  induction dsts with
  | nil => intro st; rfl
  | cons dst rest ih =>
    intro st
    unfold separationRow rowCandidates
    rw [List.filterMap_cons]
    by_cases hsd : src = dst
    · rw [if_pos hsd]
      have : candidateOf p src dst = none := by
        unfold candidateOf
        rw [if_pos hsd]
      rw [this]
      exact ih st
    · rw [if_neg hsd]
      cases hd : p.To dst with
      | none => exact absurd hd (hto dst)
      | some pw =>
        obtain ⟨path, weight⟩ := pw
        simp only
        rw [ih]
        unfold rowCandidates
        cases weight with
        | inf =>
          have : candidateOf p src dst = none := by
            unfold candidateOf
            rw [if_neg hsd, hd]
          rw [this]
          have hc : considerPair src dst path Weight.inf st = st := by
            unfold considerPair
            split <;> rfl
          rw [hc]
        | fin w =>
          by_cases hlen : path.length = 0
          · have : candidateOf p src dst = none := by
              unfold candidateOf
              rw [if_neg hsd, hd]
              simp only
              rw [if_pos hlen]
            rw [this]
            have hc : considerPair src dst path (Weight.fin w) st = st := by
              unfold considerPair
              rw [if_pos hlen]
            rw [hc]
          · rw [candidateOf_of_To p src dst path w hsd hd
              (fun h0 => hlen (by rw [h0]; rfl))]
            simp only [List.foldl_cons]
            rfl

theorem separationRows_eq (g : MystGraph) (hwf : g.Graph.WF) (nodeIDs : List Int) :
    ∀ (srcs : List Int) (st : SeparationState), (∀ s ∈ srcs, s ∈ g.Graph.nodes) →
      separationRows g nodeIDs srcs st =
        some ((allCandidates g nodeIDs srcs).foldl candidateStep st) := by
  intro srcs
  induction srcs with
  | nil => intro st _; rfl
  | cons src rest ih =>
    intro st hs
    obtain ⟨p, hp, hinv⟩ := DijkstraFrom_inv g hwf src (hs src (List.mem_cons_self _ _))
    have hto : ∀ t, p.To t ≠ none := by
      intro t
      rcases To_ok g src p hinv t with h | ⟨path, d, h, _⟩ <;> rw [h] <;> simp
    unfold separationRows allCandidates
    rw [hp]
    simp only
    rw [separationRow_eq p src hto, List.foldl_append]
    exact ih _ (fun s h => hs s (List.mem_cons_of_mem _ h))

theorem candidateStep_eq (st : SeparationState) (c : pathCandidate) (w : Nat)
    (hw : c.distance = Weight.fin w) (hp : c.path ≠ []) :
    candidateStep st c =
      if st.1 ≤ (w : Int) then
        (if st.1 < (w : Int) then ((w : Int), [c]) else (st.1, st.2 ++ [c]))
      else st := by
  unfold candidateStep considerPair
  rw [if_neg (fun h0 => hp (List.length_eq_zero.mp h0)), hw]
  simp only
  have hc : ({ source := c.source, target := c.target, distance := Weight.fin w,
               path := c.path } : pathCandidate) = c := by
    cases c
    simp only at hw
    subst hw
    rfl
  rw [hc]
  by_cases h1 : st.1 ≤ (w : Int)
  · rw [if_pos h1, if_pos h1]
    by_cases h2 : st.1 < (w : Int)
    · rw [if_pos h2, if_pos h2]
      rfl
    · rw [if_neg h2, if_neg h2]
  · rw [if_neg h1, if_neg h1]

theorem foldl_candidateStep (cs : List pathCandidate) :
    ∀ (m : Int) (acc : List pathCandidate),
      (∀ c ∈ cs, c.path ≠ [] ∧ ∃ w : Nat, c.distance = Weight.fin w) →
      (∀ c ∈ acc, c.distance.toInt = m) →
      m ≤ (cs.foldl candidateStep (m, acc)).1 ∧
      (∀ c ∈ cs, c.distance.toInt ≤ (cs.foldl candidateStep (m, acc)).1) ∧
      ((cs.foldl candidateStep (m, acc)).1 = m ∨
        ∃ c ∈ cs, c.distance.toInt = (cs.foldl candidateStep (m, acc)).1) ∧
      (cs.foldl candidateStep (m, acc)).2 =
        (acc ++ cs).filter
          (fun c => decide (c.distance.toInt = (cs.foldl candidateStep (m, acc)).1)) := by
  induction cs with
  | nil =>
    intro m acc _ hacc
    refine ⟨le_refl _, by simp, Or.inl rfl, ?_⟩
    simp only [List.foldl_nil, List.append_nil]
    rw [List.filter_eq_self.mpr]
    intro c hc
    simpa using hacc c hc
  | cons c rest ih =>
    intro m acc hcs hacc
    obtain ⟨hp, w, hw⟩ := hcs c (List.mem_cons_self _ _)
    have hrest : ∀ c ∈ rest, c.path ≠ [] ∧ ∃ w : Nat, c.distance = Weight.fin w :=
      fun c' h => hcs c' (List.mem_cons_of_mem _ h)
    have hcw : c.distance.toInt = (w : Int) := by rw [hw]; rfl
    rw [List.foldl_cons, candidateStep_eq (m, acc) c w hw hp]
    simp only
    by_cases h1 : m ≤ (w : Int)
    · rw [if_pos h1]
      by_cases h2 : m < (w : Int)
      · rw [if_pos h2]
        obtain ⟨a1, a2, a3, a4⟩ := ih (w : Int) [c] hrest (by
          intro c' hc'
          simp only [List.mem_singleton] at hc'
          rw [hc', hcw])
        refine ⟨by omega, ?_, ?_, ?_⟩
        · intro c' hc'
          rcases List.mem_cons.mp hc' with rfl | hc'
          · rw [hcw]; exact a1
          · exact a2 c' hc'
        · right
          rcases a3 with a3 | ⟨c', hc', a3⟩
          · exact ⟨c, List.mem_cons_self _ _, by rw [hcw, a3]⟩
          · exact ⟨c', List.mem_cons_of_mem _ hc', a3⟩
        · have : acc.filter (fun c' => decide (c'.distance.toInt =
              (rest.foldl candidateStep ((w : Int), [c])).1)) = [] := by
            rw [List.filter_eq_nil_iff]
            intro c' hc'
            have := hacc c' hc'
            simp only [decide_eq_true_eq]
            omega
          rw [a4, List.filter_append acc (c :: rest), this]
          rfl
      · rw [if_neg h2]
        have hmw : m = (w : Int) := by omega
        obtain ⟨a1, a2, a3, a4⟩ := ih m (acc ++ [c]) hrest (by
          intro c' hc'
          rcases List.mem_append.mp hc' with hc' | hc'
          · exact hacc c' hc'
          · simp only [List.mem_singleton] at hc'
            rw [hc', hcw, hmw])
        refine ⟨a1, ?_, ?_, ?_⟩
        · intro c' hc'
          rcases List.mem_cons.mp hc' with rfl | hc'
          · rw [hcw, ← hmw]; exact a1
          · exact a2 c' hc'
        · rcases a3 with a3 | ⟨c', hc', a3⟩
          · exact Or.inl a3
          · exact Or.inr ⟨c', List.mem_cons_of_mem _ hc', a3⟩
        · rw [a4]
          simp
    · rw [if_neg h1]
      obtain ⟨a1, a2, a3, a4⟩ := ih m acc hrest hacc
      refine ⟨a1, ?_, ?_, ?_⟩
      · intro c' hc'
        rcases List.mem_cons.mp hc' with rfl | hc'
        · rw [hcw]; omega
        · exact a2 c' hc'
      · rcases a3 with a3 | ⟨c', hc', a3⟩
        · exact Or.inl a3
        · exact Or.inr ⟨c', List.mem_cons_of_mem _ hc', a3⟩
      · rw [a4, List.filter_append, List.filter_append, List.filter_cons]
        have : decide (c.distance.toInt = (rest.foldl candidateStep (m, acc)).1) = false := by
          simp only [decide_eq_false_iff_not]
          omega
        rw [this]
        simp

theorem pickPeripheral_spec (degrees : GoMap Int Int) :
    ∀ (rest seen : List pathCandidate) (best : pathCandidate),
      (∃ pre post, seen = pre ++ best :: post ∧
        (∀ c ∈ pre, peripheralScore degrees best < peripheralScore degrees c) ∧
        (∀ c ∈ post, peripheralScore degrees best ≤ peripheralScore degrees c)) →
      ∃ pre post,
        seen ++ rest =
          pre ++ pickPeripheral degrees rest best (peripheralScore degrees best) :: post ∧
        (∀ c ∈ pre, peripheralScore degrees
            (pickPeripheral degrees rest best (peripheralScore degrees best)) <
          peripheralScore degrees c) ∧
        (∀ c ∈ post, peripheralScore degrees
            (pickPeripheral degrees rest best (peripheralScore degrees best)) ≤
          peripheralScore degrees c) := by
  intro rest
  induction rest with
  | nil =>
    intro seen best h
    simpa [pickPeripheral] using h
  | cons c rest ih =>
    intro seen best ⟨pre, post, hseen, hpre, hpost⟩
    unfold pickPeripheral
    by_cases hlt : peripheralScore degrees c < peripheralScore degrees best
    · rw [if_pos hlt]
      have := ih (seen ++ [c]) c ⟨seen, [], rfl, by
        intro c' hc'
        rw [hseen] at hc'
        rcases List.mem_append.mp hc' with hc' | hc'
        · have := hpre c' hc'; omega
        · rcases List.mem_cons.mp hc' with rfl | hc'
          · exact hlt
          · have := hpost c' hc'; omega, by simp⟩
      simpa using this
    · rw [if_neg hlt]
      have := ih (seen ++ [c]) best ⟨pre, post ++ [c], by rw [hseen]; simp, hpre, by
        intro c' hc'
        rcases List.mem_append.mp hc' with hc' | hc'
        · exact hpost c' hc'
        · simp only [List.mem_singleton] at hc'
          rw [hc']; omega⟩
      simpa using this

theorem nodeDegrees_get (g : MystGraph) :
    ∀ (ids : List Int) (m : GoMap Int Int) (id : Int),
      (nodeDegrees g ids m).get id = if id ∈ ids then some (g.degree id) else m.get id := by
  intro ids
  induction ids with
  | nil => intro m id; simp [nodeDegrees]
  | cons x rest ih =>
    intro m id
    unfold nodeDegrees
    rw [ih, GoMap.get_set]
    by_cases h1 : id ∈ rest
    · simp [h1]
    · by_cases h2 : x = id
      · subst h2
        simp [h1, MystGraph.degree]
      · have : ¬ id = x := fun h => h2 h.symm
        simp [h1, h2, this]

theorem mem_allCandidates (g : MystGraph) (nodeIDs : List Int) (c : pathCandidate) :
    ∀ srcs : List Int, c ∈ allCandidates g nodeIDs srcs ↔
      c.source ∈ srcs ∧ c.target ∈ nodeIDs ∧ c.source ≠ c.target ∧ c.path ≠ [] ∧
      ∃ p w, DijkstraFrom g c.source = some p ∧ c.distance = Weight.fin w ∧
        p.To c.target = some (c.path, Weight.fin w) := by
  intro srcs
  induction srcs with
  | nil => simp [allCandidates]
  | cons src rest ih =>
    unfold allCandidates
    rw [List.mem_append, ih]
    constructor
    · rintro (h | ⟨h1, h2⟩)
      · cases hp : DijkstraFrom g src with
        | none => rw [hp] at h; simp at h
        | some p =>
          rw [hp] at h
          simp only [rowCandidates, List.mem_filterMap] at h
          obtain ⟨dst, hdst, hc⟩ := h
          obtain ⟨hne, hs, ht, hpath, w, hw, hto⟩ := candidateOf_some p src dst c hc
          rw [hs, ht]
          exact ⟨List.mem_cons_self _ _, hdst, hne, hpath, p, w, hp, hw, hto⟩
      · exact ⟨List.mem_cons_of_mem _ h1, h2⟩
    · rintro ⟨h1, h2, hne, hpath, p, w, hp, hw, hto⟩
      rcases List.mem_cons.mp h1 with h1 | h1
      · left
        rw [← h1, hp]
        simp only [rowCandidates, List.mem_filterMap]
        refine ⟨c.target, h2, ?_⟩
        rw [candidateOf_of_To p c.source c.target c.path w hne hto hpath]
        cases c
        simp only at hw
        subst hw
        rfl
      · exact Or.inr ⟨h1, h2, hne, hpath, p, w, hp, hw, hto⟩

theorem allCandidates_pairwise (g : MystGraph) (nodeIDs : List Int)
    (hsorted : nodeIDs.Pairwise (fun a b => a < b)) :
    ∀ srcs : List Int, srcs.Pairwise (fun a b => a < b) →
      (allCandidates g nodeIDs srcs).Pairwise candidateBefore := by
  intro srcs
  induction srcs with
  | nil => intro _; simp [allCandidates]
  | cons src rest ih =>
    intro hs
    rw [List.pairwise_cons] at hs
    unfold allCandidates
    rw [List.pairwise_append]
    refine ⟨?_, ih hs.2, ?_⟩
    · cases hp : DijkstraFrom g src with
      | none => simp
      | some p =>
        simp only [rowCandidates]
        refine List.Pairwise.filterMap _ ?_ hsorted
        intro a a' haa b hb b' hb'
        obtain ⟨_, hs1, ht1, _⟩ := candidateOf_some p src a b hb
        obtain ⟨_, hs2, ht2, _⟩ := candidateOf_some p src a' b' hb'
        right
        rw [hs1, hs2, ht1, ht2]
        exact ⟨rfl, haa⟩
    · intro a ha b hb
      left
      have hb' := ((mem_allCandidates g nodeIDs b rest).mp hb).1
      have ha' : a.source = src := by
        cases hp : DijkstraFrom g src with
        | none => rw [hp] at ha; simp at ha
        | some p =>
          rw [hp] at ha
          simp only [rowCandidates, List.mem_filterMap] at ha
          obtain ⟨dst, _, hc⟩ := ha
          exact (candidateOf_some p src dst a hc).2.1
      rw [ha']
      exact hs.1 _ hb'

theorem mem_getAllNodeIDs (g : MystGraph) (x : Int) :
    x ∈ g.getAllNodeIDs ↔ x ∈ g.Graph.nodes :=
  (List.perm_insertionSort _ _).mem_iff

theorem getAllNodeIDs_sorted (g : MystGraph) (hwf : g.Graph.WF) :
    g.getAllNodeIDs.Pairwise (fun a b => a < b) := by
  have h1 : g.getAllNodeIDs.Sorted (fun a b => a ≤ b) := List.sorted_insertionSort _ _
  have h2 : g.getAllNodeIDs.Nodup := (List.perm_insertionSort _ _).nodup_iff.mpr hwf.1
  exact h1.lt_of_le h2

theorem separatedPair_of_mem (g : MystGraph) (c : pathCandidate)
    (h : c ∈ allCandidates g g.getAllNodeIDs g.getAllNodeIDs) :
    ∃ w, c.distance = Weight.fin w ∧ SeparatedPair g c.source c.target w c.path := by
  obtain ⟨h1, h2, hne, hpath, p, w, hp, hw, hto⟩ := (mem_allCandidates g _ c _).mp h
  exact ⟨w, hw, (mem_getAllNodeIDs g _).mp h1, (mem_getAllNodeIDs g _).mp h2, hne,
    p, hp, hto, hpath⟩

theorem mem_of_separatedPair (g : MystGraph) (s t : Int) (d : Nat) (path : List Int)
    (h : SeparatedPair g s t d path) :
    ({ source := s, target := t, distance := Weight.fin d, path := path } : pathCandidate) ∈
      allCandidates g g.getAllNodeIDs g.getAllNodeIDs := by
  obtain ⟨h1, h2, hne, p, hp, hto, hpath⟩ := h
  exact (mem_allCandidates g _ _ _).mpr ⟨(mem_getAllNodeIDs g _).mpr h1,
    (mem_getAllNodeIDs g _).mpr h2, hne, hpath, p, d, hp, rfl, hto⟩

theorem peripheralScore_eq (g : MystGraph) (c : pathCandidate)
    (hs : c.source ∈ g.getAllNodeIDs) (ht : c.target ∈ g.getAllNodeIDs) :
    peripheralScore (nodeDegrees g g.getAllNodeIDs []) c =
      g.degree c.source + g.degree c.target := by
  unfold peripheralScore
  rw [nodeDegrees_get, nodeDegrees_get, if_pos hs, if_pos ht]
  rfl

theorem two_le_length_of_ne (l : List Int) (s t : Int) (hs : s ∈ l) (ht : t ∈ l)
    (hne : s ≠ t) : 2 ≤ l.length := by
  cases l with
  | nil => simp at hs
  | cons x xs =>
    cases xs with
    | nil =>
      simp only [List.mem_singleton] at hs ht
      exact absurd (hs.trans ht.symm) hne
    | cons y ys => simp

theorem findMostSeparatedNodes_spec (g : MystGraph) (hwf : g.Graph.WF) :
    ∃ r, g.findMostSeparatedNodes = some r ∧
      (g.Graph.nodes.length < 2 → r = NodePairInfo.zero) ∧
      ((∀ s t d path, ¬ SeparatedPair g s t d path) → r = NodePairInfo.zero) ∧
      (∀ s t d path, SeparatedPair g s t d path →
        ∃ b D, r = g.pairInfo b ∧ b.distance = Weight.fin D ∧
          SeparatedPair g b.source b.target D b.path ∧ d ≤ D ∧
          (d = D → g.degree b.source + g.degree b.target ≤ g.degree s + g.degree t ∧
            (g.degree s + g.degree t = g.degree b.source + g.degree b.target →
              b.source < s ∨ (b.source = s ∧ b.target ≤ t)))) := by
  have hlenEq : g.getAllNodeIDs.length = g.Graph.nodes.length :=
    (List.perm_insertionSort _ _).length_eq
  unfold MystGraph.findMostSeparatedNodes
  simp only
  by_cases hlen : g.getAllNodeIDs.length < 2
  · rw [if_pos hlen]
    refine ⟨_, rfl, fun _ => rfl, fun _ => rfl, ?_⟩
    intro s t d path ⟨h1, h2, hne, _⟩
    have := two_le_length_of_ne _ s t h1 h2 hne
    omega
  · rw [if_neg hlen, separationRows_eq g hwf _ _ _
      (fun s hs => (mem_getAllNodeIDs g s).mp hs)]
    obtain ⟨a1, a2, a3, a4⟩ := foldl_candidateStep
      (allCandidates g g.getAllNodeIDs g.getAllNodeIDs) (-1) [] (by
        intro c hc
        obtain ⟨w, hw, _, _, _, p, _, _, hpath⟩ := separatedPair_of_mem g c hc
        exact ⟨hpath, w, hw⟩) (by simp)
    cases hfold : (allCandidates g g.getAllNodeIDs g.getAllNodeIDs).foldl candidateStep
        (-1, []) with
    | mk M cands =>
    rw [hfold] at a1 a2 a3 a4
    simp only [List.nil_append] at a4 a1 a2 a3
    have hmemc : ∀ c, c ∈ cands ↔
        c ∈ allCandidates g g.getAllNodeIDs g.getAllNodeIDs ∧ c.distance.toInt = M := by
      intro c
      rw [a4, List.mem_filter]
      simp
    have hnonempty : ∀ s t d path, SeparatedPair g s t d path → (d : Int) ≤ M ∧ cands ≠ [] := by
      intro s t d path hsp
      have hmem := mem_of_separatedPair g s t d path hsp
      have hle := a2 _ hmem
      simp only [Weight.toInt] at hle
      refine ⟨hle, ?_⟩
      rcases a3 with a3 | ⟨c, hc, hcM⟩
      · omega
      · intro h0
        have := (hmemc c).mpr ⟨hc, hcM⟩
        rw [h0] at this
        simp at this
    cases cands with
    | nil =>
      refine ⟨_, rfl, fun h => by omega, fun _ => rfl, ?_⟩
      intro s t d path hsp
      exact absurd rfl (hnonempty s t d path hsp).2
    | cons first rest =>
      have hr : (match first :: rest with
          | [] => some NodePairInfo.zero
          | [candidate] => some (g.pairInfo candidate)
          | first :: rest =>
            some (g.pairInfo (pickPeripheral (nodeDegrees g g.getAllNodeIDs []) rest first
              (peripheralScore (nodeDegrees g g.getAllNodeIDs []) first)))) =
          some (g.pairInfo (pickPeripheral (nodeDegrees g g.getAllNodeIDs []) rest first
              (peripheralScore (nodeDegrees g g.getAllNodeIDs []) first))) := by
        cases rest <;> rfl
      refine ⟨_, hr, fun h => by omega, ?_, ?_⟩
      · intro hno
        have hf := ((hmemc first).mp (List.mem_cons_self _ _)).1
        obtain ⟨w, _, hsp⟩ := separatedPair_of_mem g first hf
        exact absurd hsp (hno _ _ _ _)
      · intro s t d path hsp
        obtain ⟨pre, post, hsplit, hpre, hpost⟩ :=
          pickPeripheral_spec (nodeDegrees g g.getAllNodeIDs []) rest [first] first
            ⟨[], [], rfl, by simp, by simp⟩
        simp only [List.singleton_append] at hsplit
        generalize pickPeripheral (nodeDegrees g g.getAllNodeIDs []) rest first
          (peripheralScore (nodeDegrees g g.getAllNodeIDs []) first) = b at hsplit hpre hpost ⊢
        have hbmem : b ∈ first :: rest := by rw [hsplit]; simp
        obtain ⟨hball, hbM⟩ := (hmemc b).mp hbmem
        obtain ⟨D, hbD, hbsp⟩ := separatedPair_of_mem g b hball
        have hDM : (D : Int) = M := by rw [← hbM, hbD]; rfl
        have hdM := (hnonempty s t d path hsp).1
        refine ⟨b, D, rfl, hbD, hbsp, by omega, ?_⟩
        intro hdD
        have hc0all := mem_of_separatedPair g s t d path hsp
        have hc0 : ({ source := s, target := t, distance := Weight.fin d, path := path } :
            pathCandidate) ∈ first :: rest :=
          (hmemc _).mpr ⟨hc0all, by simp only [Weight.toInt]; omega⟩
        have hscore : ∀ c ∈ allCandidates g g.getAllNodeIDs g.getAllNodeIDs,
            peripheralScore (nodeDegrees g g.getAllNodeIDs []) c =
              g.degree c.source + g.degree c.target := by
          intro c hc
          obtain ⟨h1, h2, _⟩ := (mem_allCandidates g _ c _).mp hc
          exact peripheralScore_eq g c h1 h2
        have hsb := hscore b hball
        have hs0 := hscore _ hc0all
        simp only at hs0
        have hpw : (first :: rest).Pairwise candidateBefore := by
          rw [a4]
          exact (allCandidates_pairwise g _ (getAllNodeIDs_sorted g hwf) _
            (getAllNodeIDs_sorted g hwf)).filter _
        rw [hsplit] at hc0 hpw
        rcases List.mem_append.mp hc0 with hin | hin
        · have := hpre _ hin
          rw [hsb, hs0] at this
          exact ⟨by omega, fun h => by omega⟩
        · rcases List.mem_cons.mp hin with heq | hin
          · rw [← heq]
            exact ⟨le_refl _, fun _ => Or.inr ⟨rfl, le_refl _⟩⟩
          · have := hpost _ hin
            rw [hsb, hs0] at this
            refine ⟨this, fun _ => ?_⟩
            have hbefore := (List.pairwise_cons.mp (List.pairwise_append.mp hpw).2.1).1 _ hin
            rcases hbefore with hlt | ⟨he, hlt⟩
            · exact Or.inl hlt
            · exact Or.inr ⟨he, le_of_lt hlt⟩

theorem shortestRow_source (g : MystGraph) (heap : Heap) (s : Int) (p : Shortest)
    (dsts : List Int) :
    ∀ row row' : GoMap Int ShortestPathInfo,
      shortestRow g heap p s dsts row = some row' →
      (∀ t info, row.get t = some info →
        s ≠ t ∧ p.To t = some (info.Path, info.Distance) ∧ info.Path ≠ []) →
      ∀ t info, row'.get t = some info →
        s ≠ t ∧ p.To t = some (info.Path, info.Distance) ∧ info.Path ≠ [] := by
  induction dsts with
  | nil =>
    intro row row' h hrow t info hget
    simp only [shortestRow, Option.some.injEq] at h
    subst h
    exact hrow t info hget
  | cons dst rest ih =>
    intro row row' h hrow
    unfold shortestRow at h
    split at h
    · exact ih row row' h hrow
    · rename_i hsd
      split at h
      · exact Option.noConfusion h
      · rename_i pathNodes weight hto
        split at h
        · exact ih row row' h hrow
        · rename_i hlen
          simp only at h
          split at h
          · refine ih _ row' h ?_
            intro t info hget
            rw [GoMap.get_set] at hget
            split at hget
            · rename_i hdt
              simp only [Option.some.injEq] at hget
              subst hdt
              rw [← hget]
              exact ⟨hsd, hto, fun h0 => hlen (List.length_eq_zero.mpr h0)⟩
            · exact hrow t info hget
          · exact ih row row' h hrow

theorem shortestRows_source (g : MystGraph) (heap : Heap) (nodeIDs : List Int)
    (srcs : List Int) :
    ∀ result table : GoMap Int (GoMap Int ShortestPathInfo),
      shortestRows g heap nodeIDs srcs result = some table →
      (∀ s t info, tableEntry result s t = some info →
        s ≠ t ∧ ∃ p, DijkstraFrom g s = some p ∧
          p.To t = some (info.Path, info.Distance) ∧ info.Path ≠ []) →
      ∀ s t info, tableEntry table s t = some info →
        s ≠ t ∧ ∃ p, DijkstraFrom g s = some p ∧
          p.To t = some (info.Path, info.Distance) ∧ info.Path ≠ [] := by
  induction srcs with
  | nil =>
    intro result table h hres
    simp only [shortestRows, Option.some.injEq] at h
    subst h
    exact hres
  | cons src rest ih =>
    intro result table h hres
    unfold shortestRows at h
    split at h
    · exact Option.noConfusion h
    · rename_i p hp
      split at h
      · exact Option.noConfusion h
      · rename_i row hrow
        refine ih _ table h ?_
        intro s t info hget
        rw [tableEntry_set] at hget
        split at hget
        · rename_i hss
          subst hss
          obtain ⟨h1, h2, h3⟩ := shortestRow_source g heap src p nodeIDs [] row hrow
            (by intro t info h; simp [GoMap.get] at h) t info hget
          exact ⟨h1, p, hp, h2, h3⟩
        · exact hres s t info hget

theorem To_distOf (p : Shortest) (t : Int) (path : List Int) (w : Weight)
    (h : p.To t = some (path, w)) (hne : path ≠ []) : t ∈ p.nodes ∧ p.distOf t = w := by
  unfold Shortest.To at h
  split at h
  · simp only [Option.some.injEq, Prod.mk.injEq] at h
    exact absurd h.1.symm hne
  · rename_i hcond
    split at h
    · exact Option.noConfusion h
    · simp only [Option.some.injEq, Prod.mk.injEq] at h
      refine ⟨?_, h.2⟩
      by_contra hmem
      exact hcond (Or.inl hmem)

theorem table_entry_separated (g : MystGraph) (heap : Heap) (hwf : g.Graph.WF)
    (table : GoMap Int (GoMap Int ShortestPathInfo))
    (h : g.ComputeAllShortestPaths heap = some table) (s t : Int) (info : ShortestPathInfo)
    (hget : tableEntry table s t = some info) :
    ∃ d, info.Distance = Weight.fin d ∧ 0 < d ∧ SeparatedPair g s t d info.Path := by
  unfold MystGraph.ComputeAllShortestPaths MystGraph.computeShortestPaths at h
  obtain ⟨hne, p, hp, hto, hpath⟩ := shortestRows_source g heap _ _ [] table h
    (by intro s t info h; simp [tableEntry, GoMap.get] at h) s t info hget
  have hs : s ∈ g.Graph.nodes := by
    by_contra hns
    have hnode : ¬ g.Node s = true := by
      simpa [MystGraph.Node, WeightedDirectedGraph.hasNode] using hns
    unfold DijkstraFrom at hp
    rw [if_neg hnode] at hp
    simp only [Option.some.injEq] at hp
    subst hp
    have := (To_distOf _ t _ _ hto hpath).1
    simp at this
  obtain ⟨p', hp', hinv⟩ := DijkstraFrom_inv g hwf s hs
  rw [hp] at hp'
  simp only [Option.some.injEq] at hp'
  subst hp'
  obtain ⟨htn, hdist⟩ := To_distOf p t _ _ hto hpath
  rcases To_ok g s p hinv t with h0 | ⟨path, d, h1, _⟩
  · rw [h0] at hto
    simp only [Option.some.injEq, Prod.mk.injEq] at hto
    exact absurd hto.1.symm hpath
  · rw [h1] at hto
    simp only [Option.some.injEq, Prod.mk.injEq] at hto
    obtain ⟨hsrc, hnodes, _, hpred, _, _⟩ := hinv
    have hd : p.distOf t = Weight.fin d := by rw [hdist, ← hto.2]
    obtain ⟨k, dk, _, _, _, hle⟩ := hpred t d hd (fun h => hne h.symm)
    refine ⟨d, hto.2.symm, by omega, hs, by rw [← hnodes]; exact htn, hne, p, hp, ?_, hpath⟩
    rw [h1, hto.1]

/-- C15. For every store whose routable structure satisfies the representation
invariant, `FindMostSeparatedNodes` and `ComputeAllShortestPaths` both return,
the distance of every entry of the table is at most the distance of the
reported pair, and when the table has an entry the reported distance is finite
and positive. -/
theorem FindMostSeparatedNodes_dominates_table (g : MystGraph) (heap : Heap)
    (hwf : g.Graph.WF) :
    ∃ r table, g.FindMostSeparatedNodes = some r ∧
      g.ComputeAllShortestPaths heap = some table ∧
      (∀ s t info, tableEntry table s t = some info →
        Weight.le info.Distance r.Distance = true) ∧
      ((∃ s t info, tableEntry table s t = some info) →
        ∃ D : Nat, r.Distance = Weight.fin D ∧ 0 < D) := by
  obtain ⟨r, hr, _, _, hmax⟩ := findMostSeparatedNodes_spec g hwf
  obtain ⟨table, htable, _⟩ := shortestRows_spec g heap hwf g.getAllNodeIDs g.getAllNodeIDs []
    (fun s hs => (mem_getAllNodeIDs g s).mp hs)
    (by intro s t info h; simp [tableEntry, GoMap.get] at h)
  have hkey : ∀ s t info, tableEntry table s t = some info →
      ∃ d D : Nat, info.Distance = Weight.fin d ∧ r.Distance = Weight.fin D ∧ 0 < d ∧ d ≤ D := by
    intro s t info hget
    obtain ⟨d, hd, hpos, hsp⟩ := table_entry_separated g heap hwf table htable s t info hget
    obtain ⟨b, D, hrb, hbD, _, hle, _⟩ := hmax s t d info.Path hsp
    exact ⟨d, D, hd, by rw [hrb]; exact hbD, hpos, hle⟩
  refine ⟨r, table, hr, htable, ?_, ?_⟩
  · intro s t info hget
    obtain ⟨d, D, hd, hD, _, hle⟩ := hkey s t info hget
    rw [hd, hD]
    simp only [Weight.le, Weight.lt, Bool.not_eq_true', decide_eq_false_iff_not]
    omega
  · rintro ⟨s, t, info, hget⟩
    obtain ⟨d, D, _, hD, hpos, hle⟩ := hkey s t info hget
    exact ⟨D, hD, by omega⟩

set_option maxRecDepth 100000 in
/-- Witness of `FindMostSeparatedNodes_dominates_table` on `scenarioGraph`, whose
table has an entry under (0, 1). -/
theorem FindMostSeparatedNodes_dominates_table_witness :
    scenarioGraph.Graph.WF ∧
    ((scenarioGraph.ComputeAllShortestPaths exHeap).map (fun table => tableEntry table 0 1)) =
      some (some { From := 0, To := 1, Distance := Weight.fin 1, Path := [0, 1] }) ∧
    ∃ r table, scenarioGraph.FindMostSeparatedNodes = some r ∧
      scenarioGraph.ComputeAllShortestPaths exHeap = some table ∧
      (∀ s t info, tableEntry table s t = some info →
        Weight.le info.Distance r.Distance = true) ∧
      ((∃ s t info, tableEntry table s t = some info) →
        ∃ D : Nat, r.Distance = Weight.fin D ∧ 0 < D) :=
  ⟨by decide, by decide,
    FindMostSeparatedNodes_dominates_table scenarioGraph exHeap (by decide)⟩

theorem boolAt_some (v : List Bool) (i : Int) (h0 : 0 ≤ i) (h1 : i < (v.length : Int)) :
    ∃ b, boolAt v i = some b := by
  unfold boolAt
  rw [if_neg (by omega)]
  have : i.toNat < v.length := by omega
  exact ⟨v[i.toNat], List.getElem?_eq_getElem this⟩

theorem length_markAt (v : List Bool) (i : Int) : (markAt v i).length = v.length := by
  simp [markAt]

theorem isMarked_markAt (v : List Bool) (i j : Int) (h0 : 0 ≤ i)
    (h1 : i < (v.length : Int)) :
    isMarked (markAt v i) j ↔ isMarked v j ∨ j = i := by
  unfold isMarked boolAt markAt
  by_cases hj : j < 0
  · rw [if_pos hj, if_pos hj]
    constructor
    · intro h; exact Option.noConfusion h
    · rintro (h | h)
      · exact Option.noConfusion h
      · omega
  · rw [if_neg hj, if_neg hj, List.getElem?_set]
    by_cases hij : i.toNat = j.toNat
    · have hji : j = i := by omega
      rw [if_pos hij, if_pos (by omega)]
      simp [hji]
    · have hji : ¬ j = i := by
        intro h; apply hij; rw [h]
      rw [if_neg hij]
      simp [hji]

theorem count_markAt (v : List Bool) (i : Int) (h : boolAt v i = some false) :
    (markAt v i).count false + 1 = v.count false := by
  unfold boolAt at h
  split at h
  · exact Option.noConfusion h
  · obtain ⟨hlt, hget⟩ := List.getElem?_eq_some_iff.mp h
    unfold markAt
    rw [List.count_set _ _ _ _ hlt, hget]
    simp only [beq_self_eq_true, if_true]
    have hmem : false ∈ v := by
      rw [← hget]
      exact List.getElem_mem _
    have := List.count_pos_iff.mpr hmem
    simp
    omega

theorem visitNeighbors_spec :
    ∀ (nbs : List Int) (v : List Bool) (comp q : List Int),
      (∀ x ∈ nbs, 0 ≤ x ∧ x < (v.length : Int)) →
      ∃ (new : List Int) (v' : List Bool),
        visitNeighbors nbs (v, comp, q) = some (v', comp ++ new, q ++ new) ∧
        v'.length = v.length ∧ new.Nodup ∧
        (∀ x ∈ new, x ∈ nbs ∧ ¬ isMarked v x) ∧
        (∀ i, isMarked v' i ↔ isMarked v i ∨ i ∈ new) ∧
        (∀ x ∈ nbs, isMarked v' x) ∧
        v'.count false + new.length = v.count false := by
  intro nbs
  induction nbs with
  | nil =>
    intro v comp q _
    exact ⟨[], v, by simp [visitNeighbors], rfl, List.nodup_nil, by simp, by simp, by simp,
      by simp⟩
  | cons nb rest ih =>
    intro v comp q hr
    obtain ⟨h0, h1⟩ := hr nb (List.mem_cons_self _ _)
    have hrest : ∀ x ∈ rest, 0 ≤ x ∧ x < (v.length : Int) :=
      fun x hx => hr x (List.mem_cons_of_mem _ hx)
    obtain ⟨b, hb⟩ := boolAt_some v nb h0 h1
    unfold visitNeighbors
    rw [if_pos h1, hb]
    cases b with
    | true =>
      simp only
      obtain ⟨new, v', e1, e2, e3, e4, e5, e6, e7⟩ := ih v comp q hrest
      refine ⟨new, v', e1, e2, e3, ?_, e5, ?_, e7⟩
      · intro x hx
        exact ⟨List.mem_cons_of_mem _ (e4 x hx).1, (e4 x hx).2⟩
      · intro x hx
        rcases List.mem_cons.mp hx with rfl | hx
        · exact (e5 x).mpr (Or.inl hb)
        · exact e6 x hx
    | false =>
      simp only
      obtain ⟨new, v', e1, e2, e3, e4, e5, e6, e7⟩ :=
        ih (markAt v nb) (comp ++ [nb]) (q ++ [nb]) (by
          intro x hx
          rw [length_markAt]
          exact hrest x hx)
      have hnm : ¬ isMarked v nb := by
        unfold isMarked
        rw [hb]
        simp
      refine ⟨nb :: new, v', ?_, ?_, ?_, ?_, ?_, ?_, ?_⟩
      · rw [e1]
        simp
      · rw [e2, length_markAt]
      · rw [List.nodup_cons]
        refine ⟨?_, e3⟩
        intro hmem
        exact (e4 nb hmem).2 ((isMarked_markAt v nb nb h0 h1).mpr (Or.inr rfl))
      · intro x hx
        rcases List.mem_cons.mp hx with rfl | hx
        · exact ⟨List.mem_cons_self _ _, hnm⟩
        · refine ⟨List.mem_cons_of_mem _ (e4 x hx).1, ?_⟩
          intro hm
          exact (e4 x hx).2 ((isMarked_markAt v nb x h0 h1).mpr (Or.inl hm))
      · intro i
        rw [e5, isMarked_markAt v nb i h0 h1, List.mem_cons]
        tauto
      · intro x hx
        rcases List.mem_cons.mp hx with rfl | hx
        · exact (e5 x).mpr (Or.inl ((isMarked_markAt v x x h0 h1).mpr (Or.inr rfl)))
        · exact e6 x hx
      · have := count_markAt v nb hb
        simp only [List.length_cons]
        omega

theorem mem_To (g : WeightedDirectedGraph) (u v : Int) :
    v ∈ g.To u ↔ ∃ l ∈ g.lines, l.F = v ∧ l.T = u := by
  unfold WeightedDirectedGraph.To
  rw [List.mem_dedup, List.mem_map]
  constructor
  · rintro ⟨l, hl, rfl⟩
    rw [List.mem_filter] at hl
    exact ⟨l, hl.1, rfl, by simpa using hl.2⟩
  · rintro ⟨l, hl, hF, hT⟩
    exact ⟨l, List.mem_filter.mpr ⟨hl, by simpa using hT⟩, hF⟩

theorem mem_sortAsc (l : List Int) (x : Int) : x ∈ sortAsc l ↔ x ∈ l :=
  (List.perm_insertionSort _ _).mem_iff

theorem adj_symm (g : MystGraph) (u v : Int) (h : adj g u v) : adj g v u := by
  unfold adj MystGraph.From MystGraph.To at *
  rcases h with h | h
  · right
    obtain ⟨l, hl, hF, hT⟩ := (mem_From _ _ _).mp h
    exact (mem_To _ _ _).mpr ⟨l, hl, hF, hT⟩
  · left
    obtain ⟨l, hl, hF, hT⟩ := (mem_To _ _ _).mp h
    exact (mem_From _ _ _).mpr ⟨l, hl, hF, hT⟩

theorem adj_nodes (g : MystGraph) (hwf : g.Graph.WF) (u v : Int) (h : adj g u v) :
    u ∈ g.Graph.nodes ∧ v ∈ g.Graph.nodes := by
  unfold adj MystGraph.From MystGraph.To at h
  rcases h with h | h
  · obtain ⟨l, hl, hF, hT⟩ := (mem_From _ _ _).mp h
    exact ⟨hF ▸ (hwf.2.1 l hl).1, hT ▸ (hwf.2.1 l hl).2⟩
  · obtain ⟨l, hl, hF, hT⟩ := (mem_To _ _ _).mp h
    exact ⟨hT ▸ (hwf.2.1 l hl).2, hF ▸ (hwf.2.1 l hl).1⟩

theorem bfsLoop_spec (g : MystGraph) (hwf : g.Graph.WF) (L : Nat)
    (hrange : ∀ id ∈ g.Graph.nodes, 0 ≤ id ∧ id < (L : Int)) (v0 : List Bool) (s : Int)
    (hclosed : ∀ x y, isMarked v0 x → adj g x y → isMarked v0 y) :
    ∀ (fuel : Nat) (v : List Bool) (comp q : List Int),
      v.length = L →
      (∀ i, isMarked v i ↔ isMarked v0 i ∨ i ∈ comp) →
      comp.Nodup → (∀ x ∈ comp, ¬ isMarked v0 x) →
      (∀ x ∈ q, x ∈ comp) →
      (∀ x ∈ comp, x ∈ g.Graph.nodes ∧ Connected g s x) →
      (∀ x ∈ comp, x ∈ q ∨ ∀ y, adj g x y → isMarked v y) →
      v.count false + q.length ≤ fuel →
      ∃ v' comp', bfsLoop g fuel v comp q = some (v', comp') ∧
        v'.length = L ∧ (∀ i, isMarked v' i ↔ isMarked v0 i ∨ i ∈ comp') ∧ comp'.Nodup ∧
        (∀ x ∈ comp', ¬ isMarked v0 x) ∧
        (∀ x ∈ comp', x ∈ g.Graph.nodes ∧ Connected g s x) ∧
        (∀ x ∈ comp', ∀ y, adj g x y → y ∈ comp') ∧ (∀ x ∈ comp, x ∈ comp') := by
  intro fuel
  induction fuel with
  | zero =>
    intro v comp q hlen hmarks hnd hnew hq hconn hproc hfuel
    cases q with
    | cons cur q' => simp at hfuel
    | nil =>
      refine ⟨v, comp, by simp [bfsLoop], hlen, hmarks, hnd, hnew, hconn, ?_, fun x h => h⟩
      intro x hx y hxy
      rcases hproc x hx with h | h
      · simp at h
      · rcases (hmarks y).mp (h y hxy) with h0 | h0
        · exact absurd (hclosed y x h0 (adj_symm g x y hxy)) (hnew x hx)
        · exact h0
  | succ f ih =>
    intro v comp q hlen hmarks hnd hnew hq hconn hproc hfuel
    cases q with
    | nil =>
      refine ⟨v, comp, by simp [bfsLoop], hlen, hmarks, hnd, hnew, hconn, ?_, fun x h => h⟩
      intro x hx y hxy
      rcases hproc x hx with h | h
      · simp at h
      · rcases (hmarks y).mp (h y hxy) with h0 | h0
        · exact absurd (hclosed y x h0 (adj_symm g x y hxy)) (hnew x hx)
        · exact h0
    | cons cur q' =>
      have hcur : cur ∈ comp := hq cur (List.mem_cons_self _ _)
      obtain ⟨new1, v1, e1, l1, nd1, m1, k1, a1, c1⟩ :=
        visitNeighbors_spec (sortAsc (g.From cur)) v comp q' (by
          intro x hx
          rw [hlen]
          exact hrange x (adj_nodes g hwf cur x (Or.inl ((mem_sortAsc _ _).mp hx))).2)
      obtain ⟨new2, v2, e2, l2, nd2, m2, k2, a2, c2⟩ :=
        visitNeighbors_spec (sortAsc (g.To cur)) v1 (comp ++ new1) (q' ++ new1) (by
          intro x hx
          rw [l1, hlen]
          exact hrange x (adj_nodes g hwf cur x (Or.inr ((mem_sortAsc _ _).mp hx))).2)
      have hmarks2 : ∀ i, isMarked v2 i ↔ isMarked v0 i ∨ i ∈ comp ++ new1 ++ new2 := by
        intro i
        rw [k2, k1, hmarks, List.mem_append, List.mem_append]
        tauto
      have hadj1 : ∀ x ∈ new1, adj g cur x := fun x hx =>
        Or.inl ((mem_sortAsc _ _).mp (m1 x hx).1)
      have hadj2 : ∀ x ∈ new2, adj g cur x := fun x hx =>
        Or.inr ((mem_sortAsc _ _).mp (m2 x hx).1)
      obtain ⟨v', comp', r1, r2, r3, r4, r5, r6, r7, r8⟩ :=
        ih v2 (comp ++ new1 ++ new2) (q' ++ new1 ++ new2) (by rw [l2, l1, hlen]) hmarks2
          (by
            rw [List.nodup_append, List.nodup_append]
            refine ⟨⟨hnd, nd1, ?_⟩, nd2, ?_⟩
            · intro x hx hx1
              exact (m1 x hx1).2 ((hmarks x).mpr (Or.inr hx))
            · intro x hx hx2
              refine (m2 x hx2).2 ((k1 x).mpr ?_)
              rcases List.mem_append.mp hx with h | h
              · exact Or.inl ((hmarks x).mpr (Or.inr h))
              · exact Or.inr h)
          (by
            intro x hx hm
            rcases List.mem_append.mp hx with h | h
            · rcases List.mem_append.mp h with h | h
              · exact hnew x h hm
              · exact (m1 x h).2 ((hmarks x).mpr (Or.inl hm))
            · exact (m2 x h).2 ((k1 x).mpr (Or.inl ((hmarks x).mpr (Or.inl hm)))))
          (by
            intro x hx
            rcases List.mem_append.mp hx with h | h
            · rcases List.mem_append.mp h with h | h
              · exact List.mem_append_left _ (List.mem_append_left _
                  (hq x (List.mem_cons_of_mem _ h)))
              · exact List.mem_append_left _ (List.mem_append_right _ h)
            · exact List.mem_append_right _ h)
          (by
            intro x hx
            rcases List.mem_append.mp hx with h | h
            · rcases List.mem_append.mp h with h | h
              · exact hconn x h
              · exact ⟨(adj_nodes g hwf cur x (hadj1 x h)).2,
                  (hconn cur hcur).2.tail (hadj1 x h)⟩
            · exact ⟨(adj_nodes g hwf cur x (hadj2 x h)).2,
                (hconn cur hcur).2.tail (hadj2 x h)⟩)
          (by
            intro x hx
            rcases List.mem_append.mp hx with h | h
            · rcases List.mem_append.mp h with h | h
              · by_cases hxc : x = cur
                · right
                  intro y hxy
                  rw [hxc] at hxy
                  rcases hxy with hy | hy
                  · exact (k2 y).mpr (Or.inl (a1 y ((mem_sortAsc _ _).mpr hy)))
                  · exact a2 y ((mem_sortAsc _ _).mpr hy)
                · rcases hproc x h with h' | h'
                  · rcases List.mem_cons.mp h' with h' | h'
                    · exact absurd h' hxc
                    · exact Or.inl (List.mem_append_left _ (List.mem_append_left _ h'))
                  · right
                    intro y hxy
                    exact (k2 y).mpr (Or.inl ((k1 y).mpr (Or.inl (h' y hxy))))
              · exact Or.inl (List.mem_append_left _ (List.mem_append_right _ h))
            · exact Or.inl (List.mem_append_right _ h))
          (by
            simp only [List.length_append, List.length_cons] at hfuel ⊢
            omega)
      refine ⟨v', comp', ?_, r2, r3, r4, r5, r6, r7, ?_⟩
      · rw [bfsLoop, e1]
        simp only
        rw [e2]
        exact r1
      · intro x hx
        exact r8 x (List.mem_append_left _ (List.mem_append_left _ hx))

theorem Connected_symm (g : MystGraph) (u v : Int) (h : Connected g u v) : Connected g v u :=
  Relation.ReflTransGen.symmetric (fun a b hab => adj_symm g a b hab) h

theorem sortAsc_sorted (l : List Int) (hnd : l.Nodup) :
    (sortAsc l).Sorted (fun a b => a < b) := by
  have h1 : (sortAsc l).Sorted (fun a b => a ≤ b) := List.sorted_insertionSort _ _
  have h2 : (sortAsc l).Nodup := (List.perm_insertionSort _ _).nodup_iff.mpr hnd
  exact h1.lt_of_le h2

theorem componentsLoop_spec (g : MystGraph) (hwf : g.Graph.WF) (L : Nat)
    (hrange : ∀ id ∈ g.Graph.nodes, 0 ≤ id ∧ id < (L : Int)) :
    ∀ (ids : List Int) (v : List Bool) (comps : List (List Int)),
      v.length = L → (∀ x ∈ ids, x ∈ g.Graph.nodes) →
      (∀ i, isMarked v i ↔ ∃ c ∈ comps, i ∈ c) → GoodComps g comps →
      ∃ comps', componentsLoop g ids v comps = some comps' ∧ GoodComps g comps' ∧
        (∀ c ∈ comps, c ∈ comps') ∧ (∀ x ∈ ids, ∃ c ∈ comps', x ∈ c) := by
  intro ids
  induction ids with
  | nil =>
    intro v comps _ _ _ hgood
    exact ⟨comps, rfl, hgood, fun c h => h, by simp⟩
  | cons s rest ih =>
    intro v comps hlen hids hmarks hgood
    obtain ⟨h0, h1⟩ := hrange s (hids s (List.mem_cons_self _ _))
    have hrest : ∀ x ∈ rest, x ∈ g.Graph.nodes := fun x hx => hids x (List.mem_cons_of_mem _ hx)
    obtain ⟨b, hb⟩ := boolAt_some v s h0 (by rw [hlen]; exact h1)
    unfold componentsLoop
    rw [if_neg (by rw [hlen]; omega), hb]
    cases b with
    | true =>
      simp only
      obtain ⟨comps', e1, e2, e3, e4⟩ := ih v comps hlen hrest hmarks hgood
      refine ⟨comps', e1, e2, e3, ?_⟩
      intro x hx
      rcases List.mem_cons.mp hx with rfl | hx
      · obtain ⟨c, hc, hxc⟩ := (hmarks x).mp hb
        exact ⟨c, e3 c hc, hxc⟩
      · exact e4 x hx
    | false =>
      simp only
      have hnm : ¬ isMarked v s := by
        unfold isMarked
        rw [hb]
        simp
      have hclosed : ∀ x y, isMarked v x → adj g x y → isMarked v y := by
        intro x y hx hxy
        obtain ⟨c, hc, hxc⟩ := (hmarks x).mp hx
        exact (hmarks y).mpr ⟨c, hc,
          ((hgood.2 c hc).2.2.2 x hxc y).mpr (Relation.ReflTransGen.single hxy)⟩
      obtain ⟨v', comp', r1, r2, r3, r4, r5, r6, r7, r8⟩ :=
        bfsLoop_spec g hwf L hrange v s hclosed (v.length + 1) (markAt v s) [s] [s]
          (by rw [length_markAt, hlen])
          (by
            intro i
            rw [isMarked_markAt v s i h0 (by rw [hlen]; exact h1), List.mem_singleton])
          (List.nodup_singleton s)
          (by
            intro x hx
            rw [List.mem_singleton.mp hx]
            exact hnm)
          (fun x hx => hx)
          (by
            intro x hx
            rw [List.mem_singleton.mp hx]
            exact ⟨hids s (List.mem_cons_self _ _), Relation.ReflTransGen.refl⟩)
          (fun x hx => Or.inl hx)
          (by
            have := List.count_le_length false (markAt v s)
            rw [length_markAt] at this
            simp only [List.length_singleton]
            omega)
      rw [r1]
      simp only
      have hs' : s ∈ comp' := r8 s (List.mem_singleton.mpr rfl)
      have hclass : ∀ w, w ∈ comp' ↔ Connected g s w := by
        intro w
        constructor
        · intro hw
          exact (r6 w hw).2
        · intro hw
          induction hw with
          | refl => exact hs'
          | tail _ hbc ih' => exact r7 _ ih' _ hbc
      obtain ⟨comps', e1, e2, e3, e4⟩ := ih v' (comps ++ [sortAsc comp']) r2 hrest
        (by
          intro i
          rw [r3, hmarks]
          simp only [List.mem_append, List.mem_singleton]
          constructor
          · rintro (⟨c, hc, hic⟩ | hi)
            · exact ⟨c, Or.inl hc, hic⟩
            · exact ⟨sortAsc comp', Or.inr rfl, (mem_sortAsc _ _).mpr hi⟩
          · rintro ⟨c, hc | hc, hic⟩
            · exact Or.inl ⟨c, hc, hic⟩
            · rw [hc] at hic
              exact Or.inr ((mem_sortAsc _ _).mp hic))
        (by
          refine ⟨?_, ?_⟩
          · rw [List.flatten_append, List.nodup_append]
            refine ⟨hgood.1, ?_, ?_⟩
            · simp only [List.flatten_cons, List.flatten_nil, List.append_nil]
              exact (List.perm_insertionSort _ _).nodup_iff.mpr r4
            · intro x hx hx'
              simp only [List.flatten_cons, List.flatten_nil, List.append_nil] at hx'
              obtain ⟨c, hc, hxc⟩ := List.mem_flatten.mp hx
              exact r5 x ((mem_sortAsc _ _).mp hx') ((hmarks x).mpr ⟨c, hc, hxc⟩)
          · intro c hc
            rcases List.mem_append.mp hc with hc | hc
            · exact hgood.2 c hc
            · rw [List.mem_singleton.mp hc]
              refine ⟨?_, sortAsc_sorted comp' r4, ?_, ?_⟩
              · intro h0
                have := (mem_sortAsc comp' s).mpr hs'
                rw [h0] at this
                simp at this
              · intro x hx
                exact (r6 x ((mem_sortAsc _ _).mp hx)).1
              · intro u hu w
                rw [mem_sortAsc, hclass]
                have hsu := (hclass u).mp ((mem_sortAsc _ _).mp hu)
                constructor
                · intro hsw
                  exact (Connected_symm g s u hsu).trans hsw
                · intro huw
                  exact hsu.trans huw)
      refine ⟨comps', e1, e2, fun c hc => e3 c (List.mem_append_left _ hc), ?_⟩
      intro x hx
      rcases List.mem_cons.mp hx with rfl | hx
      · exact ⟨sortAsc comp', e3 _ (List.mem_append_right _ (List.mem_singleton.mpr rfl)),
          (mem_sortAsc _ _).mpr hs'⟩
      · exact e4 x hx

theorem firstDifference_self (a : List Int) : firstDifference a a = none := by
  induction a with
  | nil => rfl
  | cons x xs ih => simp [firstDifference, ih]

theorem firstDifference_none : ∀ (a b : List Int), a.length = b.length →
    firstDifference a b = none → a = b := by
  intro a
  induction a with
  | nil =>
    intro b hlen _
    cases b with
    | nil => rfl
    | cons y ys => simp at hlen
  | cons x xs ih =>
    intro b hlen h
    cases b with
    | nil => simp at hlen
    | cons y ys =>
      unfold firstDifference at h
      split at h
      · exact Option.noConfusion h
      · rename_i hxy
        simp only [ne_eq, Decidable.not_not] at hxy
        rw [hxy, ih ys (by simpa using hlen) h]

theorem firstDifference_swap : ∀ (a b : List Int) (r : Bool),
    firstDifference a b = some r → firstDifference b a = some (!r) := by
  intro a
  induction a with
  | nil => intro b r h; simp [firstDifference] at h
  | cons x xs ih =>
    intro b r h
    cases b with
    | nil => simp [firstDifference] at h
    | cons y ys =>
      unfold firstDifference at h ⊢
      by_cases hxy : x = y
      · rw [if_neg (by simpa using hxy)] at h
        rw [if_neg (by simpa using hxy.symm)]
        exact ih ys r h
      · rw [if_pos hxy] at h
        rw [if_pos (fun h => hxy h.symm)]
        simp only [Option.some.injEq] at h ⊢
        rw [← h]
        by_cases hlt : x < y
        · simp [hlt]; omega
        · simp [hlt]; omega

theorem firstDifference_trans : ∀ (a b c : List Int),
    firstDifference a b = some true → firstDifference b c = some true →
    firstDifference a c = some true := by
  intro a
  induction a with
  | nil => intro b c h; simp [firstDifference] at h
  | cons x xs ih =>
    intro b c hab hbc
    cases b with
    | nil => simp [firstDifference] at hab
    | cons y ys =>
      cases c with
      | nil => simp [firstDifference] at hbc
      | cons z zs =>
        unfold firstDifference at hab hbc ⊢
        by_cases hxy : x = y
        · rw [if_neg (by simpa using hxy)] at hab
          by_cases hyz : y = z
          · rw [if_neg (by simpa using hyz)] at hbc
            rw [if_neg (by simpa using hxy.trans hyz)]
            exact ih ys zs hab hbc
          · rw [if_pos hyz] at hbc
            simp only [Option.some.injEq, decide_eq_true_eq] at hbc
            rw [if_pos (by omega)]
            simp only [Option.some.injEq, decide_eq_true_eq]
            omega
        · rw [if_pos hxy] at hab
          simp only [Option.some.injEq, decide_eq_true_eq] at hab
          by_cases hyz : y = z
          · rw [if_pos (by omega)]
            simp only [Option.some.injEq, decide_eq_true_eq]
            omega
          · rw [if_pos hyz] at hbc
            simp only [Option.some.injEq, decide_eq_true_eq] at hbc
            rw [if_pos (by omega)]
            simp only [Option.some.injEq, decide_eq_true_eq]
            omega

theorem componentLess_iff (a b : List Int) :
    componentLess a b = true ↔
      b.length < a.length ∨ (a.length = b.length ∧ firstDifference a b = some true) := by
  unfold componentLess
  by_cases hlen : a.length = b.length
  · rw [if_neg (by simpa using hlen)]
    cases hfd : firstDifference a b with
    | none => simp [hlen]
    | some r =>
      cases r <;> simp [hlen]
  · rw [if_pos hlen]
    simp only [decide_eq_true_eq]
    constructor
    · exact Or.inl
    · rintro (h | h)
      · exact h
      · exact absurd h.1 hlen

theorem componentLess_irrefl (a : List Int) : componentLess a a = false := by
  cases h : componentLess a a
  · rfl
  · rcases (componentLess_iff a a).mp h with h | h
    · omega
    · rw [firstDifference_self] at h
      exact Option.noConfusion h.2

theorem componentLess_trans (a b c : List Int) (hab : componentLess a b = true)
    (hbc : componentLess b c = true) : componentLess a c = true := by
  rw [componentLess_iff] at hab hbc ⊢
  rcases hab with h1 | ⟨h1, f1⟩ <;> rcases hbc with h2 | ⟨h2, f2⟩
  · left; omega
  · left; omega
  · left; omega
  · right
    exact ⟨h1.trans h2, firstDifference_trans a b c f1 f2⟩

theorem componentLess_total (a b : List Int) (hne : a ≠ b) :
    componentLess a b = true ∨ componentLess b a = true := by
  rw [componentLess_iff, componentLess_iff]
  by_cases hlen : a.length = b.length
  · cases hfd : firstDifference a b with
    | none => exact absurd (firstDifference_none a b hlen hfd) hne
    | some r =>
      cases r with
      | true => exact Or.inl (Or.inr ⟨hlen, rfl⟩)
      | false =>
        right; right
        exact ⟨hlen.symm, firstDifference_swap a b false hfd⟩
  · rcases Nat.lt_or_gt_of_ne hlen with h | h
    · exact Or.inr (Or.inl h)
    · exact Or.inl (Or.inl h)

theorem componentLess_asymm (a b : List Int) (hab : componentLess a b = true) :
    componentLess b a = false := by
  cases h : componentLess b a
  · rfl
  · have := componentLess_trans a b a hab h
    rw [componentLess_irrefl] at this
    exact Bool.noConfusion this

theorem components_sorted (l : List (List Int)) :
    (l.insertionSort (fun a b => componentLess b a = false)).Sorted
      (fun a b => componentLess b a = false) := by
  haveI : IsTotal (List Int) (fun a b => componentLess b a = false) := ⟨by
    intro a b
    by_cases hab : a = b
    · left; rw [hab]; exact componentLess_irrefl b
    · rcases componentLess_total a b hab with h | h
      · exact Or.inl (componentLess_asymm a b h)
      · exact Or.inr (componentLess_asymm b a h)⟩
  haveI : IsTrans (List Int) (fun a b => componentLess b a = false) := ⟨by
    intro a b c hab hbc
    cases hca : componentLess c a
    · rfl
    · exfalso
      by_cases hbe : b = a
      · rw [hbe] at hbc
        rw [hbc] at hca
        exact Bool.noConfusion hca
      · rcases componentLess_total b a hbe with h | h
        · rw [h] at hab
          exact Bool.noConfusion hab
        · have := componentLess_trans c a b hca h
          rw [hbc] at this
          exact Bool.noConfusion this⟩
  exact List.sorted_insertionSort _ l

theorem foldl_maxID (l : List Int) : ∀ m : Int,
    m ≤ l.foldl (fun m id => if m < id then id else m) m ∧
    ∀ x ∈ l, x ≤ l.foldl (fun m id => if m < id then id else m) m := by
  induction l with
  | nil => intro m; simp
  | cons y ys ih =>
    intro m
    rw [List.foldl_cons]
    obtain ⟨h1, h2⟩ := ih (if m < y then y else m)
    have hle : m ≤ (if m < y then y else m) ∧ y ≤ (if m < y then y else m) := by
      split <;> omega
    generalize (if m < y then y else m) = m' at h1 h2 hle ⊢
    refine ⟨by omega, ?_⟩
    intro x hx
    rcases List.mem_cons.mp hx with rfl | hx
    · omega
    · exact h2 x hx

theorem not_isMarked_replicate (n : Nat) (i : Int) : ¬ isMarked (List.replicate n false) i := by
  unfold isMarked boolAt
  split
  · simp
  · intro h
    obtain ⟨_, hget⟩ := List.getElem?_eq_some_iff.mp h
    simp at hget

theorem GoodComps_perm (g : MystGraph) (l1 l2 : List (List Int)) (hp : l1.Perm l2)
    (h : GoodComps g l1) : GoodComps g l2 :=
  ⟨(hp.flatten).nodup_iff.mp h.1, fun c hc => h.2 c (hp.mem_iff.mpr hc)⟩

theorem GoodComps_nodup (g : MystGraph) (l : List (List Int)) (h : GoodComps g l) :
    l.Nodup := by
  have hd := (List.nodup_flatten.mp h.1).2
  refine hd.imp_of_mem ?_
  intro a b ha _ hab heq
  obtain ⟨x, hx⟩ := List.exists_mem_of_ne_nil a (h.2 a ha).1
  exact hab hx (heq ▸ hx)

theorem FindConnectedComponents_spec (g : MystGraph) (hwf : g.Graph.WF)
    (hnn : ∀ id ∈ g.Graph.nodes, 0 ≤ id) :
    ∃ comps, g.FindConnectedComponents = some comps ∧ GoodComps g comps ∧
      (∀ x ∈ g.Graph.nodes, ∃ c ∈ comps, x ∈ c) ∧
      comps.Pairwise (fun a b => componentLess a b = true) := by
  unfold MystGraph.FindConnectedComponents
  simp only
  obtain ⟨hm0, hmax⟩ := foldl_maxID (sortAsc g.Graph.nodes) 0
  generalize (sortAsc g.Graph.nodes).foldl (fun m id => if m < id then id else m) (0 : Int)
    = maxID at hm0 hmax ⊢
  obtain ⟨comps0, e1, e2, _, e4⟩ :=
    componentsLoop_spec g hwf (maxID + 1).toNat (by
        intro id hid
        have := hmax id ((mem_sortAsc _ _).mpr hid)
        have := hnn id hid
        omega)
      (sortAsc g.Graph.nodes) (List.replicate (maxID + 1).toNat false) []
      (by simp) (fun x hx => (mem_sortAsc _ _).mp hx)
      (by
        intro i
        constructor
        · intro h
          exact absurd h (not_isMarked_replicate _ i)
        · rintro ⟨c, hc, _⟩
          simp at hc)
      ⟨by simp, by simp⟩
  rw [e1]
  simp only
  have hperm := List.perm_insertionSort (fun a b => componentLess b a = false) comps0
  have hgood := GoodComps_perm g _ _ hperm.symm e2
  refine ⟨_, rfl, hgood, ?_, ?_⟩
  · intro x hx
    obtain ⟨c, hc, hxc⟩ := e4 x ((mem_sortAsc _ _).mpr hx)
    exact ⟨c, hperm.mem_iff.mpr hc, hxc⟩
  · have hs := components_sorted comps0
    have hnd := GoodComps_nodup g _ hgood
    refine (List.Pairwise.and hs hnd).imp ?_
    rintro a b ⟨hba, hne⟩
    rcases componentLess_total a b hne with h | h
    · exact h
    · rw [h] at hba
      exact Bool.noConfusion hba

theorem bfsLoop_congr (g g' : MystGraph) (h : g.Graph = g'.Graph) :
    ∀ (fuel : Nat) (v : List Bool) (comp q : List Int),
      bfsLoop g fuel v comp q = bfsLoop g' fuel v comp q := by
  intro fuel
  induction fuel with
  | zero =>
    intro v comp q
    cases q <;> simp [bfsLoop]
  | succ f ih =>
    intro v comp q
    cases q with
    | nil => simp [bfsLoop]
    | cons cur q' =>
      rw [bfsLoop, bfsLoop]
      simp only [MystGraph.From, MystGraph.To, h, ih]

theorem componentsLoop_congr (g g' : MystGraph) (h : g.Graph = g'.Graph) :
    ∀ (ids : List Int) (v : List Bool) (comps : List (List Int)),
      componentsLoop g ids v comps = componentsLoop g' ids v comps := by
  intro ids
  induction ids with
  | nil => intro v comps; rfl
  | cons s rest ih =>
    intro v comps
    rw [componentsLoop, componentsLoop]
    simp only [bfsLoop_congr g g' h, ih]

theorem FindConnectedComponents_congr (g g' : MystGraph) (h : g.Graph = g'.Graph) :
    g.FindConnectedComponents = g'.FindConnectedComponents := by
  unfold MystGraph.FindConnectedComponents
  simp only [componentsLoop_congr g g' h, h]

theorem firstDifference_lex : ∀ (a b : List Int), a.length = b.length →
    (firstDifference a b = some true ↔ List.Lex (fun x y => x < y) a b) := by
  intro a
  induction a with
  | nil =>
    intro b hlen
    cases b with
    | nil =>
      simp only [firstDifference]
      constructor
      · intro h; exact Option.noConfusion h
      · intro h; cases h
    | cons y ys => simp at hlen
  | cons x xs ih =>
    intro b hlen
    cases b with
    | nil => simp at hlen
    | cons y ys =>
      unfold firstDifference
      by_cases hxy : x = y
      · rw [if_neg (by simpa using hxy), hxy, List.Lex.cons_iff]
        exact ih ys (by simpa using hlen)
      · rw [if_pos hxy]
        simp only [Option.some.injEq, decide_eq_true_eq]
        constructor
        · exact List.Lex.rel
        · intro h
          cases h with
          | cons h => exact absurd rfl hxy
          | rel h => exact h

theorem adj_iff_edge (g : MystGraph) (u v : Int) :
    adj g u v ↔ g.HasEdgeFromTo u v = true ∨ g.HasEdgeFromTo v u = true := by
  unfold adj MystGraph.From MystGraph.To MystGraph.HasEdgeFromTo
  rw [mem_From, mem_To, HasEdgeFromTo_iff, HasEdgeFromTo_iff]

theorem Connected_congr (g g' : MystGraph)
    (h : ∀ u v, g'.HasEdgeFromTo u v = g.HasEdgeFromTo u v) (u v : Int) :
    Connected g' u v ↔ Connected g u v := by
  have hadj : ∀ a b, adj g' a b ↔ adj g a b := by
    intro a b
    rw [adj_iff_edge, adj_iff_edge, h, h]
  constructor
  · intro hc
    exact Relation.ReflTransGen.mono (fun a b hab => (hadj a b).mp hab) hc
  · intro hc
    exact Relation.ReflTransGen.mono (fun a b hab => (hadj a b).mpr hab) hc

theorem sorted_components_unique (l1 l2 : List (List Int))
    (h1 : l1.Pairwise (fun a b => componentLess a b = true))
    (h2 : l2.Pairwise (fun a b => componentLess a b = true))
    (hmem : ∀ c, c ∈ l1 ↔ c ∈ l2) : l1 = l2 := by
  haveI : IsAntisymm (List Int) (fun a b => componentLess a b = true) := ⟨by
    intro a b hab hba
    rw [componentLess_asymm a b hab] at hba
    exact Bool.noConfusion hba⟩
  have hnd : ∀ l : List (List Int), l.Pairwise (fun a b => componentLess a b = true) →
      l.Nodup := by
    intro l hl
    refine hl.imp ?_
    intro a b hab heq
    rw [heq, componentLess_irrefl] at hab
    exact Bool.noConfusion hab
  exact List.eq_of_perm_of_sorted
    ((List.perm_ext_iff_of_nodup (hnd l1 h1) (hnd l2 h2)).mpr hmem) h1 h2

theorem GoodComps_unique (g g' : MystGraph) (comps comps' : List (List Int))
    (hnodes : ∀ x, x ∈ g'.Graph.nodes ↔ x ∈ g.Graph.nodes)
    (hedges : ∀ u v, g'.HasEdgeFromTo u v = g.HasEdgeFromTo u v)
    (hgood : GoodComps g comps) (hcover : ∀ x ∈ g.Graph.nodes, ∃ c ∈ comps, x ∈ c)
    (hgood' : GoodComps g' comps') :
    ∀ c ∈ comps', c ∈ comps := by
  intro c hc
  obtain ⟨hne, hsorted, hnodes', hclass⟩ := hgood'.2 c hc
  obtain ⟨u, hu⟩ := List.exists_mem_of_ne_nil c hne
  obtain ⟨d, hd, hud⟩ := hcover u ((hnodes u).mp (hnodes' u hu))
  obtain ⟨_, hsorted2, _, hclass2⟩ := hgood.2 d hd
  have hsame : ∀ w, w ∈ c ↔ w ∈ d := by
    intro w
    rw [hclass u hu w, hclass2 u hud w]
    exact Connected_congr g g' hedges u w
  have hcd : c = d := by
    have hp : c.Perm d := (List.perm_ext_iff_of_nodup hsorted.nodup hsorted2.nodup).mpr hsame
    exact List.eq_of_perm_of_sorted hp hsorted hsorted2
  rw [hcd]
  exact hd

/-- C18. For every store whose routable structure satisfies the representation
invariant and whose node ids are not negative, `FindConnectedComponents` returns
a list of components that partitions the node ids: the concatenation of the
components is a rearrangement of the node list (which has no repetition), an id
is a node exactly when some component holds it, that component is unique, the
components are pairwise disjoint, none repeats an id, and none is empty. -/
theorem FindConnectedComponents_partition (g : MystGraph) (hwf : g.Graph.WF)
    (hnn : ∀ id ∈ g.Graph.nodes, 0 ≤ id) :
    ∃ comps, g.FindConnectedComponents = some comps ∧
      comps.flatten.Perm g.Graph.nodes ∧
      (∀ x, x ∈ g.Graph.nodes ↔ ∃ c ∈ comps, x ∈ c) ∧
      (∀ x ∈ g.Graph.nodes, ∃! c, c ∈ comps ∧ x ∈ c) ∧
      comps.Pairwise List.Disjoint ∧ comps.Nodup ∧
      (∀ c ∈ comps, c.Nodup) ∧ (∀ c ∈ comps, c ≠ []) := by
  obtain ⟨comps, h1, hgood, hcover, _⟩ := FindConnectedComponents_spec g hwf hnn
  have hmem : ∀ x, x ∈ g.Graph.nodes ↔ ∃ c ∈ comps, x ∈ c := by
    intro x
    constructor
    · exact hcover x
    · rintro ⟨c, hc, hxc⟩
      exact (hgood.2 c hc).2.2.1 x hxc
  have hdisj := (List.nodup_flatten.mp hgood.1).2
  have hnd := GoodComps_nodup g comps hgood
  refine ⟨comps, h1, ?_, hmem, ?_, hdisj, hnd, (List.nodup_flatten.mp hgood.1).1,
    fun c hc => (hgood.2 c hc).1⟩
  · refine (List.perm_ext_iff_of_nodup hgood.1 hwf.1).mpr ?_
    intro x
    rw [hmem, List.mem_flatten]
  · intro x hx
    obtain ⟨c, hc, hxc⟩ := hcover x hx
    refine ⟨c, ⟨hc, hxc⟩, ?_⟩
    rintro d ⟨hd, hxd⟩
    obtain ⟨_, hs1, _, hc1⟩ := hgood.2 c hc
    obtain ⟨_, hs2, _, hc2⟩ := hgood.2 d hd
    have hp : d.Perm c := (List.perm_ext_iff_of_nodup hs2.nodup hs1.nodup).mpr (by
      intro w
      rw [hc2 x hxd w, hc1 x hxc w])
    exact List.eq_of_perm_of_sorted hp hs2 hs1

set_option maxRecDepth 100000 in
/-- Witness of `FindConnectedComponents_partition` on `islandsGraph`, whose
components are `[0, 1]`, `[3, 4]` and `[2]`. -/
theorem FindConnectedComponents_partition_witness :
    (NewGraph (some islandsMetadata) detourHeap).1 = some islandsGraph ∧
    islandsGraph.Graph.WF ∧ (∀ id ∈ islandsGraph.Graph.nodes, 0 ≤ id) ∧
    islandsGraph.FindConnectedComponents = some [[0, 1], [3, 4], [2]] ∧
    ∃ comps, islandsGraph.FindConnectedComponents = some comps ∧
      comps.flatten.Perm islandsGraph.Graph.nodes ∧
      (∀ x, x ∈ islandsGraph.Graph.nodes ↔ ∃ c ∈ comps, x ∈ c) ∧
      (∀ x ∈ islandsGraph.Graph.nodes, ∃! c, c ∈ comps ∧ x ∈ c) ∧
      comps.Pairwise List.Disjoint ∧ comps.Nodup ∧
      (∀ c ∈ comps, c.Nodup) ∧ (∀ c ∈ comps, c ≠ []) :=
  ⟨by decide, by decide, by decide, by decide,
    FindConnectedComponents_partition islandsGraph (by decide) (by decide)⟩

/-- C19. For every store whose routable structure satisfies the representation
invariant and whose node ids are not negative, two nodes lie in one component
of `FindConnectedComponents` exactly when a path of the routable adjacency with
the direction ignored joins them (`Connected`). The end points of every line of
the routable structure lie in one component, whatever the weight of the line
(`+Inf` for a backtracking edge), and inserting an edge that carries `Disabled`
leaves the components as they are. -/
theorem FindConnectedComponents_connectivity (g : MystGraph) (hwf : g.Graph.WF)
    (hnn : ∀ id ∈ g.Graph.nodes, 0 ≤ id) :
    ∃ comps, g.FindConnectedComponents = some comps ∧
      (∀ u v, u ∈ g.Graph.nodes → v ∈ g.Graph.nodes →
        ((∃ c ∈ comps, u ∈ c ∧ v ∈ c) ↔ Connected g u v)) ∧
      (∀ l ∈ g.Graph.lines, ∃ c ∈ comps, l.F ∈ c ∧ l.T ∈ c) ∧
      (∀ (heap : Heap) (e : Edge), e.IsOfType Disabled = true →
        (g.addEdgeWithAttributes heap e).FindConnectedComponents = some comps) := by
  obtain ⟨comps, h1, hgood, hcover, _⟩ := FindConnectedComponents_spec g hwf hnn
  have hiff : ∀ u v, u ∈ g.Graph.nodes →
      ((∃ c ∈ comps, u ∈ c ∧ v ∈ c) ↔ Connected g u v) := by
    intro u v hu
    constructor
    · rintro ⟨c, hc, huc, hvc⟩
      exact ((hgood.2 c hc).2.2.2 u huc v).mp hvc
    · intro huv
      obtain ⟨c, hc, huc⟩ := hcover u hu
      exact ⟨c, hc, huc, ((hgood.2 c hc).2.2.2 u huc v).mpr huv⟩
  refine ⟨comps, h1, fun u v hu _ => hiff u v hu, ?_, ?_⟩
  · intro l hl
    have hF := (hwf.2.1 l hl).1
    obtain ⟨c, hc, h⟩ := (hiff l.F l.T hF).mpr (Relation.ReflTransGen.single
      (Or.inl ((mem_From _ _ _).mpr ⟨l, hl, rfl, rfl⟩)))
    exact ⟨c, hc, h⟩
  · intro heap e he
    rw [← h1]
    apply FindConnectedComponents_congr
    rw [addEdgeWithAttributes_Graph, if_pos he]

set_option maxRecDepth 100000 in
/-- Witness of `FindConnectedComponents_connectivity` on `islandsGraph`: the
backtracking edge B -> A puts 0 and 1 in one component, the disabled edge
A -> C leaves 0 and 2 in different components. -/
theorem FindConnectedComponents_connectivity_witness :
    islandsGraph.Graph.WF ∧ (∀ id ∈ islandsGraph.Graph.nodes, 0 ≤ id) ∧
    islandsGraph.IsBacktrackingEdge (NewGraph (some islandsMetadata) detourHeap).2.2 1 0 = true ∧
    islandsGraph.IsDisabledEdge (NewGraph (some islandsMetadata) detourHeap).2.2 0 2 = true ∧
    islandsGraph.FindConnectedComponents = some [[0, 1], [3, 4], [2]] ∧
    ∃ comps, islandsGraph.FindConnectedComponents = some comps ∧
      (∀ u v, u ∈ islandsGraph.Graph.nodes → v ∈ islandsGraph.Graph.nodes →
        ((∃ c ∈ comps, u ∈ c ∧ v ∈ c) ↔ Connected islandsGraph u v)) ∧
      (∀ l ∈ islandsGraph.Graph.lines, ∃ c ∈ comps, l.F ∈ c ∧ l.T ∈ c) ∧
      (∀ (heap : Heap) (e : Edge), e.IsOfType Disabled = true →
        (islandsGraph.addEdgeWithAttributes heap e).FindConnectedComponents = some comps) :=
  ⟨by decide, by decide, by decide, by decide, by decide,
    FindConnectedComponents_connectivity islandsGraph (by decide) (by decide)⟩

/-- C20. For every store whose routable structure satisfies the representation
invariant and whose node ids are not negative: every component of
`FindConnectedComponents` is strictly ascending; the comparator of the final
sort puts `a` before `b` exactly when `a` is longer, or as long and
lexicographically smaller; every component comes before every later one under
that comparator; any arrangement of the components that the comparator does not
contradict is the returned one; and a store with the same node ids and the same
routable edges, in whatever order it holds them, gives the same result. -/
theorem FindConnectedComponents_order (g : MystGraph) (hwf : g.Graph.WF)
    (hnn : ∀ id ∈ g.Graph.nodes, 0 ≤ id) :
    ∃ comps, g.FindConnectedComponents = some comps ∧
      (∀ c ∈ comps, c.Sorted (fun a b => a < b)) ∧
      (∀ a b : List Int, componentLess a b = true ↔
        b.length < a.length ∨
          (a.length = b.length ∧ List.Lex (fun x y => x < y) a b)) ∧
      comps.Pairwise (fun a b => componentLess a b = true) ∧
      (∀ l : List (List Int), l.Perm comps →
        l.Pairwise (fun a b => componentLess b a = false) → l = comps) ∧
      (∀ g' : MystGraph, g'.Graph.WF → (∀ id ∈ g'.Graph.nodes, 0 ≤ id) →
        (∀ x, x ∈ g'.Graph.nodes ↔ x ∈ g.Graph.nodes) →
        (∀ u v, g'.HasEdgeFromTo u v = g.HasEdgeFromTo u v) →
        g'.FindConnectedComponents = some comps) := by
  obtain ⟨comps, h1, hgood, hcover, hpw⟩ := FindConnectedComponents_spec g hwf hnn
  refine ⟨comps, h1, fun c hc => (hgood.2 c hc).2.1, ?_, hpw, ?_, ?_⟩
  · intro a b
    rw [componentLess_iff]
    constructor
    · rintro (h | ⟨h, hf⟩)
      · exact Or.inl h
      · exact Or.inr ⟨h, (firstDifference_lex a b h).mp hf⟩
    · rintro (h | ⟨h, hf⟩)
      · exact Or.inl h
      · exact Or.inr ⟨h, (firstDifference_lex a b h).mpr hf⟩
  · intro l hperm hl
    have hnd : l.Nodup := hperm.nodup_iff.mpr (GoodComps_nodup g comps hgood)
    apply sorted_components_unique l comps _ hpw (fun c => hperm.mem_iff)
    refine (List.Pairwise.and hl hnd).imp ?_
    rintro a b ⟨hba, hne⟩
    rcases componentLess_total a b hne with h | h
    · exact h
    · rw [h] at hba
      exact Bool.noConfusion hba
  · intro g' hwf' hnn' hnodes hedges
    obtain ⟨comps', h1', hgood', hcover', hpw'⟩ := FindConnectedComponents_spec g' hwf' hnn'
    rw [h1']
    congr 1
    apply sorted_components_unique comps' comps hpw' hpw
    intro c
    constructor
    · exact GoodComps_unique g g' comps comps' hnodes hedges hgood hcover hgood' c
    · exact GoodComps_unique g' g comps' comps (fun x => (hnodes x).symm)
        (fun u v => (hedges u v).symm) hgood' hcover' hgood c

set_option maxRecDepth 100000 in
/-- Witness of `FindConnectedComponents_order` on `islandsGraph`: the two
components of size two come first, `[0, 1]` before `[3, 4]`. -/
theorem FindConnectedComponents_order_witness :
    islandsGraph.Graph.WF ∧ (∀ id ∈ islandsGraph.Graph.nodes, 0 ≤ id) ∧
    islandsGraph.FindConnectedComponents = some [[0, 1], [3, 4], [2]] ∧
    ∃ comps, islandsGraph.FindConnectedComponents = some comps ∧
      (∀ c ∈ comps, c.Sorted (fun a b => a < b)) ∧
      (∀ a b : List Int, componentLess a b = true ↔
        b.length < a.length ∨
          (a.length = b.length ∧ List.Lex (fun x y => x < y) a b)) ∧
      comps.Pairwise (fun a b => componentLess a b = true) ∧
      (∀ l : List (List Int), l.Perm comps →
        l.Pairwise (fun a b => componentLess b a = false) → l = comps) ∧
      (∀ g' : MystGraph, g'.Graph.WF → (∀ id ∈ g'.Graph.nodes, 0 ≤ id) →
        (∀ x, x ∈ g'.Graph.nodes ↔ x ∈ islandsGraph.Graph.nodes) →
        (∀ u v, g'.HasEdgeFromTo u v = islandsGraph.HasEdgeFromTo u v) →
        g'.FindConnectedComponents = some comps) :=
  ⟨by decide, by decide, by decide,
    FindConnectedComponents_order islandsGraph (by decide) (by decide)⟩

theorem popMin_perm : ∀ (Q : DistQueue) (x : Int × Weight) (Q' : DistQueue),
    popMin Q = some (x, Q') → Q.Perm (x :: Q') := by
  intro Q
  induction Q with
  | nil => intro x Q' h; simp [popMin] at h
  | cons a rest ih =>
    intro x Q' h
    unfold popMin at h
    cases hr : popMin rest with
    | none =>
      rw [hr] at h
      simp only [Option.some.injEq, Prod.mk.injEq] at h
      obtain ⟨rfl, rfl⟩ := h
      rw [popMin_eq_none rest hr]
    | some y =>
      obtain ⟨y, rest'⟩ := y
      rw [hr] at h
      simp only at h
      have hp := ih y rest' hr
      split at h
      · simp only [Option.some.injEq, Prod.mk.injEq] at h
        obtain ⟨rfl, rfl⟩ := h
        exact (List.Perm.cons a hp).trans (List.Perm.swap _ _ _)
      · simp only [Option.some.injEq, Prod.mk.injEq] at h
        obtain ⟨rfl, rfl⟩ := h
        exact List.Perm.refl _

theorem relax_step (g : MystGraph) (hwf : g.Graph.WF) (s k v : Int)
    (p : Shortest) (Q : DistQueue) (hinv : TreeInv g s p) (hv : v ∈ g.From k) (dk : Nat)
    (hdk : p.distOf k = Weight.fin dk) :
    (relax g k (p, Q) v = some (p, Q) ∧ ∃ d', p.distOf v = Weight.fin d' ∧ d' ≤ dk + 1) ∨
    (k ≠ v ∧ (p.distOf v = Weight.inf ∨ ∃ d, p.distOf v = Weight.fin d ∧ dk + 1 < d) ∧
      relax g k (p, Q) v =
        some (p.set v (Weight.fin (dk + 1)) k, Q ++ [(v, Weight.fin (dk + 1))])) := by
  obtain ⟨_, hnodes, _, _, _, _⟩ := hinv
  have hvn : v ∈ p.nodes := hnodes ▸ mem_nodes_of_mem_From g hwf k v hv
  unfold relax
  simp only [hvn, if_true]
  rw [UniformCost_of_mem_From g k v hv]
  simp only
  by_cases hkv : k = v
  · left
    subst hkv
    simp only [if_true]
    rw [hdk]
    simp [Weight.add, Weight.lt]
  · simp only [hkv, if_false]
    rw [hdk]
    simp only [Weight.add]
    by_cases hlt : Weight.lt (Weight.fin (dk + 1)) (p.distOf v) = true
    · right
      refine ⟨hkv, (Weight.lt_fin_iff _ _).mp hlt, ?_⟩
      rw [if_pos hlt]
    · left
      rw [if_neg hlt]
      refine ⟨rfl, ?_⟩
      cases hd : p.distOf v with
      | inf =>
        rw [hd] at hlt
        simp [Weight.lt] at hlt
      | fin d =>
        rw [hd] at hlt
        simp only [Weight.lt, decide_eq_true_eq, not_lt] at hlt
        exact ⟨d, rfl, hlt⟩

theorem relaxAll_relaxed (g : MystGraph) (hwf : g.Graph.WF) (s k : Int) (dk : Nat)
    (vs : List Int) :
    ∀ (p : Shortest) (Q : DistQueue), TreeInv g s p → (∀ v ∈ vs, v ∈ g.From k) →
      p.distOf k = Weight.fin dk → QueueInv p Q →
      (∀ u d, u ≠ k → p.distOf u = Weight.fin d →
        (u, Weight.fin d) ∈ Q ∨ relaxedAt g p u d) →
      ∀ (p' : Shortest) (Q' : DistQueue), relaxAll g k vs (p, Q) = some (p', Q') →
        TreeInv g s p' ∧ p'.distOf k = Weight.fin dk ∧ QueueInv p' Q' ∧
        (∀ u d, u ≠ k → p'.distOf u = Weight.fin d →
          (u, Weight.fin d) ∈ Q' ∨ relaxedAt g p' u d) ∧
        (∀ v ∈ vs, ∃ d', p'.distOf v = Weight.fin d' ∧ d' ≤ dk + 1) ∧
        (∀ x d, p.distOf x = Weight.fin d → ∃ d', p'.distOf x = Weight.fin d' ∧ d' ≤ d) := by
  induction vs with
  | nil =>
    intro p Q hinv _ hdk hq hrel p' Q' h
    simp only [relaxAll, Option.some.injEq, Prod.mk.injEq] at h
    obtain ⟨rfl, rfl⟩ := h
    exact ⟨hinv, hdk, hq, hrel, by simp, fun x d hx => ⟨d, hx, le_refl _⟩⟩
  | cons v rest ih =>
    intro p Q hinv hvs hdk hq hrel p' Q' h
    have hv := hvs v (List.mem_cons_self _ _)
    have hrest : ∀ x ∈ rest, x ∈ g.From k := fun x hx => hvs x (List.mem_cons_of_mem _ hx)
    unfold relaxAll at h
    rcases relax_step g hwf s k v p Q hinv hv dk hdk with ⟨h1, d', hd', hle⟩ | ⟨hkv, hold, h1⟩
    · rw [h1] at h
      obtain ⟨a1, a2, a3, a4, a5, a6⟩ := ih p Q hinv hrest hdk hq hrel p' Q' h
      refine ⟨a1, a2, a3, a4, ?_, a6⟩
      intro x hx
      rcases List.mem_cons.mp hx with rfl | hx
      · obtain ⟨d'', h1', h2'⟩ := a6 x d' hd'
        exact ⟨d'', h1', by omega⟩
      · exact a5 x hx
    · rw [h1] at h
      simp only at h
      obtain ⟨p1, Q1, e1, hinv1, _⟩ := relax_inv g hwf s k v p Q hinv hv
      rw [h1] at e1
      simp only [Option.some.injEq, Prod.mk.injEq] at e1
      obtain ⟨rfl, rfl⟩ := e1
      have hmono : ∀ x d, p.distOf x = Weight.fin d →
          ∃ d', (p.set v (Weight.fin (dk + 1)) k).distOf x = Weight.fin d' ∧ d' ≤ d := by
        intro x d hx
        rw [distOf_set]
        by_cases hvx : v = x
        · rw [if_pos hvx]
          rcases hold with hinf | ⟨d0, hd0, hlt⟩
          · rw [hvx, hx] at hinf
            exact Weight.noConfusion hinf
          · rw [hvx, hx] at hd0
            simp only [Weight.fin.injEq] at hd0
            exact ⟨dk + 1, rfl, by omega⟩
        · rw [if_neg hvx]
          exact ⟨d, hx, le_refl _⟩
      obtain ⟨a1, a2, a3, a4, a5, a6⟩ :=
        ih (p.set v (Weight.fin (dk + 1)) k) (Q ++ [(v, Weight.fin (dk + 1))]) hinv1 hrest
          (by rw [distOf_set, if_neg (fun h => hkv h.symm)]; exact hdk)
          (by
            intro x w hxw
            rcases List.mem_append.mp hxw with hxw | hxw
            · obtain ⟨d, d', hw, hx, hle⟩ := hq x w hxw
              obtain ⟨d'', h1', h2'⟩ := hmono x d' hx
              exact ⟨d, d'', hw, h1', by omega⟩
            · simp only [List.mem_singleton, Prod.mk.injEq] at hxw
              obtain ⟨rfl, rfl⟩ := hxw
              exact ⟨dk + 1, dk + 1, rfl, by rw [distOf_set, if_pos rfl], le_refl _⟩)
          (by
            intro u d huk hu
            rw [distOf_set] at hu
            by_cases hvu : v = u
            · rw [if_pos hvu] at hu
              left
              rw [← hvu, ← hu]
              exact List.mem_append_right _ (List.mem_singleton.mpr rfl)
            · rw [if_neg hvu] at hu
              rcases hrel u d huk hu with h0 | h0
              · exact Or.inl (List.mem_append_left _ h0)
              · right
                intro x hx
                obtain ⟨d', hd', hle⟩ := h0 x hx
                obtain ⟨d'', h1', h2'⟩ := hmono x d' hd'
                exact ⟨d'', h1', by omega⟩)
          p' Q' h
      refine ⟨a1, a2, a3, a4, ?_, ?_⟩
      · intro x hx
        rcases List.mem_cons.mp hx with rfl | hx
        · obtain ⟨d'', h1', h2'⟩ := a6 x (dk + 1) (by rw [distOf_set, if_pos rfl])
          exact ⟨d'', h1', h2'⟩
        · exact a5 x hx
      · intro x d hx
        obtain ⟨d', h1', h2'⟩ := hmono x d hx
        obtain ⟨d'', h1'', h2''⟩ := a6 x d' h1'
        exact ⟨d'', h1'', by omega⟩

theorem dijkstraLoop_relaxed (g : MystGraph) (hwf : g.Graph.WF) (s : Int) (fuel : Nat) :
    ∀ (p : Shortest) (Q : DistQueue) (p' : Shortest), TreeInv g s p → QueueInv p Q →
      Relaxed g p Q → dijkstraLoop g fuel p Q = some p' → Relaxed g p' [] := by
  induction fuel with
  | zero =>
    intro p Q p' _ _ hrel h
    unfold dijkstraLoop at h
    split at h
    · rename_i hQ
      simp only [Option.some.injEq] at h
      subst h
      rw [List.isEmpty_iff.mp hQ] at hrel
      exact hrel
    · exact Option.noConfusion h
  | succ fuel ih =>
    intro p Q p' hinv hq hrel h
    unfold dijkstraLoop at h
    cases hpop : popMin Q with
    | none =>
      rw [hpop] at h
      simp only [Option.some.injEq] at h
      subst h
      rw [popMin_eq_none Q hpop] at hrel
      exact hrel
    | some r =>
      obtain ⟨mid, Q'⟩ := r
      obtain ⟨k, w⟩ := mid
      rw [hpop] at h
      simp only at h
      have hperm := popMin_perm Q (k, w) Q' hpop
      have hq' : QueueInv p Q' := fun x w' hx =>
        hq x w' (hperm.mem_iff.mpr (List.mem_cons_of_mem _ hx))
      obtain ⟨d, d', hw, hk, hle⟩ := hq k w (hperm.mem_iff.mpr (List.mem_cons_self _ _))
      split at h
      · rename_i hlt
        refine ih p Q' p' hinv hq' ?_ h
        intro u du hu
        rcases hrel u du hu with h0 | h0
        · rcases List.mem_cons.mp (hperm.mem_iff.mp h0) with h1 | h1
          · simp only [Prod.mk.injEq] at h1
            obtain ⟨rfl, rfl⟩ := h1
            rw [hu] at hlt
            simp [Weight.lt] at hlt
          · exact Or.inl h1
        · exact Or.inr h0
      · rename_i hlt
        rw [hk, hw] at hlt
        simp only [Weight.lt, decide_eq_true_eq, not_lt] at hlt
        have hdd : d' = d := by omega
        subst hdd
        split at h
        · exact Option.noConfusion h
        · rename_i p1 Q1 hrelax
          obtain ⟨a1, a2, a3, a4, a5, _⟩ :=
            relaxAll_relaxed g hwf s k d' (g.From k) p Q' hinv (fun _ hx => hx) hk hq'
              (by
                intro u du huk hu
                rcases hrel u du hu with h0 | h0
                · rcases List.mem_cons.mp (hperm.mem_iff.mp h0) with h1 | h1
                  · simp only [Prod.mk.injEq] at h1
                    exact absurd h1.1 huk
                  · exact Or.inl h1
                · exact Or.inr h0)
              p1 Q1 hrelax
          refine ih p1 Q1 p' a1 a3 ?_ h
          intro u du hu
          by_cases huk : u = k
          · right
            subst huk
            rw [a2] at hu
            simp only [Weight.fin.injEq] at hu
            subst hu
            exact a5
          · exact a4 u du huk hu

theorem DijkstraFrom_relaxed (g : MystGraph) (hwf : g.Graph.WF) (s : Int)
    (hs : s ∈ g.Graph.nodes) :
    ∃ p, DijkstraFrom g s = some p ∧ TreeInv g s p ∧ Relaxed g p [] := by
  obtain ⟨p, hp, hinv⟩ := DijkstraFrom_inv g hwf s hs
  refine ⟨p, hp, hinv, ?_⟩
  unfold DijkstraFrom at hp
  have hnode : g.Node s = true := by
    unfold MystGraph.Node WeightedDirectedGraph.hasNode
    simpa using hs
  rw [if_pos hnode] at hp
  have hd : ∀ v, (newShortestFrom s g.Graph.nodes).distOf v =
      if s = v then Weight.fin 0 else Weight.inf := by
    intro v
    unfold newShortestFrom Shortest.distOf
    simp only [GoMap.get]
    split <;> rfl
  refine dijkstraLoop_relaxed g hwf s _ _ _ p (newShortestFrom_inv g s hs).1 ?_ ?_ hp
  · intro x w hx
    simp only [List.mem_singleton, Prod.mk.injEq] at hx
    obtain ⟨rfl, rfl⟩ := hx
    exact ⟨0, 0, rfl, by rw [hd, if_pos rfl], le_refl _⟩
  · intro u d hu
    rw [hd] at hu
    split at hu
    · rename_i hsu
      simp only [Weight.fin.injEq] at hu
      left
      rw [← hsu, ← hu]
      exact List.mem_singleton.mpr rfl
    · exact Weight.noConfusion hu

theorem walk_length (g : MystGraph) (s : Int) (p : Shortest) (hinv : TreeInv g s p)
    (fuel : Nat) :
    ∀ (cur : Int) (d : Nat) (acc : List Int), p.distOf cur = Weight.fin d → d ≤ fuel →
    ∃ pre, p.walk fuel cur (cur :: acc) = some (pre ++ cur :: acc) ∧ pre.length ≤ d := by
  obtain ⟨hsrc, _, _, hpred, _, _⟩ := hinv
  induction fuel with
  | zero =>
    intro cur d acc hd hle
    by_cases hcs : cur = s
    · refine ⟨[], ?_, by simp⟩
      rw [Shortest.walk, hsrc, if_pos hcs]
      rfl
    · obtain ⟨k, dk, _, _, _, h4⟩ := hpred cur d hd hcs
      omega
  | succ f ih =>
    intro cur d acc hd hle
    by_cases hcs : cur = s
    · refine ⟨[], ?_, by simp⟩
      rw [Shortest.walk, hsrc, if_pos hcs]
      rfl
    · obtain ⟨k, dk, h1, h2, h3, h4⟩ := hpred cur d hd hcs
      obtain ⟨pre', a1, a2⟩ := ih k dk (cur :: acc) h3 (by omega)
      refine ⟨pre' ++ [k], ?_, ?_⟩
      · rw [Shortest.walk, hsrc, if_neg hcs]
        simp only [h1]
        rw [a1]
        simp
      · simp only [List.length_append, List.length_singleton]
        omega

theorem dist_le_route (g : MystGraph) (p : Shortest) (hrel : Relaxed g p []) :
    ∀ (walk : List Int) (u t : Int) (du : Nat), p.distOf u = Weight.fin du →
      Route g u t walk → ∃ d, p.distOf t = Weight.fin d ∧ d + 1 ≤ du + walk.length := by
  intro walk
  induction walk with
  | nil =>
    intro u t du _ hr
    simp [Route] at hr
  | cons x rest ih =>
    intro u t du hu ⟨hh, hl, hc⟩
    simp only [List.head?_cons, Option.some.injEq] at hh
    subst hh
    cases rest with
    | nil =>
      simp only [List.getLast?_singleton, Option.some.injEq] at hl
      subst hl
      exact ⟨du, hu, by simp⟩
    | cons y ys =>
      rw [List.chain'_cons] at hc
      rcases hrel x du hu with h0 | h0
      · simp at h0
      · obtain ⟨dy, hdy, hle⟩ := h0 y hc.1
        obtain ⟨d, hd, hle'⟩ := ih y t dy hdy ⟨rfl, by
          rw [List.getLast?_cons_cons] at hl
          exact hl, hc.2⟩
        refine ⟨d, hd, ?_⟩
        simp only [List.length_cons] at hle' ⊢
        omega

theorem To_shortest (g : MystGraph) (s : Int) (p : Shortest)
    (hinv : TreeInv g s p) (hrel : Relaxed g p []) (t : Int) (path : List Int) (d : Nat)
    (hto : p.To t = some (path, Weight.fin d)) (hne : path ≠ []) :
    Route g s t path ∧ path.length = d + 1 ∧ HopDistance g s t d := by
  obtain ⟨_, hdist⟩ := To_distOf p t path _ hto hne
  have hroute : Route g s t path := by
    rcases To_ok g s p hinv t with h0 | ⟨path', d', h1, _, hh, hl, hc⟩
    · rw [h0] at hto
      simp only [Option.some.injEq, Prod.mk.injEq] at hto
      exact absurd hto.1.symm hne
    · rw [h1] at hto
      simp only [Option.some.injEq, Prod.mk.injEq] at hto
      rw [← hto.1]
      exact ⟨hh, hl, hc⟩
  have hlen : path.length ≤ d + 1 := by
    unfold Shortest.To at hto
    split at hto
    · simp only [Option.some.injEq, Prod.mk.injEq] at hto
      exact absurd hto.1.symm hne
    · have hcnt := hinv.2.2.2.2.2 t d hdist
      have hle := finCount_le p
      obtain ⟨pre, a1, a2⟩ := walk_length g s p hinv (p.nodes.length + 1) t d [] hdist
        (by omega)
      rw [a1] at hto
      simp only [Option.some.injEq, Prod.mk.injEq] at hto
      rw [← hto.1]
      simp only [List.length_append, List.length_singleton]
      omega
  have hmin : ∀ walk, Route g s t walk → d + 1 ≤ walk.length := by
    intro walk hw
    obtain ⟨d', hd', hle⟩ := dist_le_route g p hrel walk s t 0 hinv.2.2.1 hw
    rw [hdist] at hd'
    simp only [Weight.fin.injEq] at hd'
    omega
  have := hmin path hroute
  exact ⟨hroute, by omega, ⟨path, hroute, by omega⟩, hmin⟩

theorem HopDistance_unique (g : MystGraph) (s t : Int) (d d' : Nat)
    (h : HopDistance g s t d) (h' : HopDistance g s t d') : d = d' := by
  obtain ⟨⟨w, hw, hl⟩, hmin⟩ := h
  obtain ⟨⟨w', hw', hl'⟩, hmin'⟩ := h'
  have := hmin w' hw'
  have := hmin' w hw
  omega

theorem SeparatedPair_hop (g : MystGraph) (hwf : g.Graph.WF) (s t : Int) (d : Nat)
    (path : List Int) (h : SeparatedPair g s t d path) :
    Route g s t path ∧ path.length = d + 1 ∧ HopDistance g s t d := by
  obtain ⟨hs, _, _, p, hp, hto, hne⟩ := h
  obtain ⟨p', hp', hinv, hrel⟩ := DijkstraFrom_relaxed g hwf s hs
  rw [hp] at hp'
  simp only [Option.some.injEq] at hp'
  subst hp'
  exact To_shortest g s p hinv hrel t path d hto hne

theorem hop_SeparatedPair (g : MystGraph) (hwf : g.Graph.WF) (s t : Int) (d : Nat)
    (hst : s ≠ t) (h : HopDistance g s t d) :
    s ∈ g.Graph.nodes ∧ t ∈ g.Graph.nodes ∧ ∃ path, SeparatedPair g s t d path := by
  obtain ⟨⟨walk, hw, hl⟩, hmin⟩ := h
  have hs : s ∈ g.Graph.nodes := by
    obtain ⟨hh, hlast, hc⟩ := hw
    cases walk with
    | nil => simp at hh
    | cons x rest =>
      simp only [List.head?_cons, Option.some.injEq] at hh
      subst hh
      cases rest with
      | nil =>
        simp only [List.getLast?_singleton, Option.some.injEq] at hlast
        exact absurd hlast hst
      | cons y ys =>
        rw [List.chain'_cons] at hc
        exact (adj_nodes g hwf x y (Or.inl hc.1)).1
  obtain ⟨p, hp, hinv, hrel⟩ := DijkstraFrom_relaxed g hwf s hs
  obtain ⟨d0, hd0, _⟩ := dist_le_route g p hrel walk s t 0 hinv.2.2.1 hw
  have htn : t ∈ p.nodes := hinv.2.2.2.2.1 t d0 hd0
  rcases To_ok g s p hinv t with h0 | ⟨path, d1, h1, hne, _⟩
  · exfalso
    unfold Shortest.To at h0
    split at h0
    · rename_i hc
      rcases hc with hc | hc
      · exact hc htn
      · rw [hd0] at hc
        simp [Weight.isInf] at hc
    · split at h0
      · exact Option.noConfusion h0
      · simp only [Option.some.injEq, Prod.mk.injEq] at h0
        rw [hd0] at h0
        exact Weight.noConfusion h0.2
  · have hsp : SeparatedPair g s t d1 path :=
      ⟨hs, hinv.2.1 ▸ htn, hst, p, hp, h1, hne⟩
    have hhop := (SeparatedPair_hop g hwf s t d1 path hsp).2.2
    have := HopDistance_unique g s t d1 d hhop ⟨⟨walk, hw, hl⟩, hmin⟩
    subst this
    exact ⟨hs, hinv.2.1 ▸ htn, path, hsp⟩

/-- What holds of C17 on the code, with the number of hops in place of the
shortest-path distance (the search does not read the stored weights, so a
backtracking edge counts as one hop). For every store whose routable structure
satisfies the representation invariant, `FindMostSeparatedNodes` returns a
record `r`. It is the empty record
when the graph has fewer than two nodes or no node has a directed route to
another node. Otherwise `r` names a pair of different nodes whose hop distance
`D` is the largest hop distance of any pair, with a route of `D` hops as path
and the names of `GetNameForID`; every pair `(s, t)` of hop distance `D` has a
degree sum that is at least that of the reported pair, and when the sums are
equal the reported pair comes first by source id, then by target id. -/
theorem FindMostSeparatedNodes_peripheral (g : MystGraph) (hwf : g.Graph.WF) :
    ∃ r, g.FindMostSeparatedNodes = some r ∧
      (g.Graph.nodes.length < 2 → r = NodePairInfo.zero) ∧
      ((∀ s t d, s ≠ t → ¬ HopDistance g s t d) → r = NodePairInfo.zero) ∧
      ((∃ s t d, s ≠ t ∧ HopDistance g s t d) →
        ∃ D, r.Distance = Weight.fin D ∧ r.Source.ID ≠ r.Target.ID ∧
          HopDistance g r.Source.ID r.Target.ID D ∧
          Route g r.Source.ID r.Target.ID r.Path ∧ r.Path.length = D + 1 ∧
          r.Source.Name = g.GetNameForID r.Source.ID ∧
          r.Target.Name = g.GetNameForID r.Target.ID ∧
          ∀ s t d, s ≠ t → HopDistance g s t d →
            d ≤ D ∧
            (d = D →
              g.degree r.Source.ID + g.degree r.Target.ID ≤ g.degree s + g.degree t ∧
              (g.degree s + g.degree t = g.degree r.Source.ID + g.degree r.Target.ID →
                r.Source.ID < s ∨ (r.Source.ID = s ∧ r.Target.ID ≤ t)))) := by
  obtain ⟨r, hr, hfew, hnone, hmax⟩ := findMostSeparatedNodes_spec g hwf
  refine ⟨r, hr, hfew, ?_, ?_⟩
  · intro hno
    apply hnone
    intro s t d path hsp
    exact hno s t d hsp.2.2.1 (SeparatedPair_hop g hwf s t d path hsp).2.2
  · rintro ⟨s0, t0, d0, hst0, hhop0⟩
    obtain ⟨_, _, path0, hsp0⟩ := hop_SeparatedPair g hwf s0 t0 d0 hst0 hhop0
    obtain ⟨b, D, hrb, hbD, hbsp, _, _⟩ := hmax s0 t0 d0 path0 hsp0
    have hD : r.Distance = Weight.fin D := by rw [hrb]; exact hbD
    obtain ⟨hroute, hlen, hhop⟩ := SeparatedPair_hop g hwf _ _ _ _ hbsp
    refine ⟨D, hD, by rw [hrb]; exact hbsp.2.2.1, by rw [hrb]; exact hhop,
      by rw [hrb]; exact hroute, by rw [hrb]; exact hlen, by rw [hrb]; rfl,
      by rw [hrb]; rfl, ?_⟩
    intro s t d hst hhopst
    obtain ⟨_, _, path, hsp⟩ := hop_SeparatedPair g hwf s t d hst hhopst
    obtain ⟨b', D', hrb', hbD', _, hle, hdeg⟩ := hmax s t d path hsp
    have hDD : Weight.fin D = Weight.fin D' := by rw [← hD, hrb']; exact hbD'
    simp only [Weight.fin.injEq] at hDD
    have hS : r.Source.ID = b'.source := by rw [hrb']; rfl
    have hT : r.Target.ID = b'.target := by rw [hrb']; rfl
    refine ⟨by omega, fun hdD => ?_⟩
    rw [hS, hT]
    exact hdeg (by omega)

set_option maxRecDepth 100000 in
/-- Witness of `FindMostSeparatedNodes_peripheral` on `scenarioGraph`, which
reports the pair (0, 1). -/
theorem FindMostSeparatedNodes_peripheral_witness :
    scenarioGraph.Graph.WF ∧
    scenarioGraph.FindMostSeparatedNodes =
      some { Source := ⟨0, "A"⟩, Target := ⟨1, "B"⟩, Distance := Weight.fin 1,
             Path := [0, 1] } ∧
    ∃ r, scenarioGraph.FindMostSeparatedNodes = some r ∧
      (scenarioGraph.Graph.nodes.length < 2 → r = NodePairInfo.zero) ∧
      ((∀ s t d, s ≠ t → ¬ HopDistance scenarioGraph s t d) → r = NodePairInfo.zero) ∧
      ((∃ s t d, s ≠ t ∧ HopDistance scenarioGraph s t d) →
        ∃ D, r.Distance = Weight.fin D ∧ r.Source.ID ≠ r.Target.ID ∧
          HopDistance scenarioGraph r.Source.ID r.Target.ID D ∧
          Route scenarioGraph r.Source.ID r.Target.ID r.Path ∧ r.Path.length = D + 1 ∧
          r.Source.Name = scenarioGraph.GetNameForID r.Source.ID ∧
          r.Target.Name = scenarioGraph.GetNameForID r.Target.ID ∧
          ∀ s t d, s ≠ t → HopDistance scenarioGraph s t d →
            d ≤ D ∧
            (d = D →
              scenarioGraph.degree r.Source.ID + scenarioGraph.degree r.Target.ID ≤
                scenarioGraph.degree s + scenarioGraph.degree t ∧
              (scenarioGraph.degree s + scenarioGraph.degree t =
                  scenarioGraph.degree r.Source.ID + scenarioGraph.degree r.Target.ID →
                r.Source.ID < s ∨ (r.Source.ID = s ∧ r.Target.ID ≤ t)))) :=
  ⟨by decide, by decide, FindMostSeparatedNodes_peripheral scenarioGraph (by decide)⟩

theorem mostIncomingLoop_eq (g : MystGraph) : ∀ (l : List Int) (st : NodeDegreeInfo × Int),
    mostIncomingLoop g l st = degreeLoop g (fun id => ((g.To id).length : Int)) l st := by
  intro l
  induction l with
  | nil => intro st; rfl
  | cons id rest ih =>
    intro st
    obtain ⟨m, d⟩ := st
    simp only [mostIncomingLoop, degreeLoop, ih]

theorem mostOutgoingLoop_eq (g : MystGraph) : ∀ (l : List Int) (st : NodeDegreeInfo × Int),
    mostOutgoingLoop g l st = degreeLoop g (fun id => ((g.From id).length : Int)) l st := by
  intro l
  induction l with
  | nil => intro st; rfl
  | cons id rest ih =>
    intro st
    obtain ⟨m, d⟩ := st
    simp only [mostOutgoingLoop, degreeLoop, ih]

theorem degreeLoop_spec (g : MystGraph) (deg : Int → Int) (hdeg : ∀ x, 0 ≤ deg x) :
    ∀ (l seen : List Int) (st : NodeDegreeInfo × Int),
      ((seen = [] ∧ st.2 = -1) ∨ (FirstMaximum g deg seen st.1 ∧ st.2 = st.1.Degree)) →
      ((seen ++ l = [] ∧ degreeLoop g deg l st = st) ∨
        (FirstMaximum g deg (seen ++ l) (degreeLoop g deg l st).1)) := by
  intro l
  induction l with
  | nil =>
    intro seen st h
    rcases h with ⟨h1, _⟩ | ⟨h1, _⟩
    · exact Or.inl ⟨by simp [h1], rfl⟩
    · exact Or.inr (by simpa [degreeLoop] using h1)
  | cons id rest ih =>
    intro seen st h
    obtain ⟨maxNode, m⟩ := st
    dsimp only at h
    right
    have hgoal : ∀ st' : NodeDegreeInfo × Int,
        (FirstMaximum g deg (seen ++ [id]) st'.1 ∧ st'.2 = st'.1.Degree) →
        FirstMaximum g deg (seen ++ id :: rest) (degreeLoop g deg rest st').1 := by
      intro st' hst'
      rcases ih (seen ++ [id]) st' (Or.inr hst') with ⟨h0, _⟩ | h0
      · simp at h0
      · simpa using h0
    unfold degreeLoop
    by_cases hlt : m < deg id
    · rw [if_pos hlt]
      apply hgoal
      refine ⟨⟨rfl, rfl, ?_, seen, [], rfl, ?_⟩, rfl⟩
      · intro n hn
        rcases List.mem_append.mp hn with hn | hn
        · rcases h with ⟨h1, _⟩ | ⟨h1, h2⟩
          · rw [h1] at hn; simp at hn
          · have := h1.2.2.1 n hn
            simp only
            omega
        · simp only [List.mem_singleton] at hn
          rw [hn]
      · intro x hx
        rcases h with ⟨h1, _⟩ | ⟨h1, h2⟩
        · rw [h1] at hx; simp at hx
        · have := h1.2.2.1 x hx
          simp only
          omega
    · rw [if_neg hlt]
      apply hgoal
      rcases h with ⟨_, h2⟩ | ⟨h1, h2⟩
      · have := hdeg id
        omega
      · obtain ⟨a1, a2, a3, pre, post, a4, a5⟩ := h1
        refine ⟨⟨a1, a2, ?_, pre, post ++ [id], by rw [a4]; simp, a5⟩, h2⟩
        intro n hn
        rcases List.mem_append.mp hn with hn | hn
        · exact a3 n hn
        · simp only [List.mem_singleton] at hn
          rw [hn]
          show deg id ≤ maxNode.Degree
          omega

theorem FirstMaximum_lowest (g : MystGraph) (deg : Int → Int) (nodes : List Int)
    (r : NodeDegreeInfo) (h : FirstMaximum g deg nodes r)
    (hs : nodes.Sorted (fun a b => a < b)) :
    ∀ n ∈ nodes, deg n = r.Degree → r.ID ≤ n := by
  obtain ⟨_, _, _, pre, post, hsplit, hpre⟩ := h
  intro n hn hdn
  rw [hsplit] at hn hs
  rcases List.mem_append.mp hn with hn | hn
  · have := hpre n hn
    omega
  · rcases List.mem_cons.mp hn with hn | hn
    · omega
    · have := (List.pairwise_cons.mp (List.pairwise_append.mp hs).2.1).1 n hn
      omega

/-- C21 (as stated, refuted). `swappedGraph` is the store `NewGraph` builds from
the nodes A, B without edges, except that its node map is enumerated in the
order 1, 0. Both nodes have in-degree 0 and out-degree 0, and both functions
return node 1, not node 0, the lowest id attaining the maximum. -/
theorem most_degree_first_enumerated :
    (NewGraph (some (mkMetadata [0, 1] [])) exHeap).1 =
      some { swappedGraph with Graph := { swappedGraph.Graph with nodes := [0, 1] } } ∧
    swappedGraph.Graph.nodes = [1, 0] ∧
    swappedGraph.FindNodeWithMostIncomingEdges = { ID := 1, Name := "B", Degree := 0 } ∧
    swappedGraph.FindNodeWithMostOutgoingEdges = { ID := 1, Name := "B", Degree := 0 } ∧
    (swappedGraph.To 0).length = 0 ∧ (swappedGraph.From 0).length = 0 := by
  decide

/-- C21 (amended). For every store with at least one node,
`FindNodeWithMostIncomingEdges` returns a node of the graph whose `Degree` is
its number of in-neighbours in the routable adjacency and whose name is that
of `GetNameForID`; no node has more in-neighbours, and every node that
`Graph.Nodes()` enumerates before it has fewer. The same holds of
`FindNodeWithMostOutgoingEdges` and the out-neighbours. When the enumeration is
in ascending id order, the returned node has the lowest id among the nodes of
the largest degree. -/
theorem FindNodeWithMost_first_maximum (g : MystGraph) (hne : g.Graph.nodes ≠ []) :
    FirstMaximum g (fun id => ((g.To id).length : Int)) g.Graph.nodes
      g.FindNodeWithMostIncomingEdges ∧
    FirstMaximum g (fun id => ((g.From id).length : Int)) g.Graph.nodes
      g.FindNodeWithMostOutgoingEdges ∧
    g.FindNodeWithMostIncomingEdges.ID ∈ g.Graph.nodes ∧
    g.FindNodeWithMostOutgoingEdges.ID ∈ g.Graph.nodes ∧
    (g.Graph.nodes.Sorted (fun a b => a < b) →
      (∀ n ∈ g.Graph.nodes,
        ((g.To n).length : Int) = g.FindNodeWithMostIncomingEdges.Degree →
        g.FindNodeWithMostIncomingEdges.ID ≤ n) ∧
      (∀ n ∈ g.Graph.nodes,
        ((g.From n).length : Int) = g.FindNodeWithMostOutgoingEdges.Degree →
        g.FindNodeWithMostOutgoingEdges.ID ≤ n)) := by
  have hin : FirstMaximum g (fun id => ((g.To id).length : Int)) g.Graph.nodes
      g.FindNodeWithMostIncomingEdges := by
    unfold MystGraph.FindNodeWithMostIncomingEdges
    rw [mostIncomingLoop_eq]
    rcases degreeLoop_spec g (fun id => ((g.To id).length : Int)) (fun x => by simp)
      g.Graph.nodes [] (⟨0, "", 0⟩, -1) (Or.inl ⟨rfl, rfl⟩) with ⟨h0, _⟩ | h0
    · exact absurd (by simpa using h0) hne
    · simpa using h0
  have hout : FirstMaximum g (fun id => ((g.From id).length : Int)) g.Graph.nodes
      g.FindNodeWithMostOutgoingEdges := by
    unfold MystGraph.FindNodeWithMostOutgoingEdges
    rw [mostOutgoingLoop_eq]
    rcases degreeLoop_spec g (fun id => ((g.From id).length : Int)) (fun x => by simp)
      g.Graph.nodes [] (⟨0, "", 0⟩, -1) (Or.inl ⟨rfl, rfl⟩) with ⟨h0, _⟩ | h0
    · exact absurd (by simpa using h0) hne
    · simpa using h0
  refine ⟨hin, hout, ?_, ?_, fun hs => ⟨?_, ?_⟩⟩
  · obtain ⟨_, _, _, pre, post, hsplit, _⟩ := hin
    rw [hsplit]
    simp
  · obtain ⟨_, _, _, pre, post, hsplit, _⟩ := hout
    rw [hsplit]
    simp
  · exact FirstMaximum_lowest g _ _ _ hin hs
  · exact FirstMaximum_lowest g _ _ _ hout hs

/-- Witness of `FindNodeWithMost_first_maximum` on `islandsGraph`: node 0 with one
in-neighbour, node 1 with one out-neighbour. -/
theorem FindNodeWithMost_first_maximum_witness :
    islandsGraph.Graph.nodes ≠ [] ∧
    islandsGraph.FindNodeWithMostIncomingEdges = { ID := 0, Name := "A", Degree := 1 } ∧
    islandsGraph.FindNodeWithMostOutgoingEdges = { ID := 1, Name := "B", Degree := 1 } ∧
    FirstMaximum islandsGraph (fun id => ((islandsGraph.To id).length : Int))
      islandsGraph.Graph.nodes islandsGraph.FindNodeWithMostIncomingEdges ∧
    islandsGraph.FindNodeWithMostIncomingEdges.ID ∈ islandsGraph.Graph.nodes :=
  ⟨by decide, by decide, by decide,
    (FindNodeWithMost_first_maximum islandsGraph (by decide)).1,
    (FindNodeWithMost_first_maximum islandsGraph (by decide)).2.2.1⟩

theorem addNodeAttributeLoop_fields (id : Int) (a : NodeAttribute) :
    ∀ (refs : List NodeRef) (heap : Heap) (r : NodeRef),
      addNodeAttributeLoop id a refs heap r =
        { heap r with Attributes := (addNodeAttributeLoop id a refs heap r).Attributes } := by
  intro refs
  induction refs with
  | nil => intro heap r; rfl
  | cons r0 rest ih =>
    intro heap r
    unfold addNodeAttributeLoop
    split
    · split
      · rfl
      · unfold Heap.set
        by_cases hr : r = r0
        · simp only [hr, if_true]
        · simp only [hr, if_false]
    · exact ih heap r

theorem addNodeAttributeLoop_attrs (id : Int) (a : NodeAttribute) :
    ∀ (refs : List NodeRef) (heap : Heap),
      (refs.map (fun r => (heap r).GraphID)).Nodup →
      ∀ r, (addNodeAttributeLoop id a refs heap r).Attributes =
        if r ∈ refs ∧ (heap r).GraphID = id ∧ a ∉ (heap r).Attributes then
          (heap r).Attributes ++ [a]
        else (heap r).Attributes := by
  intro refs
  induction refs with
  | nil => intro heap _ r; simp [addNodeAttributeLoop]
  | cons r0 rest ih =>
    intro heap hnd r
    rw [List.map_cons, List.nodup_cons] at hnd
    unfold addNodeAttributeLoop
    by_cases h0 : (heap r0).GraphID = id
    · rw [if_pos h0]
      have hother : ∀ r', r' ≠ r0 → ¬ (r' ∈ r0 :: rest ∧ (heap r').GraphID = id ∧
          a ∉ (heap r').Attributes) := by
        rintro r' hne ⟨hmem, hid, _⟩
        rcases List.mem_cons.mp hmem with h | h
        · exact hne h
        · exact hnd.1 (List.mem_map.mpr ⟨r', h, by rw [hid, h0]⟩)
      by_cases hc : (heap r0).Attributes.contains a = true
      · rw [if_pos hc]
        by_cases hr : r = r0
        · subst hr
          rw [if_neg]
          rintro ⟨_, _, hn⟩
          exact hn (by simpa using hc)
        · rw [if_neg (hother r hr)]
      · rw [if_neg hc]
        unfold Heap.set
        by_cases hr : r = r0
        · subst hr
          simp only [if_true]
          rw [if_pos ⟨List.mem_cons_self _ _, h0, by simpa using hc⟩]
        · simp only [hr, if_false]
          rw [if_neg (hother r hr)]
    · rw [if_neg h0, ih heap hnd.2 r]
      by_cases hr : r = r0
      · subst hr
        rw [if_neg (fun hc => h0 hc.2.1), if_neg (fun hc => h0 hc.2.1)]
      · simp only [List.mem_cons, hr, false_or]

theorem scanNodes_spec (g : MystGraph) (test : Heap → Int → Bool) (a : NodeAttribute)
    (hstable : ∀ h1 h2 : Heap, (∀ r, (h1 r).GraphID = (h2 r).GraphID) →
      ∀ id, test h1 id = test h2 id) :
    ∀ (ids : List Int) (result : List NodeInfo) (heap : Heap),
      (scanNodes g test a ids (result, heap)).1 =
        result ++ (ids.filter (test heap)).map
          (fun id => { ID := id, Name := g.GetNameForID id }) ∧
      (∀ r, (scanNodes g test a ids (result, heap)).2 r =
        { heap r with Attributes := ((scanNodes g test a ids (result, heap)).2 r).Attributes }) ∧
      ((g.Metadata.Nodes.map (fun r => (heap r).GraphID)).Nodup →
        ∀ r, ((scanNodes g test a ids (result, heap)).2 r).Attributes =
          if r ∈ g.Metadata.Nodes ∧ (heap r).GraphID ∈ ids.filter (test heap) ∧
              a ∉ (heap r).Attributes then
            (heap r).Attributes ++ [a]
          else (heap r).Attributes) := by
  intro ids
  induction ids with
  | nil =>
    intro result heap
    exact ⟨by simp [scanNodes], fun r => rfl, fun _ r => by simp [scanNodes]⟩
  | cons id rest ih =>
    intro result heap
    unfold scanNodes
    by_cases ht : test heap id = true
    · rw [if_pos ht]
      have hf := addNodeAttributeLoop_fields id a g.Metadata.Nodes heap
      have hgid : ∀ r, ((g.addNodeAttribute heap id a) r).GraphID = (heap r).GraphID := by
        intro r
        unfold MystGraph.addNodeAttribute
        rw [hf r]
      have htest : ∀ x, test (g.addNodeAttribute heap id a) x = test heap x :=
        hstable _ _ hgid
      obtain ⟨e1, e2, e3⟩ := ih (result ++ [{ ID := id, Name := g.GetNameForID id }])
        (g.addNodeAttribute heap id a)
      have hfilter : rest.filter (test (g.addNodeAttribute heap id a)) =
          rest.filter (test heap) := by
        congr 1
        funext x
        exact htest x
      refine ⟨?_, ?_, ?_⟩
      · rw [e1, hfilter, List.filter_cons, if_pos ht]
        simp
      · intro r
        rw [e2 r]
        unfold MystGraph.addNodeAttribute
        rw [hf r]
      · intro hnd r
        have hnd' : (g.Metadata.Nodes.map
            (fun r => ((g.addNodeAttribute heap id a) r).GraphID)).Nodup := by
          have : (fun r => ((g.addNodeAttribute heap id a) r).GraphID) =
              (fun r => (heap r).GraphID) := funext hgid
          rw [this]
          exact hnd
        rw [e3 hnd' r, hfilter, hgid r]
        have hattr := addNodeAttributeLoop_attrs id a g.Metadata.Nodes heap hnd r
        unfold MystGraph.addNodeAttribute
        rw [hattr, List.filter_cons, if_pos ht]
        by_cases hc : r ∈ g.Metadata.Nodes ∧ (heap r).GraphID = id ∧ a ∉ (heap r).Attributes
        · rw [if_pos hc, if_neg (by simp), if_pos ⟨hc.1, by simp [hc.2.1], hc.2.2⟩]
        · rw [if_neg hc]
          by_cases hc2 : r ∈ g.Metadata.Nodes ∧ (heap r).GraphID ∈ rest.filter (test heap) ∧
              a ∉ (heap r).Attributes
          · rw [if_pos hc2, if_pos ⟨hc2.1, List.mem_cons_of_mem _ hc2.2.1, hc2.2.2⟩]
          · rw [if_neg hc2, if_neg]
            rintro ⟨h1, h2, h3⟩
            rcases List.mem_cons.mp h2 with h2 | h2
            · exact hc ⟨h1, h2, h3⟩
            · exact hc2 ⟨h1, h2, h3⟩
    · rw [if_neg ht]
      obtain ⟨e1, e2, e3⟩ := ih result heap
      refine ⟨?_, e2, ?_⟩
      · rw [e1, List.filter_cons, if_neg ht]
      · intro hnd r
        rw [e3 hnd r, List.filter_cons, if_neg ht]

theorem scanNodes_report (g : MystGraph) (test : Heap → Int → Bool) (a : NodeAttribute)
    (hstable : ∀ h1 h2 : Heap, (∀ r, (h1 r).GraphID = (h2 r).GraphID) →
      ∀ id, test h1 id = test h2 id)
    (heap : Heap) (hids : (g.Metadata.Nodes.map (fun r => (heap r).GraphID)).Nodup) :
    (∀ info, info ∈ (scanNodes g test a g.Graph.nodes ([], heap)).1 ↔
      info.ID ∈ g.Graph.nodes ∧ info.Name = g.GetNameForID info.ID ∧
        test heap info.ID = true) ∧
    (∀ r ∈ g.Metadata.Nodes,
      (((∃ info ∈ (scanNodes g test a g.Graph.nodes ([], heap)).1,
            info.ID = (heap r).GraphID) ∧ a ∉ (heap r).Attributes) →
        ((scanNodes g test a g.Graph.nodes ([], heap)).2 r).Attributes =
          (heap r).Attributes ++ [a]) ∧
      (¬ ((∃ info ∈ (scanNodes g test a g.Graph.nodes ([], heap)).1,
            info.ID = (heap r).GraphID) ∧ a ∉ (heap r).Attributes) →
        ((scanNodes g test a g.Graph.nodes ([], heap)).2 r).Attributes =
          (heap r).Attributes)) ∧
    (∀ r, r ∉ g.Metadata.Nodes → (scanNodes g test a g.Graph.nodes ([], heap)).2 r = heap r) ∧
    (∀ r, (scanNodes g test a g.Graph.nodes ([], heap)).2 r =
      { heap r with
        Attributes := ((scanNodes g test a g.Graph.nodes ([], heap)).2 r).Attributes }) := by
  obtain ⟨e1, e2, e3⟩ := scanNodes_spec g test a hstable g.Graph.nodes [] heap
  have hmem : ∀ info, info ∈ (scanNodes g test a g.Graph.nodes ([], heap)).1 ↔
      info.ID ∈ g.Graph.nodes ∧ info.Name = g.GetNameForID info.ID ∧
        test heap info.ID = true := by
    intro info
    rw [e1, List.nil_append, List.mem_map]
    constructor
    · rintro ⟨id, hid, rfl⟩
      rw [List.mem_filter] at hid
      exact ⟨hid.1, rfl, hid.2⟩
    · rintro ⟨h1, h2, h3⟩
      refine ⟨info.ID, List.mem_filter.mpr ⟨h1, h3⟩, ?_⟩
      cases info
      simp only at h2
      rw [h2]
  have hrep : ∀ x : Int, (∃ info ∈ (scanNodes g test a g.Graph.nodes ([], heap)).1,
      info.ID = x) ↔ x ∈ g.Graph.nodes.filter (test heap) := by
    intro x
    rw [List.mem_filter]
    constructor
    · rintro ⟨info, hinfo, rfl⟩
      have := (hmem info).mp hinfo
      exact ⟨this.1, this.2.2⟩
    · rintro ⟨h1, h2⟩
      exact ⟨{ ID := x, Name := g.GetNameForID x }, (hmem _).mpr ⟨h1, rfl, h2⟩, rfl⟩
  refine ⟨hmem, ?_, ?_, e2⟩
  · intro r hr
    rw [e3 hids r, hrep]
    constructor
    · intro hc
      rw [if_pos ⟨hr, hc.1, hc.2⟩]
    · intro hc
      rw [if_neg (fun h => hc ⟨h.2.1, h.2.2⟩)]
  · intro r hr
    have h1 := e2 r
    have h2 := e3 hids r
    rw [if_neg (fun h => hr h.1)] at h2
    rw [h1, h2]

theorem backtrackingInto_stable (g : MystGraph) (h1 h2 : Heap)
    (h : ∀ r, (h1 r).GraphID = (h2 r).GraphID) (id : Int) :
    g.backtrackingInto h1 id = g.backtrackingInto h2 id := by
  unfold MystGraph.backtrackingInto
  congr 1
  funext e
  rw [h]

theorem backtrackingAt_stable (g : MystGraph) (h1 h2 : Heap)
    (h : ∀ r, (h1 r).GraphID = (h2 r).GraphID) (id : Int) :
    g.backtrackingAt h1 id = g.backtrackingAt h2 id := by
  unfold MystGraph.backtrackingAt
  congr 1
  funext e
  rw [h, h]

theorem backtrackingInto_false (g : MystGraph) (heap : Heap) (id : Int) :
    g.backtrackingInto heap id = false ↔
      ∀ e ∈ g.Metadata.Edges, e.IsOfType Backtracking = true → (heap e.Target).GraphID ≠ id := by
  unfold MystGraph.backtrackingInto
  rw [List.any_eq_false]
  constructor
  · intro h e he hb hid
    exact h e he (by simp [hid, hb])
  · intro h e he hc
    simp only [Bool.and_eq_true, decide_eq_true_eq] at hc
    exact h e he hc.2 hc.1

theorem backtrackingAt_false (g : MystGraph) (heap : Heap) (id : Int) :
    g.backtrackingAt heap id = false ↔
      ∀ e ∈ g.Metadata.Edges, e.IsOfType Backtracking = true →
        (heap e.Source).GraphID ≠ id ∧ (heap e.Target).GraphID ≠ id := by
  unfold MystGraph.backtrackingAt
  rw [List.any_eq_false]
  constructor
  · intro h e he hb
    constructor
    · intro hid
      exact h e he (by simp [hid, hb])
    · intro hid
      exact h e he (by simp [hid, hb])
  · intro h e he hc
    simp only [Bool.and_eq_true, Bool.or_eq_true, decide_eq_true_eq] at hc
    rcases hc.1 with h1 | h1
    · exact (h e he hc.2).1 h1
    · exact (h e he hc.2).2 h1

/-- C22. For every store and memory in which the node objects of
`Metadata.Nodes` carry pairwise different ids: `FindNodesWithNoIncomingEdges` reports a
record exactly when its id is a node without in-neighbour in the routable adjacency
and no edge of `Metadata.Edges` that carries `Backtracking` has it as target,
and its name is that of `GetNameForID`. After the call a node object of
`Metadata.Nodes` has `IsSource` appended to its attributes when its id is
reported and it did not carry `IsSource`, and has its attributes unchanged
otherwise; nothing else in memory changes. -/
theorem FindNodesWithNoIncomingEdges_sources (g : MystGraph) (heap : Heap)
    (hids : (g.Metadata.Nodes.map (fun r => (heap r).GraphID)).Nodup) :
    (∀ info, info ∈ (g.FindNodesWithNoIncomingEdges heap).1 ↔
      info.ID ∈ g.Graph.nodes ∧ info.Name = g.GetNameForID info.ID ∧
      g.To info.ID = [] ∧
      ∀ e ∈ g.Metadata.Edges, e.IsOfType Backtracking = true →
        (heap e.Target).GraphID ≠ info.ID) ∧
    (∀ r ∈ g.Metadata.Nodes,
      (((∃ info ∈ (g.FindNodesWithNoIncomingEdges heap).1, info.ID = (heap r).GraphID) ∧
          IsSource ∉ (heap r).Attributes) →
        ((g.FindNodesWithNoIncomingEdges heap).2 r).Attributes = (heap r).Attributes ++ [IsSource]) ∧
      (¬ ((∃ info ∈ (g.FindNodesWithNoIncomingEdges heap).1, info.ID = (heap r).GraphID) ∧
          IsSource ∉ (heap r).Attributes) →
        ((g.FindNodesWithNoIncomingEdges heap).2 r).Attributes = (heap r).Attributes)) ∧
    (∀ r, r ∉ g.Metadata.Nodes → (g.FindNodesWithNoIncomingEdges heap).2 r = heap r) ∧
    (∀ r, (g.FindNodesWithNoIncomingEdges heap).2 r =
      { heap r with Attributes := ((g.FindNodesWithNoIncomingEdges heap).2 r).Attributes }) := by
  obtain ⟨h1, h2, h3, h4⟩ := scanNodes_report g
    (fun heap id => (g.To id).isEmpty && !(g.backtrackingInto heap id)) IsSource
    (by
      intro a b hab id
      simp only [backtrackingInto_stable g a b hab id]) heap hids
  refine ⟨?_, h2, h3, h4⟩
  intro info
  unfold MystGraph.FindNodesWithNoIncomingEdges
  rw [h1 info]
  simp only [Bool.and_eq_true, Bool.not_eq_true', List.isEmpty_iff, backtrackingInto_false]

set_option maxRecDepth 100000 in
/-- Witness of `FindNodesWithNoIncomingEdges_sources` on `islandsGraph` and the memory
`NewGraph` leaves: the reported ids are [1, 2, 3]. -/
theorem FindNodesWithNoIncomingEdges_sources_witness :
    ((NewGraph (some islandsMetadata) detourHeap).1 = some islandsGraph ∧
      (islandsGraph.Metadata.Nodes.map
        (fun r => ((NewGraph (some islandsMetadata) detourHeap).2.2 r).GraphID)).Nodup) ∧
    ((islandsGraph.FindNodesWithNoIncomingEdges
        (NewGraph (some islandsMetadata) detourHeap).2.2).1.map (fun info => info.ID) =
      [1, 2, 3]) ∧
    (∀ info, info ∈ (islandsGraph.FindNodesWithNoIncomingEdges
        (NewGraph (some islandsMetadata) detourHeap).2.2).1 ↔
      info.ID ∈ islandsGraph.Graph.nodes ∧ info.Name = islandsGraph.GetNameForID info.ID ∧
      islandsGraph.To info.ID = [] ∧
      ∀ e ∈ islandsGraph.Metadata.Edges, e.IsOfType Backtracking = true →
        ((NewGraph (some islandsMetadata) detourHeap).2.2 e.Target).GraphID ≠ info.ID) :=
  ⟨by decide, by decide,
    (FindNodesWithNoIncomingEdges_sources islandsGraph (NewGraph (some islandsMetadata) detourHeap).2.2
      (by decide)).1⟩

/-- C23. For every store and memory in which the node objects of
`Metadata.Nodes` carry pairwise different ids: `FindNodesWithNoOutgoingEdges` reports a
record exactly when its id is a node without out-neighbour in the routable adjacency
and no edge of `Metadata.Edges` that carries `Backtracking` has it as target
(the target, as in the scan for sources),
and its name is that of `GetNameForID`. After the call a node object of
`Metadata.Nodes` has `IsSink` appended to its attributes when its id is
reported and it did not carry `IsSink`, and has its attributes unchanged
otherwise; nothing else in memory changes. -/
theorem FindNodesWithNoOutgoingEdges_sinks (g : MystGraph) (heap : Heap)
    (hids : (g.Metadata.Nodes.map (fun r => (heap r).GraphID)).Nodup) :
    (∀ info, info ∈ (g.FindNodesWithNoOutgoingEdges heap).1 ↔
      info.ID ∈ g.Graph.nodes ∧ info.Name = g.GetNameForID info.ID ∧
      g.From info.ID = [] ∧
      ∀ e ∈ g.Metadata.Edges, e.IsOfType Backtracking = true →
        (heap e.Target).GraphID ≠ info.ID) ∧
    (∀ r ∈ g.Metadata.Nodes,
      (((∃ info ∈ (g.FindNodesWithNoOutgoingEdges heap).1, info.ID = (heap r).GraphID) ∧
          IsSink ∉ (heap r).Attributes) →
        ((g.FindNodesWithNoOutgoingEdges heap).2 r).Attributes = (heap r).Attributes ++ [IsSink]) ∧
      (¬ ((∃ info ∈ (g.FindNodesWithNoOutgoingEdges heap).1, info.ID = (heap r).GraphID) ∧
          IsSink ∉ (heap r).Attributes) →
        ((g.FindNodesWithNoOutgoingEdges heap).2 r).Attributes = (heap r).Attributes)) ∧
    (∀ r, r ∉ g.Metadata.Nodes → (g.FindNodesWithNoOutgoingEdges heap).2 r = heap r) ∧
    (∀ r, (g.FindNodesWithNoOutgoingEdges heap).2 r =
      { heap r with Attributes := ((g.FindNodesWithNoOutgoingEdges heap).2 r).Attributes }) := by
  obtain ⟨h1, h2, h3, h4⟩ := scanNodes_report g
    (fun heap id => (g.From id).isEmpty && !(g.backtrackingInto heap id)) IsSink
    (by
      intro a b hab id
      simp only [backtrackingInto_stable g a b hab id]) heap hids
  refine ⟨?_, h2, h3, h4⟩
  intro info
  unfold MystGraph.FindNodesWithNoOutgoingEdges
  rw [h1 info]
  simp only [Bool.and_eq_true, Bool.not_eq_true', List.isEmpty_iff, backtrackingInto_false]

set_option maxRecDepth 100000 in
/-- Witness of `FindNodesWithNoOutgoingEdges_sinks` on `islandsGraph` and the memory
`NewGraph` leaves: the reported ids are [2, 4]. -/
theorem FindNodesWithNoOutgoingEdges_sinks_witness :
    ((NewGraph (some islandsMetadata) detourHeap).1 = some islandsGraph ∧
      (islandsGraph.Metadata.Nodes.map
        (fun r => ((NewGraph (some islandsMetadata) detourHeap).2.2 r).GraphID)).Nodup) ∧
    ((islandsGraph.FindNodesWithNoOutgoingEdges
        (NewGraph (some islandsMetadata) detourHeap).2.2).1.map (fun info => info.ID) =
      [2, 4]) ∧
    (∀ info, info ∈ (islandsGraph.FindNodesWithNoOutgoingEdges
        (NewGraph (some islandsMetadata) detourHeap).2.2).1 ↔
      info.ID ∈ islandsGraph.Graph.nodes ∧ info.Name = islandsGraph.GetNameForID info.ID ∧
      islandsGraph.From info.ID = [] ∧
      ∀ e ∈ islandsGraph.Metadata.Edges, e.IsOfType Backtracking = true →
        ((NewGraph (some islandsMetadata) detourHeap).2.2 e.Target).GraphID ≠ info.ID) :=
  ⟨by decide, by decide,
    (FindNodesWithNoOutgoingEdges_sinks islandsGraph (NewGraph (some islandsMetadata) detourHeap).2.2
      (by decide)).1⟩

/-- C24. For every store and memory in which the node objects of
`Metadata.Nodes` carry pairwise different ids: `FindIsolatedNodes` reports a
record exactly when its id is a node with neither in-neighbour nor out-neighbour in
the routable adjacency and no edge of `Metadata.Edges` that carries
`Backtracking` has it as source or as target,
and its name is that of `GetNameForID`. After the call a node object of
`Metadata.Nodes` has `IsIsolated` appended to its attributes when its id is
reported and it did not carry `IsIsolated`, and has its attributes unchanged
otherwise; nothing else in memory changes. -/
theorem FindIsolatedNodes_isolated (g : MystGraph) (heap : Heap)
    (hids : (g.Metadata.Nodes.map (fun r => (heap r).GraphID)).Nodup) :
    (∀ info, info ∈ (g.FindIsolatedNodes heap).1 ↔
      info.ID ∈ g.Graph.nodes ∧ info.Name = g.GetNameForID info.ID ∧
      (g.To info.ID = [] ∧ g.From info.ID = []) ∧
      ∀ e ∈ g.Metadata.Edges, e.IsOfType Backtracking = true →
        (heap e.Source).GraphID ≠ info.ID ∧ (heap e.Target).GraphID ≠ info.ID) ∧
    (∀ r ∈ g.Metadata.Nodes,
      (((∃ info ∈ (g.FindIsolatedNodes heap).1, info.ID = (heap r).GraphID) ∧
          IsIsolated ∉ (heap r).Attributes) →
        ((g.FindIsolatedNodes heap).2 r).Attributes = (heap r).Attributes ++ [IsIsolated]) ∧
      (¬ ((∃ info ∈ (g.FindIsolatedNodes heap).1, info.ID = (heap r).GraphID) ∧
          IsIsolated ∉ (heap r).Attributes) →
        ((g.FindIsolatedNodes heap).2 r).Attributes = (heap r).Attributes)) ∧
    (∀ r, r ∉ g.Metadata.Nodes → (g.FindIsolatedNodes heap).2 r = heap r) ∧
    (∀ r, (g.FindIsolatedNodes heap).2 r =
      { heap r with Attributes := ((g.FindIsolatedNodes heap).2 r).Attributes }) := by
  obtain ⟨h1, h2, h3, h4⟩ := scanNodes_report g
    (fun heap id =>
      ((g.To id).isEmpty && (g.From id).isEmpty) && !(g.backtrackingAt heap id)) IsIsolated
    (by
      intro a b hab id
      simp only [backtrackingAt_stable g a b hab id]) heap hids
  refine ⟨?_, h2, h3, h4⟩
  intro info
  unfold MystGraph.FindIsolatedNodes
  rw [h1 info]
  simp only [Bool.and_eq_true, Bool.not_eq_true', List.isEmpty_iff, backtrackingAt_false]

set_option maxRecDepth 100000 in
/-- Witness of `FindIsolatedNodes_isolated` on `islandsGraph` and the memory
`NewGraph` leaves: the reported ids are [2]. -/
theorem FindIsolatedNodes_isolated_witness :
    ((NewGraph (some islandsMetadata) detourHeap).1 = some islandsGraph ∧
      (islandsGraph.Metadata.Nodes.map
        (fun r => ((NewGraph (some islandsMetadata) detourHeap).2.2 r).GraphID)).Nodup) ∧
    ((islandsGraph.FindIsolatedNodes
        (NewGraph (some islandsMetadata) detourHeap).2.2).1.map (fun info => info.ID) =
      [2]) ∧
    (∀ info, info ∈ (islandsGraph.FindIsolatedNodes
        (NewGraph (some islandsMetadata) detourHeap).2.2).1 ↔
      info.ID ∈ islandsGraph.Graph.nodes ∧ info.Name = islandsGraph.GetNameForID info.ID ∧
      (islandsGraph.To info.ID = [] ∧ islandsGraph.From info.ID = []) ∧
      ∀ e ∈ islandsGraph.Metadata.Edges, e.IsOfType Backtracking = true →
        ((NewGraph (some islandsMetadata) detourHeap).2.2 e.Source).GraphID ≠ info.ID ∧
        ((NewGraph (some islandsMetadata) detourHeap).2.2 e.Target).GraphID ≠ info.ID) :=
  ⟨by decide, by decide,
    (FindIsolatedNodes_isolated islandsGraph (NewGraph (some islandsMetadata) detourHeap).2.2
      (by decide)).1⟩

theorem AddEdgeAttribute_fields (g : MystGraph) (heap : Heap) (s t : Int) (a : EdgeAttribute) :
    (g.AddEdgeAttribute heap s t a).2.Graph = g.Graph ∧
    (g.AddEdgeAttribute heap s t a).2.IdNameMap = g.IdNameMap ∧
    (g.AddEdgeAttribute heap s t a).2.NodeMap = g.NodeMap ∧
    (g.AddEdgeAttribute heap s t a).2.IdStackMap = g.IdStackMap ∧
    (g.AddEdgeAttribute heap s t a).2.Metadata.Nodes = g.Metadata.Nodes := by
  unfold MystGraph.AddEdgeAttribute
  split <;> exact ⟨rfl, rfl, rfl, rfl, rfl⟩

theorem selfLoopsLoop_spec (heap : Heap) :
    ∀ (ids : List Int) (result : List NodeInfo) (g : MystGraph),
      (selfLoopsLoop heap ids (result, g)).1 =
        result ++ (ids.filter (fun id => g.HasEdgeFromTo id id)).map
          (fun id => { ID := id, Name := g.GetNameForID id }) ∧
      (selfLoopsLoop heap ids (result, g)).2.Graph = g.Graph ∧
      (selfLoopsLoop heap ids (result, g)).2.IdNameMap = g.IdNameMap := by
  intro ids
  induction ids with
  | nil => intro result g; exact ⟨by simp [selfLoopsLoop], rfl, rfl⟩
  | cons id rest ih =>
    intro result g
    unfold selfLoopsLoop
    by_cases h : g.HasEdgeFromTo id id = true
    · rw [if_pos h]
      obtain ⟨f1, f2, _⟩ := AddEdgeAttribute_fields g heap id id SelfReference
      obtain ⟨e1, e2, e3⟩ := ih (result ++ [{ ID := id, Name := g.GetNameForID id }])
        (g.AddEdgeAttribute heap id id SelfReference).2
      have hname : ∀ x, (g.AddEdgeAttribute heap id id SelfReference).2.GetNameForID x =
          g.GetNameForID x := by
        intro x
        unfold MystGraph.GetNameForID
        rw [f2]
      have hedge : ∀ x, (g.AddEdgeAttribute heap id id SelfReference).2.HasEdgeFromTo x x =
          g.HasEdgeFromTo x x := by
        intro x
        unfold MystGraph.HasEdgeFromTo
        rw [f1]
      refine ⟨?_, by rw [e2, f1], by rw [e3, f2]⟩
      rw [e1, List.filter_cons, if_pos h]
      simp only [hname, hedge, List.map_cons, List.append_assoc, List.singleton_append]
    · rw [if_neg h]
      obtain ⟨e1, e2, e3⟩ := ih result g
      refine ⟨?_, e2, e3⟩
      rw [e1, List.filter_cons, if_neg h]

/-- C26 (as stated, refuted). On `swappedGraph`, whose node map is enumerated in
the order 1, 0, and the memory `NewGraph` leaves for the nodes A, B, the scans
for sources, sinks and isolated nodes each report node 1 before node 0. -/
theorem scans_report_in_enumeration_order :
    swappedGraph.Graph.nodes = [1, 0] ∧
    (swappedGraph.FindNodesWithNoIncomingEdges
      (NewGraph (some (mkMetadata [0, 1] [])) exHeap).2.2).1 = [⟨1, "B"⟩, ⟨0, "A"⟩] ∧
    (swappedGraph.FindNodesWithNoOutgoingEdges
      (NewGraph (some (mkMetadata [0, 1] [])) exHeap).2.2).1 = [⟨1, "B"⟩, ⟨0, "A"⟩] ∧
    (swappedGraph.FindIsolatedNodes
      (NewGraph (some (mkMetadata [0, 1] [])) exHeap).2.2).1 = [⟨1, "B"⟩, ⟨0, "A"⟩] := by
  decide

/-- C26 (amended). For every store and memory, the ids of each of the four
report lists form a sublist of the enumeration `Graph.Nodes()`: the nodes are
reported in the order in which the node map is enumerated. Hence each list is
strictly ascending by id when the enumeration is, and lists no id twice when
the enumeration does not. -/
theorem scans_follow_enumeration (g : MystGraph) (heap : Heap) :
    (List.Sublist ((g.FindNodesWithNoIncomingEdges heap).1.map (fun i => i.ID))
      g.Graph.nodes ∧
    List.Sublist ((g.FindNodesWithNoOutgoingEdges heap).1.map (fun i => i.ID))
      g.Graph.nodes ∧
    List.Sublist ((g.FindIsolatedNodes heap).1.map (fun i => i.ID)) g.Graph.nodes ∧
    List.Sublist ((g.FindNodesWithSelfLoops heap).1.map (fun i => i.ID)) g.Graph.nodes) ∧
    (g.Graph.nodes.Sorted (fun a b => a < b) →
      ((g.FindNodesWithNoIncomingEdges heap).1.map (fun i => i.ID)).Sorted (fun a b => a < b) ∧
      ((g.FindNodesWithNoOutgoingEdges heap).1.map (fun i => i.ID)).Sorted (fun a b => a < b) ∧
      ((g.FindIsolatedNodes heap).1.map (fun i => i.ID)).Sorted (fun a b => a < b) ∧
      ((g.FindNodesWithSelfLoops heap).1.map (fun i => i.ID)).Sorted (fun a b => a < b)) ∧
    (g.Graph.nodes.Nodup →
      ((g.FindNodesWithNoIncomingEdges heap).1.map (fun i => i.ID)).Nodup ∧
      ((g.FindNodesWithNoOutgoingEdges heap).1.map (fun i => i.ID)).Nodup ∧
      ((g.FindIsolatedNodes heap).1.map (fun i => i.ID)).Nodup ∧
      ((g.FindNodesWithSelfLoops heap).1.map (fun i => i.ID)).Nodup) := by
  have hscan : ∀ (test : Heap → Int → Bool) (a : NodeAttribute),
      List.Sublist ((scanNodes g test a g.Graph.nodes ([], heap)).1.map (fun i => i.ID))
        g.Graph.nodes := by
    intro test a
    have hgen : ∀ (ids : List Int) (result : List NodeInfo) (hp : Heap),
        ∃ sub, List.Sublist sub ids ∧
          (scanNodes g test a ids (result, hp)).1.map (fun i => i.ID) =
            result.map (fun i => i.ID) ++ sub := by
      intro ids
      induction ids with
      | nil => intro result hp; exact ⟨[], List.Sublist.refl _, by simp [scanNodes]⟩
      | cons id rest ih =>
        intro result hp
        unfold scanNodes
        split
        · obtain ⟨sub, hs, he⟩ := ih (result ++ [{ ID := id, Name := g.GetNameForID id }])
            (g.addNodeAttribute hp id a)
          exact ⟨id :: sub, hs.cons₂ id, by rw [he]; simp⟩
        · obtain ⟨sub, hs, he⟩ := ih result hp
          exact ⟨sub, hs.cons id, he⟩
    obtain ⟨sub, hs, he⟩ := hgen g.Graph.nodes [] heap
    rw [he]
    simpa using hs
  have h4 : List.Sublist ((g.FindNodesWithSelfLoops heap).1.map (fun i => i.ID))
      g.Graph.nodes := by
    unfold MystGraph.FindNodesWithSelfLoops
    rw [(selfLoopsLoop_spec heap g.Graph.nodes [] g).1, List.nil_append, List.map_map]
    have : ((fun i : NodeInfo => i.ID) ∘ fun id => { ID := id, Name := g.GetNameForID id }) =
        id := by
      funext x
      rfl
    rw [this, List.map_id]
    exact List.filter_sublist _
  have h1 := hscan (fun heap id => (g.To id).isEmpty && !(g.backtrackingInto heap id)) IsSource
  have h2 := hscan (fun heap id => (g.From id).isEmpty && !(g.backtrackingInto heap id)) IsSink
  have h3 := hscan (fun heap id =>
      ((g.To id).isEmpty && (g.From id).isEmpty) && !(g.backtrackingAt heap id)) IsIsolated
  exact ⟨⟨h1, h2, h3, h4⟩,
    fun hs => ⟨hs.sublist h1, hs.sublist h2, hs.sublist h3, hs.sublist h4⟩,
    fun hn => ⟨hn.sublist h1, hn.sublist h2, hn.sublist h3, hn.sublist h4⟩⟩

/-- C25 (failing input). The store of the nodes A, B with two edges A -> A, one
with `IntraAge` and one with `CrossAge` (built without error). The scan reports
node 0; afterwards the first edge of `Metadata.Edges` carries `SelfReference`
and the second does not, while both edges of the side table carry it:
`AddEdgeAttribute` returns after the first edge of the pair in the edge list. -/
theorem self_loop_scan_tags_first_edge_only :
    (NewGraph (some (mkMetadata [0, 1] [⟨[IntraAge], 0, 0, 0⟩, ⟨[CrossAge], 0, 0, 0⟩]))
      exHeap).2.1 = none ∧
    ((storeOf [⟨[IntraAge], 0, 0, 0⟩, ⟨[CrossAge], 0, 0, 0⟩]).1.FindNodesWithSelfLoops
      (storeOf [⟨[IntraAge], 0, 0, 0⟩, ⟨[CrossAge], 0, 0, 0⟩]).2).1 = [⟨0, "A"⟩] ∧
    ((storeOf [⟨[IntraAge], 0, 0, 0⟩, ⟨[CrossAge], 0, 0, 0⟩]).1.FindNodesWithSelfLoops
      (storeOf [⟨[IntraAge], 0, 0, 0⟩, ⟨[CrossAge], 0, 0, 0⟩]).2).2.Metadata.Edges =
      [⟨[IntraAge, SelfReference], 0, 0, 0⟩, ⟨[CrossAge], 0, 0, 0⟩] ∧
    ((storeOf [⟨[IntraAge], 0, 0, 0⟩, ⟨[CrossAge], 0, 0, 0⟩]).1.FindNodesWithSelfLoops
      (storeOf [⟨[IntraAge], 0, 0, 0⟩, ⟨[CrossAge], 0, 0, 0⟩]).2).2.sideTable 0 0 =
      some [⟨[IntraAge, SelfReference], 0, 0, 0⟩, ⟨[CrossAge, SelfReference], 0, 0, 0⟩] := by
  decide

/-- C27 (failing input). The store of the nodes A, B with two edges A -> B, one
with `IntraAge` and one with `CrossAge`. `AddEdgeAttribute(0, 1, NotImplemented)`
returns true; afterwards the second edge of the pair in `Metadata.Edges` does
not carry `NotImplemented`, while both edges of the side table do. -/
theorem AddEdgeAttribute_first_edge_only :
    (NewGraph (some (mkMetadata [0, 1] [⟨[IntraAge], 0, 1, 0⟩, ⟨[CrossAge], 0, 1, 0⟩]))
      exHeap).2.1 = none ∧
    ((storeOf [⟨[IntraAge], 0, 1, 0⟩, ⟨[CrossAge], 0, 1, 0⟩]).1.AddEdgeAttribute
      (storeOf [⟨[IntraAge], 0, 1, 0⟩, ⟨[CrossAge], 0, 1, 0⟩]).2 0 1 NotImplemented).1 = true ∧
    ((storeOf [⟨[IntraAge], 0, 1, 0⟩, ⟨[CrossAge], 0, 1, 0⟩]).1.AddEdgeAttribute
      (storeOf [⟨[IntraAge], 0, 1, 0⟩, ⟨[CrossAge], 0, 1, 0⟩]).2 0 1
        NotImplemented).2.Metadata.Edges =
      [⟨[IntraAge, NotImplemented], 0, 1, 0⟩, ⟨[CrossAge], 0, 1, 0⟩] ∧
    ((storeOf [⟨[IntraAge], 0, 1, 0⟩, ⟨[CrossAge], 0, 1, 0⟩]).1.AddEdgeAttribute
      (storeOf [⟨[IntraAge], 0, 1, 0⟩, ⟨[CrossAge], 0, 1, 0⟩]).2 0 1
        NotImplemented).2.sideTable 0 1 =
      some [⟨[IntraAge, NotImplemented], 0, 1, 0⟩, ⟨[CrossAge, NotImplemented], 0, 1, 0⟩] := by
  decide

/-- C28 (failing input). The store of the nodes A, B with two edges A -> B, one
with `IntraAge` and one with `NotImplemented`. `AddEdgeAttribute(0, 1,
NotImplemented)` returns true, and afterwards the second edge of the pair in
the side table carries `NotImplemented` twice: the presence test is made on the
first edge of the pair in `Metadata.Edges` only. -/
theorem AddEdgeAttribute_duplicates_attribute :
    (NewGraph (some (mkMetadata [0, 1] [⟨[IntraAge], 0, 1, 0⟩, ⟨[NotImplemented], 0, 1, 0⟩]))
      exHeap).2.1 = none ∧
    ((storeOf [⟨[IntraAge], 0, 1, 0⟩, ⟨[NotImplemented], 0, 1, 0⟩]).1.sideTable 0 1) =
      some [⟨[IntraAge], 0, 1, 0⟩, ⟨[NotImplemented], 0, 1, 0⟩] ∧
    ((storeOf [⟨[IntraAge], 0, 1, 0⟩, ⟨[NotImplemented], 0, 1, 0⟩]).1.AddEdgeAttribute
      (storeOf [⟨[IntraAge], 0, 1, 0⟩, ⟨[NotImplemented], 0, 1, 0⟩]).2 0 1
        NotImplemented).1 = true ∧
    ((storeOf [⟨[IntraAge], 0, 1, 0⟩, ⟨[NotImplemented], 0, 1, 0⟩]).1.AddEdgeAttribute
      (storeOf [⟨[IntraAge], 0, 1, 0⟩, ⟨[NotImplemented], 0, 1, 0⟩]).2 0 1
        NotImplemented).2.sideTable 0 1 =
      some [⟨[IntraAge, NotImplemented], 0, 1, 0⟩,
            ⟨[NotImplemented, NotImplemented], 0, 1, 0⟩] := by
  decide

theorem GoMap.set_of_get_some {κ ν : Type} [DecidableEq κ] (m : GoMap κ ν) (k : κ) (v : ν)
    (h : GoMap.get m k = some v) : GoMap.set m k v = m := by
  induction m with
  | nil => simp [GoMap.get] at h
  | cons p rest ih =>
    obtain ⟨a, b⟩ := p
    by_cases h1 : a = k
    · simp only [GoMap.get, h1, if_true, Option.some.injEq] at h
      simp [GoMap.set, h1, h]
    · simp only [GoMap.get, h1, if_false] at h
      simp [GoMap.set, h1, ih h]

theorem insertionSort_equal_keys {α : Type} (key : α → Int) (c : Int) :
    ∀ l : List α, (∀ e ∈ l, key e = c) →
      l.insertionSort (fun a b => key a ≤ key b) = l := by
  intro l
  induction l with
  | nil => intro _; rfl
  | cons a rest ih =>
    intro h
    rw [List.insertionSort, ih (fun e he => h e (List.mem_cons_of_mem _ he))]
    cases rest with
    | nil => rfl
    | cons b rest' =>
      have ha := h a (List.mem_cons_self _ _)
      have hb := h b (List.mem_cons_of_mem _ (List.mem_cons_self _ _))
      rw [List.orderedInsert, if_pos (by rw [ha, hb])]

theorem addEdgeWithAttributes_stored_ends (g : MystGraph) (heap : Heap) (e : Edge)
    (h : ∀ s t x, x ∈ (g.sideTable s t).getD [] →
      (heap x.Source).GraphID = s ∧ (heap x.Target).GraphID = t) :
    ∀ s t x, x ∈ ((g.addEdgeWithAttributes heap e).sideTable s t).getD [] →
      (heap x.Source).GraphID = s ∧ (heap x.Target).GraphID = t := by
  intro s t x
  rw [addEdgeWithAttributes_sideTable]
  split
  · rename_i hc
    intro hx
    simp only [Option.getD_some, List.mem_append, List.mem_singleton] at hx
    rcases hx with hx | hx
    · rw [← hc.2.1, ← hc.2.2]
      exact h _ _ x hx
    · subst hx
      exact hc.2
  · exact h s t x

theorem addEdges_stored_ends (es : List Edge) : ∀ (g : MystGraph) (heap : Heap),
    (∀ s t x, x ∈ (g.sideTable s t).getD [] →
      (heap x.Source).GraphID = s ∧ (heap x.Target).GraphID = t) →
    ∀ s t x, x ∈ ((addEdges g heap es).sideTable s t).getD [] →
      (heap x.Source).GraphID = s ∧ (heap x.Target).GraphID = t := by
  induction es with
  | nil => intro g heap h; exact h
  | cons e rest ih =>
    intro g heap h
    exact ih (g.addEdgeWithAttributes heap e) heap (addEdgeWithAttributes_stored_ends g heap e h)

/-- Every edge that a graph built by `NewGraph` stores under the pair `(s, t)`
has a source object with id `s` and a target object with id `t`. -/
theorem NewGraph_stored_ends (md : Metadata) (heap : Heap) (g : MystGraph)
    (h : (NewGraph (some md) heap).1 = some g) :
    ∀ s t x, x ∈ (g.sideTable s t).getD [] →
      ((NewGraph (some md) heap).2.2 x.Source).GraphID = s ∧
      ((NewGraph (some md) heap).2.2 x.Target).GraphID = t := by
  by_cases hnames : (md.Nodes.map (fun r => (heap r).Name)).Nodup
  · obtain ⟨g1, heap', h1, hNG⟩ := NewGraph_ok md heap hnames
    obtain ⟨g1', heap'', h1', _, _, _, _, _, _, hE, _⟩ :=
      addNodes_ok md.Nodes (MystGraph.empty md) heap 0 new_WF new_Dense hnames
        (fun _ _ => rfl)
    rw [h1] at h1'
    simp only [Prod.mk.injEq, true_and] at h1'
    obtain ⟨rfl, rfl⟩ := h1'
    rw [hNG] at h ⊢
    simp only [Option.some.injEq] at h
    subst h
    have hst0 : ∀ s t, g1.sideTable s t = none := by
      intro s t
      unfold MystGraph.sideTable
      rw [hE]
      rfl
    exact addEdges_stored_ends md.Edges g1 heap' (by
      intro s t x hx
      rw [hst0] at hx
      simp at hx)
  · rw [(NewGraph_fail md heap hnames).1] at h
    exact Option.noConfusion h

/-- C30. For a store in which every edge stored under the pair `(s, t)` has a
source object with id `s` (every graph built by `NewGraph` is one):
`GetAllEdges(s, t)` returns `(nil, false)` when the side table has no edge for
the pair, and otherwise the stored list itself, in its stored order, with
`true`; and the in-place sort of the call leaves the store as it was. -/
theorem GetAllEdges_insertion_order (g : MystGraph) (heap : Heap) (s t : Int)
    (hsrc : ∀ e ∈ (g.sideTable s t).getD [], (heap e.Source).GraphID = s) :
    g.GetAllEdges heap s t =
      (if (g.sideTable s t).getD [] = [] then ([], false)
       else ((g.sideTable s t).getD [], true)) ∧
    g.GetAllEdgesInPlace heap s t = (g.GetAllEdges heap s t, g) := by
  unfold MystGraph.sideTable at hsrc ⊢
  unfold MystGraph.GetAllEdges MystGraph.GetAllEdgesInPlace
  cases h1 : g.EdgeMap.get s with
  | none => simp
  | some targetMap =>
    rw [h1] at hsrc
    simp only at hsrc ⊢
    cases h2 : targetMap.get t with
    | none => simp
    | some edges =>
      rw [h2] at hsrc
      simp only [Option.getD_some] at hsrc ⊢
      have hsort := insertionSort_equal_keys (fun e : Edge => (heap e.Source).GraphID) s
        edges hsrc
      by_cases hl : 0 < edges.length
      · have hne : edges ≠ [] := List.ne_nil_of_length_pos hl
        rw [if_pos hl, if_pos hl, if_neg hne, hsort]
        refine ⟨rfl, ?_⟩
        rw [GoMap.set_of_get_some targetMap t edges h2, GoMap.set_of_get_some g.EdgeMap s _ h1]
      · have he : edges = [] := by
          cases edges with
          | nil => rfl
          | cons a l => simp at hl
        rw [if_neg hl, if_neg hl, if_pos he]
        exact ⟨rfl, rfl⟩

set_option maxRecDepth 100000 in
theorem GetAllEdges_insertion_order_witness :
    (∀ e ∈ ((storeOf [⟨[IntraAge], 0, 1, 0⟩, ⟨[CrossAge], 0, 1, 0⟩]).1.sideTable 0 1).getD [],
      ((storeOf [⟨[IntraAge], 0, 1, 0⟩, ⟨[CrossAge], 0, 1, 0⟩]).2 e.Source).GraphID = 0) ∧
    (storeOf [⟨[IntraAge], 0, 1, 0⟩, ⟨[CrossAge], 0, 1, 0⟩]).1.GetAllEdges
      (storeOf [⟨[IntraAge], 0, 1, 0⟩, ⟨[CrossAge], 0, 1, 0⟩]).2 0 1 =
      ([⟨[IntraAge], 0, 1, 0⟩, ⟨[CrossAge], 0, 1, 0⟩], true) ∧
    (storeOf [⟨[IntraAge], 0, 1, 0⟩, ⟨[CrossAge], 0, 1, 0⟩]).1.GetAllEdgesInPlace
      (storeOf [⟨[IntraAge], 0, 1, 0⟩, ⟨[CrossAge], 0, 1, 0⟩]).2 0 1 =
      (([⟨[IntraAge], 0, 1, 0⟩, ⟨[CrossAge], 0, 1, 0⟩], true),
        (storeOf [⟨[IntraAge], 0, 1, 0⟩, ⟨[CrossAge], 0, 1, 0⟩]).1) := by
  have h := GetAllEdges_insertion_order
    (storeOf [⟨[IntraAge], 0, 1, 0⟩, ⟨[CrossAge], 0, 1, 0⟩]).1
    (storeOf [⟨[IntraAge], 0, 1, 0⟩, ⟨[CrossAge], 0, 1, 0⟩]).2 0 1 (by decide)
  have hst : ((storeOf [⟨[IntraAge], 0, 1, 0⟩, ⟨[CrossAge], 0, 1, 0⟩]).1.sideTable 0 1).getD []
      = [⟨[IntraAge], 0, 1, 0⟩, ⟨[CrossAge], 0, 1, 0⟩] := by decide
  rw [hst] at h
  refine ⟨by decide, ?_, ?_⟩
  · simpa using h.1
  · rw [h.2, h.1]
    simp

theorem addEdges_HasEdgeFromTo_mono (es : List Edge) : ∀ (g : MystGraph) (heap : Heap)
    (s t : Int), g.Graph.HasEdgeFromTo s t = true →
    (addEdges g heap es).Graph.HasEdgeFromTo s t = true := by
  induction es with
  | nil => intro g heap s t h; exact h
  | cons e rest ih =>
    intro g heap s t h
    apply ih (g.addEdgeWithAttributes heap e) heap s t
    rw [addEdgeWithAttributes_Graph]
    split
    · exact h
    · exact (HasEdgeFromTo_SetWeightedLine _ _ _ _).mpr (Or.inl h)

theorem addEdges_routable_mem (es : List Edge) : ∀ (g : MystGraph) (heap : Heap) (e : Edge),
    e ∈ es → e.IsOfType Disabled = false →
    (addEdges g heap es).Graph.HasEdgeFromTo (heap e.Source).GraphID
      (heap e.Target).GraphID = true := by
  induction es with
  | nil => intro g heap e h; simp at h
  | cons a rest ih =>
    intro g heap e he hd
    rcases List.mem_cons.mp he with h | h
    · subst h
      apply addEdges_HasEdgeFromTo_mono rest (g.addEdgeWithAttributes heap e) heap
      rw [addEdgeWithAttributes_Graph, if_neg (by rw [hd]; simp)]
      exact (HasEdgeFromTo_SetWeightedLine _ _ _ _).mpr (Or.inr ⟨rfl, rfl⟩)
    · exact ih (g.addEdgeWithAttributes heap a) heap e h hd

theorem HasEdge_iff (g : MystGraph) (a b : String) :
    g.HasEdge a b = true ↔
      (g.GetNodeID a).2 = true ∧ (g.GetNodeID b).2 = true ∧
      (g.Graph.HasEdgeFromTo (g.GetNodeID a).1 (g.GetNodeID b).1 = true ∨
        (g.sideTable (g.GetNodeID a).1 (g.GetNodeID b).1).getD [] ≠ []) := by
  unfold MystGraph.HasEdge MystGraph.sideTable
  simp only
  cases ha : (g.GetNodeID a).2 with
  | false => simp
  | true =>
    cases hb : (g.GetNodeID b).2 with
    | false => simp
    | true =>
      simp only [Bool.not_true, Bool.or_self, Bool.false_eq_true, if_false, true_and]
      cases hr : g.Graph.HasEdgeFromTo (g.GetNodeID a).1 (g.GetNodeID b).1 with
      | true => simp
      | false =>
        simp only [Bool.false_eq_true, if_false, false_or]
        cases h1 : g.EdgeMap.get (g.GetNodeID a).1 with
        | none => simp
        | some targetMap =>
          simp only
          cases h2 : targetMap.get (g.GetNodeID b).1 with
          | none => simp
          | some edges =>
            simp only [Option.getD_some, decide_eq_true_eq]
            exact List.length_pos

theorem GetAllEdges_any (g : MystGraph) (heap : Heap) (s t : Int) (p : Edge → Bool) :
    (match g.GetAllEdges heap s t with
      | (edges, true) => edges.any p
      | (_, false) => false) = true ↔ ∃ x ∈ (g.sideTable s t).getD [], p x = true := by
  unfold MystGraph.GetAllEdges MystGraph.sideTable
  cases h1 : g.EdgeMap.get s with
  | none => simp
  | some targetMap =>
    simp only
    cases h2 : targetMap.get t with
    | none => simp
    | some edges =>
      simp only [Option.getD_some]
      by_cases hl : 0 < edges.length
      · rw [if_pos hl]
        simp only [List.any_eq_true]
        constructor
        · rintro ⟨x, hx, hp⟩
          exact ⟨x, (List.perm_insertionSort _ edges).mem_iff.mp hx, hp⟩
        · rintro ⟨x, hx, hp⟩
          exact ⟨x, (List.perm_insertionSort _ edges).mem_iff.mpr hx, hp⟩
      · rw [if_neg hl]
        have he : edges = [] := by
          cases edges with
          | nil => rfl
          | cons a l => simp at hl
        simp [he]

/-- C29 (amended). For a node list with pairwise distinct names and an edge list whose
end points are nodes of the list, `NewGraph` returns a graph in which
`HasEdge(name of source, name of target)` is true for every input edge,
whatever its attributes. For every store, `HasEdge(a, b)` is true exactly when
both names are known and the pair of their ids has a routable edge or a
non-empty side-table list (so it is false when a name is unknown or the pair
has neither), and `IsDisabledEdge(s, t)`, `IsBacktrackingEdge(s, t)` are true
exactly when some side-table edge of the pair carries `Disabled`, respectively
`Backtracking`. -/
theorem HasEdge_sees_every_input_edge (md : Metadata) (heap : Heap)
    (hnames : (md.Nodes.map (fun r => (heap r).Name)).Nodup)
    (hends : ∀ e ∈ md.Edges, e.Source ∈ md.Nodes ∧ e.Target ∈ md.Nodes) :
    (∃ g heap', NewGraph (some md) heap = (some g, none, heap') ∧
      ∀ e ∈ md.Edges, g.HasEdge (heap' e.Source).Name (heap' e.Target).Name = true) ∧
    (∀ (g : MystGraph) (a b : String),
      ((g.NodeMap.get a = none ∨ g.NodeMap.get b = none) → g.HasEdge a b = false) ∧
      (g.HasEdge a b = true ↔
        (g.GetNodeID a).2 = true ∧ (g.GetNodeID b).2 = true ∧
        (g.Graph.HasEdgeFromTo (g.GetNodeID a).1 (g.GetNodeID b).1 = true ∨
          (g.sideTable (g.GetNodeID a).1 (g.GetNodeID b).1).getD [] ≠ []))) ∧
    (∀ (g : MystGraph) (hp : Heap) (s t : Int),
      (g.IsDisabledEdge hp s t = true ↔
        ∃ x ∈ (g.sideTable s t).getD [], x.IsOfType Disabled = true) ∧
      (g.IsBacktrackingEdge hp s t = true ↔
        ∃ x ∈ (g.sideTable s t).getD [], x.IsOfType Backtracking = true)) := by
  refine ⟨?_, ?_, ?_⟩
  · obtain ⟨g1, heap', h1, hwf, hd, hidx, hheap, hnm, hin, hE, hM, hS, hL⟩ :=
      addNodes_ok md.Nodes (MystGraph.empty md) heap 0 new_WF new_Dense hnames
        (fun _ _ => rfl)
    obtain ⟨g1', heap'', h1', hNG⟩ := NewGraph_ok md heap hnames
    rw [h1] at h1'
    simp only [Prod.mk.injEq, true_and] at h1'
    obtain ⟨rfl, rfl⟩ := h1'
    have key : ∀ g : MystGraph, g.NodeMap = g1.NodeMap →
        g.Graph = (addEdges g1 heap' md.Edges).Graph →
        g.EdgeMap = (addEdges g1 heap' md.Edges).EdgeMap →
        ∀ e ∈ md.Edges, g.HasEdge (heap' e.Source).Name (heap' e.Target).Name = true := by
      intro g hg hG hEM e he
      have hid : ∀ r ∈ md.Nodes,
          g.GetNodeID (heap' r).Name = ((heap' r).GraphID, true) := by
        intro r hr
        obtain ⟨i, hi⟩ := List.mem_iff_getElem?.mp hr
        obtain ⟨e1, e2, _⟩ := hidx i r hi
        unfold MystGraph.GetNodeID
        rw [hg, e1]
        simp only
        rw [e2]
      rw [HasEdge_iff, hid _ (hends e he).1, hid _ (hends e he).2]
      refine ⟨rfl, rfl, ?_⟩
      simp only
      cases hdis : e.IsOfType Disabled with
      | false =>
        rw [hG]
        exact Or.inl (addEdges_routable_mem md.Edges g1 heap' e he hdis)
      | true =>
        refine Or.inr ?_
        have hmem := addEdges_disabled_mem md.Edges g1 heap' e he hdis
        unfold MystGraph.sideTable at hmem ⊢
        rw [hEM]
        exact List.ne_nil_of_mem hmem
    exact ⟨_, heap', hNG, key _ (addEdges_fields md.Edges g1 heap').1 rfl rfl⟩
  · intro g a b
    refine ⟨?_, HasEdge_iff g a b⟩
    intro h
    cases hc : g.HasEdge a b with
    | false => rfl
    | true =>
      obtain ⟨ha, hb, _⟩ := (HasEdge_iff g a b).mp hc
      unfold MystGraph.GetNodeID at ha hb
      rcases h with h | h
      · rw [h] at ha
        exact absurd ha (by simp)
      · rw [h] at hb
        exact absurd hb (by simp)
  · intro g hp s t
    exact ⟨GetAllEdges_any g hp s t _, GetAllEdges_any g hp s t _⟩

set_option maxRecDepth 100000 in
theorem HasEdge_sees_every_input_edge_witness :
    islandsGraph.HasEdge "B" "A" = true ∧ islandsGraph.HasEdge "D" "E" = true ∧
    islandsGraph.HasEdge "A" "C" = true ∧ islandsGraph.HasEdge "A" "B" = false ∧
    islandsGraph.HasEdge "A" "Z" = false ∧
    islandsGraph.IsDisabledEdge detourHeap 0 2 = true ∧
    islandsGraph.IsBacktrackingEdge detourHeap 1 0 = true ∧
    islandsGraph.IsBacktrackingEdge detourHeap 3 4 = false := by
  have hb : (NewGraph (some islandsMetadata) detourHeap).1 = some islandsGraph := by decide
  have hn : ∀ r ∈ [0, 1, 2, 3, 4],
      ((NewGraph (some islandsMetadata) detourHeap).2.2 r).Name = (detourHeap r).Name := by
    decide
  obtain ⟨⟨g, heap', hg, he⟩, _, _⟩ :=
    HasEdge_sees_every_input_edge islandsMetadata detourHeap (by decide) (by decide)
  rw [hg] at hb hn
  simp only [Option.some.injEq] at hb hn
  subst hb
  have h1 := he ⟨[Backtracking], 1, 0, 0⟩ (by decide)
  have h2 := he ⟨[], 3, 4, 0⟩ (by decide)
  have h3 := he ⟨[Disabled], 0, 2, 0⟩ (by decide)
  simp only [hn 0 (by decide), hn 1 (by decide), hn 2 (by decide), hn 3 (by decide),
    hn 4 (by decide)] at h1 h2 h3
  exact ⟨h1, h2, h3, by decide, by decide, by decide, by decide, by decide⟩

theorem addAttributeFirst_some (heap : Heap) (s t : Int) (a : EdgeAttribute) :
    ∀ (es es' : List Edge), addAttributeFirst heap s t a es = some es' →
      ∃ pre x post, es = pre ++ x :: post ∧
        (∀ y ∈ pre, ¬ ((heap y.Source).GraphID = s ∧ (heap y.Target).GraphID = t)) ∧
        ((heap x.Source).GraphID = s ∧ (heap x.Target).GraphID = t) ∧
        x.Attributes.contains a = false ∧
        es' = pre ++ { x with Attributes := x.Attributes ++ [a] } :: post := by
  intro es
  induction es with
  | nil => intro es' h; simp [addAttributeFirst] at h
  | cons e rest ih =>
    intro es' h
    unfold addAttributeFirst at h
    by_cases hm : (heap e.Source).GraphID = s ∧ (heap e.Target).GraphID = t
    · rw [if_pos hm] at h
      cases hc : e.Attributes.contains a with
      | true => rw [hc] at h; simp at h
      | false =>
        rw [hc] at h
        simp only [Bool.false_eq_true, if_false, Option.some.injEq] at h
        exact ⟨[], e, rest, rfl, by simp, hm, hc, h.symm⟩
    · rw [if_neg hm] at h
      cases hr : addAttributeFirst heap s t a rest with
      | none => rw [hr] at h; simp at h
      | some rest' =>
        rw [hr] at h
        simp only [Option.map_some', Option.some.injEq] at h
        obtain ⟨pre, x, post, e1, e2, e3, e4, e5⟩ := ih rest' hr
        refine ⟨e :: pre, x, post, by rw [e1]; rfl, ?_, e3, e4, by rw [← h, e5]; rfl⟩
        intro y hy
        rcases List.mem_cons.mp hy with hy | hy
        · rw [hy]; exact hm
        · exact e2 y hy

theorem addAttributeFirst_again (heap : Heap) (s t : Int) (a : EdgeAttribute) :
    ∀ (es es' : List Edge), addAttributeFirst heap s t a es = some es' →
      addAttributeFirst heap s t a es' = none := by
  intro es
  induction es with
  | nil => intro es' h; simp [addAttributeFirst] at h
  | cons e rest ih =>
    intro es' h
    unfold addAttributeFirst at h
    by_cases hm : (heap e.Source).GraphID = s ∧ (heap e.Target).GraphID = t
    · rw [if_pos hm] at h
      cases hc : e.Attributes.contains a with
      | true => rw [hc] at h; simp at h
      | false =>
        rw [hc] at h
        simp only [Bool.false_eq_true, if_false, Option.some.injEq] at h
        rw [← h]
        unfold addAttributeFirst
        rw [if_pos hm, if_pos (by simp)]
    · rw [if_neg hm] at h
      cases hr : addAttributeFirst heap s t a rest with
      | none => rw [hr] at h; simp at h
      | some rest' =>
        rw [hr] at h
        simp only [Option.map_some', Option.some.injEq] at h
        rw [← h]
        unfold addAttributeFirst
        rw [if_neg hm, ih rest' hr]
        rfl

theorem sideTable_appendAttributeStored (g : MystGraph)
    (m : GoMap Int (GoMap Int (List Edge))) (s t : Int) (a : EdgeAttribute) (s' t' : Int) :
    ({ g with EdgeMap := appendAttributeStored m s t a } : MystGraph).sideTable s' t' =
      if s = s' ∧ t = t' then
        (({ g with EdgeMap := m } : MystGraph).sideTable s t).map
          (fun edges => edges.map (fun e => { e with Attributes := e.Attributes ++ [a] }))
      else ({ g with EdgeMap := m } : MystGraph).sideTable s' t' := by
  unfold MystGraph.sideTable appendAttributeStored
  simp only
  cases h1 : m.get s with
  | none =>
    simp only
    by_cases h : s = s' ∧ t = t'
    · rw [if_pos h, ← h.1, h1]
      rfl
    · rw [if_neg h]
  | some targetMap =>
    simp only
    cases h2 : targetMap.get t with
    | none =>
      simp only
      by_cases h : s = s' ∧ t = t'
      · rw [if_pos h, ← h.1, ← h.2, h1]
        simp [h2]
      · rw [if_neg h]
    | some edges =>
      simp only [Option.map_some']
      rw [GoMap.get_set]
      by_cases hs : s = s'
      · subst hs
        simp only [if_true, true_and]
        rw [GoMap.get_set, h1]
      · simp [hs]

/-- The effect of `AddEdgeAttribute(s, t, a)`. When it returns false the store
is unchanged. When it returns true, the attribute was appended to the first
edge of the pair in `Metadata.Edges`, which did not carry it, and to no other
edge of that list; it was appended to every edge of the side-table list of the
pair and no other side-table list changed; and a second call with the same
arguments returns false and changes nothing. -/
theorem AddEdgeAttribute_effect (g : MystGraph) (heap : Heap) (s t : Int) (a : EdgeAttribute) :
    ((g.AddEdgeAttribute heap s t a).1 = false → (g.AddEdgeAttribute heap s t a).2 = g) ∧
    ((g.AddEdgeAttribute heap s t a).1 = true →
      (∃ pre x post, g.Metadata.Edges = pre ++ x :: post ∧
        (∀ y ∈ pre, ¬ ((heap y.Source).GraphID = s ∧ (heap y.Target).GraphID = t)) ∧
        ((heap x.Source).GraphID = s ∧ (heap x.Target).GraphID = t) ∧
        x.Attributes.contains a = false ∧
        (g.AddEdgeAttribute heap s t a).2.Metadata.Edges =
          pre ++ { x with Attributes := x.Attributes ++ [a] } :: post) ∧
      (∀ s' t', (g.AddEdgeAttribute heap s t a).2.sideTable s' t' =
        if s = s' ∧ t = t' then
          (g.sideTable s t).map
            (fun edges => edges.map (fun e => { e with Attributes := e.Attributes ++ [a] }))
        else g.sideTable s' t') ∧
      (g.AddEdgeAttribute heap s t a).2.AddEdgeAttribute heap s t a =
        (false, (g.AddEdgeAttribute heap s t a).2)) := by
  unfold MystGraph.AddEdgeAttribute
  cases h : addAttributeFirst heap s t a g.Metadata.Edges with
  | none => exact ⟨fun _ => rfl, fun hc => absurd hc (by simp)⟩
  | some es' =>
    refine ⟨fun hc => absurd hc (by simp), fun _ => ⟨?_, ?_, ?_⟩⟩
    · exact addAttributeFirst_some heap s t a _ _ h
    · intro s' t'
      exact sideTable_appendAttributeStored _ g.EdgeMap s t a s' t'
    · simp only
      rw [addAttributeFirst_again heap s t a _ _ h]

theorem addAttributeFirst_none_mono (heap : Heap) (s t s2 t2 : Int) (a : EdgeAttribute) :
    ∀ (es es' : List Edge), addAttributeFirst heap s t a es = some es' →
      addAttributeFirst heap s2 t2 a es = none →
      addAttributeFirst heap s2 t2 a es' = none := by
  intro es
  induction es with
  | nil => intro es' h; simp [addAttributeFirst] at h
  | cons e rest ih =>
    intro es' h h2
    unfold addAttributeFirst at h h2
    by_cases hm : (heap e.Source).GraphID = s ∧ (heap e.Target).GraphID = t
    · rw [if_pos hm] at h
      cases hc : e.Attributes.contains a with
      | true => rw [hc] at h; simp at h
      | false =>
        rw [hc] at h h2
        simp only [Bool.false_eq_true, if_false, Option.some.injEq] at h
        rw [← h]
        unfold addAttributeFirst
        by_cases hm2 : (heap e.Source).GraphID = s2 ∧ (heap e.Target).GraphID = t2
        · rw [if_pos hm2] at h2
          simp at h2
        · rw [if_neg hm2] at h2
          rw [if_neg hm2]
          cases hx : addAttributeFirst heap s2 t2 a rest with
          | none => rfl
          | some v => rw [hx] at h2; simp at h2
    · rw [if_neg hm] at h
      cases hr : addAttributeFirst heap s t a rest with
      | none => rw [hr] at h; simp at h
      | some rest' =>
        rw [hr] at h
        simp only [Option.map_some', Option.some.injEq] at h
        rw [← h]
        unfold addAttributeFirst
        by_cases hm2 : (heap e.Source).GraphID = s2 ∧ (heap e.Target).GraphID = t2
        · rw [if_pos hm2] at h2
          rw [if_pos hm2]
          have hc : e.Attributes.contains a = true := by
            by_contra hn
            rw [if_neg hn] at h2
            simp at h2
          rw [if_pos hc]
        · rw [if_neg hm2] at h2
          rw [if_neg hm2]
          have h3 : addAttributeFirst heap s2 t2 a rest = none := by
            cases hx : addAttributeFirst heap s2 t2 a rest with
            | none => rfl
            | some v => rw [hx] at h2; simp at h2
          rw [ih rest' hr h3]
          rfl

theorem AddEdgeAttribute_settles (g : MystGraph) (heap : Heap) (s t : Int) (a : EdgeAttribute) :
    addAttributeFirst heap s t a (g.AddEdgeAttribute heap s t a).2.Metadata.Edges = none ∧
    ∀ s2 t2, addAttributeFirst heap s2 t2 a g.Metadata.Edges = none →
      addAttributeFirst heap s2 t2 a (g.AddEdgeAttribute heap s t a).2.Metadata.Edges = none := by
  unfold MystGraph.AddEdgeAttribute
  cases h : addAttributeFirst heap s t a g.Metadata.Edges with
  | none => exact ⟨h, fun _ _ h2 => h2⟩
  | some es' =>
    exact ⟨addAttributeFirst_again heap s t a _ _ h,
      fun s2 t2 h2 => addAttributeFirst_none_mono heap s t s2 t2 a _ _ h h2⟩

theorem selfLoopsLoop_settles (heap : Heap) :
    ∀ (ids : List Int) (result : List NodeInfo) (g : MystGraph),
      (∀ s t, addAttributeFirst heap s t SelfReference g.Metadata.Edges = none →
        addAttributeFirst heap s t SelfReference
          (selfLoopsLoop heap ids (result, g)).2.Metadata.Edges = none) ∧
      (∀ id ∈ ids, g.HasEdgeFromTo id id = true →
        addAttributeFirst heap id id SelfReference
          (selfLoopsLoop heap ids (result, g)).2.Metadata.Edges = none) := by
  intro ids
  induction ids with
  | nil =>
    intro result g
    exact ⟨fun _ _ h => h, fun id hid => absurd hid (List.not_mem_nil _)⟩
  | cons id rest ih =>
    intro result g
    unfold selfLoopsLoop
    by_cases h : g.HasEdgeFromTo id id = true
    · rw [if_pos h]
      obtain ⟨e1, e2⟩ := ih (result ++ [{ ID := id, Name := g.GetNameForID id }])
        (g.AddEdgeAttribute heap id id SelfReference).2
      obtain ⟨f1, f2⟩ := AddEdgeAttribute_settles g heap id id SelfReference
      have hedge : ∀ x, (g.AddEdgeAttribute heap id id SelfReference).2.HasEdgeFromTo x x =
          g.HasEdgeFromTo x x := by
        intro x
        unfold MystGraph.HasEdgeFromTo
        rw [(AddEdgeAttribute_fields g heap id id SelfReference).1]
      refine ⟨fun s t hst => e1 s t (f2 s t hst), ?_⟩
      intro x hx hxe
      rcases List.mem_cons.mp hx with hx | hx
      · rw [hx]
        exact e1 id id f1
      · exact e2 x hx (by rw [hedge]; exact hxe)
    · rw [if_neg h]
      obtain ⟨e1, e2⟩ := ih result g
      refine ⟨e1, ?_⟩
      intro x hx hxe
      rcases List.mem_cons.mp hx with hx | hx
      · rw [hx] at hxe
        exact absurd hxe h
      · exact e2 x hx hxe

theorem selfLoopsLoop_fixed (heap : Heap) :
    ∀ (ids : List Int) (result : List NodeInfo) (g : MystGraph),
      (∀ id ∈ ids, g.HasEdgeFromTo id id = true →
        addAttributeFirst heap id id SelfReference g.Metadata.Edges = none) →
      (selfLoopsLoop heap ids (result, g)).2 = g := by
  intro ids
  induction ids with
  | nil => intro result g _; rfl
  | cons id rest ih =>
    intro result g hall
    unfold selfLoopsLoop
    by_cases h : g.HasEdgeFromTo id id = true
    · rw [if_pos h]
      have hsame : (g.AddEdgeAttribute heap id id SelfReference).2 = g := by
        unfold MystGraph.AddEdgeAttribute
        rw [hall id (List.mem_cons_self _ _) h]
      rw [hsame]
      exact ih _ g (fun x hx => hall x (List.mem_cons_of_mem _ hx))
    · rw [if_neg h]
      exact ih _ g (fun x hx => hall x (List.mem_cons_of_mem _ hx))

/-- What holds of C25 on the code. `FindNodesWithSelfLoops` reports exactly the
enumerated nodes that have a routable edge to themselves, each with its name;
the scan leaves the routable structure, the node map and the name map as they
were; and a second scan returns the same report and leaves the store, hence
every attribute list, unchanged. -/
theorem FindNodesWithSelfLoops_report (g : MystGraph) (heap : Heap) :
    (∀ info : NodeInfo, info ∈ (g.FindNodesWithSelfLoops heap).1 ↔
      info.ID ∈ g.Graph.nodes ∧ g.HasEdgeFromTo info.ID info.ID = true ∧
      info.Name = g.GetNameForID info.ID) ∧
    (g.FindNodesWithSelfLoops heap).2.Graph = g.Graph ∧
    (g.FindNodesWithSelfLoops heap).2.IdNameMap = g.IdNameMap ∧
    (g.FindNodesWithSelfLoops heap).2.FindNodesWithSelfLoops heap =
      g.FindNodesWithSelfLoops heap := by
  unfold MystGraph.FindNodesWithSelfLoops
  obtain ⟨e1, e2, e3⟩ := selfLoopsLoop_spec heap g.Graph.nodes [] g
  refine ⟨?_, e2, e3, ?_⟩
  · intro info
    rw [e1]
    simp only [List.nil_append, List.mem_map, List.mem_filter]
    constructor
    · rintro ⟨id, ⟨h1, h2⟩, rfl⟩
      exact ⟨h1, h2, rfl⟩
    · rintro ⟨h1, h2, h3⟩
      refine ⟨info.ID, ⟨h1, h2⟩, ?_⟩
      cases info
      simp only at h3
      simp [h3]
  · have hedge : ∀ x, (selfLoopsLoop heap g.Graph.nodes ([], g)).2.HasEdgeFromTo x x =
        g.HasEdgeFromTo x x := by
      intro x
      unfold MystGraph.HasEdgeFromTo
      rw [e2]
    have hname : ∀ x, (selfLoopsLoop heap g.Graph.nodes ([], g)).2.GetNameForID x =
        g.GetNameForID x := by
      intro x
      unfold MystGraph.GetNameForID
      rw [e3]
    have hfix := selfLoopsLoop_fixed heap g.Graph.nodes []
      (selfLoopsLoop heap g.Graph.nodes ([], g)).2 (by
        intro id hid hl
        rw [hedge] at hl
        exact (selfLoopsLoop_settles heap g.Graph.nodes [] g).2 id hid hl)
    obtain ⟨d1, _, _⟩ := selfLoopsLoop_spec heap g.Graph.nodes []
      (selfLoopsLoop heap g.Graph.nodes ([], g)).2
    rw [e2]
    apply Prod.ext
    · rw [d1, e1]
      simp only [hedge, hname]
    · exact hfix

set_option maxRecDepth 100000 in
/-- Witness of `scans_follow_enumeration` on `islandsGraph`, whose enumeration
0, 1, 2, 3, 4 is ascending: the four reports are ascending. -/
theorem scans_follow_enumeration_witness :
    islandsGraph.Graph.nodes.Sorted (fun a b => a < b) ∧
    (islandsGraph.FindNodesWithNoIncomingEdges
      (NewGraph (some islandsMetadata) detourHeap).2.2).1.map (fun i => i.ID) = [1, 2, 3] ∧
    (((islandsGraph.FindNodesWithNoIncomingEdges
        (NewGraph (some islandsMetadata) detourHeap).2.2).1.map
          (fun i => i.ID)).Sorted (fun a b => a < b) ∧
      ((islandsGraph.FindNodesWithNoOutgoingEdges
        (NewGraph (some islandsMetadata) detourHeap).2.2).1.map
          (fun i => i.ID)).Sorted (fun a b => a < b) ∧
      ((islandsGraph.FindIsolatedNodes
        (NewGraph (some islandsMetadata) detourHeap).2.2).1.map
          (fun i => i.ID)).Sorted (fun a b => a < b) ∧
      ((islandsGraph.FindNodesWithSelfLoops
        (NewGraph (some islandsMetadata) detourHeap).2.2).1.map
          (fun i => i.ID)).Sorted (fun a b => a < b)) :=
  ⟨by decide, by decide,
    (scans_follow_enumeration islandsGraph
      (NewGraph (some islandsMetadata) detourHeap).2.2).2.1 (by decide)⟩

theorem GoMap.mem_of_get {κ ν : Type} [DecidableEq κ] (m : GoMap κ ν) (k : κ) (v : ν)
    (h : GoMap.get m k = some v) : (k, v) ∈ m := by
  induction m with
  | nil => simp [GoMap.get] at h
  | cons p rest ih =>
    obtain ⟨a, b⟩ := p
    by_cases h1 : a = k
    · simp only [GoMap.get, h1, if_true, Option.some.injEq] at h
      simp [h1, h]
    · simp only [GoMap.get, h1, if_false] at h
      exact List.mem_cons_of_mem _ (ih h)

theorem GoMap.mem_set {κ ν : Type} [DecidableEq κ] (m : GoMap κ ν) (k : κ) (v : ν)
    (p : κ × ν) (h : p ∈ GoMap.set m k v) : p = (k, v) ∨ p ∈ m := by
  induction m with
  | nil =>
    simp only [GoMap.set, List.mem_singleton] at h
    exact Or.inl h
  | cons q rest ih =>
    obtain ⟨a, b⟩ := q
    by_cases h1 : a = k
    · simp only [GoMap.set, h1, if_true, List.mem_cons] at h
      rcases h with h | h
      · exact Or.inl h
      · exact Or.inr (List.mem_cons_of_mem _ h)
    · simp only [GoMap.set, h1, if_false, List.mem_cons] at h
      rcases h with h | h
      · exact Or.inr (by rw [h]; exact List.mem_cons_self _ _)
      · rcases ih h with h2 | h2
        · exact Or.inl h2
        · exact Or.inr (List.mem_cons_of_mem _ h2)

theorem GoMap.keys_set {κ ν : Type} [DecidableEq κ] (m : GoMap κ ν) (k : κ) (v : ν) :
    ∀ x, x ∈ (GoMap.set m k v).map Prod.fst ↔ x = k ∨ x ∈ m.map Prod.fst := by
  induction m with
  | nil => intro x; simp [GoMap.set]
  | cons q rest ih =>
    obtain ⟨a, b⟩ := q
    intro x
    by_cases h1 : a = k
    · simp only [GoMap.set, h1, if_true, List.map_cons, List.mem_cons]
      tauto
    · simp only [GoMap.set, h1, if_false, List.map_cons, List.mem_cons, ih x]
      tauto

theorem GoMap.keys_nodup_set {κ ν : Type} [DecidableEq κ] (m : GoMap κ ν) (k : κ) (v : ν)
    (h : (m.map Prod.fst).Nodup) : ((GoMap.set m k v).map Prod.fst).Nodup := by
  induction m with
  | nil => simp [GoMap.set]
  | cons q rest ih =>
    obtain ⟨a, b⟩ := q
    simp only [List.map_cons, List.nodup_cons] at h
    by_cases h1 : a = k
    · simp only [GoMap.set, h1, if_true, List.map_cons, List.nodup_cons]
      rw [← h1]
      exact h
    · simp only [GoMap.set, h1, if_false, List.map_cons, List.nodup_cons]
      refine ⟨?_, ih h.2⟩
      intro hc
      rcases (GoMap.keys_set rest k v a).mp hc with h2 | h2
      · exact h1 h2
      · exact h.1 h2

theorem GoMap.get_of_mem {κ ν : Type} [DecidableEq κ] (m : GoMap κ ν) (k : κ) (v : ν)
    (hnd : (m.map Prod.fst).Nodup) (h : (k, v) ∈ m) : GoMap.get m k = some v := by
  induction m with
  | nil => simp at h
  | cons q rest ih =>
    obtain ⟨a, b⟩ := q
    simp only [List.map_cons, List.nodup_cons] at hnd
    rcases List.mem_cons.mp h with h | h
    · simp only [Prod.mk.injEq] at h
      simp [GoMap.get, h.1, h.2]
    · have hne : a ≠ k := by
        intro hc
        apply hnd.1
        rw [hc]
        exact List.mem_map_of_mem Prod.fst h
      simp only [GoMap.get, hne, if_false]
      exact ih hnd.2 h

theorem addNodes_keys (rest : List NodeRef) : ∀ (g : MystGraph) (heap : Heap),
    (g.NodeMap.map Prod.fst).Nodup →
    ((addNodes g heap rest).2.1.NodeMap.map Prod.fst).Nodup := by
  induction rest with
  | nil => intro g heap h; exact h
  | cons node rest ih =>
    intro g heap h
    unfold addNodes MystGraph.AddNode
    by_cases hex : (g.NodeMap.get (heap node).Name).isSome = true
    · rw [if_pos hex]
      exact h
    · rw [if_neg hex]
      exact ih _ _ (GoMap.keys_nodup_set _ _ _ h)

/-- C31. For a node list with pairwise distinct names `NewGraph` returns a graph
in which, for every listed node object `n` (as the call leaves it):
`GetNodeID(n.Name)` is `(n.GraphID, true)`, `GetNodeName(n.GraphID)` is
`(n.Name, true)`, and `GetNodeFromID(n.GraphID)` returns a copy of `n` without
error, in whatever order the node map is ranged over (no other entry carries
the id). For a name that no listed node carries `GetNodeID` returns
`(-1, false)` and `GetSuccessors`, `GetPredecessors` return an error and no
list; for an id that no listed node carries `GetNodeName` returns `("", false)`
and `GetNodeFromID` returns `NodeNotFoundErr`. -/
theorem lookups_inverse (md : Metadata) (heap : Heap)
    (hnames : (md.Nodes.map (fun r => (heap r).Name)).Nodup) :
    ∃ g heap', NewGraph (some md) heap = (some g, none, heap') ∧
      (∀ r ∈ md.Nodes,
        g.GetNodeID (heap' r).Name = ((heap' r).GraphID, true) ∧
        g.GetNodeName (heap' r).GraphID = ((heap' r).Name, true) ∧
        g.GetNodeFromID (heap' r).GraphID = (some (heap' r), none) ∧
        (∀ kv ∈ g.NodeMap, kv.2.GraphID = (heap' r).GraphID → kv.2 = heap' r)) ∧
      (∀ name, name ∉ md.Nodes.map (fun r => (heap' r).Name) →
        g.GetNodeID name = (-1, false) ∧
        g.GetSuccessors name = (none, some (GoError.errorf "node not found in graph")) ∧
        g.GetPredecessors name = (none, some (GoError.errorf "node not found in graph"))) ∧
      (∀ id, id ∉ md.Nodes.map (fun r => (heap' r).GraphID) →
        g.GetNodeName id = ("", false) ∧
        g.GetNodeFromID id = (none, some GoError.NodeNotFoundErr)) := by
  obtain ⟨g1, heap', h1, hwf, hd, hidx, hheap, hnm, hin, hE, hM, hS, hL⟩ :=
    addNodes_ok md.Nodes (MystGraph.empty md) heap 0 new_WF new_Dense hnames
      (fun _ _ => rfl)
  obtain ⟨g1', heap'', h1', hNG⟩ := NewGraph_ok md heap hnames
  rw [h1] at h1'
  simp only [Prod.mk.injEq, true_and] at h1'
  obtain ⟨rfl, rfl⟩ := h1'
  have hkeys : (g1.NodeMap.map Prod.fst).Nodup := by
    have := addNodes_keys md.Nodes (MystGraph.empty md) heap (by simp [MystGraph.empty])
    rw [h1] at this
    exact this
  -- the listed objects after the call
  have hobj : ∀ i r, md.Nodes[i]? = some r →
      (heap' r).GraphID = ((0 + i : Nat) : Int) ∧ (heap' r).Name = (heap r).Name ∧
      g1.NodeMap.get (heap' r).Name = some (heap' r) ∧
      g1.IdNameMap.get (heap' r).GraphID = some (heap' r).Name := by
    intro i r hi
    obtain ⟨e1, e2, e3⟩ := hidx i r hi
    rw [e1]
    exact ⟨rfl, rfl, e2, e3⟩
  have hsame : ∀ r ∈ md.Nodes, ∀ r' ∈ md.Nodes,
      (heap' r').GraphID = (heap' r).GraphID → r' = r := by
    intro r hr r' hr' hid
    obtain ⟨i, hi⟩ := List.mem_iff_getElem?.mp hr
    obtain ⟨j, hj⟩ := List.mem_iff_getElem?.mp hr'
    rw [(hobj i r hi).1, (hobj j r' hj).1] at hid
    have hij : j = i := by omega
    subst hij
    rw [hi] at hj
    exact (Option.some.inj hj).symm
  have hentry : ∀ kv ∈ g1.NodeMap, ∃ r ∈ md.Nodes, kv.2 = heap' r := by
    intro kv hkv
    have hget := GoMap.get_of_mem g1.NodeMap kv.1 kv.2 hkeys hkv
    by_cases hin' : kv.1 ∈ md.Nodes.map (fun r => (heap r).Name)
    · obtain ⟨r, hr, hname⟩ := List.mem_map.mp hin'
      obtain ⟨i, hi⟩ := List.mem_iff_getElem?.mp hr
      obtain ⟨_, o2, o3, _⟩ := hobj i r hi
      rw [o2, hname, hget] at o3
      exact ⟨r, hr, Option.some.inj o3⟩
    · rw [hnm kv.1 hin'] at hget
      simp [MystGraph.empty, GoMap.get] at hget
  have key : ∀ g : MystGraph, g.NodeMap = g1.NodeMap → g.IdNameMap = g1.IdNameMap →
      (∀ r ∈ md.Nodes,
        g.GetNodeID (heap' r).Name = ((heap' r).GraphID, true) ∧
        g.GetNodeName (heap' r).GraphID = ((heap' r).Name, true) ∧
        g.GetNodeFromID (heap' r).GraphID = (some (heap' r), none) ∧
        (∀ kv ∈ g.NodeMap, kv.2.GraphID = (heap' r).GraphID → kv.2 = heap' r)) ∧
      (∀ name, name ∉ md.Nodes.map (fun r => (heap' r).Name) →
        g.GetNodeID name = (-1, false) ∧
        g.GetSuccessors name = (none, some (GoError.errorf "node not found in graph")) ∧
        g.GetPredecessors name = (none, some (GoError.errorf "node not found in graph"))) ∧
      (∀ id, id ∉ md.Nodes.map (fun r => (heap' r).GraphID) →
        g.GetNodeName id = ("", false) ∧
        g.GetNodeFromID id = (none, some GoError.NodeNotFoundErr)) := by
    intro g hNM hIN
    refine ⟨?_, ?_, ?_⟩
    · intro r hr
      obtain ⟨i, hi⟩ := List.mem_iff_getElem?.mp hr
      obtain ⟨o1, o2, o3, o4⟩ := hobj i r hi
      have huniq : ∀ kv ∈ g.NodeMap, kv.2.GraphID = (heap' r).GraphID → kv.2 = heap' r := by
        intro kv hkv hid
        rw [hNM] at hkv
        obtain ⟨r', hr', hkv2⟩ := hentry kv hkv
        rw [hkv2] at hid ⊢
        rw [hsame r hr r' hr' hid]
      refine ⟨?_, ?_, ?_, huniq⟩
      · unfold MystGraph.GetNodeID
        rw [hNM, o3]
      · unfold MystGraph.GetNodeName
        rw [hIN, o4]
      · unfold MystGraph.GetNodeFromID
        cases hf : g.NodeMap.find? (fun kv => decide (kv.2.GraphID = (heap' r).GraphID)) with
        | some kv =>
          have hp := List.find?_some hf
          have hm := List.mem_of_find?_eq_some hf
          simp only [decide_eq_true_eq] at hp
          simp only
          rw [huniq kv hm hp]
        | none =>
          have hall := List.find?_eq_none.mp hf
          have hmem : ((heap' r).Name, heap' r) ∈ g.NodeMap := by
            rw [hNM]
            exact GoMap.mem_of_get _ _ _ o3
          have hbad := hall _ hmem
          simp at hbad
    · intro name hname
      have hnone : g.NodeMap.get name = none := by
        rw [hNM]
        have : name ∉ md.Nodes.map (fun r => (heap r).Name) := by
          intro hc
          obtain ⟨r, hr, hn⟩ := List.mem_map.mp hc
          obtain ⟨i, hi⟩ := List.mem_iff_getElem?.mp hr
          apply hname
          exact List.mem_map.mpr ⟨r, hr, by rw [(hobj i r hi).2.1, hn]⟩
        rw [hnm name this]
        rfl
      have hid : g.GetNodeID name = (-1, false) := by
        unfold MystGraph.GetNodeID
        rw [hnone]
      refine ⟨hid, ?_, ?_⟩
      · unfold MystGraph.GetSuccessors
        rw [hid]
      · unfold MystGraph.GetPredecessors
        rw [hid]
    · intro id hid
      refine ⟨?_, ?_⟩
      · unfold MystGraph.GetNodeName
        have hnone : g.IdNameMap.get id = none := by
          rw [hIN]
          have hout : ¬ (((0 : Nat) : Int) ≤ id ∧ id < ((0 + md.Nodes.length : Nat) : Int)) := by
            rintro ⟨h0, hlt⟩
            have hlt' : id.toNat < md.Nodes.length := by omega
            have hi : md.Nodes[id.toNat]? = some (md.Nodes[id.toNat]) :=
              List.getElem?_eq_getElem hlt'
            apply hid
            refine List.mem_map.mpr ⟨_, List.getElem_mem hlt', ?_⟩
            rw [(hobj _ _ hi).1]
            omega
          rw [hin id hout]
          rfl
        rw [hnone]
      · unfold MystGraph.GetNodeFromID
        cases hf : g.NodeMap.find? (fun kv => decide (kv.2.GraphID = id)) with
        | none => rfl
        | some kv =>
          have hp := List.find?_some hf
          have hm := List.mem_of_find?_eq_some hf
          simp only [decide_eq_true_eq] at hp
          rw [hNM] at hm
          obtain ⟨r', hr', hkv2⟩ := hentry kv hm
          rw [hkv2] at hp
          exact absurd (List.mem_map.mpr ⟨r', hr', hp⟩) hid
  exact ⟨_, heap', hNG, key _ (addEdges_fields md.Edges g1 heap').1
    (addEdges_fields md.Edges g1 heap').2.1⟩

set_option maxRecDepth 100000 in
/-- Witness of `lookups_inverse` on the scenario graph (A, B, C with ids
0, 1, 2): the lookups for B and for the unknown name Z and id 7. -/
theorem lookups_inverse_witness :
    (scenarioMetadata.Nodes.map (fun r => (exHeap r).Name)).Nodup ∧
    scenarioGraph.GetNodeID "B" = (1, true) ∧
    scenarioGraph.GetNodeName 1 = ("B", true) ∧
    scenarioGraph.GetNodeFromID 1 = (some ⟨[], 1, "", "B", none, none⟩, none) ∧
    scenarioGraph.GetNodeID "Z" = (-1, false) ∧
    scenarioGraph.GetSuccessors "Z" =
      (none, some (GoError.errorf "node not found in graph")) ∧
    scenarioGraph.GetNodeName 7 = ("", false) ∧
    scenarioGraph.GetNodeFromID 7 = (none, some GoError.NodeNotFoundErr) := by
  have hb : (NewGraph (some scenarioMetadata) exHeap).1 = some scenarioGraph := by decide
  have hn : (NewGraph (some scenarioMetadata) exHeap).2.2 1 = ⟨[], 1, "", "B", none, none⟩ := by
    decide
  have hz : "Z" ∉ scenarioMetadata.Nodes.map
      (fun r => ((NewGraph (some scenarioMetadata) exHeap).2.2 r).Name) := by decide
  have h7 : (7 : Int) ∉ scenarioMetadata.Nodes.map
      (fun r => ((NewGraph (some scenarioMetadata) exHeap).2.2 r).GraphID) := by decide
  obtain ⟨g, heap', hg, hin, hname, hid⟩ :=
    lookups_inverse scenarioMetadata exHeap (by decide)
  rw [hg] at hb hn hz h7
  simp only [Option.some.injEq] at hb hn
  subst hb
  obtain ⟨a1, a2, a3, _⟩ := hin 1 (by decide)
  rw [hn] at a1 a2 a3
  obtain ⟨b1, b2, _⟩ := hname "Z" hz
  obtain ⟨c1, c2⟩ := hid 7 h7
  exact ⟨by decide, a1, a2, a3, b1, b2, c1, c2⟩

/-- What holds of C32 on the code. No statement of the package writes
`IdStackMap`: in every graph `NewGraph` returns the map is empty, and
`GetNodeStack` returns `("", false)` for every id. -/
theorem GetNodeStack_never_found (md : Metadata) (heap : Heap) (g : MystGraph)
    (h : (NewGraph (some md) heap).1 = some g) :
    g.IdStackMap = [] ∧ ∀ id, g.GetNodeStack id = ("", false) := by
  have hmap : g.IdStackMap = [] := by
    by_cases hnames : (md.Nodes.map (fun r => (heap r).Name)).Nodup
    · obtain ⟨g1, heap', h1, _, _, _, _, _, _, _, _, hS, _⟩ :=
        addNodes_ok md.Nodes (MystGraph.empty md) heap 0 new_WF new_Dense hnames
          (fun _ _ => rfl)
      obtain ⟨g1', heap'', h1', hNG⟩ := NewGraph_ok md heap hnames
      rw [h1] at h1'
      simp only [Prod.mk.injEq, true_and] at h1'
      obtain ⟨rfl, rfl⟩ := h1'
      rw [hNG] at h
      simp only [Option.some.injEq] at h
      rw [← h]
      show (addEdges g1 heap' md.Edges).IdStackMap = []
      rw [(addEdges_fields md.Edges g1 heap').2.2.1, hS]
      rfl
    · rw [(NewGraph_fail md heap hnames).1] at h
      exact Option.noConfusion h
  refine ⟨hmap, ?_⟩
  intro id
  unfold MystGraph.GetNodeStack
  rw [hmap]
  rfl

set_option maxRecDepth 100000 in
/-- C32 (failing input). The nodes A and B of the stack "Myst": `NewGraph`
succeeds and gives A the id 0, and `GetNodeStack(0)` returns `("", false)`,
not `("Myst", true)`; the id-to-stack map of the graph is empty. -/
theorem GetNodeStack_misses_registered_node :
    (NewGraph (some (mkMetadata [0, 1] [])) stackedHeap).2.1 = none ∧
    ((NewGraph (some (mkMetadata [0, 1] [])) stackedHeap).2.2 0).GraphID = 0 ∧
    ((NewGraph (some (mkMetadata [0, 1] [])) stackedHeap).2.2 0).StackName = "Myst" ∧
    (NewGraph (some (mkMetadata [0, 1] [])) stackedHeap).1.map
      (fun g => (g.GetNodeStack 0, g.GetNodeName 0, g.IdStackMap)) =
      some (("", false), ("A", true), []) := by
  decide

theorem addEdges_HasEdgeFromTo_iff (es : List Edge) : ∀ (g : MystGraph) (heap : Heap)
    (s t : Int), (addEdges g heap es).Graph.HasEdgeFromTo s t = true ↔
      g.Graph.HasEdgeFromTo s t = true ∨
      ∃ e ∈ es, e.IsOfType Disabled = false ∧
        (heap e.Source).GraphID = s ∧ (heap e.Target).GraphID = t := by
  induction es with
  | nil => intro g heap s t; simp [addEdges]
  | cons e rest ih =>
    intro g heap s t
    show (addEdges (g.addEdgeWithAttributes heap e) heap rest).Graph.HasEdgeFromTo s t = true ↔ _
    rw [ih, addEdgeWithAttributes_Graph]
    cases hd : e.IsOfType Disabled with
    | true =>
      simp only [if_true, List.mem_cons, exists_eq_or_imp, hd, Bool.true_eq_false, false_and,
        false_or]
    | false =>
      simp only [Bool.false_eq_true, if_false, HasEdgeFromTo_SetWeightedLine, List.mem_cons,
        exists_eq_or_imp, hd, true_and]
      tauto

theorem dedup_length_congr {α : Type} [DecidableEq α] (l1 l2 : List α)
    (h : ∀ x, x ∈ l1 ↔ x ∈ l2) : l1.dedup.length = l2.dedup.length := by
  apply List.Perm.length_eq
  rw [List.perm_ext_iff_of_nodup (List.nodup_dedup _) (List.nodup_dedup _)]
  intro x
  rw [List.mem_dedup, List.mem_dedup]
  exact h x

theorem Dense_length (G : WeightedDirectedGraph) (n : Nat) (hnd : G.nodes.Nodup)
    (hd : Dense G n) : G.nodes.length = n := by
  have hperm : List.Perm G.nodes ((List.range n).map (fun (i : Nat) => Int.ofNat i)) := by
    rw [List.perm_ext_iff_of_nodup hnd
      ((List.nodup_range n).map (fun a b h => Int.ofNat.inj h))]
    intro x
    rw [hd x, List.mem_map]
    constructor
    · rintro ⟨h0, h1⟩
      refine ⟨x.toNat, List.mem_range.mpr (by omega), ?_⟩
      show ((x.toNat : Nat) : Int) = x
      omega
    · rintro ⟨i, hi, rfl⟩
      have := List.mem_range.mp hi
      constructor
      · exact Int.ofNat_nonneg i
      · show ((i : Nat) : Int) < n
        omega
  rw [hperm.length_eq]
  simp

/-- C37 (amended). For a node list with pairwise distinct names `NewGraph` succeeds and
`Metadata.TotalEdges` is the number of distinct ordered pairs of ids (source,
target) of the input edges without `Disabled`; it is at most the number of
input edges, and smaller when an input edge carries `Disabled` or when two
input edges without `Disabled` have the same pair. `Metadata.TotalNodes` is the
number of nodes of the routable structure, which is the length of the node
list when the end points of the edges are listed nodes. -/
theorem NewGraph_totals (md : Metadata) (heap : Heap)
    (hnames : (md.Nodes.map (fun r => (heap r).Name)).Nodup) :
    ∃ g heap', NewGraph (some md) heap = (some g, none, heap') ∧
      g.Metadata.TotalEdges =
        (((md.Edges.filter (fun e => !(e.IsOfType Disabled))).map
          (fun e => ((heap' e.Source).GraphID, (heap' e.Target).GraphID))).dedup).length ∧
      g.Metadata.TotalEdges ≤ md.Edges.length ∧
      ((∃ e ∈ md.Edges, e.IsOfType Disabled = true) →
        g.Metadata.TotalEdges < md.Edges.length) ∧
      (¬ ((md.Edges.filter (fun e => !(e.IsOfType Disabled))).map
          (fun e => ((heap' e.Source).GraphID, (heap' e.Target).GraphID))).Nodup →
        g.Metadata.TotalEdges < md.Edges.length) ∧
      g.Metadata.TotalNodes = g.Graph.nodes.length ∧
      ((∀ e ∈ md.Edges, e.Source ∈ md.Nodes ∧ e.Target ∈ md.Nodes) →
        g.Metadata.TotalNodes = md.Nodes.length) := by
  obtain ⟨g1, heap', h1, hwf, hd, hidx, hheap, hnm, hin, hE, hM, hS, hL⟩ :=
    addNodes_ok md.Nodes (MystGraph.empty md) heap 0 new_WF new_Dense hnames
      (fun _ _ => rfl)
  obtain ⟨g1', heap'', h1', hNG⟩ := NewGraph_ok md heap hnames
  rw [h1] at h1'
  simp only [Prod.mk.injEq, true_and] at h1'
  obtain ⟨rfl, rfl⟩ := h1'
  have hno : ∀ s t, g1.Graph.HasEdgeFromTo s t = false := by
    intro s t
    unfold WeightedDirectedGraph.HasEdgeFromTo WeightedDirectedGraph.WeightedLines
    rw [hL]
    rfl
  have hcount : (addEdges g1 heap' md.Edges).Graph.edgeCount =
      (((md.Edges.filter (fun e => !(e.IsOfType Disabled))).map
        (fun e => ((heap' e.Source).GraphID, (heap' e.Target).GraphID))).dedup).length := by
    unfold WeightedDirectedGraph.edgeCount
    apply dedup_length_congr
    rintro ⟨s, t⟩
    have hiff := addEdges_HasEdgeFromTo_iff md.Edges g1 heap' s t
    rw [HasEdgeFromTo_iff, hno] at hiff
    simp only [Bool.false_eq_true, false_or] at hiff
    simp only [List.mem_map, List.mem_filter, Prod.mk.injEq, Bool.not_eq_true']
    constructor
    · rintro ⟨l, hl, hF, hT⟩
      obtain ⟨e, he, hdis, hs, ht⟩ := hiff.mp ⟨l, hl, hF, hT⟩
      exact ⟨e, ⟨he, hdis⟩, hs, ht⟩
    · rintro ⟨e, ⟨he, hdis⟩, hs, ht⟩
      obtain ⟨l, hl, hF, hT⟩ := hiff.mpr ⟨e, he, hdis, hs, ht⟩
      exact ⟨l, hl, hF, hT⟩
  have hle1 : (((md.Edges.filter (fun e => !(e.IsOfType Disabled))).map
        (fun e => ((heap' e.Source).GraphID, (heap' e.Target).GraphID))).dedup).length ≤
      (md.Edges.filter (fun e => !(e.IsOfType Disabled))).length := by
    have := (List.dedup_sublist ((md.Edges.filter (fun e => !(e.IsOfType Disabled))).map
        (fun e => ((heap' e.Source).GraphID, (heap' e.Target).GraphID)))).length_le
    simpa using this
  have hle2 : (md.Edges.filter (fun e => !(e.IsOfType Disabled))).length ≤ md.Edges.length :=
    List.length_filter_le _ _
  refine ⟨_, heap', hNG, hcount, ?_, ?_, ?_, rfl, ?_⟩
  · show (addEdges g1 heap' md.Edges).Graph.edgeCount ≤ _
    rw [hcount]
    omega
  · rintro ⟨e, he, hdis⟩
    show (addEdges g1 heap' md.Edges).Graph.edgeCount < _
    rw [hcount]
    have : (md.Edges.filter (fun e => !(e.IsOfType Disabled))).length < md.Edges.length :=
      List.length_filter_lt_length_iff_exists.mpr ⟨e, he, by simp [hdis]⟩
    omega
  · intro hdup
    show (addEdges g1 heap' md.Edges).Graph.edgeCount < _
    rw [hcount]
    have hlt : (((md.Edges.filter (fun e => !(e.IsOfType Disabled))).map
        (fun e => ((heap' e.Source).GraphID, (heap' e.Target).GraphID))).dedup).length <
      (md.Edges.filter (fun e => !(e.IsOfType Disabled))).length := by
      by_contra hge
      apply hdup
      have heq := (List.dedup_sublist ((md.Edges.filter
          (fun e => !(e.IsOfType Disabled))).map
          (fun e => ((heap' e.Source).GraphID, (heap' e.Target).GraphID)))).eq_of_length_le
        (by simp only [List.length_map]; omega)
      rw [← heq]
      exact List.nodup_dedup _
    omega
  · intro hends
    show (addEdges g1 heap' md.Edges).Graph.nodes.length = _
    have hid : ∀ r ∈ md.Nodes, (heap' r).GraphID ∈ g1.Graph.nodes := by
      intro r hr
      obtain ⟨i, hi⟩ := List.mem_iff_getElem?.mp hr
      have hlt : i < md.Nodes.length := by
        rcases List.getElem?_eq_some.mp hi with ⟨h, _⟩
        exact h
      rw [(hidx i r hi).1]
      apply (hd _).2
      simp only [Nat.zero_add]
      omega
    have hsame := addEdges_nodes_same md.Edges g1 heap'
      (fun e he => ⟨hid _ (hends e he).1, hid _ (hends e he).2⟩)
    have hwf2 := (addEdges_fields md.Edges g1 heap').2.2.2.2.1 hwf
    have hperm : List.Perm (addEdges g1 heap' md.Edges).Graph.nodes g1.Graph.nodes := by
      rw [List.perm_ext_iff_of_nodup hwf2.1 hwf.1]
      exact hsame
    rw [hperm.length_eq, Dense_length g1.Graph (0 + md.Nodes.length) hwf.1 hd]
    omega

set_option maxRecDepth 100000 in
/-- Witness of `NewGraph_totals`: the nodes A, B with an ordinary and a
backtracking edge A -> B give two nodes and one edge for two input edges. -/
theorem NewGraph_totals_witness :
    (mixedWeightMetadata.Nodes.map (fun r => (exHeap r).Name)).Nodup ∧
    ∃ g heap', NewGraph (some mixedWeightMetadata) exHeap = (some g, none, heap') ∧
      g.Metadata.TotalEdges = 1 ∧ g.Metadata.TotalEdges < mixedWeightMetadata.Edges.length ∧
      g.Metadata.TotalNodes = 2 := by
  refine ⟨by decide, ?_⟩
  obtain ⟨g, heap', hg, h1, _, _, h4, _, h6⟩ :=
    NewGraph_totals mixedWeightMetadata exHeap (by decide)
  have hheap : heap' = (NewGraph (some mixedWeightMetadata) exHeap).2.2 := by rw [hg]
  subst hheap
  refine ⟨g, _, hg, ?_, h4 (by decide), h6 (by decide)⟩
  rw [h1]
  decide

/-- C36. Take the three scans on memories that give the node objects the same
ids (as in `Process`, where the scans run one after the other and write
attributes only). Every record `FindIsolatedNodes` reports is also reported by
`FindNodesWithNoIncomingEdges` and by `FindNodesWithNoOutgoingEdges`. When the
routable structure satisfies its representation invariant and no id is
negative, `FindConnectedComponents` returns, and for every reported isolated
node the singleton of its id is one of the components. -/
theorem isolated_subset_sources_sinks (g : MystGraph) (heap heapA heapB : Heap)
    (hA : ∀ r, (heapA r).GraphID = (heap r).GraphID)
    (hB : ∀ r, (heapB r).GraphID = (heap r).GraphID) :
    (∀ info ∈ (g.FindIsolatedNodes heap).1,
      info ∈ (g.FindNodesWithNoIncomingEdges heapA).1 ∧
      info ∈ (g.FindNodesWithNoOutgoingEdges heapB).1) ∧
    (g.Graph.WF → (∀ id ∈ g.Graph.nodes, 0 ≤ id) →
      ∃ comps, g.FindConnectedComponents = some comps ∧
        ∀ info ∈ (g.FindIsolatedNodes heap).1, [info.ID] ∈ comps) := by
  have hiso : ∀ info ∈ (g.FindIsolatedNodes heap).1,
      info.ID ∈ g.Graph.nodes ∧ info.Name = g.GetNameForID info.ID ∧
      g.To info.ID = [] ∧ g.From info.ID = [] ∧ g.backtrackingAt heap info.ID = false := by
    intro info hinfo
    unfold MystGraph.FindIsolatedNodes at hinfo
    rw [(scanNodes_spec g _ IsIsolated (by
      intro a b hab id
      simp only [backtrackingAt_stable g a b hab id]) g.Graph.nodes [] heap).1] at hinfo
    simp only [List.nil_append, List.mem_map, List.mem_filter, Bool.and_eq_true,
      Bool.not_eq_true', List.isEmpty_iff] at hinfo
    obtain ⟨id, ⟨h1, ⟨h2, h3⟩, h4⟩, rfl⟩ := hinfo
    exact ⟨h1, rfl, h2, h3, h4⟩
  refine ⟨?_, ?_⟩
  · intro info hinfo
    obtain ⟨h1, h2, h3, h4, h5⟩ := hiso info hinfo
    have hinto : ∀ hp : Heap, (∀ r, (hp r).GraphID = (heap r).GraphID) →
        g.backtrackingInto hp info.ID = false := by
      intro hp hhp
      rw [backtrackingInto_false]
      intro e he hb
      rw [hhp]
      exact ((backtrackingAt_false g heap info.ID).mp h5 e he hb).2
    have hrec : info = { ID := info.ID, Name := g.GetNameForID info.ID } := by
      cases info
      simp only at h2
      simp [h2]
    constructor
    · unfold MystGraph.FindNodesWithNoIncomingEdges
      rw [(scanNodes_spec g _ IsSource (by
        intro a b hab id
        simp only [backtrackingInto_stable g a b hab id]) g.Graph.nodes [] heapA).1]
      simp only [List.nil_append, List.mem_map, List.mem_filter, Bool.and_eq_true,
        Bool.not_eq_true', List.isEmpty_iff]
      exact ⟨info.ID, ⟨h1, h3, hinto heapA hA⟩, hrec.symm⟩
    · unfold MystGraph.FindNodesWithNoOutgoingEdges
      rw [(scanNodes_spec g _ IsSink (by
        intro a b hab id
        simp only [backtrackingInto_stable g a b hab id]) g.Graph.nodes [] heapB).1]
      simp only [List.nil_append, List.mem_map, List.mem_filter, Bool.and_eq_true,
        Bool.not_eq_true', List.isEmpty_iff]
      exact ⟨info.ID, ⟨h1, h4, hinto heapB hB⟩, hrec.symm⟩
  · intro hwf hnn
    obtain ⟨comps, hc, hgood, hcover, _⟩ := FindConnectedComponents_spec g hwf hnn
    refine ⟨comps, hc, ?_⟩
    intro info hinfo
    obtain ⟨h1, _, h3, h4, _⟩ := hiso info hinfo
    obtain ⟨c, hcc, hmem⟩ := hcover info.ID h1
    obtain ⟨hne, hsorted, _, hconn⟩ := hgood.2 c hcc
    have hall : ∀ w ∈ c, w = info.ID := by
      intro w hw
      have hcw := (hconn info.ID hmem w).mp hw
      rcases Relation.ReflTransGen.cases_head hcw with h | ⟨y, hy, _⟩
      · exact h.symm
      · unfold adj at hy
        rw [h3, h4] at hy
        simp at hy
    have hceq : c = [info.ID] := by
      cases c with
      | nil => exact absurd rfl hne
      | cons a rest =>
        have ha := hall a (List.mem_cons_self _ _)
        cases rest with
        | nil => rw [ha]
        | cons b rest' =>
          have hb := hall b (List.mem_cons_of_mem _ (List.mem_cons_self _ _))
          have hlt := (List.pairwise_cons.mp hsorted).1 b (List.mem_cons_self _ _)
          omega
    rw [← hceq]
    exact hcc

set_option maxRecDepth 100000 in
/-- Witness of `isolated_subset_sources_sinks` on `islandsGraph` and the memory
`NewGraph` leaves: node C (id 2) is isolated, a source and a sink, and [2] is a
component. -/
theorem isolated_subset_sources_sinks_witness :
    (islandsGraph.Graph.WF ∧ ∀ id ∈ islandsGraph.Graph.nodes, 0 ≤ id) ∧
    (islandsGraph.FindIsolatedNodes
      (NewGraph (some islandsMetadata) detourHeap).2.2).1 = [⟨2, "C"⟩] ∧
    (⟨2, "C"⟩ ∈ (islandsGraph.FindNodesWithNoIncomingEdges
        (NewGraph (some islandsMetadata) detourHeap).2.2).1 ∧
      ⟨2, "C"⟩ ∈ (islandsGraph.FindNodesWithNoOutgoingEdges
        (NewGraph (some islandsMetadata) detourHeap).2.2).1) ∧
    ∃ comps, islandsGraph.FindConnectedComponents = some comps ∧ [2] ∈ comps := by
  have h := isolated_subset_sources_sinks islandsGraph
    (NewGraph (some islandsMetadata) detourHeap).2.2
    (NewGraph (some islandsMetadata) detourHeap).2.2
    (NewGraph (some islandsMetadata) detourHeap).2.2 (fun _ => rfl) (fun _ => rfl)
  have hiso : (islandsGraph.FindIsolatedNodes
      (NewGraph (some islandsMetadata) detourHeap).2.2).1 = [⟨2, "C"⟩] := by decide
  obtain ⟨comps, hc, hall⟩ := h.2 (by decide) (by decide)
  refine ⟨⟨by decide, by decide⟩, hiso, h.1 ⟨2, "C"⟩ (by rw [hiso]; simp), comps, hc, ?_⟩
  exact hall ⟨2, "C"⟩ (by rw [hiso]; simp)

/-- A chain that visits some element twice can be cut to a shorter chain with
the same first and last element. -/
theorem chain_shortcut {α : Type} (R : α → α → Prop) :
    ∀ walk : List α, List.Chain' R walk → ¬ walk.Nodup →
      ∃ walk', List.Chain' R walk' ∧ walk'.head? = walk.head? ∧
        walk'.getLast? = walk.getLast? ∧ walk'.length < walk.length := by
  intro walk
  induction walk with
  | nil => intro _ h; exact absurd List.nodup_nil h
  | cons x rest ih =>
    intro hc hnd
    by_cases hx : x ∈ rest
    · obtain ⟨a, b, hab⟩ := List.append_of_mem hx
      refine ⟨x :: b, ?_, rfl, ?_, ?_⟩
      · have hrest : List.Chain' R rest := hc.tail
        rw [hab] at hrest
        exact hrest.right_of_append
      · rw [hab]
        rw [show x :: (a ++ x :: b) = (x :: a) ++ (x :: b) from rfl,
          List.getLast?_append_of_ne_nil _ (List.cons_ne_nil x b)]
      · rw [hab]
        simp only [List.length_cons, List.length_append]
        omega
    · have hrnd : ¬ rest.Nodup := fun h => hnd (List.nodup_cons.mpr ⟨hx, h⟩)
      obtain ⟨rest', h1, h2, h3, h4⟩ := ih hc.tail hrnd
      cases rest with
      | nil => exact absurd List.nodup_nil hrnd
      | cons y r =>
        cases rest' with
        | nil => simp at h2
        | cons y' r' =>
          simp only [List.head?_cons, Option.some.injEq] at h2
          subst h2
          refine ⟨x :: y' :: r', ?_, rfl, ?_, ?_⟩
          · exact List.chain'_cons.mpr ⟨(List.chain'_cons.mp hc).1, h1⟩
          · rw [List.getLast?_cons_cons, List.getLast?_cons_cons]
            exact h3
          · simp only [List.length_cons] at h4 ⊢
            omega

/-- C34. For every store whose routable structure satisfies the representation
invariant, `ComputeAllShortestPaths` returns a table, and every entry under
`(s, t)` has a path that is a directed route from `s` to `t` of the routable
adjacency without a repeated node, a distance equal to the number of hops of
the path, and no directed route from `s` to `t` has fewer nodes, hence fewer
hops. -/
theorem table_entries_are_shortest (g : MystGraph) (heap : Heap) (hwf : g.Graph.WF) :
    ∃ table, g.ComputeAllShortestPaths heap = some table ∧
      ∀ s t info, tableEntry table s t = some info →
        info.Distance = Weight.fin (info.Path.length - 1) ∧ 0 < info.Path.length - 1 ∧
        info.Path.Nodup ∧ Route g s t info.Path ∧
        ∀ walk, Route g s t walk → info.Path.length ≤ walk.length := by
  have hex : ∃ table, g.ComputeAllShortestPaths heap = some table := by
    unfold MystGraph.ComputeAllShortestPaths MystGraph.computeShortestPaths
    obtain ⟨table, h, _⟩ := shortestRows_spec g heap hwf g.getAllNodeIDs g.getAllNodeIDs []
      (by
        intro s hs
        unfold MystGraph.getAllNodeIDs at hs
        exact (List.perm_insertionSort _ _).mem_iff.mp hs)
      (by
        intro s t info h
        simp [tableEntry, GoMap.get] at h)
    exact ⟨table, h⟩
  obtain ⟨table, htable⟩ := hex
  refine ⟨table, htable, ?_⟩
  intro s t info hget
  obtain ⟨d, hd, hpos, hsep⟩ := table_entry_separated g heap hwf table htable s t info hget
  obtain ⟨hroute, hlen, hmin⟩ := SeparatedPair_hop g hwf s t d info.Path hsep
  refine ⟨by rw [hd, hlen]; rfl, by omega, ?_, hroute, ?_⟩
  · by_contra hnd
    obtain ⟨walk', h1, h2, h3, h4⟩ := chain_shortcut _ info.Path hroute.2.2 hnd
    have hr' : Route g s t walk' := ⟨by rw [h2]; exact hroute.1, by rw [h3]; exact hroute.2.1, h1⟩
    have := hmin.2 walk' hr'
    omega
  · intro walk hw
    have := hmin.2 walk hw
    omega

set_option maxRecDepth 100000 in
/-- Witness of `table_entries_are_shortest` on the scenario graph: the entry of
(0, 1) is the one-hop path 0, 1. -/
theorem table_entries_are_shortest_witness :
    scenarioGraph.Graph.WF ∧
    ∃ table, scenarioGraph.ComputeAllShortestPaths exHeap = some table ∧
      tableEntry table 0 1 = some ⟨0, 1, Weight.fin 1, [0, 1]⟩ ∧
      ∀ walk, Route scenarioGraph 0 1 walk → 2 ≤ walk.length := by
  refine ⟨by decide, ?_⟩
  obtain ⟨table, h, hall⟩ := table_entries_are_shortest scenarioGraph exHeap (by decide)
  have hev : (scenarioGraph.ComputeAllShortestPaths exHeap).map (fun tb => tableEntry tb 0 1) =
      some (some ⟨0, 1, Weight.fin 1, [0, 1]⟩) := by decide
  rw [h] at hev
  simp only [Option.map_some', Option.some.injEq] at hev
  exact ⟨table, h, hev, (hall 0 1 _ hev).2.2.2.2⟩

theorem visitNeighborsInfo_sim (g : MystGraph) :
    ∀ (ns : List Int) (v : List Bool) (c : List NodeInfo) (q : List Int)
      (v' : List Bool) (c' q' : List Int),
      (∀ n ∈ c, n.Name = g.GetNameForID n.ID) →
      visitNeighbors ns (v, c.map (fun n => n.ID), q) = some (v', c', q') →
      ∃ cI, visitNeighborsInfo g ns (v, c, q) = some (v', cI, q') ∧
        cI.map (fun n => n.ID) = c' ∧ ∀ n ∈ cI, n.Name = g.GetNameForID n.ID := by
  intro ns
  induction ns with
  | nil =>
    intro v c q v' c' q' hn h
    simp only [visitNeighbors, Option.some.injEq, Prod.mk.injEq] at h
    obtain ⟨rfl, rfl, rfl⟩ := h
    exact ⟨c, rfl, rfl, hn⟩
  | cons x rest ih =>
    intro v c q v' c' q' hn h
    unfold visitNeighbors at h
    unfold visitNeighborsInfo
    by_cases hlt : x < (v.length : Int)
    · rw [if_pos hlt] at h ⊢
      cases hb : boolAt v x with
      | none => rw [hb] at h; exact Option.noConfusion h
      | some b =>
        rw [hb] at h
        cases b with
        | true => exact ih v c q v' c' q' hn h
        | false =>
          simp only at h ⊢
          refine ih (markAt v x) (c ++ [(⟨x, g.GetNameForID x⟩ : NodeInfo)]) (q ++ [x])
            v' c' q' ?_ ?_
          · intro n hn'
            rcases List.mem_append.mp hn' with h1 | h1
            · exact hn n h1
            · rw [List.mem_singleton.mp h1]
          · rw [List.map_append]
            exact h
    · rw [if_neg hlt] at h ⊢
      exact ih v c q v' c' q' hn h

theorem bfsComponentLoop_sim (g : MystGraph) :
    ∀ (fuel : Nat) (v : List Bool) (c : List NodeInfo) (q : List Int)
      (v' : List Bool) (c' : List Int),
      (∀ n ∈ c, n.Name = g.GetNameForID n.ID) →
      bfsLoop g fuel v (c.map (fun n => n.ID)) q = some (v', c') →
      ∃ cI, bfsComponentLoop g fuel v c q = some (v', cI) ∧
        cI.map (fun n => n.ID) = c' ∧ ∀ n ∈ cI, n.Name = g.GetNameForID n.ID := by
  intro fuel
  induction fuel with
  | zero =>
    intro v c q v' c' hn h
    cases q with
    | nil =>
      simp only [bfsLoop, Option.some.injEq, Prod.mk.injEq] at h
      obtain ⟨rfl, rfl⟩ := h
      exact ⟨c, by simp [bfsComponentLoop], rfl, hn⟩
    | cons cur q0 => simp [bfsLoop] at h
  | succ f ih =>
    intro v c q v' c' hn h
    cases q with
    | nil =>
      simp only [bfsLoop, Option.some.injEq, Prod.mk.injEq] at h
      obtain ⟨rfl, rfl⟩ := h
      exact ⟨c, by simp [bfsComponentLoop], rfl, hn⟩
    | cons cur q0 =>
      unfold bfsLoop at h
      unfold bfsComponentLoop MystGraph.getSortedNeighbors
      simp only [if_true, Bool.false_eq_true, if_false]
      cases h1 : visitNeighbors (sortAsc (g.From cur)) (v, c.map (fun n => n.ID), q0) with
      | none => rw [h1] at h; exact Option.noConfusion h
      | some st1 =>
        obtain ⟨v1, c1, q1⟩ := st1
        rw [h1] at h
        simp only at h
        obtain ⟨cI1, e1, e2, e3⟩ := visitNeighborsInfo_sim g _ v c q0 v1 c1 q1 hn h1
        rw [e1]
        simp only
        cases h2 : visitNeighbors (sortAsc (g.To cur)) (v1, c1, q1) with
        | none => rw [h2] at h; exact Option.noConfusion h
        | some st2 =>
          obtain ⟨v2, c2, q2⟩ := st2
          rw [h2] at h
          simp only at h
          rw [← e2] at h2
          obtain ⟨cI2, f1, f2, f3⟩ := visitNeighborsInfo_sim g _ v1 cI1 q1 v2 c2 q2 e3 h2
          rw [f1]
          simp only
          rw [← f2] at h
          exact ih v2 cI2 q2 v' c' f3 h

theorem map_sort_by_ID (c : List NodeInfo) :
    (c.insertionSort (fun a b => a.ID ≤ b.ID)).map (fun n => n.ID) =
      sortAsc (c.map (fun n => n.ID)) := by
  unfold sortAsc
  exact List.map_insertionSort (fun a b : NodeInfo => a.ID ≤ b.ID) (fun a b : Int => a ≤ b)
    (fun n : NodeInfo => n.ID) c (fun a _ b _ => Iff.rfl)

theorem boolAt_replicate (L : Nat) (s : Int) (h0 : 0 ≤ s) (h1 : s < (L : Int)) :
    boolAt (List.replicate L false) s = some false := by
  obtain ⟨b, hb⟩ := boolAt_some (List.replicate L false) s h0 (by simpa using h1)
  cases b with
  | false => exact hb
  | true => exact absurd hb (not_isMarked_replicate L s)

/-- The search of `bfsComponent` from a node returns the nodes connected to it,
ascending, each with its display name. -/
theorem bfsComponent_spec (g : MystGraph) (hwf : g.Graph.WF) (nodeIDs : List Int)
    (hrange : ∀ id ∈ g.Graph.nodes, 0 ≤ id ∧
      id < (((nodeIDs.foldl (fun m id => if m < id then id else m) (0 : Int)) + 1).toNat : Int))
    (s : Int) (hs : s ∈ g.Graph.nodes) :
    ∃ comp, g.bfsComponent s nodeIDs = some comp ∧
      (comp.map (fun n => n.ID)).Sorted (fun a b => a < b) ∧
      (∀ n ∈ comp, n.Name = g.GetNameForID n.ID) ∧
      (∀ w, w ∈ comp.map (fun n => n.ID) ↔ Connected g s w) ∧
      (∀ x ∈ comp.map (fun n => n.ID), x ∈ g.Graph.nodes) := by
  unfold MystGraph.bfsComponent
  simp only
  generalize ((nodeIDs.foldl (fun m id => if m < id then id else m) (0 : Int)) + 1).toNat = L
    at hrange ⊢
  obtain ⟨h0, h1⟩ := hrange s hs
  rw [boolAt_replicate L s h0 h1]
  simp only [List.length_replicate]
  obtain ⟨v', comp', r1, r2, r3, r4, r5, r6, r7, r8⟩ :=
    bfsLoop_spec g hwf L hrange (List.replicate L false) s
      (fun x y hx _ => absurd hx (not_isMarked_replicate L x))
      (L + 1) (markAt (List.replicate L false) s) [s] [s]
      (by rw [length_markAt, List.length_replicate])
      (by
        intro i
        rw [isMarked_markAt _ s i h0 (by simpa using h1), List.mem_singleton])
      (List.nodup_singleton s)
      (fun x _ => not_isMarked_replicate L x)
      (fun x hx => hx)
      (by
        intro x hx
        rw [List.mem_singleton.mp hx]
        exact ⟨hs, Relation.ReflTransGen.refl⟩)
      (fun x hx => Or.inl hx)
      (by
        have := List.count_le_length false (markAt (List.replicate L false) s)
        rw [length_markAt, List.length_replicate] at this
        simp only [List.length_singleton]
        omega)
  obtain ⟨cI, e1, e2, e3⟩ := bfsComponentLoop_sim g (L + 1)
    (markAt (List.replicate L false) s) [(⟨s, g.GetNameForID s⟩ : NodeInfo)] [s] v' comp'
    (by
      intro n hn
      rw [List.mem_singleton.mp hn])
    r1
  rw [e1]
  simp only
  have hs' : s ∈ comp' := r8 s (List.mem_singleton.mpr rfl)
  have hclass : ∀ w, w ∈ comp' ↔ Connected g s w := by
    intro w
    constructor
    · intro hw
      exact (r6 w hw).2
    · intro hw
      induction hw with
      | refl => exact hs'
      | tail _ hbc ih' => exact r7 _ ih' _ hbc
  refine ⟨_, rfl, ?_, ?_, ?_, ?_⟩
  · rw [map_sort_by_ID, e2]
    exact sortAsc_sorted comp' r4
  · intro n hn
    exact e3 n ((List.perm_insertionSort _ _).mem_iff.mp hn)
  · intro w
    rw [map_sort_by_ID, e2, mem_sortAsc, hclass]
  · intro x hx
    rw [map_sort_by_ID, e2, mem_sortAsc] at hx
    exact (r6 x hx).1

theorem markComponent_spec : ∀ (comp : List NodeInfo) (v : List Bool),
    (∀ n ∈ comp, 0 ≤ n.ID ∧ n.ID < (v.length : Int)) →
    ∃ v', markComponent comp v = some v' ∧ v'.length = v.length ∧
      ∀ i, isMarked v' i ↔ isMarked v i ∨ i ∈ comp.map (fun n => n.ID) := by
  intro comp
  induction comp with
  | nil => intro v _; exact ⟨v, rfl, rfl, by simp⟩
  | cons n rest ih =>
    intro v h
    obtain ⟨h0, h1⟩ := h n (List.mem_cons_self _ _)
    obtain ⟨b, hb⟩ := boolAt_some v n.ID h0 h1
    unfold markComponent
    rw [if_pos h1, hb]
    simp only
    obtain ⟨v', e1, e2, e3⟩ := ih (markAt v n.ID) (by
      intro m hm
      rw [length_markAt]
      exact h m (List.mem_cons_of_mem _ hm))
    refine ⟨v', e1, by rw [e2, length_markAt], ?_⟩
    intro i
    rw [e3, isMarked_markAt v n.ID i h0 h1, List.map_cons, List.mem_cons]
    tauto

theorem findComponentsLoop_spec (g : MystGraph) (hwf : g.Graph.WF) (nodeIDs : List Int)
    (hrange : ∀ id ∈ g.Graph.nodes, 0 ≤ id ∧
      id < (((nodeIDs.foldl (fun m id => if m < id then id else m) (0 : Int)) + 1).toNat : Int)) :
    ∀ (ids : List Int) (v : List Bool) (comps : List (List NodeInfo)),
      v.length = ((nodeIDs.foldl (fun m id => if m < id then id else m) (0 : Int)) + 1).toNat →
      (∀ x ∈ ids, x ∈ g.Graph.nodes) →
      (∀ i, isMarked v i ↔ ∃ c ∈ comps.map (List.map (fun n => n.ID)), i ∈ c) →
      GoodComps g (comps.map (List.map (fun n => n.ID))) →
      (∀ c ∈ comps, ∀ n ∈ c, n.Name = g.GetNameForID n.ID) →
      ∃ comps', findComponentsLoop g nodeIDs ids v comps = some comps' ∧
        GoodComps g (comps'.map (List.map (fun n => n.ID))) ∧
        (∀ x ∈ ids, ∃ c ∈ comps'.map (List.map (fun n => n.ID)), x ∈ c) ∧
        (∀ c ∈ comps', ∀ n ∈ c, n.Name = g.GetNameForID n.ID) ∧
        (∀ c ∈ comps, c ∈ comps') := by
  intro ids
  induction ids with
  | nil =>
    intro v comps _ _ _ hgood hnames
    exact ⟨comps, rfl, hgood, by simp, hnames, fun c h => h⟩
  | cons s rest ih =>
    intro v comps hlen hids hmarks hgood hnames
    have hsn := hids s (List.mem_cons_self _ _)
    obtain ⟨h0, h1⟩ := hrange s hsn
    have hrest : ∀ x ∈ rest, x ∈ g.Graph.nodes := fun x hx => hids x (List.mem_cons_of_mem _ hx)
    obtain ⟨b, hb⟩ := boolAt_some v s h0 (by rw [hlen]; exact h1)
    unfold findComponentsLoop
    rw [if_pos (by rw [hlen]; exact h1), hb]
    cases b with
    | true =>
      simp only
      obtain ⟨comps', e1, e2, e3, e4, e5⟩ := ih v comps hlen hrest hmarks hgood hnames
      refine ⟨comps', e1, e2, ?_, e4, e5⟩
      intro x hx
      rcases List.mem_cons.mp hx with rfl | hx
      · obtain ⟨c, hc, hxc⟩ := (hmarks x).mp hb
        obtain ⟨c0, hc0, rfl⟩ := List.mem_map.mp hc
        exact ⟨_, List.mem_map_of_mem _ (e5 c0 hc0), hxc⟩
      · exact e3 x hx
    | false =>
      simp only
      have hnm : ¬ isMarked v s := by
        unfold isMarked
        rw [hb]
        simp
      obtain ⟨comp, b1, b2, b3, b4, b5⟩ := bfsComponent_spec g hwf nodeIDs hrange s hsn
      rw [b1]
      simp only
      obtain ⟨v', m1, m2, m3⟩ := markComponent_spec comp v (by
        intro n hn
        rw [hlen]
        exact hrange n.ID (b5 n.ID (List.mem_map_of_mem _ hn)))
      rw [m1]
      simp only
      have hsc : s ∈ comp.map (fun n => n.ID) := (b4 s).mpr Relation.ReflTransGen.refl
      obtain ⟨comps', e1, e2, e3, e4, e5⟩ := ih v' (comps ++ [comp]) (by rw [m2, hlen]) hrest
        (by
          intro i
          rw [m3, hmarks, List.map_append, List.map_singleton]
          simp only [List.mem_append, List.mem_singleton]
          constructor
          · rintro (⟨c, hc, hic⟩ | hi)
            · exact ⟨c, Or.inl hc, hic⟩
            · exact ⟨_, Or.inr rfl, hi⟩
          · rintro ⟨c, hc | hc, hic⟩
            · exact Or.inl ⟨c, hc, hic⟩
            · rw [hc] at hic
              exact Or.inr hic)
        (by
          rw [List.map_append, List.map_singleton]
          refine ⟨?_, ?_⟩
          · rw [List.flatten_append, List.nodup_append]
            refine ⟨hgood.1, ?_, ?_⟩
            · simp only [List.flatten_cons, List.flatten_nil, List.append_nil]
              exact (List.Sorted.nodup b2)
            · intro x hx hx'
              simp only [List.flatten_cons, List.flatten_nil, List.append_nil] at hx'
              obtain ⟨c, hc, hxc⟩ := List.mem_flatten.mp hx
              have hsx := (b4 x).mp hx'
              have hsin : s ∈ c :=
                ((hgood.2 c hc).2.2.2 x hxc s).mpr (Connected_symm g s x hsx)
              exact hnm ((hmarks s).mpr ⟨c, hc, hsin⟩)
          · intro c hc
            rcases List.mem_append.mp hc with hc | hc
            · exact hgood.2 c hc
            · rw [List.mem_singleton.mp hc]
              refine ⟨List.ne_nil_of_mem hsc, b2, b5, ?_⟩
              intro u hu w
              rw [b4]
              have hsu := (b4 u).mp hu
              constructor
              · intro hsw
                exact (Connected_symm g s u hsu).trans hsw
              · intro huw
                exact hsu.trans huw)
        (by
          intro c hc
          rcases List.mem_append.mp hc with hc | hc
          · exact hnames c hc
          · rw [List.mem_singleton.mp hc]
            exact b3)
      refine ⟨comps', e1, e2, ?_, e4, fun c hc => e5 c (List.mem_append_left _ hc)⟩
      intro x hx
      rcases List.mem_cons.mp hx with rfl | hx
      · exact ⟨_, List.mem_map_of_mem _
          (e5 comp (List.mem_append_right _ (List.mem_singleton.mpr rfl))), hsc⟩
      · exact e3 x hx

theorem firstDifferenceInfo_map : ∀ (a b : List NodeInfo),
    firstDifferenceInfo a b =
      firstDifference (a.map (fun n => n.ID)) (b.map (fun n => n.ID)) := by
  intro a
  induction a with
  | nil => intro b; cases b <;> rfl
  | cons x xs ih =>
    intro b
    cases b with
    | nil => rfl
    | cons y ys =>
      simp only [firstDifferenceInfo, firstDifference, List.map_cons, ih ys]

theorem componentInfoLess_map (a b : List NodeInfo) :
    componentInfoLess a b =
      componentLess (a.map (fun n => n.ID)) (b.map (fun n => n.ID)) := by
  unfold componentInfoLess componentLess
  simp only [firstDifferenceInfo_map, List.length_map]

/-- C38. For every store whose routable structure satisfies the representation
invariant and has no negative id, `FindConnectedComponents` and the
`findComponents` of the traverser both return, the list of `findComponents`
with every record replaced by its id is the list of `FindConnectedComponents`
(same components, same order inside and between them), and every record
carries the name `GetNameForID` gives its id. -/
theorem findComponents_agrees (g : MystGraph) (hwf : g.Graph.WF)
    (hnn : ∀ id ∈ g.Graph.nodes, 0 ≤ id) :
    ∃ comps infos, g.FindConnectedComponents = some comps ∧
      g.findComponents = some infos ∧
      infos.map (List.map (fun n => n.ID)) = comps ∧
      ∀ c ∈ infos, ∀ n ∈ c, n.Name = g.GetNameForID n.ID := by
  obtain ⟨comps, hc, hgood, hcover, hpair⟩ := FindConnectedComponents_spec g hwf hnn
  have hmemIDs : ∀ x, x ∈ g.getAllNodeIDs ↔ x ∈ g.Graph.nodes := by
    intro x
    unfold MystGraph.getAllNodeIDs
    exact (List.perm_insertionSort _ _).mem_iff
  obtain ⟨hm0, hmax⟩ := foldl_maxID g.getAllNodeIDs 0
  have hrange : ∀ id ∈ g.Graph.nodes, 0 ≤ id ∧
      id < (((g.getAllNodeIDs.foldl (fun m id => if m < id then id else m) (0 : Int)) + 1).toNat
        : Int) := by
    intro id hid
    have := hmax id ((hmemIDs id).mpr hid)
    have := hnn id hid
    omega
  obtain ⟨infos0, e1, e2, e3, e4, _⟩ := findComponentsLoop_spec g hwf g.getAllNodeIDs hrange
    g.getAllNodeIDs (List.replicate
      ((g.getAllNodeIDs.foldl (fun m id => if m < id then id else m) (0 : Int)) + 1).toNat
      false) [] (by simp)
    (fun x hx => (hmemIDs x).mp hx)
    (by
      intro i
      constructor
      · intro h
        exact absurd h (not_isMarked_replicate _ i)
      · rintro ⟨c, hc, _⟩
        simp at hc)
    ⟨by simp, by simp⟩ (by simp)
  have hfind : g.findComponents =
      some (infos0.insertionSort (fun a b => componentInfoLess b a = false)) := by
    unfold MystGraph.findComponents
    simp only
    rw [e1]
  have hmap : (infos0.insertionSort (fun a b => componentInfoLess b a = false)).map
      (List.map (fun n => n.ID)) =
      (infos0.map (List.map (fun n => n.ID))).insertionSort
        (fun a b => componentLess b a = false) :=
    List.map_insertionSort (fun a b : List NodeInfo => componentInfoLess b a = false)
      (fun a b : List Int => componentLess b a = false)
      (List.map (fun n => n.ID)) infos0 (by
        intro a _ b _
        show componentInfoLess b a = false ↔ _
        rw [componentInfoLess_map])
  have hperm := List.perm_insertionSort (fun a b => componentLess b a = false)
    (infos0.map (List.map (fun n => n.ID)))
  have hgood2 := GoodComps_perm g _ _ hperm.symm e2
  have hcover2 : ∀ x ∈ g.Graph.nodes, ∃ c ∈ (infos0.map (List.map (fun n => n.ID))).insertionSort
      (fun a b => componentLess b a = false), x ∈ c := by
    intro x hx
    obtain ⟨c, hcm, hxc⟩ := e3 x ((hmemIDs x).mpr hx)
    exact ⟨c, hperm.mem_iff.mpr hcm, hxc⟩
  have hpair2 : ((infos0.map (List.map (fun n => n.ID))).insertionSort
      (fun a b => componentLess b a = false)).Pairwise
      (fun a b => componentLess a b = true) := by
    have hs := components_sorted (infos0.map (List.map (fun n => n.ID)))
    have hnd := GoodComps_nodup g _ hgood2
    refine (List.Pairwise.and hs hnd).imp ?_
    rintro a b ⟨hba, hne⟩
    rcases componentLess_total a b hne with h | h
    · exact h
    · rw [h] at hba
      exact Bool.noConfusion hba
  refine ⟨comps, _, hc, hfind, ?_, ?_⟩
  · rw [hmap]
    apply sorted_components_unique _ _ hpair2 hpair
    intro c
    constructor
    · exact GoodComps_unique g g _ _ (fun _ => Iff.rfl) (fun _ _ => rfl) hgood hcover hgood2 c
    · exact GoodComps_unique g g _ _ (fun _ => Iff.rfl) (fun _ _ => rfl) hgood2 hcover2 hgood c
  · intro c hcm n hn
    exact e4 c ((List.perm_insertionSort _ _).mem_iff.mp hcm) n hn

set_option maxRecDepth 100000 in
/-- Witness of `findComponents_agrees` on `islandsGraph`: both functions give
the components [0, 1], [3, 4], [2]. -/
theorem findComponents_agrees_witness :
    (islandsGraph.Graph.WF ∧ ∀ id ∈ islandsGraph.Graph.nodes, 0 ≤ id) ∧
    islandsGraph.FindConnectedComponents = some [[0, 1], [3, 4], [2]] ∧
    ∃ infos, islandsGraph.findComponents = some infos ∧
      infos.map (List.map (fun n => n.ID)) = [[0, 1], [3, 4], [2]] := by
  have hc : islandsGraph.FindConnectedComponents = some [[0, 1], [3, 4], [2]] := by decide
  obtain ⟨comps, infos, h1, h2, h3, _⟩ :=
    findComponents_agrees islandsGraph (by decide) (by decide)
  rw [hc] at h1
  simp only [Option.some.injEq] at h1
  rw [← h1] at h3
  exact ⟨⟨by decide, by decide⟩, hc, infos, h2, h3⟩

theorem Weight.add_assoc (a b c : Weight) :
    Weight.add (Weight.add a b) c = Weight.add a (Weight.add b c) := by
  cases a <;> cases b <;> cases c <;> simp [Weight.add, Nat.add_assoc]

theorem Weight.zero_add (a : Weight) : Weight.add (Weight.fin 0) a = a := by
  cases a <;> simp [Weight.add]

theorem Weight.add_zero (a : Weight) : Weight.add a (Weight.fin 0) = a := by
  cases a <;> simp [Weight.add]

theorem Weight.near_add (a b w : Weight) (h : Weight.near (Weight.add a b) w = true) :
    ∃ x y, a = Weight.fin x ∧ b = Weight.fin y ∧ w = Weight.fin (x + y) := by
  cases a with
  | inf => simp [Weight.add, Weight.near] at h
  | fin x =>
    cases b with
    | inf => simp [Weight.add, Weight.near] at h
    | fin y =>
      cases w with
      | inf => simp [Weight.add, Weight.near] at h
      | fin z =>
        simp only [Weight.add, Weight.near, decide_eq_true_eq] at h
        exact ⟨x, y, rfl, rfl, by rw [h]⟩

/-- The fold of `explore` over the kept neighbours: when every recursive call
returns, the fold returns the paths found so far followed by the paths of the
calls, in order. -/
theorem foldl_collect {β : Type} (f : β → Option (List (List Int)))
    (F : Option (List (List Int)) → β → Option (List (List Int)))
    (hF : ∀ a n b, f n = some b → F (some a) n = some (a ++ b)) :
    ∀ (l : List β) (acc : List (List Int)), (∀ n ∈ l, (f n).isSome = true) →
      l.foldl F (some acc) = some (acc ++ (l.map (fun n => (f n).getD [])).flatten) := by
  intro l
  induction l with
  | nil => intro acc _; simp
  | cons n rest ih =>
    intro acc h
    obtain ⟨b, hb⟩ := Option.isSome_iff_exists.mp (h n (List.mem_cons_self _ _))
    rw [List.foldl_cons, hF acc n b hb, ih _ (fun m hm => h m (List.mem_cons_of_mem _ hm))]
    simp [hb, List.append_assoc]

theorem mem_exploreNeighbors (g : MystGraph) (heap : Heap) (w : Weight) (current : Int)
    (visited : List Int) (cw : Weight) (n : Int) (ew : Weight) :
    (n, ew) ∈ exploreNeighbors g heap w current visited cw ↔
      n ∉ visited ∧ exploreHop g heap current n ∧ g.Edge current n = some ew ∧
      Weight.le (Weight.add cw ew) w = true := by
  unfold exploreNeighbors exploreHop
  rw [(List.perm_insertionSort _ _).mem_iff, List.mem_filterMap]
  constructor
  · rintro ⟨x, hx, h⟩
    by_cases hv : visited.contains x = true
    · rw [if_pos hv] at h
      exact Option.noConfusion h
    · rw [if_neg hv] at h
      by_cases hb : (g.IsBacktrackingEdge heap current x ||
          g.IsDisabledEdge heap current x) = true
      · rw [if_pos hb] at h
        exact Option.noConfusion h
      · rw [if_neg hb] at h
        cases he : g.Edge current x with
        | none => rw [he] at h; exact Option.noConfusion h
        | some e =>
          rw [he] at h
          simp only at h
          by_cases hle : Weight.le (Weight.add cw e) w = true
          · rw [if_pos hle] at h
            simp only [Option.some.injEq, Prod.mk.injEq] at h
            obtain ⟨rfl, rfl⟩ := h
            simp only [Bool.or_eq_true, not_or, Bool.not_eq_true] at hb
            refine ⟨?_, ⟨hx, hb.1, hb.2⟩, he, hle⟩
            simpa using hv
          · rw [if_neg hle] at h
            exact Option.noConfusion h
  · rintro ⟨hv, ⟨hx, hb1, hb2⟩, he, hle⟩
    refine ⟨n, hx, ?_⟩
    rw [if_neg (by simpa using hv), if_neg (by simp [hb1, hb2]), he]
    simp only
    rw [if_pos hle]

theorem unvisitedCount_lt (g : MystGraph) (visited : List Int) (current : Int)
    (hc : current ∈ g.Graph.nodes) (hv : current ∉ visited) :
    unvisitedCount g (visited ++ [current]) < unvisitedCount g visited := by
  unfold unvisitedCount
  have heq : g.Graph.nodes.filter (fun x => decide (x ∉ visited ++ [current])) =
      (g.Graph.nodes.filter (fun x => decide (x ∉ visited))).filter
        (fun x => decide (x ≠ current)) := by
    rw [List.filter_filter]
    congr 1
    funext x
    simp only [List.mem_append, List.mem_singleton, not_or, Bool.decide_and, ne_eq,
      Bool.and_comm]
  rw [heq]
  apply List.length_filter_lt_length_iff_exists.mpr
  exact ⟨current, List.mem_filter.mpr ⟨hc, by simpa using hv⟩, by simp⟩

theorem GoodTail_at_dst (g : MystGraph) (heap : Heap) (dst : Int) (w : Weight)
    (visited : List Int) (cw : Weight) (tail : List Int) :
    GoodTail g heap dst w dst visited cw tail ↔ tail = [] ∧ Weight.near cw w = true := by
  unfold GoodTail
  constructor
  · rintro ⟨hlast, hnd, _, _, hnear⟩
    cases tail with
    | nil =>
      refine ⟨rfl, ?_⟩
      simpa [pathWeight, Weight.add_zero] using hnear
    | cons x t =>
      exfalso
      rw [List.getLast?_cons_cons] at hlast
      have hmem : dst ∈ x :: t := List.mem_of_getLast?_eq_some hlast
      exact (List.nodup_cons.mp hnd).1 hmem
  · rintro ⟨rfl, hnear⟩
    refine ⟨rfl, List.nodup_singleton _, by simp, List.chain'_singleton _, ?_⟩
    simpa [pathWeight, Weight.add_zero] using hnear

theorem GoodTail_step (g : MystGraph) (heap : Heap) (dst : Int) (w : Weight)
    (current : Int) (visited : List Int) (cw : Weight) (hcd : current ≠ dst)
    (tail : List Int) :
    GoodTail g heap dst w current visited cw tail ↔
      ∃ n ew tail', tail = n :: tail' ∧
        (n, ew) ∈ exploreNeighbors g heap w current (visited ++ [current]) cw ∧
        GoodTail g heap dst w n (visited ++ [current]) (Weight.add cw ew) tail' := by
  constructor
  · rintro ⟨hlast, hnd, havoid, hchain, hnear⟩
    cases tail with
    | nil =>
      simp only [List.getLast?_singleton, Option.some.injEq] at hlast
      exact absurd hlast hcd
    | cons n tail' =>
      obtain ⟨hhop, hchain'⟩ := List.chain'_cons.mp hchain
      have hedge : ∃ ew, g.Edge current n = some ew := by
        have : (g.Graph.Edge current n).isSome = true := by
          rw [Edge_isSome_iff, HasEdgeFromTo_iff]
          exact (mem_From _ _ _).mp hhop.1
        exact Option.isSome_iff_exists.mp this
      obtain ⟨ew, hew⟩ := hedge
      have hpw : pathWeight g (current :: n :: tail') =
          Weight.add ew (pathWeight g (n :: tail')) := by
        rw [pathWeight, hew]
        rfl
      rw [hpw, ← Weight.add_assoc] at hnear
      obtain ⟨x, y, hx, hy, hw⟩ := Weight.near_add _ _ _ hnear
      have hnc : n ≠ current := by
        intro hc
        apply (List.nodup_cons.mp hnd).1
        rw [hc]
        exact List.mem_cons_self _ _
      refine ⟨n, ew, tail', rfl, ?_, ?_⟩
      · rw [mem_exploreNeighbors]
        refine ⟨?_, hhop, hew, ?_⟩
        · simp only [List.mem_append, List.mem_singleton, not_or]
          exact ⟨havoid n (List.mem_cons_self _ _), hnc⟩
        · rw [hx, hw]
          simp [Weight.le, Weight.lt]
      · refine ⟨?_, (List.nodup_cons.mp hnd).2, ?_, hchain', hnear⟩
        · rw [List.getLast?_cons_cons] at hlast
          exact hlast
        · intro z hz
          simp only [List.mem_append, List.mem_singleton, not_or]
          refine ⟨havoid z (List.mem_cons_of_mem _ hz), ?_⟩
          intro hzc
          apply (List.nodup_cons.mp hnd).1
          rw [← hzc]
          exact List.mem_cons_of_mem _ hz
  · rintro ⟨n, ew, tail', rfl, hmem, hlast, hnd, havoid, hchain, hnear⟩
    rw [mem_exploreNeighbors] at hmem
    obtain ⟨hnv, hhop, hew, _⟩ := hmem
    simp only [List.mem_append, List.mem_singleton, not_or] at hnv
    have hpw : pathWeight g (current :: n :: tail') =
        Weight.add ew (pathWeight g (n :: tail')) := by
      rw [pathWeight, hew]
      rfl
    refine ⟨?_, ?_, ?_, List.chain'_cons.mpr ⟨hhop, hchain⟩, ?_⟩
    · rw [List.getLast?_cons_cons]
      exact hlast
    · refine List.nodup_cons.mpr ⟨?_, hnd⟩
      intro hc
      rcases List.mem_cons.mp hc with hc | hc
      · exact hnv.2 hc.symm
      · have := havoid current hc
        simp at this
    · intro z hz
      rcases List.mem_cons.mp hz with hz | hz
      · rw [hz]; exact hnv.1
      · have := havoid z hz
        simp only [List.mem_append, List.mem_singleton, not_or] at this
        exact this.1
    · rw [hpw, ← Weight.add_assoc]
      exact hnear

theorem explore_spec (g : MystGraph) (heap : Heap) (hwf : g.Graph.WF) (dst : Int)
    (w : Weight) :
    ∀ (fuel : Nat) (current : Int) (visited path : List Int) (cw : Weight),
      current ∉ visited → unvisitedCount g visited + 1 ≤ fuel →
      ∃ res, explore g heap dst w fuel current visited path cw = some res ∧
        ∀ p, p ∈ res ↔
          ∃ tail, p = path ++ tail ∧ GoodTail g heap dst w current visited cw tail := by
  intro fuel
  induction fuel with
  | zero =>
    intro current visited path cw _ hfuel
    omega
  | succ f ih =>
    intro current visited path cw hcv hfuel
    rw [explore]
    by_cases hcd : current = dst
    · rw [if_pos hcd]
      subst hcd
      by_cases hnear : Weight.near cw w = true
      · rw [if_pos hnear]
        refine ⟨_, rfl, ?_⟩
        intro p
        simp only [List.mem_singleton]
        constructor
        · intro hp
          exact ⟨[], by rw [hp, List.append_nil],
            (GoodTail_at_dst g heap current w visited cw []).mpr ⟨rfl, hnear⟩⟩
        · rintro ⟨tail, hp, ht⟩
          rw [((GoodTail_at_dst g heap current w visited cw tail).mp ht).1,
            List.append_nil] at hp
          exact hp
      · rw [if_neg hnear]
        refine ⟨_, rfl, ?_⟩
        intro p
        simp only [List.not_mem_nil, false_iff]
        rintro ⟨tail, _, ht⟩
        exact hnear ((GoodTail_at_dst g heap current w visited cw tail).mp ht).2
    · rw [if_neg hcd]
      by_cases hlt : Weight.lt w cw = true
      · rw [if_pos hlt]
        refine ⟨_, rfl, ?_⟩
        intro p
        simp only [List.not_mem_nil, false_iff]
        rintro ⟨tail, _, _, _, _, _, hn⟩
        obtain ⟨x, y, hx, _, hw⟩ := Weight.near_add _ _ _ hn
        rw [hx, hw] at hlt
        simp [Weight.lt] at hlt
      · rw [if_neg hlt]
        have hvis : (if visited.contains current = true then visited
            else visited ++ [current]) = visited ++ [current] := by
          rw [if_neg (by simpa using hcv)]
        simp only [hvis]
        have hall : ∀ n ∈ exploreNeighbors g heap w current (visited ++ [current]) cw,
            ∃ res, explore g heap dst w f n.1 (visited ++ [current]) (path ++ [n.1])
                (Weight.add cw n.2) = some res ∧
              ∀ p, p ∈ res ↔ ∃ tail, p = (path ++ [n.1]) ++ tail ∧
                GoodTail g heap dst w n.1 (visited ++ [current]) (Weight.add cw n.2) tail := by
          rintro ⟨n, ew⟩ hn
          obtain ⟨hnv, hhop, _, _⟩ := (mem_exploreNeighbors _ _ _ _ _ _ _ _).mp hn
          have hcn : current ∈ g.Graph.nodes := by
            obtain ⟨l, hl, hF, _⟩ := (mem_From _ _ _).mp hhop.1
            exact hF ▸ (hwf.2.1 l hl).1
          have := unvisitedCount_lt g visited current hcn hcv
          exact ih n (visited ++ [current]) (path ++ [n]) (Weight.add cw ew) hnv (by omega)
        have hfold := foldl_collect
          (fun n : Int × Weight => explore g heap dst w f n.1 (visited ++ [current])
            (path ++ [n.1]) (Weight.add cw n.2))
          (fun acc neighbor =>
            match acc, explore g heap dst w f neighbor.1 (visited ++ [current])
                (path ++ [neighbor.1]) (Weight.add cw neighbor.2) with
            | some found, some more => some (found ++ more)
            | _, _ => none)
          (by
            intro a n b hb
            simp only [hb])
          (exploreNeighbors g heap w current (visited ++ [current]) cw) []
          (by
            intro n hn
            obtain ⟨res, hres, _⟩ := hall n hn
            simp only [hres, Option.isSome_some])
        refine ⟨_, hfold, ?_⟩
        intro p
        simp only [List.nil_append, List.mem_flatten, List.mem_map]
        constructor
        · rintro ⟨l, ⟨n, hn, rfl⟩, hp⟩
          obtain ⟨res, hres, hchar⟩ := hall n hn
          simp only [hres, Option.getD_some] at hp
          obtain ⟨tail', hp', ht'⟩ := (hchar p).mp hp
          refine ⟨n.1 :: tail', by rw [hp', List.append_assoc]; rfl, ?_⟩
          exact (GoodTail_step g heap dst w current visited cw hcd _).mpr
            ⟨n.1, n.2, tail', rfl, hn, ht'⟩
        · rintro ⟨tail, hp, ht⟩
          obtain ⟨n, ew, tail', rfl, hn, ht'⟩ :=
            (GoodTail_step g heap dst w current visited cw hcd tail).mp ht
          obtain ⟨res, hres, hchar⟩ := hall (n, ew) hn
          refine ⟨_, ⟨(n, ew), hn, rfl⟩, ?_⟩
          simp only [hres, Option.getD_some]
          exact (hchar p).mpr ⟨tail', by rw [hp, List.append_assoc]; rfl, ht'⟩

/-- C35. For every store whose routable structure satisfies the representation
invariant, `findAllShortestPaths(from, to, w)` returns (the recursion of
`explore` visits a new node at every call, so a depth of the node count plus
two suffices), and a path is among the returned ones exactly when it is a
simple path from `from` to `to` whose hops are directed edges of the routable
adjacency of pairs that are neither backtracking nor disabled, with summed edge
weight equal to `w`. -/
theorem findAllShortestPaths_exact (g : MystGraph) (heap : Heap) (hwf : g.Graph.WF)
    (src dst : Int) (w : Weight) :
    ∃ paths, g.findAllShortestPaths heap src dst w = some paths ∧
      ∀ p, p ∈ paths ↔ SimpleCleanPath g heap src dst w p := by
  unfold MystGraph.findAllShortestPaths
  obtain ⟨res, hres, hchar⟩ := explore_spec g heap hwf dst w (g.Nodes.length + 2) src []
    [src] (Weight.fin 0) (List.not_mem_nil _) (by
      unfold unvisitedCount MystGraph.Nodes
      have := List.length_filter_le (fun x => decide (x ∉ ([] : List Int))) g.Graph.nodes
      omega)
  refine ⟨res, hres, ?_⟩
  intro p
  rw [hchar]
  unfold SimpleCleanPath GoodTail
  constructor
  · rintro ⟨tail, rfl, hlast, hnd, _, hchain, hnear⟩
    rw [Weight.zero_add] at hnear
    exact ⟨rfl, hlast, hnd, hchain, hnear⟩
  · rintro ⟨hhead, hlast, hnd, hchain, hnear⟩
    cases p with
    | nil => simp at hhead
    | cons x tail =>
      simp only [List.head?_cons, Option.some.injEq] at hhead
      subst hhead
      refine ⟨tail, rfl, hlast, hnd, by simp, hchain, ?_⟩
      rw [Weight.zero_add]
      exact hnear

set_option maxRecDepth 100000 in
/-- Witness of `findAllShortestPaths_exact` on `detourGraph`: for the weight 3
the enumeration from 0 to 2 returns the path 0, 3, 4, 2, which is therefore a
simple path of that weight without backtracking hop. -/
theorem findAllShortestPaths_exact_witness :
    detourGraph.Graph.WF ∧
    detourGraph.findAllShortestPaths (NewGraph (some detourMetadata) detourHeap).2.2 0 2
      (Weight.fin 3) = some [[0, 3, 4, 2]] ∧
    SimpleCleanPath detourGraph (NewGraph (some detourMetadata) detourHeap).2.2 0 2
      (Weight.fin 3) [0, 3, 4, 2] := by
  have hev : detourGraph.findAllShortestPaths (NewGraph (some detourMetadata) detourHeap).2.2
      0 2 (Weight.fin 3) = some [[0, 3, 4, 2]] := by decide
  obtain ⟨paths, h1, h2⟩ := findAllShortestPaths_exact detourGraph
    (NewGraph (some detourMetadata) detourHeap).2.2 (by decide) 0 2 (Weight.fin 3)
  rw [hev] at h1
  simp only [Option.some.injEq] at h1
  refine ⟨by decide, hev, (h2 [0, 3, 4, 2]).mp ?_⟩
  rw [← h1]
  simp

theorem Edge.grows_refl (e : Edge) : Edge.grows e e :=
  ⟨rfl, rfl, rfl, List.prefix_refl _⟩

theorem Edge.grows_trans (a b c : Edge) (h1 : Edge.grows a b) (h2 : Edge.grows b c) :
    Edge.grows a c :=
  ⟨h2.1.trans h1.1, h2.2.1.trans h1.2.1, h2.2.2.1.trans h1.2.2.1,
    h1.2.2.2.trans h2.2.2.2⟩

theorem edges_grow_refl (l : List Edge) : List.Forall₂ Edge.grows l l :=
  List.forall₂_same.mpr (fun e _ => Edge.grows_refl e)

theorem edges_grow_trans : ∀ (a b c : List Edge),
    List.Forall₂ Edge.grows a b → List.Forall₂ Edge.grows b c → List.Forall₂ Edge.grows a c := by
  intro a b c h1
  induction h1 generalizing c with
  | nil => intro h2; cases h2; exact List.Forall₂.nil
  | cons hab _ ih =>
    intro h2
    cases h2 with
    | cons hbc hrest => exact List.Forall₂.cons (Edge.grows_trans _ _ _ hab hbc) (ih _ hrest)

theorem side_grows_refl (o : Option (List Edge)) :
    Option.Rel (List.Forall₂ Edge.grows) o o := by
  cases o with
  | none => exact Option.Rel.none
  | some l => exact Option.Rel.some (edges_grow_refl l)

theorem side_grows_trans (a b c : Option (List Edge))
    (h1 : Option.Rel (List.Forall₂ Edge.grows) a b)
    (h2 : Option.Rel (List.Forall₂ Edge.grows) b c) :
    Option.Rel (List.Forall₂ Edge.grows) a c := by
  cases h1 with
  | none => exact h2
  | some hab =>
    cases h2 with
    | some hbc => exact Option.Rel.some (edges_grow_trans _ _ _ hab hbc)

theorem StoreGrows_refl (g : MystGraph) : StoreGrows g g :=
  ⟨rfl, rfl, rfl, rfl, rfl, rfl, rfl, rfl, rfl, edges_grow_refl _,
    fun _ _ => side_grows_refl _⟩

theorem StoreGrows_trans (a b c : MystGraph) (h1 : StoreGrows a b) (h2 : StoreGrows b c) :
    StoreGrows a c := by
  obtain ⟨a1, a2, a3, a4, a5, a6, a7, a8, a9, a10, a11⟩ := h1
  obtain ⟨b1, b2, b3, b4, b5, b6, b7, b8, b9, b10, b11⟩ := h2
  exact ⟨b1.trans a1, b2.trans a2, b3.trans a3, b4.trans a4, b5.trans a5, b6.trans a6,
    b7.trans a7, b8.trans a8, b9.trans a9, edges_grow_trans _ _ _ a10 b10,
    fun s t => side_grows_trans _ _ _ (a11 s t) (b11 s t)⟩

/-- Writing `Metadata.Stats` changes nothing else. -/
theorem withStats_grows (g : MystGraph) (stats : GraphStats) :
    StoreGrows g (g.withStats stats) :=
  ⟨rfl, rfl, rfl, rfl, rfl, rfl, rfl, rfl, rfl, edges_grow_refl _,
    fun _ _ => side_grows_refl _⟩

theorem AddEdgeAttribute_grows (g : MystGraph) (heap : Heap) (s t : Int) (a : EdgeAttribute) :
    StoreGrows g (g.AddEdgeAttribute heap s t a).2 := by
  by_cases hres : (g.AddEdgeAttribute heap s t a).1 = true
  · obtain ⟨⟨pre, x, post, e1, _, _, _, e5⟩, hside, _⟩ :=
      (AddEdgeAttribute_effect g heap s t a).2 hres
    obtain ⟨f1, f2, f3, f4, f5⟩ := AddEdgeAttribute_fields g heap s t a
    have htot : (g.AddEdgeAttribute heap s t a).2.Metadata.TotalCards = g.Metadata.TotalCards ∧
        (g.AddEdgeAttribute heap s t a).2.Metadata.TotalStacks = g.Metadata.TotalStacks ∧
        (g.AddEdgeAttribute heap s t a).2.Metadata.TotalNodes = g.Metadata.TotalNodes ∧
        (g.AddEdgeAttribute heap s t a).2.Metadata.TotalEdges = g.Metadata.TotalEdges := by
      unfold MystGraph.AddEdgeAttribute
      split <;> exact ⟨rfl, rfl, rfl, rfl⟩
    refine ⟨f1, f3, f2, f4, f5, htot.1, htot.2.1, htot.2.2.1, htot.2.2.2, ?_, ?_⟩
    · rw [e1, e5]
      apply List.rel_append (edges_grow_refl pre)
      exact List.Forall₂.cons ⟨rfl, rfl, rfl, List.prefix_append _ _⟩ (edges_grow_refl post)
    · intro s' t'
      rw [hside s' t']
      by_cases hst : s = s' ∧ t = t'
      · rw [if_pos hst, ← hst.1, ← hst.2]
        cases g.sideTable s t with
        | none => exact Option.Rel.none
        | some l =>
          refine Option.Rel.some ?_
          rw [List.forall₂_map_right_iff]
          exact List.forall₂_same.mpr
            (fun e _ => ⟨rfl, rfl, rfl, List.prefix_append _ _⟩)
      · rw [if_neg hst]
        exact side_grows_refl _
  · have hf : (g.AddEdgeAttribute heap s t a).1 = false := by
      cases h : (g.AddEdgeAttribute heap s t a).1
      · rfl
      · exact absurd h hres
    rw [(AddEdgeAttribute_effect g heap s t a).1 hf]
    exact StoreGrows_refl g

theorem selfLoopsLoop_grows (heap : Heap) :
    ∀ (ids : List Int) (result : List NodeInfo) (g : MystGraph),
      StoreGrows g (selfLoopsLoop heap ids (result, g)).2 := by
  intro ids
  induction ids with
  | nil => intro result g; exact StoreGrows_refl g
  | cons id rest ih =>
    intro result g
    unfold selfLoopsLoop
    split
    · exact StoreGrows_trans _ _ _ (AddEdgeAttribute_grows g heap id id SelfReference) (ih _ _)
    · exact ih _ _

theorem addNodeAttributeLoop_prefix (id : Int) (a : NodeAttribute) :
    ∀ (refs : List NodeRef) (heap : Heap) (r : NodeRef),
      (heap r).Attributes <+: (addNodeAttributeLoop id a refs heap r).Attributes := by
  intro refs
  induction refs with
  | nil => intro heap r; exact List.prefix_refl _
  | cons r0 rest ih =>
    intro heap r
    unfold addNodeAttributeLoop
    split
    · split
      · exact List.prefix_refl _
      · unfold Heap.set
        by_cases hr : r = r0
        · subst hr
          simp only [if_true]
          exact List.prefix_append _ _
        · simp only [hr, if_false]
          exact List.prefix_refl _
    · exact ih heap r

theorem scanNodes_heap (g : MystGraph) (test : Heap → Int → Bool) (a : NodeAttribute) :
    ∀ (ids : List Int) (result : List NodeInfo) (heap : Heap) (r : NodeRef),
      (scanNodes g test a ids (result, heap)).2 r =
        { heap r with Attributes := ((scanNodes g test a ids (result, heap)).2 r).Attributes } ∧
      (heap r).Attributes <+: ((scanNodes g test a ids (result, heap)).2 r).Attributes := by
  intro ids
  induction ids with
  | nil => intro result heap r; exact ⟨rfl, List.prefix_refl _⟩
  | cons id rest ih =>
    intro result heap r
    unfold scanNodes
    split
    · obtain ⟨e1, e2⟩ := ih (result ++ [{ ID := id, Name := g.GetNameForID id }])
        (g.addNodeAttribute heap id a) r
      have hf := addNodeAttributeLoop_fields id a g.Metadata.Nodes heap r
      have hp := addNodeAttributeLoop_prefix id a g.Metadata.Nodes heap r
      unfold MystGraph.addNodeAttribute at e1 e2 ⊢
      refine ⟨?_, hp.trans e2⟩
      rw [e1]
      rw [hf]
    · exact ih result heap r

theorem GetAllEdgesInPlace_eq (g : MystGraph) (heap : Heap) (s t : Int)
    (hsrc : ∀ e ∈ (g.sideTable s t).getD [], (heap e.Source).GraphID = s) :
    g.GetAllEdgesInPlace heap s t = (g.GetAllEdges heap s t, g) := by
  unfold MystGraph.sideTable at hsrc
  unfold MystGraph.GetAllEdges MystGraph.GetAllEdgesInPlace
  cases h1 : g.EdgeMap.get s with
  | none => rfl
  | some targetMap =>
    rw [h1] at hsrc
    simp only at hsrc ⊢
    cases h2 : targetMap.get t with
    | none => rfl
    | some edges =>
      rw [h2] at hsrc
      simp only [Option.getD_some] at hsrc ⊢
      have hsort := insertionSort_equal_keys (fun e : Edge => (heap e.Source).GraphID) s
        edges hsrc
      by_cases hl : 0 < edges.length
      · rw [if_pos hl, if_pos hl, hsort, GoMap.set_of_get_some targetMap t edges h2,
          GoMap.set_of_get_some g.EdgeMap s _ h1]
      · rw [if_neg hl, if_neg hl]

theorem pathValidInPlace_eq (heap : Heap) : ∀ (path : List Int) (g : MystGraph),
    StoredSources g heap → pathValidInPlace heap path g = (pathValid g heap path, g) := by
  intro path
  induction path with
  | nil => intro g _; rfl
  | cons u rest ih =>
    intro g hsrc
    cases rest with
    | nil => rfl
    | cons v rest' =>
      unfold pathValidInPlace pathValid hopValid
      simp only [GetAllEdgesInPlace_eq g heap u v (hsrc u v), ih g hsrc]

theorem shortestRowInPlace_eq (heap : Heap) (p : Shortest) (src : Int) (g : MystGraph)
    (hsrc : StoredSources g heap) :
    ∀ (dsts : List Int) (row : GoMap Int ShortestPathInfo),
      shortestRowInPlace heap p src dsts row g =
        (shortestRow g heap p src dsts row).map (fun r => (r, g)) := by
  intro dsts
  induction dsts with
  | nil => intro row; rfl
  | cons dst rest ih =>
    intro row
    unfold shortestRowInPlace shortestRow
    by_cases hsd : src = dst
    · rw [if_pos hsd, if_pos hsd]
      exact ih row
    · rw [if_neg hsd, if_neg hsd]
      cases hto : p.To dst with
      | none => rfl
      | some pw =>
        obtain ⟨pathNodes, weight⟩ := pw
        simp only
        by_cases hlen : pathNodes.length = 0
        · rw [if_pos hlen, if_pos hlen]
          exact ih row
        · rw [if_neg hlen, if_neg hlen, pathValidInPlace_eq heap pathNodes g hsrc]
          simp only
          by_cases hv : pathValid g heap pathNodes = true
          · rw [if_pos hv, if_pos hv]
            exact ih _
          · rw [if_neg hv, if_neg hv]
            exact ih _

theorem shortestRowsInPlace_eq (heap : Heap) (nodeIDs : List Int) (g : MystGraph)
    (hsrc : StoredSources g heap) :
    ∀ (srcs : List Int) (result : GoMap Int (GoMap Int ShortestPathInfo)),
      shortestRowsInPlace heap nodeIDs srcs result g =
        (shortestRows g heap nodeIDs srcs result).map (fun r => (r, g)) := by
  intro srcs
  induction srcs with
  | nil => intro result; rfl
  | cons src rest ih =>
    intro result
    unfold shortestRowsInPlace shortestRows
    cases hd : DijkstraFrom g src with
    | none => rfl
    | some p =>
      simp only
      rw [shortestRowInPlace_eq heap p src g hsrc]
      cases hrow : shortestRow g heap p src nodeIDs [] with
      | none => rfl
      | some row =>
        simp only [Option.map_some']
        exact ih _

theorem StoredSources_grows (g g' : MystGraph) (heap heap' : Heap) (hg : StoreGrows g g')
    (hheap : ∀ r, (heap' r).GraphID = (heap r).GraphID) (h : StoredSources g heap) :
    StoredSources g' heap' := by
  intro s t e he
  have hrel := hg.2.2.2.2.2.2.2.2.2.2 s t
  have hold := h s t
  generalize g.sideTable s t = A at hrel hold
  generalize g'.sideTable s t = B at hrel he
  cases hrel with
  | none => simp at he
  | some hl =>
    rename_i l l'
    simp only [Option.getD_some] at he hold
    obtain ⟨e0, he0, hgrow⟩ : ∃ e0 ∈ l, Edge.grows e0 e := by
      clear hold
      induction hl with
      | nil => simp at he
      | cons hab _ ih =>
        rcases List.mem_cons.mp he with hx | hx
        · exact ⟨_, List.mem_cons_self _ _, hx ▸ hab⟩
        · obtain ⟨e0, h0, hg0⟩ := ih hx
          exact ⟨e0, List.mem_cons_of_mem _ h0, hg0⟩
    rw [hgrow.1, hheap]
    exact hold e0 he0

theorem HeapGrows_refl (heap : Heap) : HeapGrows heap heap :=
  fun _ => ⟨rfl, List.prefix_refl _⟩

theorem HeapGrows_trans (a b c : Heap) (h1 : HeapGrows a b) (h2 : HeapGrows b c) :
    HeapGrows a c := by
  intro r
  obtain ⟨e1, e2⟩ := h1 r
  obtain ⟨f1, f2⟩ := h2 r
  refine ⟨?_, e2.trans f2⟩
  rw [f1, e1]

theorem scanNodes_grows (g : MystGraph) (test : Heap → Int → Bool) (a : NodeAttribute)
    (ids : List Int) (result : List NodeInfo) (heap : Heap) :
    HeapGrows heap (scanNodes g test a ids (result, heap)).2 :=
  fun r => scanNodes_heap g test a ids result heap r

theorem HeapGrows_GraphID (a b : Heap) (h : HeapGrows a b) (r : NodeRef) :
    (b r).GraphID = (a r).GraphID := by
  rw [(h r).1]

/-- The block `// nodes` of `Process` keeps the store up to `Metadata.Stats` and
appended edge attributes, and keeps every node object up to appended
attributes. -/
theorem processNodes_frame (g : MystGraph) (heap : Heap) :
    StoreGrows g (g.processNodes heap).1 ∧ HeapGrows heap (g.processNodes heap).2 := by
  unfold MystGraph.processNodes
  simp only
  refine ⟨?_, ?_⟩
  · refine StoreGrows_trans _ _ _ ?_ (withStats_grows _ _)
    unfold MystGraph.FindNodesWithSelfLoops
    refine StoreGrows_trans _ _ _ ?_ (selfLoopsLoop_grows _ _ _ _)
    refine StoreGrows_trans _ _ _ ?_ (withStats_grows _ _)
    refine StoreGrows_trans _ _ _ ?_ (withStats_grows _ _)
    refine StoreGrows_trans _ _ _ ?_ (withStats_grows _ _)
    refine StoreGrows_trans _ _ _ ?_ (withStats_grows _ _)
    exact withStats_grows _ _
  · unfold MystGraph.FindIsolatedNodes MystGraph.FindNodesWithNoOutgoingEdges
      MystGraph.FindNodesWithNoIncomingEdges
    exact HeapGrows_trans _ _ _
      (HeapGrows_trans _ _ _ (scanNodes_grows _ _ _ _ _ _) (scanNodes_grows _ _ _ _ _ _))
      (scanNodes_grows _ _ _ _ _ _)

/-- The block `// paths` of `Process` returns and keeps the store up to
`Metadata.Stats`, the memory untouched. -/
theorem processPaths_frame (g : MystGraph) (heap : Heap) (hwf : g.Graph.WF)
    (hsrc : StoredSources g heap) :
    ∃ g', g.processPaths heap = some (g', heap) ∧ StoreGrows g g' := by
  unfold MystGraph.processPaths MystGraph.ComputeAllShortestPathsInPlace
  rw [shortestRowsInPlace_eq heap _ g hsrc]
  obtain ⟨table, ht, _⟩ := shortestRows_spec g heap hwf g.getAllNodeIDs g.getAllNodeIDs []
    (by
      intro s hs
      unfold MystGraph.getAllNodeIDs at hs
      exact (List.perm_insertionSort _ _).mem_iff.mp hs)
    (by
      intro s t info h
      simp [tableEntry, GoMap.get] at h)
  rw [ht]
  simp only [Option.map_some']
  obtain ⟨pair, hp, _⟩ := findMostSeparatedNodes_spec
    (g.withStats { g.Metadata.Stats with ShortestPaths := table }) hwf
  unfold MystGraph.FindMostSeparatedNodes
  rw [hp]
  exact ⟨_, rfl, StoreGrows_trans _ _ _ (withStats_grows _ _) (withStats_grows _ _)⟩

/-- The blocks `// components` and `// paths` of `Process` return and keep the
store up to `Metadata.Stats`, the memory untouched. -/
theorem processComponents_frame (g : MystGraph) (heap : Heap) (hwf : g.Graph.WF)
    (hnn : ∀ id ∈ g.Graph.nodes, 0 ≤ id) (hsrc : StoredSources g heap) :
    ∃ g', g.processComponents heap = some (g', heap) ∧ StoreGrows g g' := by
  unfold MystGraph.processComponents
  obtain ⟨comps, hc, _⟩ := FindConnectedComponents_spec g hwf hnn
  rw [hc]
  simp only
  obtain ⟨g', h1, h2⟩ := processPaths_frame
    (g.withStats { g.Metadata.Stats with ConnectedComponents := comps }) heap hwf
    (StoredSources_grows g _ heap heap (withStats_grows _ _) (fun _ => rfl) hsrc)
  exact ⟨g', h1, StoreGrows_trans _ _ _ (withStats_grows _ _) h2⟩

/-- C33. For every store whose routable structure satisfies the representation
invariant, has no negative id, and stores every edge under the id of its
source object (every graph `NewGraph` returns is one): `Process` returns, and
afterwards the routable structure (nodes, edges, weights), the name and id
tables, the node list and the totals are what they were; the edge list and
every side-table list hold the same edges in the same order, with attribute
lists that have the former lists as leading part; every node object keeps its
fields up to an attribute list that has the former list as leading part. The
results themselves are written to `Metadata.Stats`. -/
theorem Process_frame (g : MystGraph) (heap : Heap) (hwf : g.Graph.WF)
    (hnn : ∀ id ∈ g.Graph.nodes, 0 ≤ id) (hsrc : StoredSources g heap) :
    ∃ g' heap', g.Process heap = some (g', heap') ∧ StoreGrows g g' ∧
      HeapGrows heap heap' := by
  obtain ⟨hstore, hheap⟩ := processNodes_frame g heap
  unfold MystGraph.Process
  have hG : (g.processNodes heap).1.Graph = g.Graph := hstore.1
  obtain ⟨g', h1, h2⟩ := processComponents_frame (g.processNodes heap).1
    (g.processNodes heap).2 (by rw [hG]; exact hwf) (by rw [hG]; exact hnn)
    (StoredSources_grows g _ heap _ hstore (HeapGrows_GraphID _ _ hheap) hsrc)
  exact ⟨g', _, h1, StoreGrows_trans _ _ _ hstore h2, hheap⟩

set_option maxRecDepth 100000 in
/-- Witness of `Process_frame` on the scenario graph and the memory `NewGraph`
leaves: the hypotheses hold and `Process` returns a store and a memory that
differ from the former ones as stated. -/
theorem Process_frame_witness :
    (scenarioGraph.Graph.WF ∧ (∀ id ∈ scenarioGraph.Graph.nodes, 0 ≤ id) ∧
      StoredSources scenarioGraph (NewGraph (some scenarioMetadata) exHeap).2.2) ∧
    ∃ g' heap', scenarioGraph.Process (NewGraph (some scenarioMetadata) exHeap).2.2 =
        some (g', heap') ∧
      StoreGrows scenarioGraph g' ∧
      HeapGrows (NewGraph (some scenarioMetadata) exHeap).2.2 heap' := by
  have hb : (NewGraph (some scenarioMetadata) exHeap).1 = some scenarioGraph := by decide
  have hsrc : StoredSources scenarioGraph (NewGraph (some scenarioMetadata) exHeap).2.2 :=
    fun s t e he => (NewGraph_stored_ends scenarioMetadata exHeap scenarioGraph hb s t e he).1
  exact ⟨⟨by decide, by decide, hsrc⟩,
    Process_frame scenarioGraph (NewGraph (some scenarioMetadata) exHeap).2.2
      (by decide) (by decide) hsrc⟩

/-- C6. For an edge whose attribute list repeats no attribute, added to a store
whose side-table edges of the same pair repeat none either: `AddEdge` leaves
the side table unchanged if and only if the list of the pair already holds an
edge with the same transitivity id and the same set of attributes; otherwise
the list of the pair grows by exactly the new edge, placed last, and no other
list changes. The duplicate test answers `false` in both argument orders for
two attribute lists whose sets differ. -/
theorem AddEdge_side_table_iff_same_set (g : MystGraph) (heap : Heap) (e : Edge)
    (w : Weight) (hnd : e.Attributes.Nodup)
    (hst : ∀ x ∈ (g.sideTable (heap e.Source).GraphID (heap e.Target).GraphID).getD [],
      x.Attributes.Nodup) :
    ((∀ s' t', (g.AddEdge heap e w).sideTable s' t' = g.sideTable s' t') ↔
      ∃ x ∈ (g.sideTable (heap e.Source).GraphID (heap e.Target).GraphID).getD [],
        x.TransitivityID = e.TransitivityID ∧ ∀ a, a ∈ x.Attributes ↔ a ∈ e.Attributes) ∧
    ((¬ ∃ x ∈ (g.sideTable (heap e.Source).GraphID (heap e.Target).GraphID).getD [],
        x.TransitivityID = e.TransitivityID ∧ ∀ a, a ∈ x.Attributes ↔ a ∈ e.Attributes) →
      (g.AddEdge heap e w).sideTable (heap e.Source).GraphID (heap e.Target).GraphID =
        some ((g.sideTable (heap e.Source).GraphID (heap e.Target).GraphID).getD [] ++ [e]) ∧
      ∀ s' t', ¬ ((heap e.Source).GraphID = s' ∧ (heap e.Target).GraphID = t') →
        (g.AddEdge heap e w).sideTable s' t' = g.sideTable s' t') ∧
    (∀ x ∈ (g.sideTable (heap e.Source).GraphID (heap e.Target).GraphID).getD [],
      (¬ ∀ a, a ∈ x.Attributes ↔ a ∈ e.Attributes) →
        areAttributesEqual x.Attributes e.Attributes = false ∧
        areAttributesEqual e.Attributes x.Attributes = false) := by
  obtain ⟨hdup, hnew⟩ := AddEdge_side_table_of_nodup g heap e w hnd hst
  refine ⟨⟨fun hsame => ?_, hdup⟩, hnew, ?_⟩
  · by_contra hno
    have h1 := (hnew hno).1
    rw [hsame] at h1
    cases hl : g.sideTable (heap e.Source).GraphID (heap e.Target).GraphID with
    | none => rw [hl] at h1; exact Option.noConfusion h1
    | some l =>
      rw [hl] at h1
      simp only [Option.getD_some, Option.some.injEq] at h1
      have := congrArg List.length h1
      simp at this
  · intro x hx hdiff
    constructor
    · cases hc : areAttributesEqual x.Attributes e.Attributes with
      | false => rfl
      | true =>
        exact absurd (fun a => ((areAttributesEqual_iff_perm _ _ hnd).mp hc).mem_iff) hdiff
    · cases hc : areAttributesEqual e.Attributes x.Attributes with
      | false => rfl
      | true =>
        exact absurd
          (fun a => ((areAttributesEqual_iff_perm _ _ (hst x hx)).mp hc).mem_iff.symm) hdiff


/-- C3. For node lists without a repeated name and input edges whose attribute
lists repeat no attribute, `NewGraph` returns a graph in which, for every
ordered pair `(s, t)`, the routable structure has an edge `s -> t` if and only
if the side table holds for `(s, t)` an edge that does not carry `Disabled`;
inserting an input edge that carries `Disabled` leaves the routable structure
of any store unchanged, and every such edge is in the result of `GetAllEdges`
for its pair, which reports success. -/
theorem NewGraph_routable_iff_side_table (md : Metadata) (heap : Heap)
    (hnames : (md.Nodes.map (fun r => (heap r).Name)).Nodup)
    (hattrs : ∀ e ∈ md.Edges, e.Attributes.Nodup) :
    ∃ g heap', NewGraph (some md) heap = (some g, none, heap') ∧
      (∀ s t, g.Graph.HasEdgeFromTo s t = true ↔
        ∃ x ∈ (g.sideTable s t).getD [], x.IsOfType Disabled = false) ∧
      (∀ e ∈ md.Edges, e.IsOfType Disabled = true →
        (∀ g0 : MystGraph, (g0.addEdgeWithAttributes heap' e).Graph = g0.Graph) ∧
        e ∈ (g.GetAllEdges heap' (heap' e.Source).GraphID (heap' e.Target).GraphID).1 ∧
        (g.GetAllEdges heap' (heap' e.Source).GraphID (heap' e.Target).GraphID).2 = true) := by
  obtain ⟨g, heap', hg, hdis, _, hiff⟩ := NewGraph_side_table_consistency md heap hnames
  exact ⟨g, heap', hg, hiff hattrs, hdis⟩

set_option maxRecDepth 100000 in
/-- Witness of `NewGraph_routable_iff_side_table` on the nodes A, B with a
disabled edge A -> B and an ordinary edge B -> A. -/
theorem NewGraph_routable_iff_side_table_witness :
    ((mkMetadata [0, 1] [⟨[Disabled, IntraAge], 0, 1, 0⟩, ⟨[IntraAge], 1, 0, 0⟩]).Nodes.map
      (fun r => (exHeap r).Name)).Nodup ∧
    (∀ e ∈ (mkMetadata [0, 1]
        [⟨[Disabled, IntraAge], 0, 1, 0⟩, ⟨[IntraAge], 1, 0, 0⟩]).Edges, e.Attributes.Nodup) ∧
    ((NewGraph (some (mkMetadata [0, 1]
        [⟨[Disabled, IntraAge], 0, 1, 0⟩, ⟨[IntraAge], 1, 0, 0⟩])) exHeap).1.map
      (fun g => (g.Graph.HasEdgeFromTo 0 1, g.Graph.HasEdgeFromTo 1 0,
        g.sideTable 0 1, g.sideTable 1 0))) =
      some (false, true, some [⟨[Disabled, IntraAge], 0, 1, 0⟩],
        some [⟨[IntraAge], 1, 0, 0⟩]) ∧
    ∃ g heap', NewGraph (some (mkMetadata [0, 1]
        [⟨[Disabled, IntraAge], 0, 1, 0⟩, ⟨[IntraAge], 1, 0, 0⟩])) exHeap =
        (some g, none, heap') ∧
      (∀ s t, g.Graph.HasEdgeFromTo s t = true ↔
        ∃ x ∈ (g.sideTable s t).getD [], x.IsOfType Disabled = false) ∧
      (∀ e ∈ (mkMetadata [0, 1]
          [⟨[Disabled, IntraAge], 0, 1, 0⟩, ⟨[IntraAge], 1, 0, 0⟩]).Edges,
        e.IsOfType Disabled = true →
        (∀ g0 : MystGraph, (g0.addEdgeWithAttributes heap' e).Graph = g0.Graph) ∧
        e ∈ (g.GetAllEdges heap' (heap' e.Source).GraphID (heap' e.Target).GraphID).1 ∧
        (g.GetAllEdges heap' (heap' e.Source).GraphID (heap' e.Target).GraphID).2 = true) :=
  ⟨by decide, by decide, by decide,
    NewGraph_routable_iff_side_table _ exHeap (by decide) (by decide)⟩

set_option maxRecDepth 100000 in
/-- Witness of `AddEdge_side_table_iff_same_set`: the side table holds A -> B
with `[IntraAge]`, and the edge A -> B with `[CrossAge]` is added. -/
theorem AddEdge_side_table_iff_same_set_witness :
    (⟨[CrossAge], 0, 1, 0⟩ : Edge).Attributes.Nodup ∧
    (∀ x ∈ ((storeOf [⟨[IntraAge], 0, 1, 0⟩]).1.sideTable
        (((storeOf [⟨[IntraAge], 0, 1, 0⟩]).2 (⟨[CrossAge], 0, 1, 0⟩ : Edge).Source).GraphID)
        (((storeOf [⟨[IntraAge], 0, 1, 0⟩]).2 (⟨[CrossAge], 0, 1, 0⟩ : Edge).Target).GraphID)).getD [],
      x.Attributes.Nodup) ∧
    (((storeOf [⟨[IntraAge], 0, 1, 0⟩]).1.AddEdge (storeOf [⟨[IntraAge], 0, 1, 0⟩]).2
        ⟨[CrossAge], 0, 1, 0⟩ (Weight.fin 1)).sideTable 0 1 =
      some [⟨[IntraAge], 0, 1, 0⟩, ⟨[CrossAge], 0, 1, 0⟩]) ∧
    (((storeOf [⟨[IntraAge], 0, 1, 0⟩]).1.AddEdge (storeOf [⟨[IntraAge], 0, 1, 0⟩]).2
        ⟨[IntraAge], 0, 1, 0⟩ (Weight.fin 1)).sideTable 0 1 =
      some [⟨[IntraAge], 0, 1, 0⟩]) ∧
    ((∀ s' t', ((storeOf [⟨[IntraAge], 0, 1, 0⟩]).1.AddEdge
          (storeOf [⟨[IntraAge], 0, 1, 0⟩]).2 ⟨[CrossAge], 0, 1, 0⟩
          (Weight.fin 1)).sideTable s' t' =
        (storeOf [⟨[IntraAge], 0, 1, 0⟩]).1.sideTable s' t') ↔
      ∃ x ∈ ((storeOf [⟨[IntraAge], 0, 1, 0⟩]).1.sideTable
          (((storeOf [⟨[IntraAge], 0, 1, 0⟩]).2 (⟨[CrossAge], 0, 1, 0⟩ : Edge).Source).GraphID)
          (((storeOf [⟨[IntraAge], 0, 1, 0⟩]).2
            (⟨[CrossAge], 0, 1, 0⟩ : Edge).Target).GraphID)).getD [],
        x.TransitivityID = (⟨[CrossAge], 0, 1, 0⟩ : Edge).TransitivityID ∧
          ∀ a, a ∈ x.Attributes ↔ a ∈ (⟨[CrossAge], 0, 1, 0⟩ : Edge).Attributes) :=
  ⟨by decide, by decide, by decide, by decide,
    (AddEdge_side_table_iff_same_set (storeOf [⟨[IntraAge], 0, 1, 0⟩]).1
      (storeOf [⟨[IntraAge], 0, 1, 0⟩]).2 ⟨[CrossAge], 0, 1, 0⟩ (Weight.fin 1)
      (by decide) (by decide)).1⟩

set_option maxRecDepth 100000 in
/-- C17 (failing input). In the store built from `backtrackOnlyMetadata` the
routable structure has the single line 0 -> 1, stored with weight `+Inf`, and
no line 1 -> 0, and the table of `ComputeAllShortestPaths` has no entry for
(0, 1) or (1, 0): no ordered pair of different nodes has a finite shortest-path
distance. `FindMostSeparatedNodes` returns the pair (0, 1) with distance 1, not
the empty record. -/
theorem most_separated_without_finite_distance :
    (NewGraph (some backtrackOnlyMetadata) exHeap).1 = some backtrackOnlyGraph ∧
    backtrackOnlyGraph.Graph.lines = [⟨0, 1, Weight.inf, 0⟩] ∧
    backtrackOnlyGraph.Graph.Edge 0 1 = some Weight.inf ∧
    backtrackOnlyGraph.Graph.Edge 1 0 = none ∧
    (backtrackOnlyGraph.ComputeAllShortestPaths
        (NewGraph (some backtrackOnlyMetadata) exHeap).2.2).map
      (fun table => (tableEntry table 0 1, tableEntry table 1 0)) = some (none, none) ∧
    backtrackOnlyGraph.FindMostSeparatedNodes =
      some { Source := ⟨0, "A"⟩, Target := ⟨1, "B"⟩, Distance := Weight.fin 1,
             Path := [0, 1] } ∧
    backtrackOnlyGraph.FindMostSeparatedNodes ≠ some NodePairInfo.zero := by
  refine ⟨by decide, by decide, by decide, by decide, by decide, by decide, by decide⟩

set_option maxRecDepth 100000 in
/-- C29 (as stated, refuted). In `unlistedMetadata` the input edge A -> X has a
target object X that is not in the node list: `NewGraph` returns a graph and a
nil error, the name "X" is not a key of the node map, and `HasEdge` answers
`false` for the names of the end points of this input edge. -/
theorem HasEdge_misses_edge_to_unlisted_node :
    (⟨[], 0, 3, 0⟩ : Edge) ∈ unlistedMetadata.Edges ∧
    (NewGraph (some unlistedMetadata) exHeap).2.1 = none ∧
    ((NewGraph (some unlistedMetadata) exHeap).2.2 0).Name = "A" ∧
    ((NewGraph (some unlistedMetadata) exHeap).2.2 3).Name = "X" ∧
    ((NewGraph (some unlistedMetadata) exHeap).1.map
      (fun g => (g.NodeMap.get "X", g.HasEdge "A" "X"))) = some (none, false) := by
  refine ⟨by decide, by decide, by decide, by decide, by decide⟩

set_option maxRecDepth 100000 in
/-- C37 (as stated, refuted). In `unlistedMetadata` over `strayHeap` the node
list has two nodes and the edge A -> X ends at an unlisted object whose id
field holds 7: `NewGraph` returns a graph and a nil error, the routable
structure has the nodes 0, 1 and 7, and `Metadata.TotalNodes` is 3. -/
theorem TotalNodes_counts_unlisted_end_point :
    unlistedMetadata.Nodes.length = 2 ∧
    (NewGraph (some unlistedMetadata) strayHeap).2.1 = none ∧
    ((NewGraph (some unlistedMetadata) strayHeap).1.map
      (fun g => (g.Metadata.TotalNodes, g.Graph.nodes, g.Metadata.TotalEdges))) =
      some (3, [0, 1, 7], 1) := by
  refine ⟨by decide, by decide, by decide⟩

end DeMystify
